import Mathlib

/-!
# GenEditScan: k-mer index, scanner and G-test engine

A shallow embedding of the parts of GenEditScan that the specification talks
about, followed by the properties proved about them.

Conventions of the embedding.

* `std::string` is a list of characters (`Str`); `s[i]` is `strAt s i`.
* `std::unordered_map` / `std::map` is an association list (`UMap`) read through
  `UMap.find` (first entry for the key) and written through `UMap.assign`
  (the `m[key] = v` of the source).
* `unsigned int` values that the code lets wrap (the rolling window value) are
  naturals reduced with `u32`; counters and lengths are naturals, exact as long
  as they stay below the width of their type.
* `double` values that are always finite (totals, p-values, corrected values)
  are elements of a linearly ordered field `F` with exact arithmetic; a G-value
  and the intermediate values of its computation are a `Dbl F`, which adds the
  IEEE infinities and NaN. The logarithm of the positive values and `chdtrc`
  are parameters.
* A loop over a map visits the entries in the order of the list. A read past
  the end of an empty vector and a call of `exit` or a thrown exception end the
  run: the function returns `none`.
-/

namespace GenEditScan

/-- A `std::string`. -/
abbrev Str := List Char

/-- The character `s[i]` of a `std::string` (`'\0'` at the end of the string). -/
def strAt (s : Str) (i : Nat) : Char := s.getD i (Char.ofNat 0)

/-- The substring `s.substr(pos, len)`. -/
def substr (s : Str) (pos len : Nat) : Str := (s.drop pos).take len

/-! ## Association lists standing for the maps of the source -/

/-- A map of the source, as a list of (key, value) entries. -/
abbrev UMap (κ : Type) (ν : Type) := List (κ × ν)

namespace UMap

variable {κ ν : Type} [DecidableEq κ]

/-- The value stored under `key` (`m.find(key)`), if any. -/
def find : UMap κ ν → κ → Option ν
  | [], _ => none
  | (k, v) :: rest, key => if k = key then some v else find rest key

/-- Whether `key` has an entry: `m.find(key) != m.end()`. -/
def contains (m : UMap κ ν) (key : κ) : Bool := (find m key).isSome

/-- The assignment `m[key] = v`: overwrite the entry of `key` or create it. -/
def assign : UMap κ ν → κ → ν → UMap κ ν
  | [], key, v => [(key, v)]
  | (k, w) :: rest, key, v =>
    if k = key then (k, v) :: rest else (k, w) :: assign rest key v

/-- The keys of the map, in storage order. -/
def keys (m : UMap κ ν) : List κ := m.map Prod.fst

end UMap

/-- The value `m[key]` of a counter map read with a default of 0. -/
def countOf {κ : Type} [DecidableEq κ] (m : UMap κ Nat) (key : κ) : Nat :=
  (UMap.find m key).getD 0

/-- The increment `m[key]++` of a counter map (a missing entry starts at 0). -/
def increment {κ : Type} [DecidableEq κ] (m : UMap κ Nat) (key : κ) : UMap κ Nat :=
  UMap.assign m key (countOf m key + 1)

/-! ## complementary.cpp -/

/-- The `switch` of `Complementary::mer`: A<->T, G<->C, anything else unchanged. -/
def complementBase (c : Char) : Char :=
  if c = 'A' then 'T'
  else if c = 'T' then 'A'
  else if c = 'G' then 'C'
  else if c = 'C' then 'G'
  else c

namespace Complementary

/-- `Complementary::mer`: copy, `std::reverse`, then the `switch` on every index. -/
def mer (m : Str) : Str := (m.reverse).map complementBase

end Complementary

/-! ## bitwise_operation.cpp and the derived options of main.cpp -/

/-- The 128-entry table `dna2bit` built by the constructor of `BitwiseOperation`. -/
def dna2bitTable : List Nat :=
  ((((List.replicate 128 0).set 84 0).set 67 1).set 65 2).set 71 3

/-- The lookup `dna2bit[(unsigned char)c]` (0 outside the table). -/
def dna2bit (c : Char) : Nat := dna2bitTable.getD c.toNat 0

/-- The options the scanner reads. -/
structure Options where
  /-- `kmer`. -/
  kmer : Nat
  /-- `chunk_length`. -/
  chunk_length : Nat
  /-- `max_chunk_array`. -/
  max_chunk_array : Nat

/-- The constant `MAX_CHUNKLENGTH` of options.h. -/
def MAX_CHUNKLENGTH : Nat := 16

/-- The constant `MIN_CHUNKLENGTH` of options.h. -/
def MIN_CHUNKLENGTH : Nat := 8

/-- The derived options of `main`: `chunk_length = min(kmer, MAX_CHUNKLENGTH)` and
`max_chunk_array = 2^(2 * chunk_length) - 1`. -/
def Options.ofKmer (kmer : Nat) : Options :=
  { kmer := kmer
    chunk_length := min kmer MAX_CHUNKLENGTH
    max_chunk_array := 2 ^ (2 * min kmer MAX_CHUNKLENGTH) - 1 }

/-- Reduction of a value to `unsigned int` (32 bits). -/
def u32 (x : Nat) : Nat := x % 4294967296

/-- The statement `dnabit = (dnabit << 2) + dna2bit[c]` in 32-bit unsigned arithmetic. -/
def shiftAdd (dnabit : Nat) (c : Char) : Nat := u32 (u32 (dnabit <<< 2) + dna2bit c)

/-! ## vector_sequence.cpp -/

/-- The function `::toupper` of the C locale. -/
def toupper (c : Char) : Char := c.toUpper

/-- The data `VectorSequence::set_merCounter` works on: the sequence (passed by
reference and modified in place), the count table and the position map. -/
structure VectorState where
  /-- `sequence`. -/
  sequence : Str
  /-- `merCounter`. -/
  merCounter : UMap Str Nat
  /-- `posPair`. -/
  posPair : UMap Nat (Str × Str)

/-- One iteration of the `for` loop of `set_merCounter` on the circularised,
upper-cased sequence. -/
def set_merCounter_step (kmer : Nat) (sequence : Str)
    (acc : UMap Str Nat × UMap Nat (Str × Str)) (i : Nat) :
    UMap Str Nat × UMap Nat (Str × Str) :=
  let mer := substr sequence i kmer
  let revMer := Complementary.mer mer
  let merCounter := UMap.assign acc.1 mer 0
  let merCounter := UMap.assign merCounter revMer 0
  (merCounter, UMap.assign acc.2 i (mer, revMer))

/-- `VectorSequence::set_merCounter`. The result is `Except.ok` with the new
state, or `Except.error` (the `std::exit(1)` branch) carrying the state at the
point of exit. `kmer - 1` does not wrap: `main` enforces
`kmer >= MIN_CHUNKLENGTH`. -/
def set_merCounter (kmer : Nat) (st : VectorState) : Except VectorState VectorState :=
  let vector_length := st.sequence.length
  if vector_length ≥ kmer then
    let sequence := st.sequence ++ substr st.sequence 0 (kmer - 1)
    let sequence := sequence.map toupper
    let tables := (List.range vector_length).foldl
      (set_merCounter_step kmer sequence) (st.merCounter, st.posPair)
    Except.ok { sequence := sequence, merCounter := tables.1, posPair := tables.2 }
  else
    Except.error st

/-- The value `dnabit` that `create_chunk` computes for one key: the first
`chunk_length` characters packed two bits each, in 32-bit unsigned arithmetic. -/
def keyChunk (o : Options) (key : Str) : Nat :=
  (List.range' 1 (o.chunk_length - 1)).foldl
    (fun dnabit i => shiftAdd dnabit (strAt key i)) (dna2bit (strAt key 0))

/-- `VectorSequence::create_chunk`. The chunk array is the memory it lives in, a
function from index to byte: `chunk` is its content before the call. The first
loop zeroes the indices below `max_chunk_array`, the second sets the entry of
every key whose value is not `max_chunk_array`. -/
def create_chunk (o : Options) (merCounter : UMap Str Nat) (chunk : Nat → Nat) :
    Nat → Nat :=
  let zeroed : Nat → Nat := fun i => if i < o.max_chunk_array then 0 else chunk i
  merCounter.foldl
    (fun ch entry =>
      let dnabit := keyChunk o entry.1
      if dnabit ≠ o.max_chunk_array then Function.update ch dnabit 1 else ch)
    zeroed

/-! ## fastq_match.cpp -/

/-- The variables `count_match` updates. -/
structure MatchState where
  /-- `merLocalCounter`. -/
  merLocalCounter : UMap Str Nat
  /-- `merTotalCounter`. -/
  merTotalCounter : Nat
  /-- `readCounter`. -/
  readCounter : Nat

/-- The pre-roll of `count_match`: `dnabit` after the first loop over a read
(indices `0 .. chunk_length - 2`). -/
def preroll (o : Options) (read : Str) : Nat :=
  (List.range' 1 (o.chunk_length - 1 - 1)).foldl
    (fun dnabit j => shiftAdd dnabit (strAt read j)) (dna2bit (strAt read 0))

/-- The first two statements of the window loop: roll in the next base and mask. -/
def roll (o : Options) (read : Str) (dnabit j : Nat) : Nat :=
  shiftAdd dnabit (strAt read (o.chunk_length - 1 + j)) &&& o.max_chunk_array

/-- The test `chunk[dnabit] == 1 || dnabit == mask` of the window loop. -/
def prefilter (o : Options) (chunk : Nat → Nat) (dnabit : Nat) : Bool :=
  chunk dnabit == 1 || dnabit == o.max_chunk_array

/-- One iteration `j` of the window loop of `count_match`: the state is the
rolling value `dnabit` together with the counters. -/
def count_match_window (o : Options) (chunk : Nat → Nat) (merCounter : UMap Str Nat)
    (read : Str) (s : Nat × MatchState) (j : Nat) : Nat × MatchState :=
  let dnabit := roll o read s.1 j
  let st := s.2
  let st :=
    if prefilter o chunk dnabit then
      let mer := substr read j o.kmer
      if UMap.contains merCounter mer then
        { st with merLocalCounter := increment st.merLocalCounter mer }
      else st
    else st
  (dnabit, { st with merTotalCounter := st.merTotalCounter + 1 })

/-- The body of the outer loop of `count_match` for one read: bump the read
counter, pre-roll, then the windows `j = 0 .. length - kmer`. Reads reach
`count_match` only with `length >= kmer` (the gate of `read_fastqFile`), so
`length - kmer` does not wrap. -/
def count_match_read (o : Options) (chunk : Nat → Nat) (merCounter : UMap Str Nat)
    (st : MatchState) (read : Str) : MatchState :=
  let st := { st with readCounter := st.readCounter + 1 }
  ((List.range (read.length - o.kmer + 1)).foldl
    (count_match_window o chunk merCounter read) (preroll o read, st)).2

/-- `FastqMatch::count_match` over the batch `fastqData` (the reads in index
order; the progress message is not modelled). -/
def count_match (o : Options) (chunk : Nat → Nat) (fastqData : List Str)
    (merCounter : UMap Str Nat) (st : MatchState) : MatchState :=
  fastqData.foldl (count_match_read o chunk merCounter) st

/-- The rolling value `dnabit` tested at iteration `j` of the window loop. -/
def windowValue (o : Options) (read : Str) : Nat → Nat
  | 0 => roll o read (preroll o read) 0
  | j + 1 => roll o read (windowValue o read j) (j + 1)

/-! ## Reference definitions following the specification -/

/-- The packed two-bit encoding of a string: base 4, first character most
significant. -/
def packed (s : Str) : Nat := s.foldl (fun acc c => acc * 4 + dna2bit c) 0

/-- The number of windows `j` in `0 .. n - k` of one read with
`read[j..j+k] = key`. -/
def naiveCountRead (k : Nat) (key : Str) (read : Str) : Nat :=
  ((List.range (read.length - k + 1)).filter (fun j => substr read j k = key)).length

/-- The number of pairs (read, j) of a batch with `read[j..j+k] = key`. -/
def naiveCount (k : Nat) (key : Str) (fastqData : List Str) : Nat :=
  (fastqData.map (naiveCountRead k key)).sum

/-! ## kmer_match.cpp -/

/-- Insertion of one entry into a `std::map` keyed by position: the entries stay
in ascending key order and an entry whose key is present is not inserted. -/
def stdMapInsert {ν : Type} (e : Nat × ν) : UMap Nat ν → UMap Nat ν
  | [] => [e]
  | b :: rest =>
    if e.1 < b.1 then e :: b :: rest
    else if e.1 = b.1 then b :: rest
    else b :: stdMapInsert e rest

/-- The `std::map` that `control_freqFile` builds from the unordered position map
(range constructor). -/
def toStdMap {ν : Type} (m : UMap Nat ν) : UMap Nat ν :=
  m.foldl (fun acc e => stdMapInsert e acc) []

/-- `KmerMatch::set_posFreq`: walk the ordered position map and push
`merCounter.at(mer) + merCounter.at(revMer)`; `none` is the exception thrown by
`at` on a missing key. -/
def set_posFreq (merCounter : UMap Str Nat) (vectorPosPair : UMap Nat (Str × Str)) :
    Option (List Nat) :=
  vectorPosPair.foldl
    (fun acc entry =>
      match acc, UMap.find merCounter entry.2.1, UMap.find merCounter entry.2.2 with
      | some posBothFreq, some a, some b => some (posBothFreq ++ [a + b])
      | _, _, _ => none)
    (some [])

/-! ## `double` values -/

/-- A `double`: a finite value, or one of the IEEE special values (infinities and
NaN). Arithmetic on finite values is exact. Zeros are not signed: a zero divisor
counts as +0. -/
inductive Dbl (F : Type) where
  /-- A finite value. -/
  | fin (x : F)
  /-- Positive infinity. -/
  | pinf
  /-- Negative infinity. -/
  | ninf
  /-- Not a number. -/
  | nan

namespace Dbl

variable {F : Type} [LinearOrderedField F]

/-- The finite value of a `double` (0 for the special values). -/
def value : Dbl F → F
  | fin x => x
  | _ => 0

/-- Unary minus. -/
def neg : Dbl F → Dbl F
  | fin x => fin (-x)
  | pinf => ninf
  | ninf => pinf
  | nan => nan

/-- The sum `a + b`. -/
def add : Dbl F → Dbl F → Dbl F
  | fin x, fin y => fin (x + y)
  | fin _, pinf => pinf
  | fin _, ninf => ninf
  | pinf, fin _ => pinf
  | ninf, fin _ => ninf
  | pinf, pinf => pinf
  | ninf, ninf => ninf
  | pinf, ninf => nan
  | ninf, pinf => nan
  | nan, _ => nan
  | _, nan => nan

/-- The difference `a - b`. -/
def sub (a b : Dbl F) : Dbl F := add a (neg b)

/-- An infinity times a finite factor `x`: the sign follows `x`, and
`inf * 0` is NaN. -/
def scaleInf (positive : Bool) (x : F) : Dbl F :=
  if 0 < x then (if positive then pinf else ninf)
  else if x < 0 then (if positive then ninf else pinf)
  else nan

/-- The product `a * b`. -/
def mul : Dbl F → Dbl F → Dbl F
  | fin x, fin y => fin (x * y)
  | fin x, pinf => scaleInf true x
  | fin x, ninf => scaleInf false x
  | pinf, fin y => scaleInf true y
  | ninf, fin y => scaleInf false y
  | pinf, pinf => pinf
  | ninf, ninf => pinf
  | pinf, ninf => ninf
  | ninf, pinf => ninf
  | nan, _ => nan
  | _, nan => nan

/-- The quotient `a / b`. -/
def div : Dbl F → Dbl F → Dbl F
  | fin x, fin y =>
    if y = 0 then (if 0 < x then pinf else if x < 0 then ninf else nan)
    else fin (x / y)
  | fin _, pinf => fin 0
  | fin _, ninf => fin 0
  | pinf, fin y => if y < 0 then ninf else pinf
  | ninf, fin y => if y < 0 then pinf else ninf
  | pinf, pinf => nan
  | pinf, ninf => nan
  | ninf, pinf => nan
  | ninf, ninf => nan
  | nan, _ => nan
  | _, nan => nan

/-- The library function `log`, given the logarithm `ln` of the positive finite
values: `log(0)` is negative infinity and the logarithm of a negative value is
NaN. -/
def log (ln : F → F) : Dbl F → Dbl F
  | fin x => if 0 < x then fin (ln x) else if x = 0 then ninf else nan
  | pinf => pinf
  | ninf => nan
  | nan => nan

/-- The comparison `a < b` (false when either side is NaN). -/
def lt : Dbl F → Dbl F → Bool
  | fin x, fin y => decide (x < y)
  | fin _, pinf => true
  | ninf, fin _ => true
  | ninf, pinf => true
  | _, _ => false

/-- The comparison `a <= b` (false when either side is NaN). -/
def le : Dbl F → Dbl F → Bool
  | fin x, fin y => decide (x ≤ y)
  | fin _, pinf => true
  | ninf, fin _ => true
  | ninf, pinf => true
  | pinf, pinf => true
  | ninf, ninf => true
  | _, _ => false

/-- The comparison `a == b` (false when either side is NaN). -/
def eqv : Dbl F → Dbl F → Bool
  | fin x, fin y => decide (x = y)
  | pinf, pinf => true
  | ninf, ninf => true
  | _, _ => false

/-- Whether the value is finite. -/
def isFinite : Dbl F → Bool
  | fin _ => true
  | _ => false

instance : Add (Dbl F) := ⟨add⟩
instance : Sub (Dbl F) := ⟨sub⟩
instance : Mul (Dbl F) := ⟨mul⟩
instance : Div (Dbl F) := ⟨div⟩
instance : Zero (Dbl F) := ⟨fin 0⟩

end Dbl

/-! ## gtest.cpp -/

/-- The members of `Gtest`. The totals, the p-values and the two corrected values
are finite; a G-value can be any `double`. -/
structure Gtest (F : Type) where
  /-- `mutant_mer_total`. -/
  mutant_mer_total : F
  /-- `wildType_mer_total`. -/
  wildType_mer_total : F
  /-- `gval`. -/
  gval : UMap Nat (Dbl F)
  /-- `pval`. -/
  pval : UMap Nat F
  /-- `fdr`. -/
  fdr : UMap Nat F
  /-- `bon`. -/
  bon : UMap Nat F

/-- The read `m[key]` of a `std::map`: the stored value, or a value-initialised
entry (0.0) that the read inserts. -/
def stockAt {κ F : Type} [DecidableEq κ] [Zero F] (m : UMap κ F) (key : κ) : F × UMap κ F :=
  match UMap.find m key with
  | some v => (v, m)
  | none => (0, UMap.assign m key 0)

section GtestDefs

variable {F : Type} [LinearOrderedField F]

/-- `Gtest::adjusted_g`. The parameter `ln` is the logarithm of the positive
finite values, from which the library function `log` is `Dbl.log ln`. -/
def Gtest.adjusted_g (ln : F → F) (g : Gtest F)
    (mutant_total_log wildType_total_log total q3 qcomm mutant_match wildType_match : Dbl F) :
    Dbl F :=
  let mutant_match_log := Dbl.log ln mutant_match * mutant_match
  let wildType_match_log := Dbl.log ln wildType_match * wildType_match
  let mutant_notmatch := Dbl.fin g.mutant_mer_total - mutant_match
  let mutant_notmatch_log := Dbl.log ln mutant_notmatch * mutant_notmatch
  let wildType_notmatch := Dbl.fin g.wildType_mer_total - wildType_match
  let wildType_notmatch_log := Dbl.log ln wildType_notmatch * wildType_notmatch
  let match_ := mutant_match + wildType_match
  let match_log := Dbl.log ln match_ * match_
  let notmatch := mutant_notmatch + wildType_notmatch
  let notmatch_log := Dbl.log ln notmatch * notmatch
  let q1 :=
    if Dbl.eqv mutant_match (Dbl.fin 0) && Dbl.eqv wildType_match (Dbl.fin 0) then
      mutant_notmatch_log + wildType_notmatch_log
    else if Dbl.eqv wildType_match (Dbl.fin 0) then
      mutant_match_log + mutant_notmatch_log + wildType_notmatch_log
    else if Dbl.eqv mutant_match (Dbl.fin 0) then
      mutant_notmatch_log + wildType_match_log + wildType_notmatch_log
    else
      mutant_match_log + mutant_notmatch_log + wildType_match_log + wildType_notmatch_log
  let q2 :=
    if Dbl.eqv match_ (Dbl.fin 0) then mutant_total_log + wildType_total_log + notmatch_log
    else mutant_total_log + wildType_total_log + match_log + notmatch_log
  let gv := Dbl.fin 2 * (q1 - q2 + q3)
  let q :=
    if Dbl.eqv match_ (Dbl.fin 0) then Dbl.fin 1 + (total / notmatch - Dbl.fin 1) * qcomm
    else Dbl.fin 1 + (total / match_ + total / notmatch - Dbl.fin 1) * qcomm
  gv / q

/-- The constants computed at the head of `kmer_match` and of `kmer_extension`. -/
structure GtestConsts (F : Type) where
  /-- `mutant_mer_total_log`. -/
  mutant_mer_total_log : Dbl F
  /-- `wildType_mer_total_log`. -/
  wildType_mer_total_log : Dbl F
  /-- `mer_total`. -/
  mer_total : Dbl F
  /-- `mer_q3`. -/
  mer_q3 : Dbl F
  /-- `mer_qcomm`. -/
  mer_qcomm : Dbl F

/-- The five `const double` definitions at the head of `kmer_match` and of
`kmer_extension`. -/
def Gtest.consts (ln : F → F) (g : Gtest F) : GtestConsts F :=
  let mutant_mer_total_log := Dbl.log ln (Dbl.fin g.mutant_mer_total) * Dbl.fin g.mutant_mer_total
  let wildType_mer_total_log :=
    Dbl.log ln (Dbl.fin g.wildType_mer_total) * Dbl.fin g.wildType_mer_total
  let mer_total := Dbl.fin g.mutant_mer_total + Dbl.fin g.wildType_mer_total
  let mer_q3 := Dbl.log ln mer_total * mer_total
  let mer_qcomm :=
    (mer_total / Dbl.fin g.mutant_mer_total + mer_total / Dbl.fin g.wildType_mer_total
      - Dbl.fin 1) / (Dbl.fin 6 * mer_total)
  { mutant_mer_total_log := mutant_mer_total_log
    wildType_mer_total_log := wildType_mer_total_log
    mer_total := mer_total
    mer_q3 := mer_q3
    mer_qcomm := mer_qcomm }

/-- The conditional expression
`gval > 0.0 ? (gval < 170.0 ? chdtrc(1.0, gval) : 0.0) : 1.0` of `kmer_match` and
`kmer_extension`. The library function `chdtrc` is a parameter; it is called
with a finite second argument only. -/
def pvalueOf (chdtrc : F → F → F) (gval : Dbl F) : F :=
  if Dbl.lt (Dbl.fin 0) gval then
    (if Dbl.lt gval (Dbl.fin 170) then chdtrc 1 gval.value else 0)
  else 1

/-- The `else` branch of the loop body of `kmer_match` (no cached result for the
pair): the values written to `gval[i]`, `pval[i]` and `bon[i]`. -/
def Gtest.kmer_match_compute (ln : F → F) (chdtrc : F → F → F) (g : Gtest F)
    (vector_len : Nat) (target : Nat × Nat) : Dbl F × F × F :=
  let c := g.consts ln
  let mutant_mer_match : F := (target.1 : F)
  let wildType_mer_match : F := (target.2 : F)
  if mutant_mer_match * g.wildType_mer_total > wildType_mer_match * g.mutant_mer_total then
    let gval := g.adjusted_g ln c.mutant_mer_total_log c.wildType_mer_total_log c.mer_total
      c.mer_q3 c.mer_qcomm (Dbl.fin mutant_mer_match) (Dbl.fin wildType_mer_match)
    let pval := pvalueOf chdtrc gval
    let bon := min (pval * (vector_len : F)) 1
    (gval, pval, bon)
  else
    (Dbl.fin 0, 1, 1)

/-- The variables of the loop of `kmer_match`: the three result maps and the three
caches. -/
structure MatchLoop (F : Type) where
  /-- `this->gval`. -/
  gval : UMap Nat (Dbl F)
  /-- `this->pval`. -/
  pval : UMap Nat F
  /-- `this->bon`. -/
  bon : UMap Nat F
  /-- `gval_stock`. -/
  gval_stock : UMap (Nat × Nat) (Dbl F)
  /-- `pval_stock`. -/
  pval_stock : UMap (Nat × Nat) F
  /-- `bon_stock`. -/
  bon_stock : UMap (Nat × Nat) F

/-- One iteration `i` of the loop of `kmer_match`. -/
def Gtest.kmer_match_step (ln : F → F) (chdtrc : F → F → F) (g : Gtest F)
    (mutantPosFreq wildTypePosFreq : List Nat) (s : MatchLoop F) (i : Nat) : MatchLoop F :=
  let target := (mutantPosFreq.getD i 0, wildTypePosFreq.getD i 0)
  if UMap.contains s.gval_stock target then
    let gv := stockAt s.gval_stock target
    let pv := stockAt s.pval_stock target
    let bv := stockAt s.bon_stock target
    { gval := UMap.assign s.gval i gv.1
      pval := UMap.assign s.pval i pv.1
      bon := UMap.assign s.bon i bv.1
      gval_stock := gv.2
      pval_stock := pv.2
      bon_stock := bv.2 }
  else
    let r := g.kmer_match_compute ln chdtrc mutantPosFreq.length target
    { gval := UMap.assign s.gval i r.1
      pval := UMap.assign s.pval i r.2.1
      bon := UMap.assign s.bon i r.2.2
      gval_stock := UMap.assign s.gval_stock target r.1
      pval_stock := UMap.assign s.pval_stock target r.2.1
      bon_stock := UMap.assign s.bon_stock target r.2.2 }

/-- The order of `std::sort` on `std::pair<double, unsigned int>`. -/
def pairLE (a b : F × Nat) : Prop := a.1 < b.1 ∨ (a.1 = b.1 ∧ a.2 ≤ b.2)

instance pairLE_decidable : DecidableRel (pairLE : F × Nat → F × Nat → Prop) :=
  fun a b => by unfold pairLE; infer_instance

/-- The variables of the walk of `fdr_match`. -/
structure FdrWalk (F : Type) where
  /-- `this->fdr`. -/
  fdr : UMap Nat F
  /-- `vector_pos`. -/
  vector_pos : F
  /-- `pval_prev`. -/
  pval_prev : F
  /-- `fdr_prev`. -/
  fdr_prev : F

/-- One iteration of the walk of `fdr_match` over the sorted vector. -/
def fdr_match_step (vector_len : F) (s : FdrWalk F) (itr : F × Nat) : FdrWalk F :=
  if itr.1 = s.pval_prev then
    { s with fdr := UMap.assign s.fdr itr.2 s.fdr_prev, vector_pos := s.vector_pos + 1 }
  else
    let value := min (itr.1 * vector_len / s.vector_pos) 1
    { fdr := UMap.assign s.fdr itr.2 value
      vector_pos := s.vector_pos + 1
      pval_prev := itr.1
      fdr_prev := value }

/-- `Gtest::fdr_match`. `none` stands for the read of `v[0]` when `pval` is empty. -/
def Gtest.fdr_match (g : Gtest F) : Option (Gtest F) :=
  let v := List.insertionSort pairLE (g.pval.map (fun e => (e.2, e.1)))
  match v with
  | [] => none
  | first :: _ =>
    let vector_len : F := (v.length : F)
    let pval_prev := first.1
    let fdr_prev := min (pval_prev * vector_len) 1
    let s := v.foldl (fdr_match_step vector_len)
      { fdr := g.fdr, vector_pos := 1, pval_prev := pval_prev, fdr_prev := fdr_prev }
    some { g with fdr := s.fdr }

/-- `Gtest::kmer_match`. -/
def Gtest.kmer_match (ln : F → F) (chdtrc : F → F → F) (g : Gtest F)
    (mutantPosFreq wildTypePosFreq : List Nat) : Option (Gtest F) :=
  let s := (List.range mutantPosFreq.length).foldl
    (g.kmer_match_step ln chdtrc mutantPosFreq wildTypePosFreq)
    { gval := g.gval, pval := g.pval, bon := g.bon,
      gval_stock := [], pval_stock := [], bon_stock := [] }
  Gtest.fdr_match { g with gval := s.gval, pval := s.pval, bon := s.bon }

/-- `Gtest::kmer_extension`: the pair (G, p). -/
def Gtest.kmer_extension (ln : F → F) (chdtrc : F → F → F) (g : Gtest F)
    (mutant_count wildType_count : Nat) : Dbl F × F :=
  let c := g.consts ln
  let mutant_mer_match : F := (mutant_count : F)
  let wildType_mer_match : F := (wildType_count : F)
  if mutant_mer_match * g.wildType_mer_total ≥ wildType_mer_match * g.mutant_mer_total then
    let gv := g.adjusted_g ln c.mutant_mer_total_log c.wildType_mer_total_log c.mer_total
      c.mer_q3 c.mer_qcomm (Dbl.fin mutant_mer_match) (Dbl.fin wildType_mer_match)
    (gv, pvalueOf chdtrc gv)
  else
    (Dbl.fin 0, 1)

end GtestDefs

/-- The rank of the specification for a p-value `p` in a family `ps`:
`1 + |{ j : p_j < p }|`. -/
def bhRank {F : Type} [LinearOrderedField F] (ps : List F) (p : F) : Nat :=
  1 + ps.countP (fun q => decide (q < p))

/-- The Benjamini-Hochberg value of the specification: `min(1, p * n / r)`. -/
def bhClosed {F : Type} [LinearOrderedField F] (ps : List F) (p : F) : F :=
  min 1 (p * (ps.length : F) / (bhRank ps p : F))

/-- The value of `dnabit` on entry to iteration `m` of the window loop. -/
def dnabitBefore (o : Options) (read : Str) : Nat → Nat
  | 0 => preroll o read
  | m + 1 => windowValue o read m

/-- The k-mer at position `i` of the circularised sequence and its reverse
complement, as stored by the loader. -/
def merPair (kmer : Nat) (sequence : Str) (i : Nat) : Str × Str :=
  (substr sequence i kmer, Complementary.mer (substr sequence i kmer))

/-! ## fastq_match.cpp: reading a file -/

/-- The loop variables of `FastqMatch::read_fastqFile`. -/
structure FastqReader where
  /-- The array `aLine[4]`. -/
  aLine : List Str
  /-- `nLine`. -/
  nLine : Nat
  /-- `fastqData`. -/
  fastqData : List Str
  /-- `merLocalCounter`, `merTotalCounter` and `readCounter`. -/
  st : MatchState

/-- The body of the `while` loop of `FastqMatch::read_fastqFile` for one line
returned by `gzgets` (the line break included); `none` is `exit(1)`. -/
def read_fastqFile_line (o : Options) (fastq_read_lines : Nat) (chunk : Nat → Nat)
    (merCounter : UMap Str Nat) (r : FastqReader) (line : Str) : Option FastqReader :=
  let aLine := r.aLine.set r.nLine line
  let nLine := r.nLine + 1
  if nLine = 4 then
    if strAt (aLine.getD 0 []) 0 ≠ '@' ∨ strAt (aLine.getD 2 []) 0 ≠ '+' then
      none
    else if (aLine.getD 1 []).length > o.kmer then
      let aLine := aLine.set 1 (aLine.getD 1 []).dropLast
      let fastqData := r.fastqData ++ [aLine.getD 1 []]
      if fastqData.length > fastq_read_lines then
        some { aLine := aLine, nLine := 0, fastqData := [],
               st := count_match o chunk fastqData merCounter r.st }
      else
        some { aLine := aLine, nLine := 0, fastqData := fastqData, st := r.st }
    else
      some { aLine := aLine, nLine := 0, fastqData := r.fastqData, st := r.st }
  else
    some { aLine := aLine, nLine := nLine, fastqData := r.fastqData, st := r.st }

/-- The state of `FastqMatch::read_fastqFile` before the first line. -/
def FastqReader.init (merTotalCounter : Nat) : FastqReader :=
  { aLine := [[], [], [], []], nLine := 0, fastqData := [],
    st := { merLocalCounter := [], merTotalCounter := merTotalCounter, readCounter := 0 } }

/-- `FastqMatch::read_fastqFile` on the lines that `gzgets` returns for the file:
the local counter it returns and the total counter it updates; `none` is
`exit(1)` on a malformed record. -/
def read_fastqFile (o : Options) (fastq_read_lines : Nat) (chunk : Nat → Nat)
    (lines : List Str) (merCounter : UMap Str Nat) (merTotalCounter : Nat) :
    Option MatchState :=
  match lines.foldlM (read_fastqFile_line o fastq_read_lines chunk merCounter)
      (FastqReader.init merTotalCounter) with
  | none => none
  | some r => some (count_match o chunk r.fastqData merCounter r.st)

/-- A four-line FASTQ record as `gzgets` returns it: the sequence line carries its
line break. -/
def recordLines (record : Str × Str × Str × Str) : List Str :=
  [record.1, record.2.1 ++ ['\n'], record.2.2.1, record.2.2.2]

/-! ## kmer_match.cpp: the match phase -/

/-- The merge loop of `KmerMatch::execution`:
`for (itr in shared) shared[itr->first] += local[itr->first]`. -/
def merge_counts (shared local_ : UMap Str Nat) : UMap Str Nat :=
  shared.foldl
    (fun acc e => UMap.assign acc e.1 (countOf acc e.1 + countOf local_ e.1)) shared

/-- The loop of `KmerMatch::execution` over the files of one class: the shared
table and the class total after all files; `none` is `exit(1)` in a file. Every
file is read against the shared table as it stands. -/
def scan_files (o : Options) (fastq_read_lines : Nat) (chunk : Nat → Nat)
    (files : List (List Str)) (seeded : UMap Str Nat) : Option (UMap Str Nat × Nat) :=
  files.foldlM
    (fun acc file =>
      match read_fastqFile o fastq_read_lines chunk file acc.1 0 with
      | none => none
      | some st => some (merge_counts acc.1 st.merLocalCounter, acc.2 + st.merTotalCounter))
    (seeded, 0)

/-- What the match phase hands to the G-test. -/
structure MatchFrequencies where
  /-- `vectorArray`. -/
  vectorArray : Str
  /-- `vectorPosPair`. -/
  vectorPosPair : UMap Nat (Str × Str)
  /-- `mutantPosFreq`. -/
  mutantPosFreq : List Nat
  /-- `wildTypePosFreq`. -/
  wildTypePosFreq : List Nat
  /-- `mutantMerTotalCounter`. -/
  mutantMerTotalCounter : Nat
  /-- `wildTypeMerTotalCounter`. -/
  wildTypeMerTotalCounter : Nat

/-- `KmerMatch::execution` up to the position frequencies: load the vector
(`sequence` is the first FASTA record), build the chunk array, scan and merge
the files of both classes, derive the per-position frequencies. `none` is a
fatal exit or an exception. -/
def KmerMatch.frequencies (kmer fastq_read_lines : Nat) (chunk : Nat → Nat) (sequence : Str)
    (mutant_files wildType_files : List (List Str)) : Option MatchFrequencies :=
  match set_merCounter kmer { sequence := sequence, merCounter := [], posPair := [] } with
  | Except.error _ => none
  | Except.ok v =>
    let o := Options.ofKmer kmer
    let chunk := create_chunk o v.merCounter chunk
    match scan_files o fastq_read_lines chunk mutant_files v.merCounter,
        scan_files o fastq_read_lines chunk wildType_files v.merCounter with
    | some mutant, some wild =>
      match set_posFreq mutant.1 (toStdMap v.posPair),
          set_posFreq wild.1 (toStdMap v.posPair) with
      | some mutantPosFreq, some wildTypePosFreq =>
        some { vectorArray := v.sequence, vectorPosPair := v.posPair,
               mutantPosFreq := mutantPosFreq, wildTypePosFreq := wildTypePosFreq,
               mutantMerTotalCounter := mutant.2, wildTypeMerTotalCounter := wild.2 }
      | _, _ => none
    | _, _ => none

/-- The `Gtest` object of `StatisticsFile` after `set_merCounter`: empty result
maps and the two class totals. -/
def Gtest.ofTotals {F : Type} [LinearOrderedField F] (mutant_mer_total wildType_mer_total : Nat) :
    Gtest F :=
  { mutant_mer_total := (mutant_mer_total : F), wildType_mer_total := (wildType_mer_total : F),
    gval := [], pval := [], fdr := [], bon := [] }

/-! ## kmer_extension.cpp and fastq_extension.cpp -/

/-- `KmerExtension::create_chunk`: the loops of `VectorSequence::create_chunk` over
the keys of the flank-pair table. -/
def KmerExtension.create_chunk (o : Options) (merCounter : UMap Str (List (Str × Str)))
    (chunk : Nat → Nat) : Nat → Nat :=
  let zeroed : Nat → Nat := fun i => if i < o.max_chunk_array then 0 else chunk i
  merCounter.foldl
    (fun ch entry =>
      let dnabit := keyChunk o entry.1
      if dnabit ≠ o.max_chunk_array then Function.update ch dnabit 1 else ch)
    zeroed

/-- The variables `count_extension` updates. -/
structure ExtensionState where
  /-- `merLocalPair`. -/
  merLocalPair : UMap Str (List (Str × Str))
  /-- `merTotalCounter`. -/
  merTotalCounter : Nat
  /-- `readCounter`. -/
  readCounter : Nat

/-- The list stored under a key of a flank-pair table (empty when absent). -/
def pairsOf (m : UMap Str (List (Str × Str))) (key : Str) : List (Str × Str) :=
  (UMap.find m key).getD []

/-- The statement `merLocalPair[mer].push_back(pair)`. -/
def pushPair (m : UMap Str (List (Str × Str))) (mer : Str) (pair : Str × Str) :
    UMap Str (List (Str × Str)) :=
  UMap.assign m mer (pairsOf m mer ++ [pair])

/-- The pre-roll of `count_extension`: the pre-roll of `count_match` followed by
the second loop, which rolls in `nbase` more bases without masking. -/
def preroll_extension (o : Options) (nbase : Nat) (read : Str) : Nat :=
  (List.range nbase).foldl
    (fun dnabit j => shiftAdd dnabit (strAt read (o.chunk_length - 1 + j))) (preroll o read)

/-- One iteration `j` of the window loop of `count_extension`. -/
def count_extension_window (o : Options) (nbase : Nat) (chunk : Nat → Nat)
    (merCounter : UMap Str (List (Str × Str))) (read : Str)
    (s : Nat × ExtensionState) (j : Nat) : Nat × ExtensionState :=
  let dnabit := roll o read s.1 j
  let st := s.2
  let st :=
    if prefilter o chunk dnabit then
      let mer := substr read j o.kmer
      if UMap.contains merCounter mer then
        let p5 := substr read (j - nbase) nbase
        let p3 := substr read (j + o.kmer) nbase
        { st with merLocalPair := pushPair st.merLocalPair mer (p5, p3) }
      else st
    else st
  (dnabit, { st with merTotalCounter := st.merTotalCounter + 1 })

/-- The body of the outer loop of `count_extension` for one read: the windows
`j = nbase .. length - kmer - nbase`. Reads reach `count_extension` only with
`length >= kmer + 2 * nbase` (the gate of `read_fastqFile`), so the bound does
not wrap. -/
def count_extension_read (o : Options) (nbase : Nat) (chunk : Nat → Nat)
    (merCounter : UMap Str (List (Str × Str))) (st : ExtensionState) (read : Str) :
    ExtensionState :=
  let st := { st with readCounter := st.readCounter + 1 }
  ((List.range' nbase (read.length - o.kmer - nbase + 1 - nbase)).foldl
    (count_extension_window o nbase chunk merCounter read)
    (preroll_extension o nbase read, st)).2

/-- `FastqExtension::count_extension` over the batch `fastqData`. -/
def count_extension (o : Options) (nbase : Nat) (chunk : Nat → Nat) (fastqData : List Str)
    (merCounter : UMap Str (List (Str × Str))) (st : ExtensionState) : ExtensionState :=
  fastqData.foldl (count_extension_read o nbase chunk merCounter) st

/-- The rolling value `dnabit` tested at iteration `j = nbase + t` of the window
loop of `count_extension`. -/
def windowValueExt (o : Options) (nbase : Nat) (read : Str) : Nat → Nat
  | 0 => roll o read (preroll_extension o nbase read) nbase
  | t + 1 => roll o read (windowValueExt o nbase read t) (nbase + (t + 1))

/-- The value of `dnabit` on entry to iteration `j = nbase + t` of the window loop
of `count_extension`. -/
def dnabitBeforeExt (o : Options) (nbase : Nat) (read : Str) : Nat → Nat
  | 0 => preroll_extension o nbase read
  | t + 1 => windowValueExt o nbase read t

/-- The loop variables of `FastqExtension::read_fastqFile`. -/
structure ExtensionReader where
  /-- The array `aLine[4]`. -/
  aLine : List Str
  /-- `nLine`. -/
  nLine : Nat
  /-- `fastqData`. -/
  fastqData : List Str
  /-- `merLocalPair`, `merTotalCounter` and `readCounter`. -/
  st : ExtensionState

/-- The body of the `while` loop of `FastqExtension::read_fastqFile` for one line
returned by `gzgets` (the line break included). -/
def read_fastqFile_extension_line (o : Options) (nbase fastq_read_lines : Nat)
    (chunk : Nat → Nat) (merCounter : UMap Str (List (Str × Str)))
    (r : ExtensionReader) (line : Str) : ExtensionReader :=
  let aLine := r.aLine.set r.nLine line
  let nLine := r.nLine + 1
  if nLine = 4 then
    if (aLine.getD 1 []).length > o.kmer + nbase * 2 then
      let aLine := aLine.set 1 (aLine.getD 1 []).dropLast
      let fastqData := r.fastqData ++ [aLine.getD 1 []]
      if fastqData.length > fastq_read_lines then
        { aLine := aLine, nLine := 0, fastqData := [],
          st := count_extension o nbase chunk fastqData merCounter r.st }
      else
        { aLine := aLine, nLine := 0, fastqData := fastqData, st := r.st }
    else
      { aLine := aLine, nLine := 0, fastqData := r.fastqData, st := r.st }
  else
    { aLine := aLine, nLine := nLine, fastqData := r.fastqData, st := r.st }

/-- `FastqExtension::read_fastqFile` on the lines that `gzgets` returns for the
file: the local flank-pair table it returns and the total counter it updates. -/
def read_fastqFile_extension (o : Options) (nbase fastq_read_lines : Nat) (chunk : Nat → Nat)
    (lines : List Str) (merCounter : UMap Str (List (Str × Str))) (merTotalCounter : Nat) :
    ExtensionState :=
  let r := lines.foldl (read_fastqFile_extension_line o nbase fastq_read_lines chunk merCounter)
    { aLine := [[], [], [], []], nLine := 0, fastqData := [],
      st := { merLocalPair := [], merTotalCounter := merTotalCounter, readCounter := 0 } }
  count_extension o nbase chunk r.fastqData merCounter r.st

/-- The flank pairs of the windows `j` in `b .. n - k - b` of one read with
`read[j..j+k] = key`, in window order. -/
def naiveFlanksRead (k b : Nat) (key : Str) (read : Str) : List (Str × Str) :=
  ((List.range' b (read.length - k - b + 1 - b)).filter
      (fun j => decide (substr read j k = key))).map
    (fun j => (substr read (j - b) b, substr read (j + k) b))

/-- The flank pairs of a batch for a key, read by read. -/
def naiveFlanks (k b : Nat) (key : Str) (fastqData : List Str) : List (Str × Str) :=
  fastqData.flatMap (naiveFlanksRead k b key)

/-! ## statistics_file.cpp: the extension report -/

/-- `OutsideData`. -/
structure OutsideData (F : Type) where
  /-- `gval`. -/
  gval : UMap Nat (UMap Nat (Dbl F))
  /-- `pval`. -/
  pval : UMap Nat (UMap Nat F)
  /-- `left_chain`. -/
  left_chain : UMap Nat (List Str)
  /-- `right_chain`. -/
  right_chain : UMap Nat (List Str)
  /-- `mutant_count`. -/
  mutant_count : UMap Nat (List Nat)
  /-- `wildType_count`. -/
  wildType_count : UMap Nat (List Nat)

/-- The members of `StatisticsFile` and the options it reads. -/
structure StatisticsFile (F : Type) where
  /-- `options->kmer`. -/
  kmer : Nat
  /-- `options->threshold_fdr`. -/
  threshold_fdr : F
  /-- `vectorArray`. -/
  vectorArray : Str
  /-- `vectorPosPair`. -/
  vectorPosPair : UMap Nat (Str × Str)
  /-- `mutantPosFreq`. -/
  mutantPosFreq : List Nat
  /-- `wildTypePosFreq`. -/
  wildTypePosFreq : List Nat
  /-- `gtest`. -/
  gtest : Gtest F

/-- The statement `m[i].push_back(x)` on a map of vectors. -/
def pushAt {ν : Type} (m : UMap Nat (List ν)) (i : Nat) (x : ν) : UMap Nat (List ν) :=
  UMap.assign m i ((UMap.find m i).getD [] ++ [x])

/-- The vector `m[i]` of a map of vectors (empty when absent). -/
def vectorAt {ν : Type} (m : UMap Nat (List ν)) (i : Nat) : List ν :=
  (UMap.find m i).getD []

/-- The statement `m[i][j] = x` on a map of maps. -/
def assign2 {ν : Type} (m : UMap Nat (UMap Nat ν)) (i j : Nat) (x : ν) :
    UMap Nat (UMap Nat ν) :=
  UMap.assign m i (UMap.assign ((UMap.find m i).getD []) j x)

/-- The entry `m[i][j]` of a map of maps, if present. -/
def find2 {ν : Type} (m : UMap Nat (UMap Nat ν)) (i j : Nat) : Option ν :=
  match UMap.find m i with
  | some inner => UMap.find inner j
  | none => none

/-- The pair counts of one position for one class, as `create_outsideData`
builds them: the pairs recorded under the forward k-mer, and, when the reverse
k-mer differs, the pairs recorded under it, re-oriented. -/
def side_pair_count (merPair : UMap Str (List (Str × Str))) (mer_plus mer_minus : Str) :
    UMap (Str × Str) Nat :=
  let count :=
    if UMap.contains merPair mer_plus then
      (pairsOf merPair mer_plus).foldl (fun c itr => increment c (itr.1, itr.2)) []
    else []
  if mer_plus ≠ mer_minus then
    if UMap.contains merPair mer_minus then
      (pairsOf merPair mer_minus).foldl
        (fun c itr => increment c (Complementary.mer itr.2, Complementary.mer itr.1)) count
    else count
  else count

/-- The order `<` of `std::pair<unsigned int, std::pair<std::string, std::string>>`. -/
def rowLT (a b : Nat × (Str × Str)) : Prop :=
  a.1 < b.1 ∨ (a.1 = b.1 ∧ (a.2.1 < b.2.1 ∨ (a.2.1 = b.2.1 ∧ a.2.2 < b.2.2)))

instance rowLT_decidable : DecidableRel rowLT :=
  fun a b => by unfold rowLT; infer_instance

/-- The variables of the loops of `create_outsideData`. -/
structure OutsideLoop (F : Type) where
  /-- `outsideData`. -/
  outsideData : OutsideData F
  /-- `table_size`. -/
  table_size : UMap Nat Nat
  /-- `gval_stock`. -/
  gval_stock : UMap (Nat × Nat) (Dbl F)
  /-- `pval_stock`. -/
  pval_stock : UMap (Nat × Nat) F
  /-- `number_of_extensions`. -/
  number_of_extensions : Nat

section OutsideDefs

variable {F : Type} [LinearOrderedField F]

/-- One iteration of the inner loop of `create_outsideData`: the row `itr_v` of
position `i`, with the row counter `ic`. -/
def outside_row (ln : F → F) (chdtrc : F → F → F) (gtest : Gtest F) (i : Nat)
    (mutant_side_pair_count wildType_side_pair_count : UMap (Str × Str) Nat)
    (s : OutsideLoop F × Nat) (itr_v : Nat × (Str × Str)) : OutsideLoop F × Nat :=
  let od := s.1.outsideData
  let ic := s.2
  let mutant_count :=
    if UMap.contains mutant_side_pair_count itr_v.2 then countOf mutant_side_pair_count itr_v.2
    else 0
  let wildType_count :=
    if UMap.contains wildType_side_pair_count itr_v.2 then
      countOf wildType_side_pair_count itr_v.2
    else 0
  let target := (mutant_count, wildType_count)
  if UMap.contains s.1.gval_stock target then
    let gv := stockAt s.1.gval_stock target
    let pv := stockAt s.1.pval_stock target
    ({ outsideData :=
         { gval := assign2 od.gval i ic gv.1
           pval := assign2 od.pval i ic pv.1
           left_chain := pushAt od.left_chain i itr_v.2.1
           right_chain := pushAt od.right_chain i itr_v.2.2
           mutant_count := pushAt od.mutant_count i mutant_count
           wildType_count := pushAt od.wildType_count i wildType_count }
       table_size := s.1.table_size
       gval_stock := gv.2
       pval_stock := pv.2
       number_of_extensions := s.1.number_of_extensions + 1 }, ic + 1)
  else
    let r := gtest.kmer_extension ln chdtrc mutant_count wildType_count
    ({ outsideData :=
         { gval := assign2 od.gval i ic r.1
           pval := assign2 od.pval i ic r.2
           left_chain := pushAt od.left_chain i itr_v.2.1
           right_chain := pushAt od.right_chain i itr_v.2.2
           mutant_count := pushAt od.mutant_count i mutant_count
           wildType_count := pushAt od.wildType_count i wildType_count }
       table_size := s.1.table_size
       gval_stock := UMap.assign s.1.gval_stock target r.1
       pval_stock := UMap.assign s.1.pval_stock target r.2
       number_of_extensions := s.1.number_of_extensions + 1 }, ic + 1)

/-- One iteration `i` of the outer loop of `create_outsideData`; `none` is the
exception of `vectorPosPair.at(i)`. The rows are the mutant pair counts sorted
in descending order (`sort(v.rbegin(), v.rend())`). -/
def outside_position (ln : F → F) (chdtrc : F → F → F) (sf : StatisticsFile F)
    (mutantMerPair wildTypeMerPair : UMap Str (List (Str × Str)))
    (s : OutsideLoop F) (i : Nat) : Option (OutsideLoop F) :=
  if (UMap.find sf.gtest.fdr i).getD 0 ≤ sf.threshold_fdr then
    match UMap.find sf.vectorPosPair i with
    | none => none
    | some mer =>
      let mutant_side_pair_count := side_pair_count mutantMerPair mer.1 mer.2
      let wildType_side_pair_count := side_pair_count wildTypeMerPair mer.1 mer.2
      let v := List.insertionSort (fun a b => ¬ rowLT a b)
        (mutant_side_pair_count.map (fun e => (e.2, e.1)))
      let s := { s with table_size := UMap.assign s.table_size i v.length }
      some (v.foldl
        (outside_row ln chdtrc sf.gtest i mutant_side_pair_count wildType_side_pair_count)
        (s, 0)).1
  else some s

/-- `StatisticsFile::create_outsideData`: the loop variables after the loop over
`i < vectorArray.length() - kmer`. -/
def create_outsideData (ln : F → F) (chdtrc : F → F → F) (sf : StatisticsFile F)
    (mutantMerPair wildTypeMerPair : UMap Str (List (Str × Str))) : Option (OutsideLoop F) :=
  (List.range (sf.vectorArray.length - sf.kmer)).foldlM
    (outside_position ln chdtrc sf mutantMerPair wildTypeMerPair)
    { outsideData := { gval := [], pval := [], left_chain := [], right_chain := [],
                       mutant_count := [], wildType_count := [] }
      table_size := [], gval_stock := [], pval_stock := [], number_of_extensions := 0 }

/-- The p-values of a nested table in iteration order. -/
def flattenPvals (pval : UMap Nat (UMap Nat F)) : List F :=
  pval.flatMap (fun itr => itr.2.map (fun itr_p => itr_p.2))

/-- The second pass of `fdr_extension` over one inner table: the entries get
`f[ic++]` (0.0 when `f` has no entry). -/
def fdr_extension_inner (f : UMap Nat F) (i : Nat)
    (acc : UMap Nat (UMap Nat F) × Nat) (itr_p : Nat × F) : UMap Nat (UMap Nat F) × Nat :=
  (assign2 acc.1 i itr_p.1 ((UMap.find f acc.2).getD 0), acc.2 + 1)

/-- `Gtest::fdr_extension`. `none` stands for the read of `v[0]` when the table
holds no p-value. -/
def fdr_extension (pval : UMap Nat (UMap Nat F)) : Option (UMap Nat (UMap Nat F)) :=
  let v := List.insertionSort pairLE ((flattenPvals pval).enum.map (fun e => (e.2, e.1)))
  match v with
  | [] => none
  | first :: _ =>
    let vector_len : F := (v.length : F)
    let pval_prev := first.1
    let fdr_prev := min (pval_prev * vector_len) 1
    let f := (v.foldl (fdr_match_step vector_len)
      { fdr := [], vector_pos := 1, pval_prev := pval_prev, fdr_prev := fdr_prev }).fdr
    some (pval.foldl
      (fun acc itr => itr.2.foldl (fdr_extension_inner f itr.1) acc) ([], 0)).1

/-- One flank-pair row of the report written by `create_outsideFile`. -/
structure ExtensionRow (F : Type) where
  /-- `left_chain[i][j]`. -/
  left : Str
  /-- `right_chain[i][j]`. -/
  right : Str
  /-- `mutant_count[i][j]`. -/
  mutant_count : Nat
  /-- `wildType_count[i][j]`. -/
  wildType_count : Nat
  /-- The column `left + kmer + right`. -/
  chain : Str
  /-- `gval[i][j]`. -/
  gval : Dbl F
  /-- `pval[i][j]`. -/
  pval : F
  /-- `fdr_extension[i][j]`. -/
  fdr : F
  /-- `min(pval[i][j] * number_of_extensions, 1.0)`. -/
  bon : F

/-- The parent row of a significant position and its flank-pair rows. -/
structure OutsideRecord (F : Type) where
  /-- The position `i` (written as `i + 1`). -/
  position : Nat
  /-- `table_size[i]`. -/
  table_size : Nat
  /-- `vectorArray.substr(i, kmer)`. -/
  kmer : Str
  /-- `mutantPosFreq[i]`. -/
  mutant : Nat
  /-- `wildTypePosFreq[i]`. -/
  wildType : Nat
  /-- `gtest->get_gval()[i]`. -/
  gval : Dbl F
  /-- `gtest->get_pval()[i]`. -/
  pval : F
  /-- `gtest->get_fdr()[i]`. -/
  fdr : F
  /-- `gtest->get_bon()[i]`. -/
  bon : F
  /-- The rows `j < left_chain[i].size()`. -/
  rows : List (ExtensionRow F)

/-- The row `j` of position `i` written by `create_outsideFile`. -/
def outside_file_row (sf : StatisticsFile F) (s : OutsideLoop F)
    (fdr_ext : UMap Nat (UMap Nat F)) (i j : Nat) : ExtensionRow F :=
  let kmer := substr sf.vectorArray i sf.kmer
  let left := (vectorAt s.outsideData.left_chain i).getD j []
  let right := (vectorAt s.outsideData.right_chain i).getD j []
  let pval := (find2 s.outsideData.pval i j).getD 0
  { left := left
    right := right
    mutant_count := (vectorAt s.outsideData.mutant_count i).getD j 0
    wildType_count := (vectorAt s.outsideData.wildType_count i).getD j 0
    chain := left ++ kmer ++ right
    gval := (find2 s.outsideData.gval i j).getD 0
    pval := pval
    fdr := (find2 fdr_ext i j).getD 0
    bon := min (pval * (s.number_of_extensions : F)) 1 }

/-- `StatisticsFile::create_outsideFile`: the records written after the header
line, one per position `i < vectorArray.length() - kmer` with
`fdr[i] <= threshold_fdr`. `none` is an exception or the out-of-range read of
`fdr_extension`. -/
def create_outsideFile (ln : F → F) (chdtrc : F → F → F) (sf : StatisticsFile F)
    (mutantMerPair wildTypeMerPair : UMap Str (List (Str × Str))) :
    Option (List (OutsideRecord F)) :=
  match create_outsideData ln chdtrc sf mutantMerPair wildTypeMerPair with
  | none => none
  | some s =>
    match fdr_extension s.outsideData.pval with
    | none => none
    | some fdr_ext =>
      some ((List.range (sf.vectorArray.length - sf.kmer)).filterMap (fun i =>
        if (UMap.find sf.gtest.fdr i).getD 0 ≤ sf.threshold_fdr then
          some { position := i
                 table_size := (UMap.find s.table_size i).getD 0
                 kmer := substr sf.vectorArray i sf.kmer
                 mutant := sf.mutantPosFreq.getD i 0
                 wildType := sf.wildTypePosFreq.getD i 0
                 gval := (UMap.find sf.gtest.gval i).getD 0
                 pval := (UMap.find sf.gtest.pval i).getD 0
                 fdr := (UMap.find sf.gtest.fdr i).getD 0
                 bon := (UMap.find sf.gtest.bon i).getD 0
                 rows := (List.range (vectorAt s.outsideData.left_chain i).length).map
                   (outside_file_row sf s fdr_ext i) }
        else none))

end OutsideDefs

/-! ## bitwise_operation.cpp: the chunk array -/

/-- The number of entries of the array `chunk` that the constructor of
`BitwiseOperation` allocates: `new unsigned char[options->max_chunk_array]`. -/
def BitwiseOperation.chunk_entries (o : Options) : Nat := o.max_chunk_array

/-- The indices at which the window loop of `count_match` reads `chunk` for one
read: the test `chunk[dnabit] == 1 || dnabit == mask` evaluates `chunk[dnabit]`
first, at every iteration `j = 0 .. length - kmer`. -/
def chunk_reads (o : Options) (read : Str) : List Nat :=
  (List.range (read.length - o.kmer + 1)).map (windowValue o read)


/-! ## kmer_extension.cpp: the merge of the flank-pair tables -/

/-- The merge loop of `KmerExtension::execution`: for every key of the local
table and every pair stored under it, `shared[key].push_back(pair)`. -/
def merge_pairs (shared local_ : UMap Str (List (Str × Str))) : UMap Str (List (Str × Str)) :=
  local_.foldl
    (fun acc itr => itr.2.foldl (fun acc2 itr_second => pushPair acc2 itr.1 itr_second) acc)
    shared

/-- The loop of `KmerExtension::execution` over the files of one class: the
shared flank-pair table and the class total after all files. Every file is read
against the shared table as it stands. -/
def scan_files_extension (o : Options) (nbase fastq_read_lines : Nat) (chunk : Nat → Nat)
    (files : List (List Str)) (seeded : UMap Str (List (Str × Str))) :
    UMap Str (List (Str × Str)) × Nat :=
  files.foldl
    (fun acc file =>
      let st := read_fastqFile_extension o nbase fastq_read_lines chunk file acc.1 0
      (merge_pairs acc.1 st.merLocalPair, acc.2 + st.merTotalCounter))
    (seeded, 0)


/-- The entries of a nested table in iteration order, as (outer key, inner key,
value). -/
def tableEntries {ν : Type} (m : UMap Nat (UMap Nat ν)) : List (Nat × Nat × ν) :=
  m.flatMap (fun itr => itr.2.map (fun itr_p => (itr.1, itr_p.1, itr_p.2)))


/-! ## fastq_match.cpp and fastq_extension.cpp: the indices read from a read -/

/-- The indices at which `count_match` reads the characters of one read:
`fastqData[i][0]`, then `fastqData[i][j]` for `j = 1 .. chunk_length - 2`, then
`fastqData[i][chunk_length - 1 + j]` for `j = 0 .. length - kmer`. -/
def count_match_indices (o : Options) (read : Str) : List Nat :=
  [0] ++ List.range' 1 (o.chunk_length - 1 - 1)
    ++ (List.range (read.length - o.kmer + 1)).map (fun j => o.chunk_length - 1 + j)

/-- The substrings (position, length) that `count_match` can take from one read:
`mer.assign(fastqData[i], j, kmer)` for `j = 0 .. length - kmer`. -/
def count_match_substrings (o : Options) (read : Str) : List (Nat × Nat) :=
  (List.range (read.length - o.kmer + 1)).map (fun j => (j, o.kmer))

/-- The indices at which `count_extension` reads the characters of one read:
`fastqData[i][0]`, `fastqData[i][j]` for `j = 1 .. chunk_length - 2`,
`fastqData[i][chunk_length - 1 + j]` for `j = 0 .. nbase - 1` and then for
`j = nbase .. length - kmer - nbase`. -/
def count_extension_indices (o : Options) (nbase : Nat) (read : Str) : List Nat :=
  [0] ++ List.range' 1 (o.chunk_length - 1 - 1)
    ++ (List.range nbase).map (fun j => o.chunk_length - 1 + j)
    ++ (List.range' nbase (read.length - o.kmer - nbase + 1 - nbase)).map
        (fun j => o.chunk_length - 1 + j)

/-- The window positions `j = nbase .. length - kmer - nbase` of the window loop
of `count_extension`. -/
def count_extension_windows (o : Options) (nbase : Nat) (read : Str) : List Nat :=
  List.range' nbase (read.length - o.kmer - nbase + 1 - nbase)

/-- The substrings (position, length) that `count_extension` can take from one
read at the window `j`: `mer.assign(fastqData[i], j, kmer)`,
`substr(j - nbase, nbase)` and `substr(j + kmer, nbase)`. -/
def count_extension_substrings (o : Options) (nbase : Nat) (j : Nat) : List (Nat × Nat) :=
  [(j, o.kmer), (j - nbase, nbase), (j + o.kmer, nbase)]

/-! ## The binary64 rounding of the corrected values -/

section RoundedDefs

variable {F : Type} [LinearOrderedField F]

end RoundedDefs

/-- The vector `ACGTACGTACGT` of the scenarios. -/
def exampleVector : Str := ['A', 'C', 'G', 'T', 'A', 'C', 'G', 'T', 'A', 'C', 'G', 'T']

/-- A read `TTACGTACGTGG` holding the k-mer `ACGTACGT` at offset 2. -/
def exampleRead : Str := ['T', 'T', 'A', 'C', 'G', 'T', 'A', 'C', 'G', 'T', 'G', 'G']

/-- A count table with the single key `ACGTACGT`. -/
def exampleKeys : UMap Str Nat := [(['A', 'C', 'G', 'T', 'A', 'C', 'G', 'T'], 0)]

/-- A G-test engine over the rationals with totals 100 and 100 and empty tables. -/
def exampleGtest : Gtest ℚ :=
  { mutant_mer_total := 100, wildType_mer_total := 100,
    gval := [], pval := [], fdr := [], bon := [] }

/-- A G-test engine over the rationals holding three p-values, two of them equal. -/
def examplePvals : Gtest ℚ :=
  { mutant_mer_total := 100, wildType_mer_total := 100,
    gval := [], pval := [(0, 3 / 100), (1, 1 / 100), (2, 3 / 100)], fdr := [], bon := [] }

/-- A G-test engine over the rationals with totals 1 and 1 and empty tables: one
mutant window and one wild-type window. -/
def exampleFull : Gtest ℚ :=
  { mutant_mer_total := 1, wildType_mer_total := 1,
    gval := [], pval := [], fdr := [], bon := [] }

/-- The k-mer `AAAAAAAA`, also the all-A vector of the first scenario. -/
def exampleAllA : Str := ['A', 'A', 'A', 'A', 'A', 'A', 'A', 'A']

/-- The k-mer `TTTTTTTT`. -/
def exampleAllT : Str := ['T', 'T', 'T', 'T', 'T', 'T', 'T', 'T']

/-- A FASTQ file holding the single read `AAAAAAAA`. -/
def exampleAllAFile : List Str :=
  recordLines (['@', 'r', '\n'], exampleAllA, ['+', '\n'],
    ['I', 'I', 'I', 'I', 'I', 'I', 'I', 'I', '\n'])

/-- A FASTQ file holding the single read `revComp(ACGTACGT)`, the reverse
complement of the k-mer at position 0 of `exampleVector`. -/
def exampleRevFile : List Str :=
  recordLines (['@', 'r', '\n'], Complementary.mer (substr exampleVector 0 8), ['+', '\n'],
    ['I', 'I', 'I', 'I', 'I', 'I', 'I', 'I', '\n'])

/-- A flank-pair table with the single key `ACGTACGT`. -/
def exampleExtKeys : UMap Str (List (Str × Str)) :=
  [(['A', 'C', 'G', 'T', 'A', 'C', 'G', 'T'], [])]

/-- The read `GGACGTACGTAA`, of length 12 = 8 + 2 * 2, holding the k-mer `ACGTACGT`
between the flanks `GG` and `AA`. -/
def exampleExtRead : Str := ['G', 'G', 'A', 'C', 'G', 'T', 'A', 'C', 'G', 'T', 'A', 'A']

/-- A report state over the example vector: only position 0 passes the FDR
threshold. -/
def exampleStatistics : StatisticsFile ℚ :=
  { kmer := 8
    threshold_fdr := 1 / 100
    vectorArray := exampleVector
    vectorPosPair := (List.range 12).map (fun i => (i, merPair 8 exampleVector i))
    mutantPosFreq := [5, 0, 0, 0, 5, 0, 0, 0, 5, 0, 0, 0]
    wildTypePosFreq := [1, 0, 0, 0, 1, 0, 0, 0, 1, 0, 0, 0]
    gtest := { mutant_mer_total := 100, wildType_mer_total := 100, gval := [], pval := [],
               fdr := [(0, 0), (1, 1), (2, 1), (3, 1)], bon := [] } }

/-- Flank pairs recorded for the mutant class under the k-mer `ACGTACGT`. -/
def exampleMutantPairs : UMap Str (List (Str × Str)) :=
  [(['A', 'C', 'G', 'T', 'A', 'C', 'G', 'T'],
    [(['G', 'G'], ['A', 'A']), (['T', 'T'], ['C', 'C']), (['G', 'G'], ['A', 'A']),
     (['C', 'A'], ['C', 'A']), (['T', 'T'], ['C', 'C'])])]

/-- Flank pairs recorded for the wild-type class under the k-mer `ACGTACGT`. -/
def exampleWildTypePairs : UMap Str (List (Str × Str)) :=
  [(['A', 'C', 'G', 'T', 'A', 'C', 'G', 'T'], [(['C', 'A'], ['C', 'A'])])]

/-- The read `GGGGGGGG`: one window, all G. -/
def exampleAllG : Str := ['G', 'G', 'G', 'G', 'G', 'G', 'G', 'G']

/-- The sequence that the loader returns for `exampleVector` and `k = 8`: the
vector followed by its first 7 bases. -/
def exampleCircular : Str := exampleVector ++ exampleVector.take 7

/-- The report state for `exampleVector` and `k = 8` with two significant
positions, the first one (0) and the last one (11). -/
def exampleReport : StatisticsFile ℚ :=
  { kmer := 8
    threshold_fdr := 1 / 100
    vectorArray := exampleCircular
    vectorPosPair := (List.range 12).map (fun i => (i, merPair 8 exampleCircular i))
    mutantPosFreq := [5, 0, 0, 0, 0, 0, 0, 0, 0, 0, 0, 5]
    wildTypePosFreq := [1, 0, 0, 0, 0, 0, 0, 0, 0, 0, 0, 1]
    gtest := { mutant_mer_total := 100, wildType_mer_total := 100, gval := [], pval := [],
               fdr := [(0, 0), (1, 1), (2, 1), (3, 1), (4, 1), (5, 1), (6, 1), (7, 1), (8, 1),
                       (9, 1), (10, 1), (11, 0)],
               bon := [] } }

/-- Flank pairs recorded for the mutant class under the k-mers of positions 0
(`ACGTACGT`) and 11 (`TACGTACG`). -/
def exampleReportPairs : UMap Str (List (Str × Str)) :=
  [(['A', 'C', 'G', 'T', 'A', 'C', 'G', 'T'], [(['G', 'G'], ['A', 'A'])]),
   (['T', 'A', 'C', 'G', 'T', 'A', 'C', 'G'], [(['C', 'C'], ['T', 'T'])]),
   (['C', 'G', 'T', 'A', 'C', 'G', 'T', 'A'], [])]

/-- The seeded flank-pair table of the wild-type class for the same k-mers: no
pair recorded. -/
def exampleReportWildPairs : UMap Str (List (Str × Str)) :=
  [(['A', 'C', 'G', 'T', 'A', 'C', 'G', 'T'], []),
   (['T', 'A', 'C', 'G', 'T', 'A', 'C', 'G'], []),
   (['C', 'G', 'T', 'A', 'C', 'G', 'T', 'A'], [])]

/-- A FASTQ record holding `exampleRead` (one window `ACGTACGT`). -/
def exampleRecordA : Str × Str × Str × Str :=
  (['@', 'a', '\n'], exampleRead, ['+', '\n'], ['I', '\n'])

/-- A FASTQ record holding the vector itself (two windows `ACGTACGT`). -/
def exampleRecordB : Str × Str × Str × Str :=
  (['@', 'b', '\n'], exampleVector, ['+', '\n'], ['I', '\n'])

/-- A FASTQ record holding a read shorter than 8 bases. -/
def exampleRecordC : Str × Str × Str × Str :=
  (['@', 'c', '\n'], ['A', 'C', 'G'], ['+', '\n'], ['I', '\n'])

/-- Flank pairs of the mutant class under `ACGTACGT`: nine times `(AA, GG)` and
once `(CC, TT)`. -/
def exampleNinePairs : UMap Str (List (Str × Str)) :=
  [(['A', 'C', 'G', 'T', 'A', 'C', 'G', 'T'],
    List.replicate 9 (['A', 'A'], ['G', 'G']) ++ [(['C', 'C'], ['T', 'T'])])]

/-- Flank pairs of the mutant class under `ACGTACGT`: `(AA, GG)`, `(CC, TT)` and
`(CC, TA)`, once each. -/
def exampleTiedPairs : UMap Str (List (Str × Str)) :=
  [(['A', 'C', 'G', 'T', 'A', 'C', 'G', 'T'],
    [(['A', 'A'], ['G', 'G']), (['C', 'C'], ['T', 'T']), (['C', 'C'], ['T', 'A'])])]

/-- The seeded flank-pair table of the wild-type class: no pair recorded. -/
def exampleNoPairs : UMap Str (List (Str × Str)) :=
  [(['A', 'C', 'G', 'T', 'A', 'C', 'G', 'T'], [])]

/-- A p-value table with two positions and three rows, two of them with the same
p-value. -/
def examplePvalTable : UMap Nat (UMap Nat ℚ) :=
  [(3, [(0, 1 / 100), (1, 3 / 100)]), (7, [(0, 1 / 100)])]

/-- The table `examplePvalTable` in another iteration order. -/
def examplePvalTableReordered : UMap Nat (UMap Nat ℚ) :=
  [(7, [(0, 1 / 100)]), (3, [(1, 3 / 100), (0, 1 / 100)])]

/-- A G-test engine over the rationals holding the two p-values 0.010 and 0.011. -/
def exampleTwoPvals : Gtest ℚ :=
  { mutant_mer_total := 100, wildType_mer_total := 100,
    gval := [], pval := [(0, 10 / 1000), (1, 11 / 1000)], fdr := [], bon := [] }

/-- Flank pairs of the wild-type class under `ACGTACGT`: `(AA, GG)` once and
`(TT, TT)`, a pair never seen in the mutant class, once. -/
def exampleWildOnlyPairs : UMap Str (List (Str × Str)) :=
  [(['A', 'C', 'G', 'T', 'A', 'C', 'G', 'T'],
    [(['A', 'A'], ['G', 'G']), (['T', 'T'], ['T', 'T'])])]

/-- The record `exampleRecordA` with its read replaced by the reverse
complement. -/
def exampleRecordARev : Str × Str × Str × Str :=
  (exampleRecordA.1, Complementary.mer exampleRecordA.2.1, exampleRecordA.2.2.1,
    exampleRecordA.2.2.2)

section UMapLemmas

variable {κ ν : Type} [DecidableEq κ]

theorem UMap.find_assign (m : UMap κ ν) (key : κ) (v : ν) (key2 : κ) :
    UMap.find (UMap.assign m key v) key2 = if key = key2 then some v else UMap.find m key2 := by
  induction m with
  | nil => simp [UMap.assign, UMap.find]
  | cons e rest ih =>
    obtain ⟨k, w⟩ := e
    by_cases h1 : k = key
    · subst h1
      by_cases h2 : k = key2 <;> simp [UMap.assign, UMap.find, h2]
    · by_cases h2 : k = key2
      · subst h2
        simp [UMap.assign, UMap.find, h1, Ne.symm h1]
      · simp [UMap.assign, UMap.find, h1, h2, ih]

theorem UMap.contains_assign (m : UMap κ ν) (key : κ) (v : ν) (key2 : κ) :
    UMap.contains (UMap.assign m key v) key2 = (decide (key = key2) || UMap.contains m key2) := by
  unfold UMap.contains
  rw [UMap.find_assign]
  by_cases h : key = key2 <;> simp [h]

theorem countOf_increment (m : UMap κ Nat) (key key2 : κ) :
    countOf (increment m key) key2 = countOf m key2 + (if key = key2 then 1 else 0) := by
  unfold countOf increment
  rw [UMap.find_assign]
  by_cases h : key = key2
  · subst h
    simp [countOf]
  · simp [h]

theorem UMap.find_increment_ne (m : UMap κ Nat) (key key2 : κ) (h : key ≠ key2) :
    UMap.find (increment m key) key2 = UMap.find m key2 := by
  unfold increment
  rw [UMap.find_assign]
  simp [h]

end UMapLemmas

/-! ## Lemmas on the reverse complement -/

theorem complementBase_involutive (c : Char) : complementBase (complementBase c) = c := by
  unfold complementBase
  split_ifs <;> simp_all

theorem complementBase_other (c : Char) (hA : c ≠ 'A') (hC : c ≠ 'C') (hG : c ≠ 'G')
    (hT : c ≠ 'T') : complementBase c = c := by
  simp [complementBase, hA, hC, hG, hT]

theorem strAt_eq_getElem (s : Str) (i : Nat) (h : i < s.length) : strAt s i = s[i] := by
  simp [strAt, List.getD_eq_getElem, h]

/-- C6: the reverse complement is an involution that preserves the length, for
every string; a character other than A, C, G, T at index `i` is found unchanged
at the mirrored index `length - 1 - i` of the result. -/
theorem Complementary.mer_involution (s : Str) :
    Complementary.mer (Complementary.mer s) = s ∧
    (Complementary.mer s).length = s.length ∧
    ∀ i, i < s.length →
      strAt s i ≠ 'A' → strAt s i ≠ 'C' → strAt s i ≠ 'G' → strAt s i ≠ 'T' →
      strAt (Complementary.mer s) (s.length - 1 - i) = strAt s i := by
  refine ⟨?_, ?_, ?_⟩
  · unfold Complementary.mer
    rw [← List.map_reverse, List.reverse_reverse, List.map_map]
    have : complementBase ∘ complementBase = id := by
      funext c
      exact complementBase_involutive c
    rw [this, List.map_id]
  · simp [Complementary.mer]
  · intro i hi hA hC hG hT
    have hlen : s.length - 1 - i < (Complementary.mer s).length := by
      simp [Complementary.mer]; omega
    rw [strAt_eq_getElem _ _ hlen]
    rw [strAt_eq_getElem _ _ hi] at hA hC hG hT ⊢
    simp only [Complementary.mer, List.getElem_map, List.getElem_reverse]
    have hidx : s.length - 1 - (s.length - 1 - i) = i := by omega
    simp only [hidx]
    exact complementBase_other _ hA hC hG hT

/-! ## The packed encoding and the rolling value -/

set_option maxRecDepth 100000 in
theorem dna2bit_lt (c : Char) : dna2bit c < 4 := by
  unfold dna2bit
  have hall : ∀ x ∈ dna2bitTable, x < 4 := by decide
  by_cases h : c.toNat < dna2bitTable.length
  · rw [List.getD_eq_getElem _ _ h]
    exact hall _ (List.getElem_mem h)
  · rw [List.getD_eq_default _ _ (by omega)]
    omega

theorem shiftAdd_eq (d : Nat) (c : Char) :
    shiftAdd d c = (d * 4 + dna2bit c) % 4294967296 := by
  unfold shiftAdd u32
  rw [Nat.shiftLeft_eq]
  omega

theorem packed_concat (s : Str) (c : Char) : packed (s ++ [c]) = packed s * 4 + dna2bit c := by
  simp [packed, List.foldl_append]

theorem packed_append (a b : Str) : packed (a ++ b) = packed a * 4 ^ b.length + packed b := by
  induction b using List.reverseRecOn with
  | nil => simp [packed]
  | append_singleton b c ih =>
    rw [← List.append_assoc, packed_concat, ih, packed_concat]
    simp [pow_succ]
    ring

theorem packed_lt (s : Str) : packed s < 4 ^ s.length := by
  induction s using List.reverseRecOn with
  | nil => simp [packed]
  | append_singleton s c ih =>
    rw [packed_concat]
    have := dna2bit_lt c
    simp [pow_succ]
    omega

/-- The first `m` characters of a string as the source reads them (`s[i]`). -/
theorem map_strAt_range (s : Str) (m : Nat) (h : m ≤ s.length) :
    (List.range m).map (strAt s) = s.take m := by
  apply List.ext_getElem
  · simp [h]
  · intro i h1 h2
    simp at h1
    simp [strAt_eq_getElem s i (by omega)]

theorem foldl_shiftAdd (s : Str) (m : Nat) :
    (List.range' 1 m).foldl (fun dnabit i => shiftAdd dnabit (strAt s i)) (dna2bit (strAt s 0))
      = packed ((List.range (m + 1)).map (strAt s)) % 4294967296 := by
  induction m with
  | zero =>
    have := dna2bit_lt (strAt s 0)
    simp [packed, List.range_succ]
    omega
  | succ m ih =>
    rw [List.range'_concat, List.foldl_append, ih]
    rw [List.range_succ (n := m + 1), List.map_append, List.map_singleton, packed_concat]
    simp only [List.foldl_cons, List.foldl_nil, shiftAdd_eq]
    have : 1 + 1 * m = m + 1 := by omega
    rw [this]
    omega

theorem land_mask (x L : Nat) : x &&& (2 ^ (2 * L) - 1) = x % 4 ^ L := by
  rw [Nat.and_pow_two_sub_one_eq_mod, pow_mul]
  norm_num

theorem four_pow_dvd (L : Nat) (h : L ≤ 16) : 4 ^ L ∣ 4294967296 := by
  have : (4294967296 : Nat) = 4 ^ 16 := by norm_num
  rw [this]
  exact pow_dvd_pow 4 h

theorem roll_eq (k : Nat) (read : Str) (d j : Nat) :
    roll (Options.ofKmer k) read d j
      = (d * 4 + dna2bit (strAt read (min k 16 - 1 + j))) % 4 ^ (min k 16) := by
  unfold roll
  simp only [Options.ofKmer, MAX_CHUNKLENGTH]
  rw [land_mask, shiftAdd_eq, Nat.mod_mod_of_dvd _ (four_pow_dvd _ (Nat.min_le_right k 16))]

theorem mod_step (a e m : Nat) : (a % m * 4 + e) % m = (a * 4 + e) % m := by
  rw [Nat.add_mod, Nat.mul_mod, Nat.mod_mod, ← Nat.mul_mod, ← Nat.add_mod]

/-- The rolling value at iteration `j` is the packed encoding of the first
`L + j` characters, reduced to `2L` bits. -/
theorem windowValue_take (k : Nat) (hk : 1 ≤ k) (read : Str) (j : Nat) :
    windowValue (Options.ofKmer k) read j
      = packed ((List.range (min k 16 + j)).map (strAt read)) % 4 ^ (min k 16) := by
  have hL : 1 ≤ min k 16 := by omega
  induction j with
  | zero =>
    simp only [windowValue, roll_eq, Nat.add_zero]
    by_cases h1 : min k 16 = 1
    · have hp : preroll (Options.ofKmer k) read = dna2bit (strAt read 0) := by
        simp [preroll, Options.ofKmer, MAX_CHUNKLENGTH, h1]
      rw [hp, h1]
      have := dna2bit_lt (strAt read 0)
      simp [packed, List.range_succ]
      omega
    · have hp : preroll (Options.ofKmer k) read
          = packed ((List.range (min k 16 - 1)).map (strAt read)) % 4294967296 := by
        unfold preroll
        simp only [Options.ofKmer, MAX_CHUNKLENGTH]
        rw [foldl_shiftAdd]
        have : min k 16 - 1 - 1 + 1 = min k 16 - 1 := by omega
        rw [this]
      rw [hp]
      have hsucc : min k 16 = (min k 16 - 1) + 1 := by omega
      conv_rhs => rw [hsucc, List.range_succ, List.map_append, List.map_singleton, packed_concat]
      rw [← Nat.mod_mod_of_dvd _ (four_pow_dvd _ (Nat.min_le_right k 16)), mod_step,
        Nat.mod_mod_of_dvd _ (four_pow_dvd _ (Nat.min_le_right k 16))]
      rw [← hsucc]
  | succ j ih =>
    simp only [windowValue, roll_eq]
    rw [ih, mod_step]
    have : min k 16 + (j + 1) = (min k 16 + j) + 1 := by omega
    rw [this, List.range_succ, List.map_append, List.map_singleton, packed_concat]
    have : min k 16 - 1 + (j + 1) = min k 16 + j := by omega
    rw [this]

/-- The rolling value tested at iteration `j` is the packed encoding of
`read[j..j+L]`. -/
theorem windowValue_eq_packed (k : Nat) (hk : 1 ≤ k) (read : Str) (j : Nat)
    (hj : j + k ≤ read.length) :
    windowValue (Options.ofKmer k) read j = packed (substr read j (min k 16)) := by
  rw [windowValue_take k hk]
  rw [map_strAt_range read _ (by omega)]
  have : min k 16 + j = j + min k 16 := by omega
  rw [this, List.take_add, packed_append]
  have hlen : (List.take (min k 16) (List.drop j read)).length = min k 16 := by
    simp; omega
  rw [hlen, Nat.mul_add_mod_of_lt]
  · rfl
  · have := packed_lt (List.take (min k 16) (List.drop j read))
    rw [hlen] at this
    exact this

/-! ## The chunk array built by `create_chunk` -/

theorem UMap.mem_of_contains {κ ν : Type} [DecidableEq κ] (m : UMap κ ν) (key : κ)
    (h : UMap.contains m key = true) : ∃ v, (key, v) ∈ m := by
  induction m with
  | nil => simp [UMap.contains, UMap.find] at h
  | cons e rest ih =>
    obtain ⟨k, w⟩ := e
    by_cases hk : k = key
    · exact ⟨w, by simp [hk]⟩
    · have : UMap.contains rest key = true := by
        simpa [UMap.contains, UMap.find, hk] using h
      obtain ⟨v, hv⟩ := ih this
      exact ⟨v, List.mem_cons_of_mem _ hv⟩

theorem create_chunk_fold (o : Options) (l : UMap Str Nat) (ch : Nat → Nat) (v : Nat) :
    l.foldl
      (fun ch entry =>
        let dnabit := keyChunk o entry.1
        if dnabit ≠ o.max_chunk_array then Function.update ch dnabit 1 else ch)
      ch v
      = if (∃ e ∈ l, keyChunk o e.1 = v) ∧ v ≠ o.max_chunk_array then 1 else ch v := by
  induction l generalizing ch with
  | nil => simp
  | cons e rest ih =>
    rw [List.foldl_cons, ih]
    simp only [List.mem_cons, exists_eq_or_imp]
    by_cases hv : v = o.max_chunk_array
    · subst hv
      by_cases hm : keyChunk o e.1 = o.max_chunk_array
      · simp [hm]
      · simp [hm, Function.update, Ne.symm hm]
    · by_cases hr : ∃ e2, e2 ∈ rest ∧ keyChunk o e2.1 = v
      · simp [hr, hv]
      · by_cases he : keyChunk o e.1 = v
        · subst he
          simp [hv]
        · by_cases hm : keyChunk o e.1 = o.max_chunk_array
          · rw [hm] at he
            simp [hm, hr, he]
          · simp [hm, hr, he, Function.update, Ne.symm he]

/-- The content of the chunk array after `create_chunk`. -/
theorem create_chunk_apply (o : Options) (merCounter : UMap Str Nat) (chunk : Nat → Nat)
    (v : Nat) :
    create_chunk o merCounter chunk v
      = if (∃ e ∈ merCounter, keyChunk o e.1 = v) ∧ v ≠ o.max_chunk_array then 1
        else if v < o.max_chunk_array then 0 else chunk v := by
  unfold create_chunk
  exact create_chunk_fold o merCounter _ v

theorem keyChunk_eq_packed (k : Nat) (hk : 1 ≤ k) (key : Str) (hlen : min k 16 ≤ key.length) :
    keyChunk (Options.ofKmer k) key = packed (key.take (min k 16)) := by
  unfold keyChunk
  simp only [Options.ofKmer, MAX_CHUNKLENGTH]
  rw [foldl_shiftAdd]
  have : min k 16 - 1 + 1 = min k 16 := by omega
  rw [this, map_strAt_range key _ hlen]
  apply Nat.mod_eq_of_lt
  have h1 := packed_lt (key.take (min k 16))
  have h2 : (key.take (min k 16)).length = min k 16 := by simp; omega
  rw [h2] at h1
  have h3 : 4 ^ (min k 16) ≤ 4294967296 :=
    Nat.le_of_dvd (by norm_num) (four_pow_dvd _ (Nat.min_le_right k 16))
  omega

/-- A window that is a key of the table passes the test of the window loop. -/
theorem prefilter_of_key (k : Nat) (hk : 1 ≤ k) (merCounter : UMap Str Nat)
    (chunk : Nat → Nat) (read : Str) (j : Nat)
    (hn : k ≤ read.length) (hj : j ≤ read.length - k)
    (hc : UMap.contains merCounter (substr read j k) = true) :
    prefilter (Options.ofKmer k) (create_chunk (Options.ofKmer k) merCounter chunk)
      (windowValue (Options.ofKmer k) read j) = true := by
  have hw := windowValue_eq_packed k hk read j (by omega)
  obtain ⟨v, hv⟩ := UMap.mem_of_contains merCounter _ hc
  have hlen : (substr read j k).length = k := by
    simp [substr]; omega
  have hkey : keyChunk (Options.ofKmer k) (substr read j k)
      = windowValue (Options.ofKmer k) read j := by
    rw [keyChunk_eq_packed k hk _ (by omega), hw]
    congr 1
    simp [substr, List.take_take]
  unfold prefilter
  rw [create_chunk_apply]
  by_cases hm : windowValue (Options.ofKmer k) read j = (Options.ofKmer k).max_chunk_array
  · simp [hm]
  · have : ∃ e ∈ merCounter, keyChunk (Options.ofKmer k) e.1
        = windowValue (Options.ofKmer k) read j := ⟨_, hv, hkey⟩
    simp [this, hm]

/-- C2: the prefilter has no false negative. For a read of length at least `k`
and a window `j <= length - k`, the rolling value tested at iteration `j` is the
packed encoding of `read[j..j+L]`, and if `read[j..j+k]` is a key of the table
from which `create_chunk` built the chunk array, the test
`chunk[w] == 1 || w == mask` succeeds. -/
theorem prefilter_no_false_negative (k : Nat) (hk : 1 ≤ k) (merCounter : UMap Str Nat)
    (chunk : Nat → Nat) (read : Str) (j : Nat)
    (hn : k ≤ read.length) (hj : j ≤ read.length - k) :
    windowValue (Options.ofKmer k) read j
        = packed (substr read j (Options.ofKmer k).chunk_length) ∧
    (UMap.contains merCounter (substr read j k) = true →
      prefilter (Options.ofKmer k) (create_chunk (Options.ofKmer k) merCounter chunk)
        (windowValue (Options.ofKmer k) read j) = true) :=
  ⟨windowValue_eq_packed k hk read j (by omega),
    prefilter_of_key k hk merCounter chunk read j hn hj⟩

/-! ## The match scan against the naive scan -/

theorem roll_dnabitBefore (o : Options) (read : Str) (m : Nat) :
    roll o read (dnabitBefore o read m) m = windowValue o read m := by
  cases m <;> rfl

/-- With the prefilter passing every key, one window step is the naive step. -/
theorem count_match_window_eq (k : Nat) (hk : 1 ≤ k) (merCounter : UMap Str Nat)
    (chunk : Nat → Nat) (read : Str) (m : Nat) (hn : k ≤ read.length)
    (hm : m ≤ read.length - k) (st : MatchState) :
    count_match_window (Options.ofKmer k) (create_chunk (Options.ofKmer k) merCounter chunk)
        merCounter read (dnabitBefore (Options.ofKmer k) read m, st) m
      = (windowValue (Options.ofKmer k) read m,
          { merLocalCounter :=
              if UMap.contains merCounter (substr read m k) = true
              then increment st.merLocalCounter (substr read m k) else st.merLocalCounter
            merTotalCounter := st.merTotalCounter + 1
            readCounter := st.readCounter }) := by
  unfold count_match_window
  simp only [roll_dnabitBefore]
  have hkm : (Options.ofKmer k).kmer = k := rfl
  rw [hkm]
  by_cases hc : UMap.contains merCounter (substr read m k) = true
  · have hp := prefilter_of_key k hk merCounter chunk read m hn hm hc
    simp [hp, hc]
  · have hc2 : UMap.contains merCounter (substr read m k) = false := by simpa using hc
    simp [hc2]

theorem filter_range_succ (p : Nat → Bool) (m : Nat) :
    ((List.range m ++ [m]).filter p).length
      = ((List.range m).filter p).length + (if p m = true then 1 else 0) := by
  rw [List.filter_append]
  by_cases h : p m = true <;> simp [h]

/-- The window loop of one read after `m` iterations. -/
theorem window_loop (k : Nat) (hk : 1 ≤ k) (merCounter : UMap Str Nat) (chunk : Nat → Nat)
    (read : Str) (hn : k ≤ read.length) (st : MatchState) (m : Nat)
    (hm : m ≤ read.length - k + 1) :
    ∃ st2 : MatchState,
      (List.range m).foldl
          (count_match_window (Options.ofKmer k)
            (create_chunk (Options.ofKmer k) merCounter chunk) merCounter read)
          (preroll (Options.ofKmer k) read, st)
        = (dnabitBefore (Options.ofKmer k) read m, st2) ∧
      (∀ s, countOf st2.merLocalCounter s
        = countOf st.merLocalCounter s +
          (if UMap.contains merCounter s = true
           then ((List.range m).filter (fun j => decide (substr read j k = s))).length
           else 0)) ∧
      (∀ s, UMap.contains merCounter s = false →
        UMap.find st2.merLocalCounter s = UMap.find st.merLocalCounter s) ∧
      st2.merTotalCounter = st.merTotalCounter + m ∧
      st2.readCounter = st.readCounter := by
  induction m with
  | zero => exact ⟨st, by simp [dnabitBefore]⟩
  | succ m ih =>
    obtain ⟨st2, hfold, hcount, hfind, htot, hrc⟩ := ih (by omega)
    rw [List.range_succ, List.foldl_append, hfold]
    simp only [List.foldl_cons, List.foldl_nil]
    rw [count_match_window_eq k hk merCounter chunk read m hn (by omega) st2]
    refine ⟨_, rfl, ?_, ?_, ?_, ?_⟩
    · intro s
      rw [filter_range_succ]
      simp only
      by_cases hc : UMap.contains merCounter (substr read m k) = true
      · simp only [hc, if_true]
        rw [countOf_increment, hcount s]
        by_cases hs : substr read m k = s
        · subst hs
          simp [hc]
          omega
        · simp [hs]
      · have hc2 : UMap.contains merCounter (substr read m k) = false := by simpa using hc
        simp only [hc2, Bool.false_eq_true, if_false]
        rw [hcount s]
        by_cases hs : substr read m k = s
        · subst hs
          simp [hc2]
        · simp [hs]
    · intro s hs
      simp only
      by_cases hc : UMap.contains merCounter (substr read m k) = true
      · simp only [hc, if_true]
        have hne : substr read m k ≠ s := by
          intro h
          rw [h, hs] at hc
          exact Bool.noConfusion hc
        rw [UMap.find_increment_ne _ _ _ hne]
        exact hfind s hs
      · have hc2 : UMap.contains merCounter (substr read m k) = false := by simpa using hc
        simp only [hc2, Bool.false_eq_true, if_false]
        exact hfind s hs
    · simp only
      omega
    · exact hrc

/-- The effect of one read of length at least `k` on the counters. -/
theorem count_match_read_spec (k : Nat) (hk : 1 ≤ k) (merCounter : UMap Str Nat)
    (chunk : Nat → Nat) (read : Str) (hn : k ≤ read.length) (st : MatchState) :
    (∀ s, countOf (count_match_read (Options.ofKmer k)
            (create_chunk (Options.ofKmer k) merCounter chunk) merCounter st read).merLocalCounter s
        = countOf st.merLocalCounter s +
          (if UMap.contains merCounter s = true then naiveCountRead k s read else 0)) ∧
    (∀ s, UMap.contains merCounter s = false →
      UMap.find (count_match_read (Options.ofKmer k)
            (create_chunk (Options.ofKmer k) merCounter chunk) merCounter st read).merLocalCounter s
        = UMap.find st.merLocalCounter s) ∧
    (count_match_read (Options.ofKmer k)
        (create_chunk (Options.ofKmer k) merCounter chunk) merCounter st read).merTotalCounter
      = st.merTotalCounter + (read.length - k + 1) ∧
    (count_match_read (Options.ofKmer k)
        (create_chunk (Options.ofKmer k) merCounter chunk) merCounter st read).readCounter
      = st.readCounter + 1 := by
  obtain ⟨st2, hfold, hcount, hfind, htot, hrc⟩ :=
    window_loop k hk merCounter chunk read hn
      { st with readCounter := st.readCounter + 1 } (read.length - k + 1) (le_refl _)
  have hkm : (Options.ofKmer k).kmer = k := rfl
  unfold count_match_read
  simp only [hkm]
  rw [hfold]
  exact ⟨hcount, hfind, htot, hrc⟩

/-- The effect of a batch of reads, each of length at least `k`, on the counters. -/
theorem count_match_spec (k : Nat) (hk : 1 ≤ k) (merCounter : UMap Str Nat)
    (chunk : Nat → Nat) (fastqData : List Str) (hlen : ∀ r ∈ fastqData, k ≤ r.length)
    (st : MatchState) :
    (∀ s, countOf (count_match (Options.ofKmer k)
            (create_chunk (Options.ofKmer k) merCounter chunk) fastqData merCounter st).merLocalCounter s
        = countOf st.merLocalCounter s +
          (if UMap.contains merCounter s = true then naiveCount k s fastqData else 0)) ∧
    (∀ s, UMap.contains merCounter s = false →
      UMap.find (count_match (Options.ofKmer k)
            (create_chunk (Options.ofKmer k) merCounter chunk) fastqData merCounter st).merLocalCounter s
        = UMap.find st.merLocalCounter s) ∧
    (count_match (Options.ofKmer k)
        (create_chunk (Options.ofKmer k) merCounter chunk) fastqData merCounter st).merTotalCounter
      = st.merTotalCounter + (fastqData.map (fun r => r.length - k + 1)).sum ∧
    (count_match (Options.ofKmer k)
        (create_chunk (Options.ofKmer k) merCounter chunk) fastqData merCounter st).readCounter
      = st.readCounter + fastqData.length := by
  induction fastqData generalizing st with
  | nil => simp [count_match, naiveCount]
  | cons read rest ih =>
    have hr := count_match_read_spec k hk merCounter chunk read
      (hlen read (List.mem_cons_self _ _)) st
    have ht := ih (fun r h => hlen r (List.mem_cons_of_mem _ h))
      (count_match_read (Options.ofKmer k)
        (create_chunk (Options.ofKmer k) merCounter chunk) merCounter st read)
    unfold count_match at ht ⊢
    rw [List.foldl_cons]
    obtain ⟨h1, h2, h3, h4⟩ := hr
    obtain ⟨t1, t2, t3, t4⟩ := ht
    refine ⟨?_, ?_, ?_, ?_⟩
    · intro s
      rw [t1 s, h1 s]
      by_cases hc : UMap.contains merCounter s = true
      · simp [hc, naiveCount]; omega
      · simp [hc]
    · intro s hs
      rw [t2 s hs, h2 s hs]
    · rw [t3, h3]
      simp only [List.map_cons, List.sum_cons]
      omega
    · rw [t4, h4]
      simp only [List.length_cons]
      omega

/-- C1: match-mode scanning with the prefilter equals the naive scan. For every
key table, every chunk array built from it by `create_chunk`, and every batch of
reads each of length at least `k`, `count_match` started on an empty local
counter leaves under every key the number of pairs (read, j) with
`0 <= j <= n - k` and `read[j..j+k] = key`, and gives no entry to a string
outside the key set. -/
theorem count_match_eq_naive (k : Nat) (hk : 1 ≤ k) (merCounter : UMap Str Nat)
    (chunk : Nat → Nat) (fastqData : List Str) (hlen : ∀ r ∈ fastqData, k ≤ r.length)
    (merTotalCounter readCounter : Nat) :
    (∀ key, UMap.contains merCounter key = true →
      countOf (count_match (Options.ofKmer k)
          (create_chunk (Options.ofKmer k) merCounter chunk) fastqData merCounter
          { merLocalCounter := [], merTotalCounter := merTotalCounter,
            readCounter := readCounter }).merLocalCounter key
        = naiveCount k key fastqData) ∧
    (∀ s, UMap.contains merCounter s = false →
      UMap.find (count_match (Options.ofKmer k)
          (create_chunk (Options.ofKmer k) merCounter chunk) fastqData merCounter
          { merLocalCounter := [], merTotalCounter := merTotalCounter,
            readCounter := readCounter }).merLocalCounter s
        = none) := by
  obtain ⟨h1, h2, _, _⟩ := count_match_spec k hk merCounter chunk fastqData hlen
    { merLocalCounter := [], merTotalCounter := merTotalCounter, readCounter := readCounter }
  refine ⟨?_, ?_⟩
  · intro key hc
    rw [h1 key]
    simp [hc, countOf, UMap.find]
  · intro s hs
    rw [h2 s hs]
    rfl

/-! ## The vector loader -/

theorem UMap.assign_fresh {κ ν : Type} [DecidableEq κ] (m : UMap κ ν) (key : κ) (v : ν)
    (h : ∀ e ∈ m, e.1 ≠ key) : UMap.assign m key v = m ++ [(key, v)] := by
  induction m with
  | nil => rfl
  | cons e rest ih =>
    obtain ⟨k, w⟩ := e
    have hk : k ≠ key := h (k, w) (List.mem_cons_self _ _)
    simp [UMap.assign, hk, ih (fun e he => h e (List.mem_cons_of_mem _ he))]

theorem set_merCounter_step_eq (kmer : Nat) (sequence : Str)
    (acc : UMap Str Nat × UMap Nat (Str × Str)) (i : Nat) :
    set_merCounter_step kmer sequence acc i
      = (UMap.assign (UMap.assign acc.1 (substr sequence i kmer) 0)
            (Complementary.mer (substr sequence i kmer)) 0,
          UMap.assign acc.2 i (merPair kmer sequence i)) := rfl

/-- The position map after `m` iterations of the loader loop, from an empty map. -/
theorem set_merCounter_fold_posPair (kmer : Nat) (sequence : Str) (mc0 : UMap Str Nat)
    (m : Nat) :
    ((List.range m).foldl (set_merCounter_step kmer sequence) (mc0, [])).2
      = (List.range m).map (fun i => (i, merPair kmer sequence i)) := by
  induction m with
  | zero => rfl
  | succ m ih =>
    rw [List.range_succ, List.foldl_append, List.map_append]
    simp only [List.foldl_cons, List.foldl_nil, List.map_cons, List.map_nil]
    rw [set_merCounter_step_eq]
    simp only
    rw [ih, UMap.assign_fresh]
    intro e he
    simp only [List.mem_map, List.mem_range] at he
    obtain ⟨i, hi, rfl⟩ := he
    simp only
    omega

/-- The count table after `m` iterations of the loader loop. -/
theorem set_merCounter_fold_merCounter (kmer : Nat) (sequence : Str) (mc0 : UMap Str Nat)
    (pp0 : UMap Nat (Str × Str)) (m : Nat) (key : Str) :
    UMap.find ((List.range m).foldl (set_merCounter_step kmer sequence) (mc0, pp0)).1 key
      = if ∃ i, i < m ∧ ((merPair kmer sequence i).1 = key ∨ (merPair kmer sequence i).2 = key)
        then some 0 else UMap.find mc0 key := by
  induction m with
  | zero => simp
  | succ m ih =>
    rw [List.range_succ, List.foldl_append]
    simp only [List.foldl_cons, List.foldl_nil]
    rw [set_merCounter_step_eq]
    simp only
    rw [UMap.find_assign, UMap.find_assign, ih]
    by_cases h2 : Complementary.mer (substr sequence m kmer) = key
    · have : ∃ i, i < m + 1 ∧
          ((merPair kmer sequence i).1 = key ∨ (merPair kmer sequence i).2 = key) :=
        ⟨m, by omega, Or.inr h2⟩
      rw [if_pos h2, if_pos this]
    · rw [if_neg h2]
      by_cases h1 : substr sequence m kmer = key
      · have : ∃ i, i < m + 1 ∧
            ((merPair kmer sequence i).1 = key ∨ (merPair kmer sequence i).2 = key) :=
          ⟨m, by omega, Or.inl h1⟩
        rw [if_pos h1, if_pos this]
      · rw [if_neg h1]
        by_cases h3 : ∃ i, i < m ∧
            ((merPair kmer sequence i).1 = key ∨ (merPair kmer sequence i).2 = key)
        · have : ∃ i, i < m + 1 ∧
              ((merPair kmer sequence i).1 = key ∨ (merPair kmer sequence i).2 = key) := by
            obtain ⟨i, hi, h⟩ := h3
            exact ⟨i, by omega, h⟩
          rw [if_pos h3, if_pos this]
        · have : ¬ ∃ i, i < m + 1 ∧
              ((merPair kmer sequence i).1 = key ∨ (merPair kmer sequence i).2 = key) := by
            rintro ⟨i, hi, h⟩
            by_cases him : i = m
            · subst him
              rcases h with h | h
              · exact h1 h
              · exact h2 h
            · exact h3 ⟨i, by omega, h⟩
          rw [if_neg h3, if_neg this]

theorem set_merCounter_ok (kmer : Nat) (st : VectorState) (h : kmer ≤ st.sequence.length) :
    set_merCounter kmer st
      = Except.ok
          { sequence := (st.sequence ++ substr st.sequence 0 (kmer - 1)).map toupper
            merCounter := ((List.range st.sequence.length).foldl
              (set_merCounter_step kmer
                ((st.sequence ++ substr st.sequence 0 (kmer - 1)).map toupper))
              (st.merCounter, st.posPair)).1
            posPair := ((List.range st.sequence.length).foldl
              (set_merCounter_step kmer
                ((st.sequence ++ substr st.sequence 0 (kmer - 1)).map toupper))
              (st.merCounter, st.posPair)).2 } := by
  unfold set_merCounter
  simp [h]

theorem set_merCounter_error (kmer : Nat) (st : VectorState) (h : st.sequence.length < kmer) :
    set_merCounter kmer st = Except.error st := by
  unfold set_merCounter
  have : ¬ st.sequence.length ≥ kmer := by omega
  simp only [this, if_false]

/-- C5: the vector loader fails exactly when the loaded sequence is shorter than
`k`; on failure the count table and the position map are as before the call; on
success every key the loader inserted has value 0 and no other entry of the
count table changed. -/
theorem set_merCounter_fails_iff (kmer : Nat) (st : VectorState) :
    ((∃ st2, set_merCounter kmer st = Except.error st2) ↔ st.sequence.length < kmer) ∧
    (∀ st2, set_merCounter kmer st = Except.error st2 →
      st2.merCounter = st.merCounter ∧ st2.posPair = st.posPair) ∧
    (∀ st2, set_merCounter kmer st = Except.ok st2 →
      ∀ key, UMap.find st2.merCounter key
        = if ∃ i, i < st.sequence.length ∧
              ((merPair kmer st2.sequence i).1 = key ∨ (merPair kmer st2.sequence i).2 = key)
          then some 0 else UMap.find st.merCounter key) := by
  by_cases h : kmer ≤ st.sequence.length
  · have hok := set_merCounter_ok kmer st h
    refine ⟨?_, ?_, ?_⟩
    · constructor
      · rintro ⟨st2, h2⟩
        rw [hok] at h2
        exact Except.noConfusion h2
      · intro h3
        omega
    · intro st2 h2
      rw [hok] at h2
      exact Except.noConfusion h2
    · intro st2 h2 key
      rw [hok] at h2
      injection h2 with h2
      subst h2
      exact set_merCounter_fold_merCounter kmer _ st.merCounter st.posPair _ key
  · have herr := set_merCounter_error kmer st (by omega)
    refine ⟨?_, ?_, ?_⟩
    · constructor
      · intro _
        omega
      · intro _
        exact ⟨st, herr⟩
    · intro st2 h2
      rw [herr] at h2
      injection h2 with h2
      subst h2
      exact ⟨rfl, rfl⟩
    · intro st2 h2
      rw [herr] at h2
      exact Except.noConfusion h2

theorem UMap.find_append {κ ν : Type} [DecidableEq κ] (a b : UMap κ ν) (key : κ) :
    UMap.find (a ++ b) key
      = match UMap.find a key with
        | some v => some v
        | none => UMap.find b key := by
  induction a with
  | nil => simp [UMap.find]
  | cons e rest ih =>
    obtain ⟨k, w⟩ := e
    by_cases hk : k = key
    · simp [UMap.find, hk]
    · simp [UMap.find, hk, ih]

theorem UMap.find_map_range {ν : Type} (f : Nat → ν) (n i : Nat) :
    UMap.find ((List.range n).map (fun i => (i, f i))) i = if i < n then some (f i) else none := by
  induction n with
  | zero => simp [UMap.find]
  | succ n ih =>
    rw [List.range_succ, List.map_append, UMap.find_append, ih]
    by_cases h1 : i < n
    · have : i < n + 1 := by omega
      simp [h1, this]
    · by_cases h2 : i = n
      · subst h2
        simp [UMap.find]
      · have : ¬ i < n + 1 := by omega
        simp [h1, this, UMap.find, Ne.symm h2]

theorem strAt_eq_getElem? (s : Str) (i : Nat) : strAt s i = (s[i]?).getD (Char.ofNat 0) := by
  simp [strAt, List.getD_eq_getElem?_getD]

/-- The characters of the k-mer at position `i` of the circularised, upper-cased
sequence. -/
theorem strAt_circular (k : Nat) (sequence : Str) (hn : k ≤ sequence.length) (i j : Nat)
    (hi : i < sequence.length) (hj : j < k) :
    strAt (substr ((sequence ++ substr sequence 0 (k - 1)).map toupper) i k) j
      = toupper (strAt sequence ((i + j) % sequence.length)) := by
  rw [strAt_eq_getElem?, strAt_eq_getElem?]
  unfold substr
  rw [List.getElem?_take_of_lt hj, List.getElem?_drop, List.getElem?_map]
  by_cases h : i + j < sequence.length
  · rw [List.getElem?_append_left h, Nat.mod_eq_of_lt h]
    simp [List.getElem?_eq_getElem h]
  · have h2 : sequence.length ≤ i + j := by omega
    have h3 : (i + j) % sequence.length = i + j - sequence.length := by
      rw [Nat.mod_eq_sub_mod h2, Nat.mod_eq_of_lt (by omega)]
    rw [List.getElem?_append_right h2, h3]
    simp only [List.drop_zero]
    rw [List.getElem?_take_of_lt (by omega)]
    have h4 : i + j - sequence.length < sequence.length := by omega
    simp [List.getElem?_eq_getElem h4]

/-- C4: for a sequence of length `n >= k` (and `k >= 1`) the loader, started on
empty tables, succeeds and circularises the sequence: the returned string has
length `n + k - 1`; for every position `i < n` the position map holds
`(mer(i), revComp(mer(i)))` where `mer(i)` has length `k` and
`mer(i)[j] = toupper(sequence[(i + j) mod n])` for every `j < k`; and the keys of
the position map are exactly `0 .. n - 1`. -/
theorem set_merCounter_circular (k : Nat) (hk : 1 ≤ k) (sequence : Str)
    (hn : k ≤ sequence.length) :
    ∃ st, set_merCounter k { sequence := sequence, merCounter := [], posPair := [] }
        = Except.ok st ∧
      st.sequence.length = sequence.length + k - 1 ∧
      (∀ i, i < sequence.length →
        UMap.find st.posPair i
          = some (substr st.sequence i k, Complementary.mer (substr st.sequence i k)) ∧
        (substr st.sequence i k).length = k ∧
        ∀ j, j < k →
          strAt (substr st.sequence i k) j
            = toupper (strAt sequence ((i + j) % sequence.length))) ∧
      (∀ i, UMap.contains st.posPair i = true ↔ i < sequence.length) := by
  refine ⟨_, set_merCounter_ok k _ hn, ?_, ?_, ?_⟩
  · simp [substr]
    omega
  · intro i hi
    simp only
    rw [set_merCounter_fold_posPair, UMap.find_map_range]
    refine ⟨by simp [hi, merPair], ?_, ?_⟩
    · simp [substr]
      omega
    · intro j hj
      exact strAt_circular k sequence hn i j hi hj
  · intro i
    simp only [UMap.contains]
    rw [set_merCounter_fold_posPair, UMap.find_map_range]
    by_cases h : i < sequence.length <;> simp [h]

/-! ## Per-position frequencies -/

theorem stdMapInsert_perm {ν : Type} (e : Nat × ν) (m : UMap Nat ν)
    (h : ∀ b ∈ m, b.1 ≠ e.1) : (stdMapInsert e m).Perm (e :: m) := by
  induction m with
  | nil => exact List.Perm.refl _
  | cons b rest ih =>
    have hb : b.1 ≠ e.1 := h b (List.mem_cons_self _ _)
    unfold stdMapInsert
    by_cases h1 : e.1 < b.1
    · simp only [h1, if_true]
      exact List.Perm.refl _
    · simp only [h1, if_false, Ne.symm hb]
      exact ((ih (fun c hc => h c (List.mem_cons_of_mem _ hc))).cons b).trans
        (List.Perm.swap e b rest)

theorem stdMapInsert_sorted {ν : Type} (e : Nat × ν) (m : UMap Nat ν)
    (hs : List.Pairwise (fun a b : Nat × ν => a.1 < b.1) m) (h : ∀ b ∈ m, b.1 ≠ e.1) :
    List.Pairwise (fun a b : Nat × ν => a.1 < b.1) (stdMapInsert e m) := by
  induction m with
  | nil => simp [stdMapInsert]
  | cons b rest ih =>
    have hb : b.1 ≠ e.1 := h b (List.mem_cons_self _ _)
    obtain ⟨hbr, hrest⟩ := List.pairwise_cons.mp hs
    unfold stdMapInsert
    by_cases h1 : e.1 < b.1
    · simp only [h1, if_true]
      refine List.pairwise_cons.mpr ⟨?_, hs⟩
      intro x hx
      rcases List.mem_cons.mp hx with h2 | h2
      · rw [h2]; exact h1
      · exact lt_trans h1 (hbr x h2)
    · simp only [h1, if_false, Ne.symm hb]
      have hrest2 : ∀ c ∈ rest, c.1 ≠ e.1 := fun c hc => h c (List.mem_cons_of_mem _ hc)
      refine List.pairwise_cons.mpr ⟨?_, ih hrest hrest2⟩
      intro x hx
      rcases List.mem_cons.mp ((stdMapInsert_perm e rest hrest2).mem_iff.mp hx) with h2 | h2
      · rw [h2]; omega
      · exact hbr x h2

/-- The `std::map` built from entries with distinct keys holds exactly those
entries, in strictly ascending key order. -/
theorem toStdMap_fold {ν : Type} (pp acc : UMap Nat ν)
    (hs : List.Pairwise (fun a b : Nat × ν => a.1 < b.1) acc)
    (hnd : (pp.map Prod.fst).Nodup)
    (hdis : ∀ e ∈ pp, ∀ b ∈ acc, b.1 ≠ e.1) :
    (pp.foldl (fun acc e => stdMapInsert e acc) acc).Perm (pp ++ acc) ∧
    List.Pairwise (fun a b : Nat × ν => a.1 < b.1)
      (pp.foldl (fun acc e => stdMapInsert e acc) acc) := by
  induction pp generalizing acc with
  | nil => exact ⟨List.Perm.refl _, hs⟩
  | cons e rest ih =>
    simp only [List.map_cons, List.nodup_cons] at hnd
    have he : ∀ b ∈ acc, b.1 ≠ e.1 := hdis e (List.mem_cons_self _ _)
    have hperm := stdMapInsert_perm e acc he
    have hdis2 : ∀ x ∈ rest, ∀ b ∈ stdMapInsert e acc, b.1 ≠ x.1 := by
      intro x hx b hb
      rcases List.mem_cons.mp (hperm.mem_iff.mp hb) with h2 | h2
      · rw [h2]
        intro heq
        exact hnd.1 (List.mem_map.mpr ⟨x, hx, heq.symm⟩)
      · exact hdis x (List.mem_cons_of_mem _ hx) b h2
    obtain ⟨h1, h2⟩ := ih (stdMapInsert e acc) (stdMapInsert_sorted e acc hs he) hnd.2 hdis2
    rw [List.foldl_cons]
    refine ⟨?_, h2⟩
    refine h1.trans ?_
    refine (List.Perm.append_left rest hperm).trans ?_
    simp only [List.cons_append]
    exact List.perm_middle

/-- Whatever the iteration order of the unordered position map, the ordered map
built from it is the list of the positions in ascending order. -/
theorem toStdMap_of_perm {ν : Type} (f : Nat → ν) (n : Nat) (pp : UMap Nat ν)
    (hp : pp.Perm ((List.range n).map (fun i => (i, f i)))) :
    toStdMap pp = (List.range n).map (fun i => (i, f i)) := by
  have hkeys : ((List.range n).map (fun i => (i, f i))).map Prod.fst = List.range n := by
    rw [List.map_map]
    exact List.map_id _
  have hnd : (pp.map Prod.fst).Nodup := by
    have := (hp.map Prod.fst).nodup_iff.mpr (by rw [hkeys]; exact List.nodup_range n)
    exact this
  obtain ⟨h1, h2⟩ := toStdMap_fold pp [] List.Pairwise.nil hnd (by simp)
  have hsorted : List.Pairwise (fun a b : Nat × ν => a.1 < b.1)
      ((List.range n).map (fun i => (i, f i))) := by
    rw [List.pairwise_map]
    exact List.Pairwise.imp (fun {a b} h => h) (List.pairwise_lt_range n)
  haveI : IsAntisymm (Nat × ν) (fun a b => a.1 < b.1) :=
    ⟨fun a b h1 h2 => absurd h1 (by omega)⟩
  apply List.eq_of_perm_of_sorted (r := fun a b : Nat × ν => a.1 < b.1) _ h2 hsorted
  have h3 : (pp.foldl (fun acc e => stdMapInsert e acc) []).Perm pp := by
    simpa using h1
  exact h3.trans hp

theorem set_posFreq_fold (merCounter : UMap Str Nat) (pp : UMap Nat (Str × Str))
    (acc : List Nat)
    (h : ∀ e ∈ pp, UMap.contains merCounter e.2.1 = true ∧ UMap.contains merCounter e.2.2 = true) :
    pp.foldl
      (fun acc entry =>
        match acc, UMap.find merCounter entry.2.1, UMap.find merCounter entry.2.2 with
        | some posBothFreq, some a, some b => some (posBothFreq ++ [a + b])
        | _, _, _ => none)
      (some acc)
      = some (acc ++ pp.map (fun e => countOf merCounter e.2.1 + countOf merCounter e.2.2)) := by
  induction pp generalizing acc with
  | nil => simp
  | cons e rest ih =>
    obtain ⟨h1, h2⟩ := h e (List.mem_cons_self _ _)
    simp only [UMap.contains, Option.isSome_iff_exists] at h1 h2
    obtain ⟨a, ha⟩ := h1
    obtain ⟨b, hb⟩ := h2
    rw [List.foldl_cons]
    simp only [ha, hb]
    rw [ih _ (fun c hc => h c (List.mem_cons_of_mem _ hc))]
    simp [countOf, ha, hb]

/-- C3: for a vector of length `n >= k` loaded on empty tables, every count
table that has an entry for each seeded key, and every iteration order of the
unordered position map, `set_posFreq` on the ordered position map returns a
list of length `n` whose entry `i` is
`merCounter[mer(i)] + merCounter[revComp(mer(i))]`, position by position in
ascending order. -/
theorem set_posFreq_spec (k : Nat) (sequence : Str) (hn : k ≤ sequence.length)
    (merCounter : UMap Str Nat) :
    ∃ st, set_merCounter k { sequence := sequence, merCounter := [], posPair := [] }
        = Except.ok st ∧
      ((∀ key, UMap.contains st.merCounter key = true → UMap.contains merCounter key = true) →
        ∀ pp : UMap Nat (Str × Str), pp.Perm st.posPair →
        ∃ posBothFreq, set_posFreq merCounter (toStdMap pp) = some posBothFreq ∧
          posBothFreq.length = sequence.length ∧
          ∀ i, i < sequence.length →
            posBothFreq[i]? = some (countOf merCounter (substr st.sequence i k) +
              countOf merCounter (Complementary.mer (substr st.sequence i k)))) := by
  refine ⟨_, set_merCounter_ok k _ hn, ?_⟩
  intro hkeys pp hpp
  simp only at hkeys hpp ⊢
  rw [set_merCounter_fold_posPair] at hpp
  rw [toStdMap_of_perm _ _ pp hpp]
  refine ⟨_, set_posFreq_fold merCounter _ [] ?_, ?_, ?_⟩
  · intro e he
    simp only [List.mem_map, List.mem_range] at he
    obtain ⟨i, hi, rfl⟩ := he
    constructor
    · apply hkeys
      simp only [UMap.contains]
      rw [set_merCounter_fold_merCounter, if_pos ⟨i, hi, Or.inl rfl⟩]
      rfl
    · apply hkeys
      simp only [UMap.contains]
      rw [set_merCounter_fold_merCounter, if_pos ⟨i, hi, Or.inr rfl⟩]
      rfl
  · simp
  · intro i hi
    simp [List.getElem?_range hi, merPair, hi]

/-! ## The Benjamini-Hochberg walk -/

theorem UMap.mem_of_find {κ ν : Type} [DecidableEq κ] (m : UMap κ ν) (key : κ) (v : ν)
    (h : UMap.find m key = some v) : (key, v) ∈ m := by
  induction m with
  | nil => simp [UMap.find] at h
  | cons e rest ih =>
    obtain ⟨k, w⟩ := e
    by_cases hk : k = key
    · simp only [UMap.find, hk, if_true, Option.some.injEq] at h
      simp [hk, h]
    · simp only [UMap.find, hk, if_false] at h
      exact List.mem_cons_of_mem _ (ih h)

theorem UMap.find_foldl_assign_not_mem {F : Type} (h : F → F) (l : List (F × Nat)) (f0 : UMap Nat F)
    (i : Nat) (hi : i ∉ l.map Prod.snd) :
    UMap.find (l.foldl (fun f e => UMap.assign f e.2 (h e.1)) f0) i = UMap.find f0 i := by
  induction l generalizing f0 with
  | nil => rfl
  | cons e rest ih =>
    simp only [List.map_cons, List.mem_cons, not_or] at hi
    rw [List.foldl_cons, ih _ hi.2, UMap.find_assign, if_neg (Ne.symm hi.1)]

theorem UMap.find_foldl_assign {F : Type} (h : F → F) (l : List (F × Nat))
    (hn : (l.map Prod.snd).Nodup) (f0 : UMap Nat F) (p : F) (i : Nat) (hm : (p, i) ∈ l) :
    UMap.find (l.foldl (fun f e => UMap.assign f e.2 (h e.1)) f0) i = some (h p) := by
  induction l generalizing f0 with
  | nil => simp at hm
  | cons e rest ih =>
    simp only [List.map_cons, List.nodup_cons] at hn
    rw [List.foldl_cons]
    rcases List.mem_cons.mp hm with h1 | h1
    · subst h1
      rw [UMap.find_foldl_assign_not_mem h rest _ _ hn.1, UMap.find_assign]
      simp
    · exact ih hn.2 _ h1

section FdrLemmas

variable {F : Type} [LinearOrderedField F]

instance pairLE_total : IsTotal (F × Nat) pairLE where
  total a b := by
    unfold pairLE
    rcases lt_trichotomy a.1 b.1 with h | h | h
    · exact Or.inl (Or.inl h)
    · rcases le_total a.2 b.2 with h2 | h2
      · exact Or.inl (Or.inr ⟨h, h2⟩)
      · exact Or.inr (Or.inr ⟨h.symm, h2⟩)
    · exact Or.inr (Or.inl h)

instance pairLE_trans : IsTrans (F × Nat) pairLE where
  trans a b c := by
    unfold pairLE
    rintro (h1 | ⟨h1, h1b⟩) (h2 | ⟨h2, h2b⟩)
    · exact Or.inl (lt_trans h1 h2)
    · exact Or.inl (h2 ▸ h1)
    · exact Or.inl (h1 ▸ h2)
    · exact Or.inr ⟨h1.trans h2, le_trans h1b h2b⟩

theorem pairLE_fst_le (a b : F × Nat) (h : pairLE a b) : a.1 ≤ b.1 := by
  rcases h with h | ⟨h, _⟩
  · exact le_of_lt h
  · exact le_of_eq h

/-- The value the walk assigns at a fresh p-value, when exactly `c` entries are
strictly smaller. -/
theorem bhClosed_of_count (ps : List F) (p : F) (c : Nat)
    (h : ps.countP (fun q => decide (q < p)) = c) :
    min (p * (ps.length : F) / ((c : F) + 1)) 1 = bhClosed ps p := by
  unfold bhClosed bhRank
  rw [h, min_comm]
  push_cast
  rw [add_comm]

/-- The walk over a suffix of the sorted vector assigns the closed form to every
entry of the suffix. -/
theorem fdr_walk_fold (whole : List (F × Nat))
    (hs : List.Pairwise (fun a b : F × Nat => a.1 ≤ b.1) whole) :
    ∀ (suf pre : List (F × Nat)) (s : FdrWalk F),
      pre ++ suf = whole →
      s.vector_pos = (pre.length : F) + 1 →
      s.fdr_prev = bhClosed (whole.map Prod.fst) s.pval_prev →
      (∀ x ∈ pre, x.1 ≤ s.pval_prev) →
      (∀ x ∈ suf, s.pval_prev ≤ x.1) →
      (suf.foldl (fdr_match_step (whole.length : F)) s).fdr
        = suf.foldl (fun f e => UMap.assign f e.2 (bhClosed (whole.map Prod.fst) e.1)) s.fdr := by
  intro suf
  induction suf with
  | nil => intro pre s _ _ _ _ _; rfl
  | cons e rest ih =>
    intro pre s hw hpos hprev hpre hsuf
    have hw2 : (pre ++ [e]) ++ rest = whole := by simpa using hw
    have hsorted : ∀ x ∈ rest, e.1 ≤ x.1 := by
      rw [← hw] at hs
      have h1 := (List.pairwise_append.mp hs).2.1
      exact fun x hx => (List.pairwise_cons.mp h1).1 x hx
    rw [List.foldl_cons, List.foldl_cons]
    by_cases heq : e.1 = s.pval_prev
    · have hstep : fdr_match_step (whole.length : F) s e
          = { s with fdr := UMap.assign s.fdr e.2 s.fdr_prev,
                     vector_pos := s.vector_pos + 1 } := by
        simp [fdr_match_step, heq]
      rw [hstep, ih (pre ++ [e]) _ hw2]
      · simp only
        rw [hprev, heq]
      · simp only [List.length_append, List.length_singleton]
        rw [hpos]
        push_cast
        ring
      · exact hprev
      · intro x hx
        rcases List.mem_append.mp hx with h | h
        · exact hpre x h
        · simp only [List.mem_singleton] at h
          rw [h, heq]
      · intro x hx
        exact hsuf x (List.mem_cons_of_mem _ hx)
    · have hlt : s.pval_prev < e.1 :=
        lt_of_le_of_ne (hsuf e (List.mem_cons_self _ _)) (Ne.symm heq)
      have hcount : (whole.map Prod.fst).countP (fun q => decide (q < e.1)) = pre.length := by
        rw [← hw, List.map_append, List.countP_append, List.countP_map, List.countP_map]
        have h1 : List.countP ((fun q => decide (q < e.1)) ∘ Prod.fst) pre = pre.length := by
          rw [List.countP_eq_length]
          intro x hx
          simp only [Function.comp, decide_eq_true_eq]
          exact lt_of_le_of_lt (hpre x hx) hlt
        have h2 : List.countP ((fun q => decide (q < e.1)) ∘ Prod.fst) (e :: rest) = 0 := by
          rw [List.countP_eq_zero]
          intro x hx
          simp only [Function.comp, decide_eq_true_eq, not_lt]
          rcases List.mem_cons.mp hx with h | h
          · rw [h]
          · exact hsorted x h
        rw [h1, h2]
        rfl
      have hval : min (e.1 * (whole.length : F) / s.vector_pos) 1
          = bhClosed (whole.map Prod.fst) e.1 := by
        rw [hpos]
        have := bhClosed_of_count (whole.map Prod.fst) e.1 pre.length hcount
        simpa using this
      have hstep : fdr_match_step (whole.length : F) s e
          = { fdr := UMap.assign s.fdr e.2 (bhClosed (whole.map Prod.fst) e.1)
              vector_pos := s.vector_pos + 1
              pval_prev := e.1
              fdr_prev := bhClosed (whole.map Prod.fst) e.1 } := by
        simp [fdr_match_step, heq, hval]
      rw [hstep, ih (pre ++ [e]) _ hw2]
      · simp only [List.length_append, List.length_singleton]
        rw [hpos]
        push_cast
        ring
      · rfl
      · intro x hx
        rcases List.mem_append.mp hx with h | h
        · exact le_of_lt (lt_of_le_of_lt (hpre x h) hlt)
        · simp only [List.mem_singleton] at h
          rw [h]
      · exact hsorted

/-- The values stored by `fdr_match`: the closed form of the sorted walk. -/
theorem fdr_match_spec (g : Gtest F) (hne : g.pval ≠ [])
    (hkeys : (UMap.keys g.pval).Nodup) :
    ∃ g2, g.fdr_match = some g2 ∧ g2.pval = g.pval ∧
      (∀ i p, UMap.find g.pval i = some p →
        UMap.find g2.fdr i
          = some (min 1 (p * (g.pval.length : F) /
              ((1 + (g.pval.map Prod.snd).countP (fun q => decide (q < p)) : Nat) : F)))) ∧
      (∀ i j p, UMap.find g.pval i = some p → UMap.find g.pval j = some p →
        UMap.find g2.fdr i = UMap.find g2.fdr j) := by
  have hperm := List.perm_insertionSort (pairLE : F × Nat → F × Nat → Prop)
    (g.pval.map (fun e => (e.2, e.1)))
  have hsorted := List.sorted_insertionSort (pairLE : F × Nat → F × Nat → Prop)
    (g.pval.map (fun e => (e.2, e.1)))
  generalize hv : List.insertionSort pairLE (g.pval.map (fun e => (e.2, e.1))) = v
    at hperm hsorted
  have hpw : List.Pairwise (fun a b : F × Nat => a.1 ≤ b.1) v :=
    List.Pairwise.imp (fun {a b} h => pairLE_fst_le a b h) hsorted
  have hlen : v.length = g.pval.length := by
    rw [hperm.length_eq, List.length_map]
  have hfst : (v.map Prod.fst).Perm (g.pval.map Prod.snd) := by
    have := hperm.map Prod.fst
    simpa [List.map_map, Function.comp] using this
  have hsnd : (v.map Prod.snd).Perm (UMap.keys g.pval) := by
    have := hperm.map Prod.snd
    simpa [List.map_map, Function.comp, UMap.keys] using this
  have hnodup : (v.map Prod.snd).Nodup := hsnd.nodup_iff.mpr hkeys
  have hclosed : ∀ p, bhClosed (v.map Prod.fst) p
      = min 1 (p * (g.pval.length : F) /
          ((1 + (g.pval.map Prod.snd).countP (fun q => decide (q < p)) : Nat) : F)) := by
    intro p
    unfold bhClosed bhRank
    rw [hfst.countP_eq, hfst.length_eq, List.length_map]
  have hvalue : ∀ g2 : Gtest F,
      g2.fdr = v.foldl (fun f e => UMap.assign f e.2 (bhClosed (v.map Prod.fst) e.1)) g.fdr →
      ∀ i p, UMap.find g.pval i = some p →
        UMap.find g2.fdr i
          = some (min 1 (p * (g.pval.length : F) /
              ((1 + (g.pval.map Prod.snd).countP (fun q => decide (q < p)) : Nat) : F))) := by
    intro g2 hg2 i p hfind
    have hmem : (p, i) ∈ v := by
      apply hperm.mem_iff.mpr
      exact List.mem_map.mpr ⟨(i, p), UMap.mem_of_find _ _ _ hfind, rfl⟩
    rw [hg2, UMap.find_foldl_assign _ v hnodup g.fdr p i hmem, hclosed]
  cases v with
  | nil =>
    exfalso
    apply hne
    exact List.length_eq_zero.mp (by simpa using hlen.symm)
  | cons first rest =>
    have hwalk := fdr_walk_fold (first :: rest) hpw (first :: rest) []
      { fdr := g.fdr, vector_pos := 1, pval_prev := first.1,
        fdr_prev := min (first.1 * ((first :: rest).length : F)) 1 }
      rfl (by simp)
      (by
        have hc : ((first :: rest).map Prod.fst).countP (fun q => decide (q < first.1)) = 0 := by
          rw [List.countP_eq_zero]
          intro x hx
          simp only [decide_eq_true_eq, not_lt]
          obtain ⟨y, hy, rfl⟩ := List.mem_map.mp hx
          rcases List.mem_cons.mp hy with h | h
          · rw [h]
          · exact (List.pairwise_cons.mp hpw).1 y h
        have := bhClosed_of_count ((first :: rest).map Prod.fst) first.1 0 hc
        simpa using this)
      (by simp)
      (by
        intro x hx
        rcases List.mem_cons.mp hx with h | h
        · rw [h]
        · exact (List.pairwise_cons.mp hpw).1 x h)
    refine ⟨{ g with fdr := ((first :: rest).foldl
        (fdr_match_step ((first :: rest).length : F))
        { fdr := g.fdr, vector_pos := 1, pval_prev := first.1,
          fdr_prev := min (first.1 * ((first :: rest).length : F)) 1 }).fdr }, ?_, rfl, ?_, ?_⟩
    · unfold Gtest.fdr_match
      simp only [hv]
    · exact hvalue _ hwalk
    · intro i j p hi hj
      rw [hvalue _ hwalk i p hi, hvalue _ hwalk j p hj]

/-- C7: Benjamini-Hochberg as implemented has the closed form. For a non-empty
p-value table (one entry per position), `fdr_match` succeeds, leaves the
p-values alone and stores for every position `i` with p-value `p_i` the value
`min(1, p_i * n / r_i)` with `n` the number of entries and
`r_i = 1 + |{ j : p_j < p_i }|`; so two positions with the same p-value get the
same FDR. -/
theorem fdr_match_closed_form (g : Gtest F) (hne : g.pval ≠ [])
    (hkeys : (UMap.keys g.pval).Nodup) :
    ∃ g2, g.fdr_match = some g2 ∧ g2.pval = g.pval ∧
      (∀ i p, UMap.find g.pval i = some p →
        UMap.find g2.fdr i
          = some (min 1 (p * (g.pval.length : F) /
              ((1 + (g.pval.map Prod.snd).countP (fun q => decide (q < p)) : Nat) : F)))) ∧
      (∀ i j p, UMap.find g.pval i = some p → UMap.find g.pval j = some p →
        UMap.find g2.fdr i = UMap.find g2.fdr j) :=
  fdr_match_spec g hne hkeys

end FdrLemmas

/-! ## The match-phase loop of the G-test -/

theorem stockAt_of_find {κ ν : Type} [DecidableEq κ] [Zero ν] (m : UMap κ ν) (key : κ) (v : ν)
    (h : UMap.find m key = some v) : stockAt m key = (v, m) := by
  simp [stockAt, h]

section KmerMatchLemmas

variable {F : Type} [LinearOrderedField F]


/-- `fdr_match` succeeds on a non-empty p-value table and changes only `fdr`. -/
theorem fdr_match_frame (g : Gtest F) (hne : g.pval ≠ []) :
    ∃ g2, g.fdr_match = some g2 ∧ g2.gval = g.gval ∧ g2.pval = g.pval ∧ g2.bon = g.bon := by
  have hperm := List.perm_insertionSort (pairLE : F × Nat → F × Nat → Prop)
    (g.pval.map (fun e => (e.2, e.1)))
  generalize hv : List.insertionSort pairLE (g.pval.map (fun e => (e.2, e.1))) = v at hperm
  cases v with
  | nil =>
    exfalso
    apply hne
    have := hperm.length_eq
    exact List.length_eq_zero.mp (by simpa using this.symm)
  | cons first rest =>
    refine ⟨{ g with fdr := ((first :: rest).foldl
        (fdr_match_step ((first :: rest).length : F))
        { fdr := g.fdr, vector_pos := 1, pval_prev := first.1,
          fdr_prev := min (first.1 * ((first :: rest).length : F)) 1 }).fdr }, ?_, rfl, rfl, rfl⟩
    unfold Gtest.fdr_match
    simp only [hv]

/-- The loop of `kmer_match` after `t` iterations: every processed position holds
the values computed from its own pair of counts, and every cached pair holds the
values computed from that pair. -/
theorem kmer_match_loop (log : F → F) (chdtrc : F → F → F) (g : Gtest F)
    (mutantPosFreq wildTypePosFreq : List Nat) (t : Nat) :
    ∃ s : MatchLoop F,
      (List.range t).foldl (g.kmer_match_step log chdtrc mutantPosFreq wildTypePosFreq)
        { gval := g.gval, pval := g.pval, bon := g.bon,
          gval_stock := [], pval_stock := [], bon_stock := [] } = s ∧
      (∀ i, i < t →
        UMap.find s.gval i = some (g.kmer_match_compute log chdtrc mutantPosFreq.length
          (mutantPosFreq.getD i 0, wildTypePosFreq.getD i 0)).1 ∧
        UMap.find s.pval i = some (g.kmer_match_compute log chdtrc mutantPosFreq.length
          (mutantPosFreq.getD i 0, wildTypePosFreq.getD i 0)).2.1 ∧
        UMap.find s.bon i = some (g.kmer_match_compute log chdtrc mutantPosFreq.length
          (mutantPosFreq.getD i 0, wildTypePosFreq.getD i 0)).2.2) ∧
      (∀ target, UMap.contains s.gval_stock target = true →
        UMap.find s.gval_stock target
          = some (g.kmer_match_compute log chdtrc mutantPosFreq.length target).1 ∧
        UMap.find s.pval_stock target
          = some (g.kmer_match_compute log chdtrc mutantPosFreq.length target).2.1 ∧
        UMap.find s.bon_stock target
          = some (g.kmer_match_compute log chdtrc mutantPosFreq.length target).2.2) := by
  induction t with
  | zero =>
    refine ⟨_, rfl, ?_, ?_⟩
    · intro i hi
      omega
    · intro target h
      simp [UMap.contains, UMap.find] at h
  | succ t ih =>
    obtain ⟨s, hfold, hpos, hstock⟩ := ih
    rw [List.range_succ, List.foldl_append, hfold]
    simp only [List.foldl_cons, List.foldl_nil]
    by_cases hc : UMap.contains s.gval_stock
        (mutantPosFreq.getD t 0, wildTypePosFreq.getD t 0) = true
    · obtain ⟨h1, h2, h3⟩ := hstock _ hc
      refine ⟨_, rfl, ?_, ?_⟩
      · intro i hi
        unfold Gtest.kmer_match_step
        simp only [hc, if_true, stockAt_of_find _ _ _ h1, stockAt_of_find _ _ _ h2,
          stockAt_of_find _ _ _ h3, UMap.find_assign]
        by_cases hit : t = i
        · subst hit
          simp
        · simp only [hit, if_false]
          exact hpos i (by omega)
      · intro target htg
        unfold Gtest.kmer_match_step at htg ⊢
        simp only [hc, if_true, stockAt_of_find _ _ _ h1, stockAt_of_find _ _ _ h2,
          stockAt_of_find _ _ _ h3] at htg ⊢
        exact hstock target htg
    · have hc2 : UMap.contains s.gval_stock
          (mutantPosFreq.getD t 0, wildTypePosFreq.getD t 0) = false := by simpa using hc
      refine ⟨_, rfl, ?_, ?_⟩
      · intro i hi
        unfold Gtest.kmer_match_step
        simp only [hc2, Bool.false_eq_true, if_false, UMap.find_assign]
        by_cases hit : t = i
        · subst hit
          simp
        · simp only [hit, if_false]
          exact hpos i (by omega)
      · intro target htg
        unfold Gtest.kmer_match_step at htg ⊢
        simp only [hc2, Bool.false_eq_true, if_false, UMap.find_assign,
          UMap.contains_assign] at htg ⊢
        by_cases htt : (mutantPosFreq.getD t 0, wildTypePosFreq.getD t 0) = target
        · subst htt
          simp
        · simp only [htt, if_false]
          apply hstock target
          rcases (Bool.or_eq_true _ _).mp htg with h | h
          · exact absurd (of_decide_eq_true h) htt
          · exact h

/-- After `kmer_match` on a non-empty frequency vector every position holds the
values computed from its own pair of counts (the caches are transparent). -/
theorem kmer_match_values (log : F → F) (chdtrc : F → F → F) (g : Gtest F)
    (mutantPosFreq wildTypePosFreq : List Nat) (hn : 0 < mutantPosFreq.length) :
    ∃ g2, g.kmer_match log chdtrc mutantPosFreq wildTypePosFreq = some g2 ∧
      ∀ i, i < mutantPosFreq.length →
        UMap.find g2.gval i = some (g.kmer_match_compute log chdtrc mutantPosFreq.length
          (mutantPosFreq.getD i 0, wildTypePosFreq.getD i 0)).1 ∧
        UMap.find g2.pval i = some (g.kmer_match_compute log chdtrc mutantPosFreq.length
          (mutantPosFreq.getD i 0, wildTypePosFreq.getD i 0)).2.1 ∧
        UMap.find g2.bon i = some (g.kmer_match_compute log chdtrc mutantPosFreq.length
          (mutantPosFreq.getD i 0, wildTypePosFreq.getD i 0)).2.2 := by
  obtain ⟨s, hfold, hpos, _⟩ :=
    kmer_match_loop log chdtrc g mutantPosFreq wildTypePosFreq mutantPosFreq.length
  have hne : s.pval ≠ [] := by
    intro h
    have := (hpos 0 hn).2.1
    rw [h] at this
    simp [UMap.find] at this
  obtain ⟨g2, hg2, h1, h2, h3⟩ :=
    fdr_match_frame { g with gval := s.gval, pval := s.pval, bon := s.bon } hne
  refine ⟨g2, ?_, ?_⟩
  · unfold Gtest.kmer_match
    simp only [hfold]
    exact hg2
  · intro i hi
    rw [h1, h2, h3]
    exact hpos i hi

/-- The three cases of the conditional expression that turns a G-value into a
p-value. -/
theorem pvalueOf_cases (chdtrc : F → F → F) (gv : Dbl F) :
    (∀ x, gv = Dbl.fin x → 0 < x → x < 170 → pvalueOf chdtrc gv = chdtrc 1 x) ∧
    (Dbl.le (Dbl.fin 170) gv = true → pvalueOf chdtrc gv = 0) ∧
    (Dbl.le gv (Dbl.fin 0) = true → pvalueOf chdtrc gv = 1) := by
  refine ⟨?_, ?_, ?_⟩
  · intro x hx h1 h2
    subst hx
    simp [pvalueOf, Dbl.lt, Dbl.value, h1, h2]
  · intro h
    cases gv with
    | fin x =>
      have hx : (170 : F) ≤ x := by simpa [Dbl.le] using h
      have h1 : (0 : F) < x := lt_of_lt_of_le (by norm_num) hx
      have h2 : ¬ x < 170 := not_lt.mpr hx
      simp [pvalueOf, Dbl.lt, h1, h2]
    | pinf => simp [pvalueOf, Dbl.lt]
    | ninf => simp [Dbl.le] at h
    | nan => simp [Dbl.le] at h
  · intro h
    cases gv with
    | fin x =>
      have hx : x ≤ 0 := by simpa [Dbl.le] using h
      have h1 : ¬ (0 : F) < x := not_lt.mpr hx
      simp [pvalueOf, Dbl.lt, h1]
    | pinf => simp [Dbl.le] at h
    | ninf => simp [pvalueOf, Dbl.lt]
    | nan => simp [Dbl.le] at h

/-- C8: at every position `i` of the match phase the Bonferroni value is
`min(1, p_i * n)` with `n` the length of the frequency vector; this covers the
positions rejected by the directional filter and those served from the cache. -/
theorem kmer_match_bonferroni (ln : F → F) (chdtrc : F → F → F) (g : Gtest F)
    (mutantPosFreq wildTypePosFreq : List Nat) (i : Nat) (hi : i < mutantPosFreq.length) :
    ∃ g2, g.kmer_match ln chdtrc mutantPosFreq wildTypePosFreq = some g2 ∧
      ∃ p, UMap.find g2.pval i = some p ∧
        UMap.find g2.bon i = some (min 1 (p * (mutantPosFreq.length : F))) := by
  obtain ⟨g2, hg2, hval⟩ :=
    kmer_match_values ln chdtrc g mutantPosFreq wildTypePosFreq (by omega)
  obtain ⟨_, hp, hb⟩ := hval i hi
  refine ⟨g2, hg2, _, hp, ?_⟩
  rw [hb]
  unfold Gtest.kmer_match_compute
  by_cases hdir : ((mutantPosFreq.getD i 0 : Nat) : F) * g.wildType_mer_total
      > ((wildTypePosFreq.getD i 0 : Nat) : F) * g.mutant_mer_total
  · simp only [hdir, if_true]
    rw [min_comm]
  · have h1 : (1 : F) ≤ (mutantPosFreq.length : F) := by
      exact_mod_cast (show 1 ≤ mutantPosFreq.length by omega)
    simp only [hdir, if_false]
    rw [one_mul, min_eq_left h1]

/-- C9: the p-value is a three-way function of G. At every position of
`kmer_match` (computed, filtered or cached) and for every result of
`kmer_extension`: `p = chdtrc(1, G)` when `0 < G < 170`, `p = 0` when
`G >= 170`, and `p = 1` when `G <= 0`. -/
theorem pvalue_three_way (ln : F → F) (chdtrc : F → F → F) (g : Gtest F)
    (mutantPosFreq wildTypePosFreq : List Nat) (i : Nat) (hi : i < mutantPosFreq.length) :
    (∃ g2, g.kmer_match ln chdtrc mutantPosFreq wildTypePosFreq = some g2 ∧
      ∃ gv p, UMap.find g2.gval i = some gv ∧ UMap.find g2.pval i = some p ∧
        (∀ x, gv = Dbl.fin x → 0 < x → x < 170 → p = chdtrc 1 x) ∧
        (Dbl.le (Dbl.fin 170) gv = true → p = 0) ∧
        (Dbl.le gv (Dbl.fin 0) = true → p = 1)) ∧
    (∀ mutant_count wildType_count : Nat,
      (∀ x, (g.kmer_extension ln chdtrc mutant_count wildType_count).1 = Dbl.fin x →
        0 < x → x < 170 →
        (g.kmer_extension ln chdtrc mutant_count wildType_count).2 = chdtrc 1 x) ∧
      (Dbl.le (Dbl.fin 170) (g.kmer_extension ln chdtrc mutant_count wildType_count).1 = true →
        (g.kmer_extension ln chdtrc mutant_count wildType_count).2 = 0) ∧
      (Dbl.le (g.kmer_extension ln chdtrc mutant_count wildType_count).1 (Dbl.fin 0) = true →
        (g.kmer_extension ln chdtrc mutant_count wildType_count).2 = 1)) := by
  have hzero : (∀ x : F, (Dbl.fin 0 : Dbl F) = Dbl.fin x → 0 < x → x < 170 →
        (1 : F) = chdtrc 1 x) ∧
      (Dbl.le (Dbl.fin 170) (Dbl.fin 0 : Dbl F) = true → (1 : F) = 0) ∧
      (Dbl.le (Dbl.fin 0 : Dbl F) (Dbl.fin 0) = true → (1 : F) = 1) := by
    refine ⟨?_, ?_, ?_⟩
    · intro x hx h1 _
      injection hx with hx
      rw [← hx] at h1
      exact absurd h1 (lt_irrefl _)
    · intro h
      simp [Dbl.le] at h
      exact absurd h (by norm_num)
    · intro _
      rfl
  constructor
  · obtain ⟨g2, hg2, hval⟩ :=
      kmer_match_values ln chdtrc g mutantPosFreq wildTypePosFreq (by omega)
    obtain ⟨hg, hp, _⟩ := hval i hi
    refine ⟨g2, hg2, _, _, hg, hp, ?_⟩
    unfold Gtest.kmer_match_compute
    by_cases hdir : ((mutantPosFreq.getD i 0 : Nat) : F) * g.wildType_mer_total
        > ((wildTypePosFreq.getD i 0 : Nat) : F) * g.mutant_mer_total
    · simp only [hdir, if_true]
      exact pvalueOf_cases chdtrc _
    · simp only [hdir, if_false]
      exact ⟨hzero.1, hzero.2.1, fun _ => trivial⟩
  · intro mutant_count wildType_count
    unfold Gtest.kmer_extension
    by_cases hdir : ((mutant_count : Nat) : F) * g.wildType_mer_total
        ≥ ((wildType_count : Nat) : F) * g.mutant_mer_total
    · simp only [hdir, if_true]
      exact pvalueOf_cases chdtrc _
    · simp only [hdir, if_false]
      exact ⟨hzero.1, hzero.2.1, fun _ => trivial⟩

/-- C10: the match-phase directional filter. At position `i` with counts
`(m, w)` and totals `(M, W)`: if `m * W > w * M` the G-value is the one
returned by `adjusted_g`; if `m * W <= w * M` (equality included) the position
gets `G = 0`, `p = 1` and `Bonferroni = 1`. -/
theorem kmer_match_directional_filter (ln : F → F) (chdtrc : F → F → F) (g : Gtest F)
    (mutantPosFreq wildTypePosFreq : List Nat) (i : Nat) (hi : i < mutantPosFreq.length) :
    ∃ g2, g.kmer_match ln chdtrc mutantPosFreq wildTypePosFreq = some g2 ∧
      (((mutantPosFreq.getD i 0 : Nat) : F) * g.wildType_mer_total
          > ((wildTypePosFreq.getD i 0 : Nat) : F) * g.mutant_mer_total →
        UMap.find g2.gval i
          = some (g.adjusted_g ln (g.consts ln).mutant_mer_total_log
              (g.consts ln).wildType_mer_total_log (g.consts ln).mer_total
              (g.consts ln).mer_q3 (g.consts ln).mer_qcomm
              (Dbl.fin ((mutantPosFreq.getD i 0 : Nat) : F))
              (Dbl.fin ((wildTypePosFreq.getD i 0 : Nat) : F)))) ∧
      (((mutantPosFreq.getD i 0 : Nat) : F) * g.wildType_mer_total
          ≤ ((wildTypePosFreq.getD i 0 : Nat) : F) * g.mutant_mer_total →
        UMap.find g2.gval i = some (Dbl.fin 0) ∧ UMap.find g2.pval i = some 1 ∧
          UMap.find g2.bon i = some 1) := by
  obtain ⟨g2, hg2, hval⟩ :=
    kmer_match_values ln chdtrc g mutantPosFreq wildTypePosFreq (by omega)
  obtain ⟨hg, hp, hb⟩ := hval i hi
  refine ⟨g2, hg2, ?_, ?_⟩
  · intro hdir
    rw [hg]
    unfold Gtest.kmer_match_compute
    simp only [hdir, if_true]
  · intro hdir
    have hnot : ¬ (((mutantPosFreq.getD i 0 : Nat) : F) * g.wildType_mer_total
        > ((wildTypePosFreq.getD i 0 : Nat) : F) * g.mutant_mer_total) := not_lt.mpr hdir
    rw [hg, hp, hb]
    unfold Gtest.kmer_match_compute
    simp only [hnot, if_false]
    exact ⟨trivial, trivial, trivial⟩

end KmerMatchLemmas

/-! ## The properties at concrete inputs -/

theorem count_match_eq_naive_witness :
    (∀ r ∈ [exampleRead, exampleVector], 8 ≤ r.length) ∧
    (∀ key, UMap.contains exampleKeys key = true →
      countOf (count_match (Options.ofKmer 8)
          (create_chunk (Options.ofKmer 8) exampleKeys (fun _ => 0))
          [exampleRead, exampleVector] exampleKeys
          { merLocalCounter := [], merTotalCounter := 0,
            readCounter := 0 }).merLocalCounter key
        = naiveCount 8 key [exampleRead, exampleVector]) ∧
    (∀ s, UMap.contains exampleKeys s = false →
      UMap.find (count_match (Options.ofKmer 8)
          (create_chunk (Options.ofKmer 8) exampleKeys (fun _ => 0))
          [exampleRead, exampleVector] exampleKeys
          { merLocalCounter := [], merTotalCounter := 0,
            readCounter := 0 }).merLocalCounter s
        = none) :=
  ⟨by decide,
    count_match_eq_naive 8 (by decide) exampleKeys (fun _ => 0) [exampleRead, exampleVector]
      (by decide) 0 0⟩

theorem prefilter_no_false_negative_witness :
    8 ≤ exampleRead.length ∧ 2 ≤ exampleRead.length - 8 ∧
    windowValue (Options.ofKmer 8) exampleRead 2
        = packed (substr exampleRead 2 (Options.ofKmer 8).chunk_length) ∧
    (UMap.contains exampleKeys (substr exampleRead 2 8) = true →
      prefilter (Options.ofKmer 8) (create_chunk (Options.ofKmer 8) exampleKeys (fun _ => 0))
        (windowValue (Options.ofKmer 8) exampleRead 2) = true) :=
  ⟨by decide, by decide,
    prefilter_no_false_negative 8 (by decide) exampleKeys (fun _ => 0) exampleRead 2
      (by decide) (by decide)⟩

theorem set_posFreq_spec_witness :
    8 ≤ exampleVector.length ∧
    ∃ st, set_merCounter 8 { sequence := exampleVector, merCounter := [], posPair := [] }
        = Except.ok st ∧
      ∃ posBothFreq, set_posFreq st.merCounter (toStdMap st.posPair.reverse) = some posBothFreq ∧
        posBothFreq.length = exampleVector.length ∧
        ∀ i, i < exampleVector.length →
          posBothFreq[i]? = some (countOf st.merCounter (substr st.sequence i 8) +
            countOf st.merCounter (Complementary.mer (substr st.sequence i 8))) := by
  refine ⟨by decide, ?_⟩
  obtain ⟨st, hst, _⟩ := set_posFreq_spec 8 exampleVector (by decide) []
  obtain ⟨st2, hst2, h⟩ := set_posFreq_spec 8 exampleVector (by decide) st.merCounter
  have heq : st2 = st := by
    rw [hst] at hst2
    injection hst2 with h3
    exact h3.symm
  subst heq
  exact ⟨st2, hst2, h (fun _ hk => hk) _ (List.reverse_perm _)⟩

theorem set_merCounter_circular_witness :
    1 ≤ 8 ∧ 8 ≤ exampleVector.length ∧
    ∃ st, set_merCounter 8 { sequence := exampleVector, merCounter := [], posPair := [] }
        = Except.ok st ∧
      st.sequence.length = exampleVector.length + 8 - 1 ∧
      (∀ i, i < exampleVector.length →
        UMap.find st.posPair i
          = some (substr st.sequence i 8, Complementary.mer (substr st.sequence i 8)) ∧
        (substr st.sequence i 8).length = 8 ∧
        ∀ j, j < 8 →
          strAt (substr st.sequence i 8) j
            = toupper (strAt exampleVector ((i + j) % exampleVector.length))) ∧
      (∀ i, UMap.contains st.posPair i = true ↔ i < exampleVector.length) :=
  ⟨by decide, by decide, set_merCounter_circular 8 (by decide) exampleVector (by decide)⟩

theorem fdr_match_closed_form_witness :
    examplePvals.pval ≠ [] ∧ (UMap.keys examplePvals.pval).Nodup ∧
    ∃ g2, examplePvals.fdr_match = some g2 ∧ g2.pval = examplePvals.pval ∧
      (∀ i p, UMap.find examplePvals.pval i = some p →
        UMap.find g2.fdr i
          = some (min 1 (p * (examplePvals.pval.length : ℚ) /
              ((1 + (examplePvals.pval.map Prod.snd).countP (fun q => decide (q < p)) : Nat)
                : ℚ)))) ∧
      (∀ i j p, UMap.find examplePvals.pval i = some p →
        UMap.find examplePvals.pval j = some p →
        UMap.find g2.fdr i = UMap.find g2.fdr j) :=
  ⟨by simp [examplePvals], by decide,
    fdr_match_closed_form examplePvals (by simp [examplePvals]) (by decide)⟩

theorem kmer_match_bonferroni_witness :
    2 < [5, 1, 5].length ∧
    ∃ g2, exampleGtest.kmer_match (fun x => x) (fun _ x => 1 / (1 + x)) [5, 1, 5] [1, 1, 1]
        = some g2 ∧
      ∃ p, UMap.find g2.pval 2 = some p ∧
        UMap.find g2.bon 2 = some (min 1 (p * (([5, 1, 5] : List Nat).length : ℚ))) :=
  ⟨by decide,
    kmer_match_bonferroni (fun x => x) (fun _ x => 1 / (1 + x)) exampleGtest
      [5, 1, 5] [1, 1, 1] 2 (by decide)⟩

theorem pvalue_three_way_witness :
    2 < [5, 1, 5].length ∧
    ∃ g2, exampleGtest.kmer_match (fun x => x) (fun _ x => 1 / (1 + x)) [5, 1, 5] [1, 1, 1]
        = some g2 ∧
      ∃ gv p, UMap.find g2.gval 2 = some gv ∧ UMap.find g2.pval 2 = some p ∧
        (∀ x, gv = Dbl.fin x → 0 < x → x < 170 → p = 1 / (1 + x)) ∧
        (Dbl.le (Dbl.fin 170) gv = true → p = 0) ∧
        (Dbl.le gv (Dbl.fin 0) = true → p = 1) :=
  ⟨by decide,
    (pvalue_three_way (fun x => x) (fun _ x => 1 / (1 + x)) exampleGtest
      [5, 1, 5] [1, 1, 1] 2 (by decide)).1⟩

theorem kmer_match_directional_filter_witness :
    1 < [5, 1, 5].length ∧
    ∃ g2, exampleGtest.kmer_match (fun x => x) (fun _ x => 1 / (1 + x)) [5, 1, 5] [1, 1, 1]
        = some g2 ∧
      UMap.find g2.gval 1 = some (Dbl.fin 0) ∧ UMap.find g2.pval 1 = some 1 ∧
        UMap.find g2.bon 1 = some 1 := by
  refine ⟨by decide, ?_⟩
  obtain ⟨g2, hg2, _, h⟩ :=
    kmer_match_directional_filter (fun x => x) (fun _ x => 1 / (1 + x)) exampleGtest
      [5, 1, 5] [1, 1, 1] 1 (by decide)
  exact ⟨g2, hg2, h (by norm_num [exampleGtest])⟩

/-! ## Special values in the G computation -/

section DblLemmas

variable {F : Type} [LinearOrderedField F]

theorem Dbl.add_def (a b : Dbl F) : a + b = Dbl.add a b := rfl

theorem Dbl.sub_def (a b : Dbl F) : a - b = Dbl.add a (Dbl.neg b) := rfl

theorem Dbl.mul_def (a b : Dbl F) : a * b = Dbl.mul a b := rfl

theorem Dbl.div_def (a b : Dbl F) : a / b = Dbl.div a b := rfl

theorem Dbl.nan_add (a : Dbl F) : Dbl.nan + a = Dbl.nan := by
  cases a <;> rfl

theorem Dbl.add_nan (a : Dbl F) : a + Dbl.nan = Dbl.nan := by
  cases a <;> rfl

theorem Dbl.nan_sub (a : Dbl F) : Dbl.nan - a = Dbl.nan := by
  cases a <;> rfl

theorem Dbl.mul_nan (a : Dbl F) : a * Dbl.nan = Dbl.nan := by
  cases a <;> rfl

theorem Dbl.nan_div (a : Dbl F) : Dbl.nan / a = Dbl.nan := by
  cases a <;> rfl

/-- The product `log(x) * x` at `x = 0` is NaN. -/
theorem Dbl.log_mul_zero (ln : F → F) :
    Dbl.log ln (Dbl.fin (0 : F)) * Dbl.fin 0 = Dbl.nan := by
  simp [Dbl.log, Dbl.mul_def, Dbl.mul, Dbl.scaleInf]

/-- When the mutant count equals the mutant total, `adjusted_g` returns NaN,
whatever the other arguments. -/
theorem adjusted_g_nan_of_full (ln : F → F) (g : Gtest F)
    (mutant_total_log wildType_total_log total q3 qcomm wildType_match : Dbl F) :
    g.adjusted_g ln mutant_total_log wildType_total_log total q3 qcomm
      (Dbl.fin g.mutant_mer_total) wildType_match = Dbl.nan := by
  have h0 : Dbl.fin g.mutant_mer_total - Dbl.fin g.mutant_mer_total = Dbl.fin (0 : F) := by
    simp [Dbl.sub_def, Dbl.neg, Dbl.add]
  unfold Gtest.adjusted_g
  simp only [h0, Dbl.log_mul_zero]
  split_ifs <;>
    simp only [Dbl.nan_add, Dbl.add_nan, Dbl.nan_sub, Dbl.mul_nan, Dbl.nan_div]

/-- C11: the extension-phase directional filter uses `>=`. `kmer_extension(m, w)`
returns exactly `(0, 1)` when `m * W < w * M`; otherwise, equality included, it
returns `(g, p)` with `g` the result of `adjusted_g` on `(m, w)` and `p` the
p-value expression applied to `g`. -/
theorem kmer_extension_filter (ln : F → F) (chdtrc : F → F → F) (g : Gtest F)
    (mutant_count wildType_count : Nat) :
    ((mutant_count : F) * g.wildType_mer_total < (wildType_count : F) * g.mutant_mer_total →
      g.kmer_extension ln chdtrc mutant_count wildType_count = (Dbl.fin 0, 1)) ∧
    ((wildType_count : F) * g.mutant_mer_total ≤ (mutant_count : F) * g.wildType_mer_total →
      g.kmer_extension ln chdtrc mutant_count wildType_count
        = (g.adjusted_g ln (g.consts ln).mutant_mer_total_log
              (g.consts ln).wildType_mer_total_log (g.consts ln).mer_total
              (g.consts ln).mer_q3 (g.consts ln).mer_qcomm
              (Dbl.fin (mutant_count : F)) (Dbl.fin (wildType_count : F)),
            pvalueOf chdtrc (g.adjusted_g ln (g.consts ln).mutant_mer_total_log
              (g.consts ln).wildType_mer_total_log (g.consts ln).mer_total
              (g.consts ln).mer_q3 (g.consts ln).mer_qcomm
              (Dbl.fin (mutant_count : F)) (Dbl.fin (wildType_count : F))))) := by
  constructor
  · intro h
    have hn : ¬ ((mutant_count : F) * g.wildType_mer_total
        ≥ (wildType_count : F) * g.mutant_mer_total) := not_le.mpr h
    unfold Gtest.kmer_extension
    simp only [hn, if_false]
  · intro h
    have hp : (mutant_count : F) * g.wildType_mer_total
        ≥ (wildType_count : F) * g.mutant_mer_total := h
    unfold Gtest.kmer_extension
    simp only [hp, if_true]

/-- C12, at the failing input: with totals `M = W = 1` and counts `m = 1`,
`w = 0` (so `M - m = 0`), `adjusted_g` returns NaN, not the finite value of the
Williams-corrected G with `xlogx(0) = 0`. -/
theorem adjusted_g_full_cell :
    ∀ ln : ℚ → ℚ,
      exampleFull.adjusted_g ln (exampleFull.consts ln).mutant_mer_total_log
        (exampleFull.consts ln).wildType_mer_total_log (exampleFull.consts ln).mer_total
        (exampleFull.consts ln).mer_q3 (exampleFull.consts ln).mer_qcomm
        (Dbl.fin ((1 : Nat) : ℚ)) (Dbl.fin ((0 : Nat) : ℚ)) = Dbl.nan := by
  intro ln
  have h : ((1 : Nat) : ℚ) = exampleFull.mutant_mer_total := by
    simp [exampleFull]
  rw [h]
  exact adjusted_g_nan_of_full ln exampleFull _ _ _ _ _ _

end DblLemmas

/-! ## The match phase from a fresh engine -/

section FreshLemmas

variable {F : Type} [LinearOrderedField F]

theorem kmer_match_step_pval (ln : F → F) (chdtrc : F → F → F) (g : Gtest F)
    (mutantPosFreq wildTypePosFreq : List Nat) (s : MatchLoop F) (i : Nat) :
    ∃ v, (g.kmer_match_step ln chdtrc mutantPosFreq wildTypePosFreq s i).pval
      = UMap.assign s.pval i v := by
  unfold Gtest.kmer_match_step
  by_cases h : UMap.contains s.gval_stock
      (mutantPosFreq.getD i 0, wildTypePosFreq.getD i 0) = true
  · simp only [h, if_true]
    exact ⟨_, rfl⟩
  · simp only [h]
    exact ⟨_, rfl⟩

/-- From an empty p-value table, the loop of `kmer_match` stores the p-values in
position order. -/
theorem kmer_match_loop_pval (ln : F → F) (chdtrc : F → F → F) (g : Gtest F)
    (hfresh : g.pval = []) (mutantPosFreq wildTypePosFreq : List Nat) (t : Nat) :
    ((List.range t).foldl (g.kmer_match_step ln chdtrc mutantPosFreq wildTypePosFreq)
        { gval := g.gval, pval := g.pval, bon := g.bon,
          gval_stock := [], pval_stock := [], bon_stock := [] }).pval
      = (List.range t).map (fun i =>
          (i, (g.kmer_match_compute ln chdtrc mutantPosFreq.length
            (mutantPosFreq.getD i 0, wildTypePosFreq.getD i 0)).2.1)) := by
  induction t with
  | zero => simp [hfresh]
  | succ t ih =>
    obtain ⟨s2, hfold2, hpos2, _⟩ :=
      kmer_match_loop ln chdtrc g mutantPosFreq wildTypePosFreq (t + 1)
    have hfind := (hpos2 t (by omega)).2.1
    rw [← hfold2] at hfind
    rw [List.range_succ, List.foldl_append] at hfind ⊢
    simp only [List.foldl_cons, List.foldl_nil] at hfind ⊢
    obtain ⟨v, hv⟩ := kmer_match_step_pval ln chdtrc g mutantPosFreq wildTypePosFreq
      ((List.range t).foldl (g.kmer_match_step ln chdtrc mutantPosFreq wildTypePosFreq)
        { gval := g.gval, pval := g.pval, bon := g.bon,
          gval_stock := [], pval_stock := [], bon_stock := [] }) t
    rw [hv, ih] at hfind
    rw [hv, ih]
    have hfreshkey : ∀ e ∈ (List.range t).map (fun i =>
        (i, (g.kmer_match_compute ln chdtrc mutantPosFreq.length
          (mutantPosFreq.getD i 0, wildTypePosFreq.getD i 0)).2.1)), e.1 ≠ t := by
      intro e he
      simp only [List.mem_map, List.mem_range] at he
      obtain ⟨j, hj, rfl⟩ := he
      simp only
      omega
    rw [UMap.assign_fresh _ _ _ hfreshkey] at hfind ⊢
    rw [UMap.find_append, UMap.find_map_range] at hfind
    simp [UMap.find] at hfind
    simp [hfind]

/-- The match phase from an empty p-value table and a non-empty frequency
vector: every position holds the values computed from its own pair of counts,
and its FDR is the closed form over the p-values of all positions. -/
theorem kmer_match_fresh (ln : F → F) (chdtrc : F → F → F) (g : Gtest F)
    (hfresh : g.pval = []) (mutantPosFreq wildTypePosFreq : List Nat)
    (hn : 0 < mutantPosFreq.length) :
    ∃ g2, g.kmer_match ln chdtrc mutantPosFreq wildTypePosFreq = some g2 ∧
      ∀ i, i < mutantPosFreq.length →
        UMap.find g2.gval i = some (g.kmer_match_compute ln chdtrc mutantPosFreq.length
          (mutantPosFreq.getD i 0, wildTypePosFreq.getD i 0)).1 ∧
        UMap.find g2.pval i = some (g.kmer_match_compute ln chdtrc mutantPosFreq.length
          (mutantPosFreq.getD i 0, wildTypePosFreq.getD i 0)).2.1 ∧
        UMap.find g2.bon i = some (g.kmer_match_compute ln chdtrc mutantPosFreq.length
          (mutantPosFreq.getD i 0, wildTypePosFreq.getD i 0)).2.2 ∧
        UMap.find g2.fdr i
          = some (min 1 ((g.kmer_match_compute ln chdtrc mutantPosFreq.length
                (mutantPosFreq.getD i 0, wildTypePosFreq.getD i 0)).2.1
              * (mutantPosFreq.length : F) /
              ((1 + ((List.range mutantPosFreq.length).map (fun j =>
                  (g.kmer_match_compute ln chdtrc mutantPosFreq.length
                    (mutantPosFreq.getD j 0, wildTypePosFreq.getD j 0)).2.1)).countP
                (fun q => decide (q < (g.kmer_match_compute ln chdtrc mutantPosFreq.length
                  (mutantPosFreq.getD i 0, wildTypePosFreq.getD i 0)).2.1)) : Nat) : F))) := by
  obtain ⟨g2, hg2, hval⟩ :=
    kmer_match_values ln chdtrc g mutantPosFreq wildTypePosFreq hn
  have hpval := kmer_match_loop_pval ln chdtrc g hfresh mutantPosFreq wildTypePosFreq
    mutantPosFreq.length
  obtain ⟨s, hfold, _, _⟩ :=
    kmer_match_loop ln chdtrc g mutantPosFreq wildTypePosFreq mutantPosFreq.length
  rw [hfold] at hpval
  have hkm : g.kmer_match ln chdtrc mutantPosFreq wildTypePosFreq
      = Gtest.fdr_match { g with gval := s.gval, pval := s.pval, bon := s.bon } := by
    unfold Gtest.kmer_match
    simp only [hfold]
  have hne : ({ g with gval := s.gval, pval := s.pval, bon := s.bon } : Gtest F).pval ≠ [] := by
    simp only [hpval]
    intro h
    have := congrArg List.length h
    simp only [List.length_map, List.length_range, List.length_nil] at this
    omega
  have hkeys : (UMap.keys ({ g with gval := s.gval, pval := s.pval, bon := s.bon }
      : Gtest F).pval).Nodup := by
    simp only [hpval, UMap.keys, List.map_map]
    have : (Prod.fst ∘ fun i => (i, (g.kmer_match_compute ln chdtrc mutantPosFreq.length
        (mutantPosFreq.getD i 0, wildTypePosFreq.getD i 0)).2.1)) = id := rfl
    rw [this, List.map_id]
    exact List.nodup_range _
  obtain ⟨g3, hg3, hp3, hfdr, _⟩ :=
    fdr_match_spec { g with gval := s.gval, pval := s.pval, bon := s.bon } hne hkeys
  have h23 : g2 = g3 := by
    rw [hkm, hg3] at hg2
    injection hg2 with h
    exact h.symm
  subst h23
  refine ⟨g2, hg2, ?_⟩
  intro i hi
  obtain ⟨h1, h2, h3⟩ := hval i hi
  refine ⟨h1, h2, h3, ?_⟩
  have hfind : UMap.find ({ g with gval := s.gval, pval := s.pval, bon := s.bon }
      : Gtest F).pval i = some (g.kmer_match_compute ln chdtrc mutantPosFreq.length
        (mutantPosFreq.getD i 0, wildTypePosFreq.getD i 0)).2.1 := by
    rw [← hp3]
    exact h2
  have := hfdr i _ hfind
  rw [this]
  simp only [hpval, List.length_map, List.length_range, List.map_map]
  rfl

theorem kmer_match_compute_equal (ln : F → F) (chdtrc : F → F → F) (total : F)
    (gval : UMap Nat (Dbl F)) (fdr bon : UMap Nat F) (n m : Nat) :
    ({ mutant_mer_total := total, wildType_mer_total := total,
       gval := gval, pval := [], fdr := fdr, bon := bon } : Gtest F).kmer_match_compute
        ln chdtrc n (m, m) = (Dbl.fin 0, 1, 1) := by
  unfold Gtest.kmer_match_compute
  simp

/-- C15: no enrichment gives a null result everywhere. With equal totals and
the same frequency vector for both classes, `kmer_match` on a fresh engine
yields `G = 0`, `p = 1` and `FDR = 1` at every position. -/
theorem kmer_match_no_enrichment (ln : F → F) (chdtrc : F → F → F) (total : F)
    (posFreq : List Nat) (i : Nat) (hi : i < posFreq.length) :
    ∃ g2, ({ mutant_mer_total := total, wildType_mer_total := total,
             gval := [], pval := [], fdr := [], bon := [] } : Gtest F).kmer_match
          ln chdtrc posFreq posFreq = some g2 ∧
      UMap.find g2.gval i = some (Dbl.fin 0) ∧ UMap.find g2.pval i = some 1 ∧
      UMap.find g2.fdr i = some 1 := by
  obtain ⟨g2, hg2, hval⟩ := kmer_match_fresh ln chdtrc
    ({ mutant_mer_total := total, wildType_mer_total := total,
       gval := [], pval := [], fdr := [], bon := [] } : Gtest F) rfl posFreq posFreq (by omega)
  obtain ⟨h1, h2, _, h4⟩ := hval i hi
  simp only [kmer_match_compute_equal] at h1 h2 h4
  refine ⟨g2, hg2, h1, h2, ?_⟩
  rw [h4]
  have hc : ((List.range posFreq.length).map (fun _ => (1 : F))).countP
      (fun q => decide (q < 1)) = 0 := by
    rw [List.countP_eq_zero]
    intro a ha
    simp only [List.mem_map] at ha
    obtain ⟨_, _, rfl⟩ := ha
    simp
  have h1n : (1 : F) ≤ (posFreq.length : F) := by
    exact_mod_cast (show 1 ≤ posFreq.length by omega)
  rw [hc]
  simp [h1n]

end FreshLemmas

theorem kmer_match_no_enrichment_witness :
    0 < [1, 0, 0].length ∧
    ∃ g2, ({ mutant_mer_total := 5, wildType_mer_total := 5,
             gval := [], pval := [], fdr := [], bon := [] } : Gtest ℚ).kmer_match
          (fun x => x) (fun _ x => 1 / (1 + x)) [1, 0, 0] [1, 0, 0] = some g2 ∧
      UMap.find g2.gval 0 = some (Dbl.fin 0) ∧ UMap.find g2.pval 0 = some 1 ∧
      UMap.find g2.fdr 0 = some 1 :=
  ⟨by decide,
    kmer_match_no_enrichment (fun x => x) (fun _ x => 1 / (1 + x)) 5 [1, 0, 0] 0 (by decide)⟩

/-! ## The scenarios of the specification -/

/-- The match phase on the all-A scenario up to the frequencies. -/
theorem all_A_frequencies :
    (KmerMatch.frequencies 8 10000000 (fun _ => 0) exampleAllA [exampleAllAFile] []).map
        (fun r => (r.vectorPosPair.map (fun e => e.2), r.mutantPosFreq, r.wildTypePosFreq,
          r.mutantMerTotalCounter, r.wildTypeMerTotalCounter))
      = some (List.replicate 8 (exampleAllA, exampleAllT), List.replicate 8 1,
          List.replicate 8 0, 1, 0) := by
  decide

/-- With a wild-type total of 0 the directional filter rejects every pair of
counts. -/
theorem kmer_match_compute_no_wild {F : Type} [LinearOrderedField F] (ln : F → F)
    (chdtrc : F → F → F) (mutant_total n : Nat) (target : Nat × Nat) :
    (Gtest.ofTotals mutant_total 0 : Gtest F).kmer_match_compute ln chdtrc n target
      = (Dbl.fin 0, 1, 1) := by
  unfold Gtest.kmer_match_compute
  have h : ¬ ((target.1 : F) * (Gtest.ofTotals mutant_total 0 : Gtest F).wildType_mer_total
      > (target.2 : F) * (Gtest.ofTotals mutant_total 0 : Gtest F).mutant_mer_total) := by
    simp only [Gtest.ofTotals, Nat.cast_zero, mul_zero, gt_iff_lt, not_lt]
    positivity
  simp only [h, if_false]

/-- The all-A scenario: frequencies and the values of `kmer_match`. -/
theorem all_A_values {F : Type} [LinearOrderedField F] (ln : F → F) (chdtrc : F → F → F) :
    ∃ fr, KmerMatch.frequencies 8 10000000 (fun _ => 0) exampleAllA [exampleAllAFile] []
        = some fr ∧
      fr.vectorPosPair.map (fun e => e.2) = List.replicate 8 (exampleAllA, exampleAllT) ∧
      fr.mutantPosFreq = List.replicate 8 1 ∧ fr.wildTypePosFreq = List.replicate 8 0 ∧
      fr.mutantMerTotalCounter = 1 ∧ fr.wildTypeMerTotalCounter = 0 ∧
      ∃ g2, (Gtest.ofTotals fr.mutantMerTotalCounter fr.wildTypeMerTotalCounter
              : Gtest F).kmer_match ln chdtrc fr.mutantPosFreq fr.wildTypePosFreq = some g2 ∧
        ∀ i, i < 8 →
          UMap.find g2.gval i = some (Dbl.fin 0) ∧ UMap.find g2.pval i = some 1 ∧
          UMap.find g2.bon i = some 1 := by
  have h := all_A_frequencies
  cases hfr : KmerMatch.frequencies 8 10000000 (fun _ => 0) exampleAllA [exampleAllAFile] [] with
  | none => rw [hfr] at h; simp at h
  | some fr =>
    rw [hfr] at h
    simp only [Option.map_some', Option.some.injEq, Prod.mk.injEq] at h
    obtain ⟨h1, h2, h3, h4, h5⟩ := h
    refine ⟨fr, rfl, h1, h2, h3, h4, h5, ?_⟩
    rw [h4, h5]
    obtain ⟨g2, hg2, hval⟩ := kmer_match_values ln chdtrc
      (Gtest.ofTotals 1 0 : Gtest F) fr.mutantPosFreq fr.wildTypePosFreq (by rw [h2]; simp)
    refine ⟨g2, hg2, ?_⟩
    intro i hi
    have := hval i (by rw [h2]; simpa using hi)
    simpa only [kmer_match_compute_no_wild] using this

/-- C16, as amended: with the vector `AAAAAAAA`, `k = 8`, the single mutant read
`AAAAAAAA` and no wild-type read, every position maps to the k-mer `AAAAAAAA`
(reverse complement `TTTTTTTT`) with mutant frequency 1 and wild-type frequency
0, the wild-type total is 0, and `kmer_match` yields `G = 0`, `p = 1` and
`Bonferroni = min(1, p * 8) = 1` at every position. -/
theorem all_A_scenario {F : Type} [LinearOrderedField F] (ln : F → F) (chdtrc : F → F → F) :
    ∃ fr, KmerMatch.frequencies 8 10000000 (fun _ => 0) exampleAllA [exampleAllAFile] []
        = some fr ∧
      fr.vectorPosPair.map (fun e => e.2) = List.replicate 8 (exampleAllA, exampleAllT) ∧
      fr.mutantPosFreq = List.replicate 8 1 ∧ fr.wildTypePosFreq = List.replicate 8 0 ∧
      fr.mutantMerTotalCounter = 1 ∧ fr.wildTypeMerTotalCounter = 0 ∧
      ∃ g2, (Gtest.ofTotals fr.mutantMerTotalCounter fr.wildTypeMerTotalCounter
              : Gtest F).kmer_match ln chdtrc fr.mutantPosFreq fr.wildTypePosFreq = some g2 ∧
        ∀ i, i < 8 →
          UMap.find g2.gval i = some (Dbl.fin 0) ∧ UMap.find g2.pval i = some 1 ∧
          UMap.find g2.bon i = some (min 1 (1 * ((8 : Nat) : F))) := by
  obtain ⟨fr, h1, h2, h3, h4, h5, h6, g2, hg2, hval⟩ := all_A_values ln chdtrc
  refine ⟨fr, h1, h2, h3, h4, h5, h6, g2, hg2, ?_⟩
  intro i hi
  obtain ⟨a, b, c⟩ := hval i hi
  refine ⟨a, b, ?_⟩
  rw [c]
  norm_num

/-- C16, as stated, fails on the scenario itself: `kmer_match` does not yield
`G > 0` at every position (the G-value at position 0 is 0). -/
theorem all_A_scenario_not_positive :
    ¬ ∃ fr g2, KmerMatch.frequencies 8 10000000 (fun _ => 0) exampleAllA [exampleAllAFile] []
        = some fr ∧
      (Gtest.ofTotals fr.mutantMerTotalCounter fr.wildTypeMerTotalCounter
          : Gtest ℚ).kmer_match (fun x => x) (fun _ x => 1 / (1 + x))
          fr.mutantPosFreq fr.wildTypePosFreq = some g2 ∧
      ∀ i, i < 8 → ∃ gv, UMap.find g2.gval i = some gv ∧ Dbl.lt (Dbl.fin 0) gv = true := by
  rintro ⟨fr, g2, hfr, hg2, hpos⟩
  obtain ⟨fr2, h1, _, _, _, _, _, g3, hg3, hval⟩ :=
    all_A_values (F := ℚ) (fun x => x) (fun _ x => 1 / (1 + x))
  rw [hfr] at h1
  injection h1 with h1
  subst h1
  rw [hg2] at hg3
  injection hg3 with hg3
  subst hg3
  obtain ⟨gv, hgv, hlt⟩ := hpos 0 (by decide)
  rw [(hval 0 (by decide)).1] at hgv
  injection hgv with hgv
  subst hgv
  simp [Dbl.lt] at hlt

/-- C17, at the failing input: for the vector `ACGTACGTACGT`, `k = 8` and the
single mutant read `revComp(ACGTACGT)`, which is `ACGTACGT` itself, the read has
one window (mutant total 1) but the mutant frequency of position 0 is 2. -/
theorem palindrome_counted_twice :
    Complementary.mer (substr exampleVector 0 8) = substr exampleVector 0 8 ∧
    (KmerMatch.frequencies 8 10000000 (fun _ => 0) exampleVector [exampleRevFile] []).map
        (fun r => (r.mutantPosFreq, r.mutantMerTotalCounter))
      = some ([2, 0, 0, 0, 2, 0, 0, 0, 2, 0, 0, 0], 1) := by
  decide

/-! ## The read gate of the match scan -/

theorem count_match_append (o : Options) (chunk : Nat → Nat) (merCounter : UMap Str Nat)
    (a b : List Str) (st : MatchState) :
    count_match o chunk (a ++ b) merCounter st
      = count_match o chunk b merCounter (count_match o chunk a merCounter st) := by
  unfold count_match
  rw [List.foldl_append]

/-- The four lines of one well-formed record, read from a state between records:
the sequence is queued exactly when its length is at least `kmer`. -/
theorem read_fastqFile_record (o : Options) (fastq_read_lines : Nat) (chunk : Nat → Nat)
    (merCounter : UMap Str Nat) (r : FastqReader) (record : Str × Str × Str × Str)
    (hlen : r.aLine.length = 4) (hn : r.nLine = 0)
    (hh : strAt record.1 0 = '@') (hp : strAt record.2.2.1 0 = '+') :
    ∃ r2, (recordLines record).foldlM
        (read_fastqFile_line o fastq_read_lines chunk merCounter) r = some r2 ∧
      r2.aLine.length = 4 ∧ r2.nLine = 0 ∧
      count_match o chunk r2.fastqData merCounter r2.st
        = count_match o chunk
            (r.fastqData ++ (if o.kmer ≤ record.2.1.length then [record.2.1] else []))
            merCounter r.st := by
  obtain ⟨aLine, nLine, fastqData, st⟩ := r
  obtain ⟨h, sq, pl, q⟩ := record
  simp only at hlen hn hh hp
  subst hn
  match aLine, hlen with
  | [a0, a1, a2, a3], _ =>
    simp only [recordLines, List.foldlM_cons, List.foldlM_nil, read_fastqFile_line,
      List.set, List.getD_cons_zero, List.getD_cons_succ, Nat.zero_add, Nat.reduceAdd,
      Nat.reduceEqDiff, if_false, if_true, Option.bind_eq_bind, Option.some_bind,
      Option.pure_def, bind_pure_comp, List.set_cons_zero, List.set_cons_succ,
      OfNat.ofNat_ne_one, Nat.succ_ne_self]
    simp only [hh, hp, ne_eq, not_true_eq_false, or_self, if_false, List.length_append,
      List.length_singleton, List.dropLast_concat]
    by_cases hk : o.kmer ≤ sq.length
    · have hk2 : sq.length + 1 > o.kmer := by omega
      simp only [hk2, hk, if_true]
      by_cases hf : fastqData.length + 1 > fastq_read_lines
      · simp only [hf, if_true]
        exact ⟨_, rfl, rfl, rfl, rfl⟩
      · simp only [hf, if_false]
        exact ⟨_, rfl, rfl, rfl, rfl⟩
    · have hk2 : ¬ sq.length + 1 > o.kmer := by omega
      simp only [hk2, hk, if_false, List.append_nil]
      exact ⟨_, rfl, rfl, rfl, rfl⟩

/-- The lines of a file of well-formed records, read from a state between
records. -/
theorem read_fastqFile_records (o : Options) (fastq_read_lines : Nat) (chunk : Nat → Nat)
    (merCounter : UMap Str Nat) (records : List (Str × Str × Str × Str))
    (hwf : ∀ record ∈ records, strAt record.1 0 = '@' ∧ strAt record.2.2.1 0 = '+')
    (r : FastqReader) (hlen : r.aLine.length = 4) (hn : r.nLine = 0) :
    ∃ r2, (records.flatMap recordLines).foldlM
        (read_fastqFile_line o fastq_read_lines chunk merCounter) r = some r2 ∧
      count_match o chunk r2.fastqData merCounter r2.st
        = count_match o chunk
            (r.fastqData ++ (records.map (fun record => record.2.1)).filter
              (fun sq => decide (o.kmer ≤ sq.length)))
            merCounter r.st := by
  induction records generalizing r with
  | nil => exact ⟨r, rfl, by simp⟩
  | cons record rest ih =>
    obtain ⟨hh, hp⟩ := hwf record (List.mem_cons_self _ _)
    obtain ⟨r1, h1, hlen1, hn1, hc1⟩ :=
      read_fastqFile_record o fastq_read_lines chunk merCounter r record hlen hn hh hp
    obtain ⟨r2, h2, hc2⟩ := ih (fun x hx => hwf x (List.mem_cons_of_mem _ hx)) r1 hlen1 hn1
    refine ⟨r2, ?_, ?_⟩
    · rw [List.flatMap_cons, List.foldlM_append, h1]
      exact h2
    · rw [hc2, count_match_append, hc1, ← count_match_append, List.map_cons, List.filter_cons]
      by_cases hk : o.kmer ≤ record.2.1.length
      · simp [hk]
      · simp [hk]

/-- C18: the match-mode read gate. For a file of well-formed four-line records
whose sequence lines carry their line break, `read_fastqFile` returns what
`count_match` returns on exactly the reads of length `n >= k`, in file order:
a read with `n < k` is skipped and changes neither a k-mer count nor the total
window counter. -/
theorem read_fastqFile_gate (o : Options) (fastq_read_lines : Nat) (chunk : Nat → Nat)
    (merCounter : UMap Str Nat) (records : List (Str × Str × Str × Str))
    (hwf : ∀ record ∈ records, strAt record.1 0 = '@' ∧ strAt record.2.2.1 0 = '+')
    (merTotalCounter : Nat) :
    read_fastqFile o fastq_read_lines chunk (records.flatMap recordLines) merCounter
        merTotalCounter
      = some (count_match o chunk
          ((records.map (fun record => record.2.1)).filter
            (fun sq => decide (o.kmer ≤ sq.length)))
          merCounter
          { merLocalCounter := [], merTotalCounter := merTotalCounter, readCounter := 0 }) := by
  obtain ⟨r2, h2, hc2⟩ := read_fastqFile_records o fastq_read_lines chunk merCounter records
    hwf (FastqReader.init merTotalCounter) rfl rfl
  unfold read_fastqFile
  rw [h2]
  simp only [hc2, FastqReader.init, List.nil_append]

/-! ## The extension scan against the naive flank scan -/

theorem create_chunk_extension_eq (o : Options) (merCounter : UMap Str (List (Str × Str)))
    (chunk : Nat → Nat) :
    KmerExtension.create_chunk o merCounter chunk
      = create_chunk o (merCounter.map (fun e => (e.1, 0))) chunk := by
  unfold KmerExtension.create_chunk create_chunk
  rw [List.foldl_map]

theorem UMap.contains_map_key {κ ν μ : Type} [DecidableEq κ] (m : UMap κ ν) (f : ν → μ)
    (key : κ) :
    UMap.contains (m.map (fun e => (e.1, f e.2))) key = UMap.contains m key := by
  induction m with
  | nil => rfl
  | cons e rest ih =>
    obtain ⟨k, w⟩ := e
    by_cases hk : k = key
    · simp [UMap.contains, UMap.find, hk]
    · simpa [UMap.contains, UMap.find, hk] using ih

/-- The last `L` characters fed to the rolling value decide it. -/
theorem packed_range_mod (k : Nat) (read : Str) (j : Nat) (hj : j + k ≤ read.length) :
    packed ((List.range (min k 16 + j)).map (strAt read)) % 4 ^ (min k 16)
      = packed (substr read j (min k 16)) := by
  rw [map_strAt_range read _ (by omega)]
  have : min k 16 + j = j + min k 16 := by omega
  rw [this, List.take_add, packed_append]
  have hlen : (List.take (min k 16) (List.drop j read)).length = min k 16 := by
    simp; omega
  rw [hlen, Nat.mul_add_mod_of_lt]
  · rfl
  · have := packed_lt (List.take (min k 16) (List.drop j read))
    rw [hlen] at this
    exact this

/-- The pre-roll of the extension scan holds the first `L - 1 + b` characters,
reduced to 32 bits. -/
theorem preroll_extension_eq (k : Nat) (hk : 2 ≤ k) (read : Str) (b : Nat) :
    preroll_extension (Options.ofKmer k) b read
      = packed ((List.range (min k 16 - 1 + b)).map (strAt read)) % 4294967296 := by
  induction b with
  | zero =>
    simp only [preroll_extension, List.range_zero, List.foldl_nil, Nat.add_zero]
    unfold preroll
    simp only [Options.ofKmer, MAX_CHUNKLENGTH]
    rw [foldl_shiftAdd]
    have : min k 16 - 1 - 1 + 1 = min k 16 - 1 := by omega
    rw [this]
  | succ b ih =>
    unfold preroll_extension at ih ⊢
    rw [List.range_succ, List.foldl_append, ih]
    simp only [List.foldl_cons, List.foldl_nil, shiftAdd_eq, Options.ofKmer, MAX_CHUNKLENGTH]
    have : min k 16 - 1 + (b + 1) = (min k 16 - 1 + b) + 1 := by omega
    rw [this, List.range_succ, List.map_append, List.map_singleton, packed_concat]
    omega

/-- The rolling value at iteration `j = b + t` of the extension scan is the
packed encoding of the first `L + b + t` characters, reduced to `2L` bits. -/
theorem windowValueExt_take (k : Nat) (hk : 2 ≤ k) (read : Str) (b t : Nat) :
    windowValueExt (Options.ofKmer k) b read t
      = packed ((List.range (min k 16 + (b + t))).map (strAt read)) % 4 ^ (min k 16) := by
  induction t with
  | zero =>
    simp only [windowValueExt, roll_eq, Nat.add_zero]
    rw [preroll_extension_eq k hk]
    have hsucc : min k 16 + b = (min k 16 - 1 + b) + 1 := by omega
    conv_rhs => rw [hsucc, List.range_succ, List.map_append, List.map_singleton, packed_concat]
    rw [← Nat.mod_mod_of_dvd _ (four_pow_dvd _ (Nat.min_le_right k 16)), mod_step,
      Nat.mod_mod_of_dvd _ (four_pow_dvd _ (Nat.min_le_right k 16))]
  | succ t ih =>
    simp only [windowValueExt, roll_eq]
    rw [ih, mod_step]
    have : min k 16 + (b + (t + 1)) = (min k 16 + (b + t)) + 1 := by omega
    rw [this, List.range_succ, List.map_append, List.map_singleton, packed_concat]
    have : min k 16 - 1 + (b + (t + 1)) = min k 16 + (b + t) := by omega
    rw [this]

/-- The rolling value tested at iteration `j = b + t` of the extension scan is
the packed encoding of `read[j..j+L]`. -/
theorem windowValueExt_eq_packed (k : Nat) (hk : 2 ≤ k) (read : Str) (b t : Nat)
    (hj : b + t + k ≤ read.length) :
    windowValueExt (Options.ofKmer k) b read t = packed (substr read (b + t) (min k 16)) := by
  rw [windowValueExt_take k hk, packed_range_mod k read (b + t) hj]

/-- A window of the extension scan that is a key of the table passes the test. -/
theorem prefilter_of_key_ext (k : Nat) (hk : 2 ≤ k) (merCounter : UMap Str (List (Str × Str)))
    (chunk : Nat → Nat) (read : Str) (b t : Nat) (hj : b + t + k ≤ read.length)
    (hc : UMap.contains merCounter (substr read (b + t) k) = true) :
    prefilter (Options.ofKmer k)
      (KmerExtension.create_chunk (Options.ofKmer k) merCounter chunk)
      (windowValueExt (Options.ofKmer k) b read t) = true := by
  have hw := windowValueExt_eq_packed k hk read b t hj
  have hc2 : UMap.contains (merCounter.map (fun e => (e.1, 0))) (substr read (b + t) k)
      = true := by
    rw [UMap.contains_map_key merCounter (fun _ => 0)]
    exact hc
  obtain ⟨v, hv⟩ := UMap.mem_of_contains _ _ hc2
  have hlen : (substr read (b + t) k).length = k := by
    simp [substr]; omega
  have hkey : keyChunk (Options.ofKmer k) (substr read (b + t) k)
      = windowValueExt (Options.ofKmer k) b read t := by
    rw [keyChunk_eq_packed k (by omega) _ (by omega), hw]
    congr 1
    simp [substr, List.take_take]
  unfold prefilter
  rw [create_chunk_extension_eq, create_chunk_apply]
  by_cases hm : windowValueExt (Options.ofKmer k) b read t
      = (Options.ofKmer k).max_chunk_array
  · simp [hm]
  · have : ∃ e ∈ merCounter.map (fun e => ((e.1, 0) : Str × Nat)),
        keyChunk (Options.ofKmer k) e.1 = windowValueExt (Options.ofKmer k) b read t :=
      ⟨_, hv, hkey⟩
    simp only [this, hm, ne_eq, not_false_eq_true, and_self, if_true]
    simp

theorem pairsOf_pushPair (m : UMap Str (List (Str × Str))) (mer key : Str) (pair : Str × Str) :
    pairsOf (pushPair m mer pair) key
      = if mer = key then pairsOf m key ++ [pair] else pairsOf m key := by
  unfold pairsOf pushPair
  rw [UMap.find_assign]
  by_cases h : mer = key
  · subst h
    simp [pairsOf]
  · simp [h]

theorem find_pushPair_ne (m : UMap Str (List (Str × Str))) (mer key : Str) (pair : Str × Str)
    (h : mer ≠ key) : UMap.find (pushPair m mer pair) key = UMap.find m key := by
  unfold pushPair
  rw [UMap.find_assign]
  simp [h]

theorem roll_dnabitBeforeExt (o : Options) (b : Nat) (read : Str) (t : Nat) :
    roll o read (dnabitBeforeExt o b read t) (b + t) = windowValueExt o b read t := by
  cases t <;> rfl

/-- With the prefilter passing every key, one window step of the extension scan
is the naive step. -/
theorem count_extension_window_eq (k : Nat) (hk : 2 ≤ k) (b : Nat)
    (merCounter : UMap Str (List (Str × Str))) (chunk : Nat → Nat) (read : Str) (t : Nat)
    (hj : b + t + k ≤ read.length) (st : ExtensionState) :
    count_extension_window (Options.ofKmer k) b
        (KmerExtension.create_chunk (Options.ofKmer k) merCounter chunk)
        merCounter read (dnabitBeforeExt (Options.ofKmer k) b read t, st) (b + t)
      = (windowValueExt (Options.ofKmer k) b read t,
          { merLocalPair :=
              if UMap.contains merCounter (substr read (b + t) k) = true
              then pushPair st.merLocalPair (substr read (b + t) k)
                (substr read (b + t - b) b, substr read (b + t + k) b)
              else st.merLocalPair
            merTotalCounter := st.merTotalCounter + 1
            readCounter := st.readCounter }) := by
  unfold count_extension_window
  simp only [roll_dnabitBeforeExt]
  have hkm : (Options.ofKmer k).kmer = k := rfl
  rw [hkm]
  by_cases hc : UMap.contains merCounter (substr read (b + t) k) = true
  · have hp := prefilter_of_key_ext k hk merCounter chunk read b t hj hc
    simp [hp, hc]
  · have hc2 : UMap.contains merCounter (substr read (b + t) k) = false := by simpa using hc
    simp [hc2]

/-- The window loop of the extension scan of one read after `m` iterations. -/
theorem extension_window_loop (k : Nat) (hk : 2 ≤ k) (b : Nat)
    (merCounter : UMap Str (List (Str × Str))) (chunk : Nat → Nat) (read : Str)
    (st : ExtensionState) (m : Nat) (hm : b + m + k ≤ read.length + 1) :
    ∃ st2 : ExtensionState,
      (List.range' b m).foldl
          (count_extension_window (Options.ofKmer k) b
            (KmerExtension.create_chunk (Options.ofKmer k) merCounter chunk) merCounter read)
          (preroll_extension (Options.ofKmer k) b read, st)
        = (dnabitBeforeExt (Options.ofKmer k) b read m, st2) ∧
      (∀ s, pairsOf st2.merLocalPair s
        = pairsOf st.merLocalPair s ++
          (if UMap.contains merCounter s = true
           then (((List.range' b m).filter (fun j => decide (substr read j k = s))).map
             (fun j => (substr read (j - b) b, substr read (j + k) b)))
           else [])) ∧
      (∀ s, UMap.contains merCounter s = false →
        UMap.find st2.merLocalPair s = UMap.find st.merLocalPair s) ∧
      st2.merTotalCounter = st.merTotalCounter + m ∧
      st2.readCounter = st.readCounter := by
  induction m with
  | zero => exact ⟨st, by simp [dnabitBeforeExt]⟩
  | succ m ih =>
    obtain ⟨st2, hfold, hpairs, hfind, htot, hrc⟩ := ih (by omega)
    have hr : List.range' b (m + 1) = List.range' b m ++ [b + m] := by
      rw [List.range'_concat]
      simp
    rw [hr, List.foldl_append, hfold]
    simp only [List.foldl_cons, List.foldl_nil]
    rw [count_extension_window_eq k hk b merCounter chunk read m (by omega) st2]
    refine ⟨_, rfl, ?_, ?_, ?_, ?_⟩
    · intro s
      rw [List.filter_append, List.map_append]
      simp only
      by_cases hc : UMap.contains merCounter (substr read (b + m) k) = true
      · simp only [hc, if_true]
        rw [pairsOf_pushPair, hpairs s]
        by_cases hs : substr read (b + m) k = s
        · subst hs
          simp [hc]
        · simp [hs]
      · have hc2 : UMap.contains merCounter (substr read (b + m) k) = false := by
          simpa using hc
        simp only [hc2, Bool.false_eq_true, if_false]
        rw [hpairs s]
        by_cases hs : substr read (b + m) k = s
        · subst hs
          simp [hc2]
        · simp [hs]
    · intro s hs
      simp only
      by_cases hc : UMap.contains merCounter (substr read (b + m) k) = true
      · simp only [hc, if_true]
        have hne : substr read (b + m) k ≠ s := by
          intro h
          rw [h, hs] at hc
          exact Bool.noConfusion hc
        rw [find_pushPair_ne _ _ _ _ hne]
        exact hfind s hs
      · have hc2 : UMap.contains merCounter (substr read (b + m) k) = false := by
          simpa using hc
        simp only [hc2, Bool.false_eq_true, if_false]
        exact hfind s hs
    · simp only
      omega
    · exact hrc

/-- The effect of one read of length at least `k + 2b` on the flank-pair table. -/
theorem count_extension_read_spec (k : Nat) (hk : 2 ≤ k) (b : Nat)
    (merCounter : UMap Str (List (Str × Str))) (chunk : Nat → Nat) (read : Str)
    (hn : k + 2 * b ≤ read.length) (st : ExtensionState) :
    (∀ s, pairsOf (count_extension_read (Options.ofKmer k) b
            (KmerExtension.create_chunk (Options.ofKmer k) merCounter chunk)
            merCounter st read).merLocalPair s
        = pairsOf st.merLocalPair s ++
          (if UMap.contains merCounter s = true then naiveFlanksRead k b s read else [])) ∧
    (∀ s, UMap.contains merCounter s = false →
      UMap.find (count_extension_read (Options.ofKmer k) b
            (KmerExtension.create_chunk (Options.ofKmer k) merCounter chunk)
            merCounter st read).merLocalPair s
        = UMap.find st.merLocalPair s) ∧
    (count_extension_read (Options.ofKmer k) b
        (KmerExtension.create_chunk (Options.ofKmer k) merCounter chunk)
        merCounter st read).merTotalCounter
      = st.merTotalCounter + (read.length - k - 2 * b + 1) := by
  obtain ⟨st2, hfold, hpairs, hfind, htot, _⟩ :=
    extension_window_loop k hk b merCounter chunk read
      { st with readCounter := st.readCounter + 1 } (read.length - k - b + 1 - b) (by omega)
  have hkm : (Options.ofKmer k).kmer = k := rfl
  unfold count_extension_read
  simp only [hkm]
  rw [hfold]
  refine ⟨hpairs, hfind, ?_⟩
  rw [htot]
  simp only
  omega

/-- The effect of a batch of reads, each of length at least `k + 2b`, on the
flank-pair table. -/
theorem count_extension_spec (k : Nat) (hk : 2 ≤ k) (b : Nat)
    (merCounter : UMap Str (List (Str × Str))) (chunk : Nat → Nat) (fastqData : List Str)
    (hlen : ∀ r ∈ fastqData, k + 2 * b ≤ r.length) (st : ExtensionState) :
    (∀ s, pairsOf (count_extension (Options.ofKmer k) b
            (KmerExtension.create_chunk (Options.ofKmer k) merCounter chunk)
            fastqData merCounter st).merLocalPair s
        = pairsOf st.merLocalPair s ++
          (if UMap.contains merCounter s = true then naiveFlanks k b s fastqData else [])) ∧
    (∀ s, UMap.contains merCounter s = false →
      UMap.find (count_extension (Options.ofKmer k) b
            (KmerExtension.create_chunk (Options.ofKmer k) merCounter chunk)
            fastqData merCounter st).merLocalPair s
        = UMap.find st.merLocalPair s) ∧
    (count_extension (Options.ofKmer k) b
        (KmerExtension.create_chunk (Options.ofKmer k) merCounter chunk)
        fastqData merCounter st).merTotalCounter
      = st.merTotalCounter + (fastqData.map (fun r => r.length - k - 2 * b + 1)).sum := by
  induction fastqData generalizing st with
  | nil => simp [count_extension, naiveFlanks]
  | cons read rest ih =>
    obtain ⟨h1, h2, h3⟩ := count_extension_read_spec k hk b merCounter chunk read
      (hlen read (List.mem_cons_self _ _)) st
    have ht := ih (fun r h => hlen r (List.mem_cons_of_mem _ h))
      (count_extension_read (Options.ofKmer k) b
        (KmerExtension.create_chunk (Options.ofKmer k) merCounter chunk) merCounter st read)
    unfold count_extension at ht ⊢
    rw [List.foldl_cons]
    obtain ⟨t1, t2, t3⟩ := ht
    refine ⟨?_, ?_, ?_⟩
    · intro s
      rw [t1 s, h1 s]
      by_cases hc : UMap.contains merCounter s = true
      · simp [hc, naiveFlanks]
      · simp [hc]
    · intro s hs
      rw [t2 s hs, h2 s hs]
    · rw [t3, h3]
      simp only [List.map_cons, List.sum_cons]
      omega

/-- C20: extension-mode scanning equals the naive flank scan. For `k >= 2`,
every flank-pair table, the chunk array built from it, and every batch of reads
each of length at least `k + 2b`: the local list of every key is the list of
the pairs `(read[j-b..j], read[j+k..j+k+b])` of the windows `j` in
`b .. n - k - b` with `read[j..j+k] = key`, one pair per window and nothing
else; a string outside the key set gets no entry; each flank has length `b`;
and the rolling value tested at iteration `j`, after the unmasked pre-roll over
`L - 1 + b` bases, is the packed encoding of `read[j..j+L]`. -/
theorem count_extension_eq_naive (k : Nat) (hk : 2 ≤ k) (b : Nat)
    (merCounter : UMap Str (List (Str × Str))) (chunk : Nat → Nat) (fastqData : List Str)
    (hlen : ∀ r ∈ fastqData, k + 2 * b ≤ r.length) (merTotalCounter readCounter : Nat) :
    (∀ key, UMap.contains merCounter key = true →
      pairsOf (count_extension (Options.ofKmer k) b
          (KmerExtension.create_chunk (Options.ofKmer k) merCounter chunk)
          fastqData merCounter
          { merLocalPair := [], merTotalCounter := merTotalCounter,
            readCounter := readCounter }).merLocalPair key
        = naiveFlanks k b key fastqData) ∧
    (∀ s, UMap.contains merCounter s = false →
      UMap.find (count_extension (Options.ofKmer k) b
          (KmerExtension.create_chunk (Options.ofKmer k) merCounter chunk)
          fastqData merCounter
          { merLocalPair := [], merTotalCounter := merTotalCounter,
            readCounter := readCounter }).merLocalPair s
        = none) ∧
    (∀ read ∈ fastqData, ∀ j, b ≤ j → j ≤ read.length - k - b →
      (substr read (j - b) b).length = b ∧ (substr read (j + k) b).length = b ∧
      windowValueExt (Options.ofKmer k) b read (j - b)
        = packed (substr read j (Options.ofKmer k).chunk_length)) := by
  obtain ⟨h1, h2, _⟩ := count_extension_spec k hk b merCounter chunk fastqData hlen
    { merLocalPair := [], merTotalCounter := merTotalCounter, readCounter := readCounter }
  refine ⟨?_, ?_, ?_⟩
  · intro key hc
    rw [h1 key]
    simp [hc, pairsOf, UMap.find]
  · intro s hs
    rw [h2 s hs]
    rfl
  · intro read hread j hbj hj
    have hn := hlen read hread
    refine ⟨?_, ?_, ?_⟩
    · simp [substr]
      omega
    · simp [substr]
      omega
    · have := windowValueExt_eq_packed k hk read b (j - b) (by omega)
      rw [this]
      have hbj2 : b + (j - b) = j := by omega
      rw [hbj2]
      rfl

theorem count_extension_eq_naive_witness :
    2 ≤ 8 ∧ (∀ r ∈ [exampleExtRead], 8 + 2 * 2 ≤ r.length) ∧
    (∀ key, UMap.contains exampleExtKeys key = true →
      pairsOf (count_extension (Options.ofKmer 8) 2
          (KmerExtension.create_chunk (Options.ofKmer 8) exampleExtKeys (fun _ => 0))
          [exampleExtRead] exampleExtKeys
          { merLocalPair := [], merTotalCounter := 0, readCounter := 0 }).merLocalPair key
        = naiveFlanks 8 2 key [exampleExtRead]) ∧
    (∀ s, UMap.contains exampleExtKeys s = false →
      UMap.find (count_extension (Options.ofKmer 8) 2
          (KmerExtension.create_chunk (Options.ofKmer 8) exampleExtKeys (fun _ => 0))
          [exampleExtRead] exampleExtKeys
          { merLocalPair := [], merTotalCounter := 0, readCounter := 0 }).merLocalPair s
        = none) ∧
    (∀ read ∈ [exampleExtRead], ∀ j, 2 ≤ j → j ≤ read.length - 8 - 2 →
      (substr read (j - 2) 2).length = 2 ∧ (substr read (j + 8) 2).length = 2 ∧
      windowValueExt (Options.ofKmer 8) 2 read (j - 2)
        = packed (substr read j (Options.ofKmer 8).chunk_length)) :=
  ⟨by decide, by decide,
    count_extension_eq_naive 8 (by decide) 2 exampleExtKeys (fun _ => 0) [exampleExtRead]
      (by decide) 0 0⟩

/-! ## The read gate of the extension scan -/

theorem count_extension_append (o : Options) (nbase : Nat) (chunk : Nat → Nat)
    (merCounter : UMap Str (List (Str × Str))) (a b : List Str) (st : ExtensionState) :
    count_extension o nbase chunk (a ++ b) merCounter st
      = count_extension o nbase chunk b merCounter
          (count_extension o nbase chunk a merCounter st) := by
  unfold count_extension
  rw [List.foldl_append]

/-- The four lines of one record, read from a state between records: the
sequence is queued exactly when its length is at least `kmer + 2 * nbase`. -/
theorem read_fastqFile_extension_record (o : Options) (nbase fastq_read_lines : Nat)
    (chunk : Nat → Nat) (merCounter : UMap Str (List (Str × Str))) (r : ExtensionReader)
    (record : Str × Str × Str × Str) (hlen : r.aLine.length = 4) (hn : r.nLine = 0) :
    ((recordLines record).foldl
        (read_fastqFile_extension_line o nbase fastq_read_lines chunk merCounter) r).aLine.length
      = 4 ∧
    ((recordLines record).foldl
        (read_fastqFile_extension_line o nbase fastq_read_lines chunk merCounter) r).nLine
      = 0 ∧
    count_extension o nbase chunk
        ((recordLines record).foldl
          (read_fastqFile_extension_line o nbase fastq_read_lines chunk merCounter) r).fastqData
        merCounter
        ((recordLines record).foldl
          (read_fastqFile_extension_line o nbase fastq_read_lines chunk merCounter) r).st
      = count_extension o nbase chunk
          (r.fastqData ++
            (if o.kmer + 2 * nbase ≤ record.2.1.length then [record.2.1] else []))
          merCounter r.st := by
  obtain ⟨aLine, nLine, fastqData, st⟩ := r
  obtain ⟨h, sq, pl, q⟩ := record
  simp only at hlen hn
  subst hn
  match aLine, hlen with
  | [a0, a1, a2, a3], _ =>
    simp only [recordLines, List.foldl_cons, List.foldl_nil, read_fastqFile_extension_line,
      List.set, List.getD_cons_zero, List.getD_cons_succ, Nat.zero_add, Nat.reduceAdd,
      Nat.reduceEqDiff, if_false, if_true, List.set_cons_zero, List.set_cons_succ,
      OfNat.ofNat_ne_one, Nat.succ_ne_self, List.length_append, List.length_singleton,
      List.dropLast_concat]
    by_cases hk : o.kmer + 2 * nbase ≤ sq.length
    · have hk2 : sq.length + 1 > o.kmer + nbase * 2 := by omega
      simp only [hk2, hk, if_true]
      by_cases hf : fastqData.length + 1 > fastq_read_lines
      · simp only [hf, if_true]
        simp [count_extension]
      · simp only [hf, if_false]
        simp
    · have hk2 : ¬ sq.length + 1 > o.kmer + nbase * 2 := by omega
      simp only [hk2, hk, if_false, List.append_nil]
      simp

/-- The lines of a file of records, read from a state between records. -/
theorem read_fastqFile_extension_records (o : Options) (nbase fastq_read_lines : Nat)
    (chunk : Nat → Nat) (merCounter : UMap Str (List (Str × Str)))
    (records : List (Str × Str × Str × Str)) (r : ExtensionReader)
    (hlen : r.aLine.length = 4) (hn : r.nLine = 0) :
    count_extension o nbase chunk
        ((records.flatMap recordLines).foldl
          (read_fastqFile_extension_line o nbase fastq_read_lines chunk merCounter) r).fastqData
        merCounter
        ((records.flatMap recordLines).foldl
          (read_fastqFile_extension_line o nbase fastq_read_lines chunk merCounter) r).st
      = count_extension o nbase chunk
          (r.fastqData ++ (records.map (fun record => record.2.1)).filter
            (fun sq => decide (o.kmer + 2 * nbase ≤ sq.length)))
          merCounter r.st := by
  induction records generalizing r with
  | nil => simp
  | cons record rest ih =>
    obtain ⟨hlen1, hn1, hc1⟩ := read_fastqFile_extension_record o nbase fastq_read_lines
      chunk merCounter r record hlen hn
    rw [List.flatMap_cons, List.foldl_append, ih _ hlen1 hn1, count_extension_append, hc1,
      ← count_extension_append, List.map_cons, List.filter_cons]
    by_cases hk : o.kmer + 2 * nbase ≤ record.2.1.length
    · simp [hk]
    · simp [hk]

/-- C19, as amended: the extension-mode read gate. For a file of four-line
records whose sequence lines carry their line break, `read_fastqFile` returns
what `count_extension` returns on exactly the reads of length `n >= k + 2b`, in
file order: a read of length exactly `k + 2b` is scanned, and a read with
`n < k + 2b` is skipped and records no flank pair. -/
theorem read_fastqFile_extension_gate (o : Options) (nbase fastq_read_lines : Nat)
    (chunk : Nat → Nat) (merCounter : UMap Str (List (Str × Str)))
    (records : List (Str × Str × Str × Str)) (merTotalCounter : Nat) :
    read_fastqFile_extension o nbase fastq_read_lines chunk (records.flatMap recordLines)
        merCounter merTotalCounter
      = count_extension o nbase chunk
          ((records.map (fun record => record.2.1)).filter
            (fun sq => decide (o.kmer + 2 * nbase ≤ sq.length)))
          merCounter
          { merLocalPair := [], merTotalCounter := merTotalCounter, readCounter := 0 } := by
  unfold read_fastqFile_extension
  simp only
  rw [read_fastqFile_extension_records o nbase fastq_read_lines chunk merCounter records
    { aLine := [[], [], [], []], nLine := 0, fastqData := [],
      st := { merLocalPair := [], merTotalCounter := merTotalCounter, readCounter := 0 } }
    rfl rfl]
  simp

/-- C19, as stated, fails: with `k = 8` and `b = 2`, the read `GGACGTACGTAA` of
length exactly `k + 2b = 12` passes the gate and records the flank pair
`(GG, AA)` under the key `ACGTACGT`. -/
theorem extension_gate_not_strict :
    exampleExtRead.length = 8 + 2 * 2 ∧
    pairsOf (read_fastqFile_extension (Options.ofKmer 8) 2 10000000
        (KmerExtension.create_chunk (Options.ofKmer 8) exampleExtKeys (fun _ => 0))
        (recordLines (['@', 'r', '\n'], exampleExtRead, ['+', '\n'],
          ['I', 'I', 'I', 'I', 'I', 'I', 'I', 'I', 'I', 'I', 'I', 'I', '\n']))
        exampleExtKeys 0).merLocalPair ['A', 'C', 'G', 'T', 'A', 'C', 'G', 'T']
      = [(['G', 'G'], ['A', 'A'])] := by
  decide

theorem read_fastqFile_gate_witness :
    (∀ record ∈ [(['@', 'r', '\n'], exampleRead, ['+', '\n'], ['I', '\n']),
        (['@', 's', '\n'], ['A', 'C'], ['+', '\n'], ['I', '\n'])],
      strAt record.1 0 = '@' ∧ strAt record.2.2.1 0 = '+') ∧
    read_fastqFile (Options.ofKmer 8) 10000000
        (create_chunk (Options.ofKmer 8) exampleKeys (fun _ => 0))
        ([(['@', 'r', '\n'], exampleRead, ['+', '\n'], ['I', '\n']),
          (['@', 's', '\n'], ['A', 'C'], ['+', '\n'], ['I', '\n'])].flatMap recordLines)
        exampleKeys 0
      = some (count_match (Options.ofKmer 8)
          (create_chunk (Options.ofKmer 8) exampleKeys (fun _ => 0))
          (([(['@', 'r', '\n'], exampleRead, ['+', '\n'], ['I', '\n']),
              (['@', 's', '\n'], ['A', 'C'], ['+', '\n'], ['I', '\n'])].map
              (fun record => record.2.1)).filter
            (fun sq => decide ((Options.ofKmer 8).kmer ≤ sq.length)))
          exampleKeys
          { merLocalCounter := [], merTotalCounter := 0, readCounter := 0 }) :=
  ⟨by decide,
    read_fastqFile_gate (Options.ofKmer 8) 10000000
      (create_chunk (Options.ofKmer 8) exampleKeys (fun _ => 0)) exampleKeys
      [(['@', 'r', '\n'], exampleRead, ['+', '\n'], ['I', '\n']),
        (['@', 's', '\n'], ['A', 'C'], ['+', '\n'], ['I', '\n'])]
      (by decide) 0⟩

/-! ## The value ranges of the report -/

theorem UMap.mem_assign {κ ν : Type} [DecidableEq κ] (m : UMap κ ν) (key : κ) (v : ν)
    (e : κ × ν) (h : e ∈ UMap.assign m key v) : e ∈ m ∨ e = (key, v) := by
  induction m with
  | nil =>
    simp only [UMap.assign, List.mem_singleton] at h
    exact Or.inr h
  | cons a rest ih =>
    obtain ⟨k, w⟩ := a
    by_cases hk : k = key
    · simp only [UMap.assign, hk, if_true, List.mem_cons] at h
      rcases h with h | h
      · exact Or.inr h
      · exact Or.inl (List.mem_cons_of_mem _ h)
    · simp only [UMap.assign, hk, if_false, List.mem_cons] at h
      rcases h with h | h
      · left
        rw [h]
        exact List.mem_cons_self _ _
      · rcases ih h with h2 | h2
        · exact Or.inl (List.mem_cons_of_mem _ h2)
        · exact Or.inr h2

theorem UMap.forall_assign {κ ν : Type} [DecidableEq κ] (P : ν → Prop) (m : UMap κ ν)
    (key : κ) (v : ν) (hm : ∀ e ∈ m, P e.2) (hv : P v) :
    ∀ e ∈ UMap.assign m key v, P e.2 := by
  intro e he
  rcases UMap.mem_assign m key v e he with h | h
  · exact hm e h
  · rw [h]
    exact hv

theorem UMap.forall_find {κ ν : Type} [DecidableEq κ] (P : ν → Prop) (m : UMap κ ν)
    (hm : ∀ e ∈ m, P e.2) (key : κ) (v : ν) (h : UMap.find m key = some v) : P v :=
  hm (key, v) (UMap.mem_of_find m key v h)

theorem stockAt_forall {κ ν : Type} [DecidableEq κ] [Zero ν] (P : ν → Prop) (m : UMap κ ν)
    (key : κ) (hm : ∀ e ∈ m, P e.2) (h0 : P 0) :
    P (stockAt m key).1 ∧ ∀ e ∈ (stockAt m key).2, P e.2 := by
  unfold stockAt
  cases h : UMap.find m key with
  | none => exact ⟨h0, UMap.forall_assign P m key 0 hm h0⟩
  | some v => exact ⟨UMap.forall_find P m hm key v h, hm⟩

theorem assign2_forall {ν : Type} (P : ν → Prop) (m : UMap Nat (UMap Nat ν)) (i j : Nat)
    (x : ν) (hm : ∀ e ∈ m, ∀ e2 ∈ e.2, P e2.2) (hx : P x) :
    ∀ e ∈ assign2 m i j x, ∀ e2 ∈ e.2, P e2.2 := by
  unfold assign2
  apply UMap.forall_assign (fun inner : UMap Nat ν => ∀ e2 ∈ inner, P e2.2) m i _ hm
  apply UMap.forall_assign P _ j x _ hx
  cases h : UMap.find m i with
  | none => simp
  | some inner => exact hm (i, inner) (UMap.mem_of_find m i inner h)

theorem find2_forall {ν : Type} (P : ν → Prop) (m : UMap Nat (UMap Nat ν))
    (hm : ∀ e ∈ m, ∀ e2 ∈ e.2, P e2.2) (i j : Nat) (v : ν) (h : find2 m i j = some v) :
    P v := by
  unfold find2 at h
  cases hi : UMap.find m i with
  | none => simp [hi] at h
  | some inner =>
    simp only [hi] at h
    exact hm (i, inner) (UMap.mem_of_find m i inner hi) (j, v) (UMap.mem_of_find inner j v h)

theorem foldlM_range_invariant {β : Type} (P : Nat → β → Prop) (f : β → Nat → Option β)
    (n : Nat) (hf : ∀ t b b2, t < n → P t b → f b t = some b2 → P (t + 1) b2)
    (b : β) (hb : P 0 b) (r : β) (h : (List.range n).foldlM f b = some r) : P n r := by
  induction n generalizing r with
  | zero =>
    simp only [List.range_zero, List.foldlM_nil] at h
    cases h
    exact hb
  | succ n ih =>
    rw [List.range_succ, List.foldlM_append] at h
    cases hmid : (List.range n).foldlM f b with
    | none => simp [hmid] at h
    | some mid =>
      simp only [hmid, List.foldlM_cons, List.foldlM_nil] at h
      have hP := ih (fun t b b2 ht => hf t b b2 (by omega)) mid hmid
      cases hlast : f mid n with
      | none => simp [hlast] at h
      | some last =>
        simp [hlast] at h
        subst h
        exact hf n mid last (by omega) hP hlast

section RangeLemmas

variable {F : Type} [LinearOrderedField F]

theorem pvalueOf_range (chdtrc : F → F → F)
    (hch : ∀ x, 0 < x → x < 170 → 0 ≤ chdtrc 1 x ∧ chdtrc 1 x ≤ 1) (gv : Dbl F) :
    0 ≤ pvalueOf chdtrc gv ∧ pvalueOf chdtrc gv ≤ 1 := by
  cases gv with
  | fin x =>
    by_cases h1 : 0 < x
    · by_cases h2 : x < 170
      · simpa [pvalueOf, Dbl.lt, Dbl.value, h1, h2] using hch x h1 h2
      · simp [pvalueOf, Dbl.lt, h1, h2]
    · simp [pvalueOf, Dbl.lt, h1]
  | pinf => simp [pvalueOf, Dbl.lt]
  | ninf => simp [pvalueOf, Dbl.lt]
  | nan => simp [pvalueOf, Dbl.lt]

theorem kmer_extension_range (ln : F → F) (chdtrc : F → F → F)
    (hch : ∀ x, 0 < x → x < 170 → 0 ≤ chdtrc 1 x ∧ chdtrc 1 x ≤ 1) (g : Gtest F)
    (m w : Nat) :
    0 ≤ (g.kmer_extension ln chdtrc m w).2 ∧ (g.kmer_extension ln chdtrc m w).2 ≤ 1 := by
  unfold Gtest.kmer_extension
  by_cases h : (m : F) * g.wildType_mer_total ≥ (w : F) * g.mutant_mer_total
  · simp only [h, if_true]
    exact pvalueOf_range chdtrc hch _
  · simp only [h, if_false]
    exact ⟨zero_le_one, le_refl _⟩

theorem kmer_match_compute_range (ln : F → F) (chdtrc : F → F → F)
    (hch : ∀ x, 0 < x → x < 170 → 0 ≤ chdtrc 1 x ∧ chdtrc 1 x ≤ 1) (g : Gtest F)
    (n : Nat) (target : Nat × Nat) :
    (0 ≤ (g.kmer_match_compute ln chdtrc n target).2.1
      ∧ (g.kmer_match_compute ln chdtrc n target).2.1 ≤ 1) ∧
    (0 ≤ (g.kmer_match_compute ln chdtrc n target).2.2
      ∧ (g.kmer_match_compute ln chdtrc n target).2.2 ≤ 1) := by
  unfold Gtest.kmer_match_compute
  by_cases h : (target.1 : F) * g.wildType_mer_total > (target.2 : F) * g.mutant_mer_total
  · simp only [h, if_true]
    have hp := pvalueOf_range chdtrc hch (g.adjusted_g ln (g.consts ln).mutant_mer_total_log
      (g.consts ln).wildType_mer_total_log (g.consts ln).mer_total (g.consts ln).mer_q3
      (g.consts ln).mer_qcomm (Dbl.fin (target.1 : F)) (Dbl.fin (target.2 : F)))
    refine ⟨hp, le_min (mul_nonneg hp.1 (Nat.cast_nonneg n)) zero_le_one, min_le_right _ _⟩
  · simp only [h, if_false]
    exact ⟨⟨zero_le_one, le_refl _⟩, zero_le_one, le_refl _⟩

end RangeLemmas

theorem mem_flattenPvals {F : Type} (pval : UMap Nat (UMap Nat F)) (p : F) (h : p ∈ flattenPvals pval) :
    ∃ e ∈ pval, ∃ e2 ∈ e.2, e2.2 = p := by
  unfold flattenPvals at h
  simp only [List.mem_flatMap, List.mem_map] at h
  obtain ⟨e, he, e2, he2, hp⟩ := h
  exact ⟨e, he, e2, he2, hp⟩

section OutsideRangeLemmas

variable {F : Type} [LinearOrderedField F]

theorem outside_row_range (ln : F → F) (chdtrc : F → F → F)
    (hch : ∀ x, 0 < x → x < 170 → 0 ≤ chdtrc 1 x ∧ chdtrc 1 x ≤ 1) (gtest : Gtest F) (i : Nat)
    (mc wc : UMap (Str × Str) Nat) (s : OutsideLoop F × Nat) (itr_v : Nat × (Str × Str))
    (h1 : ∀ e ∈ s.1.outsideData.pval, ∀ e2 ∈ e.2, 0 ≤ e2.2 ∧ e2.2 ≤ 1)
    (h2 : ∀ e ∈ s.1.pval_stock, 0 ≤ e.2 ∧ e.2 ≤ 1) :
    (∀ e ∈ (outside_row ln chdtrc gtest i mc wc s itr_v).1.outsideData.pval,
      ∀ e2 ∈ e.2, 0 ≤ e2.2 ∧ e2.2 ≤ 1) ∧
    (∀ e ∈ (outside_row ln chdtrc gtest i mc wc s itr_v).1.pval_stock, 0 ≤ e.2 ∧ e.2 ≤ 1) := by
  have h0 : (0 : F) ≤ 0 ∧ (0 : F) ≤ 1 := ⟨le_refl _, zero_le_one⟩
  unfold outside_row
  by_cases h : UMap.contains s.1.gval_stock
      (if UMap.contains mc itr_v.2 then countOf mc itr_v.2 else 0,
       if UMap.contains wc itr_v.2 then countOf wc itr_v.2 else 0) = true
  · simp only [h, if_true]
    have hs := stockAt_forall (fun x : F => 0 ≤ x ∧ x ≤ 1) s.1.pval_stock
      (if UMap.contains mc itr_v.2 then countOf mc itr_v.2 else 0,
       if UMap.contains wc itr_v.2 then countOf wc itr_v.2 else 0) h2 h0
    exact ⟨assign2_forall (fun x : F => 0 ≤ x ∧ x ≤ 1) _ _ _ _ h1 hs.1, hs.2⟩
  · simp only [h]
    have hk := kmer_extension_range ln chdtrc hch gtest
      (if UMap.contains mc itr_v.2 then countOf mc itr_v.2 else 0)
      (if UMap.contains wc itr_v.2 then countOf wc itr_v.2 else 0)
    exact ⟨assign2_forall (fun x : F => 0 ≤ x ∧ x ≤ 1) _ _ _ _ h1 hk,
      UMap.forall_assign (fun x : F => 0 ≤ x ∧ x ≤ 1) _ _ _ h2 hk⟩

theorem outside_rows_range (ln : F → F) (chdtrc : F → F → F)
    (hch : ∀ x, 0 < x → x < 170 → 0 ≤ chdtrc 1 x ∧ chdtrc 1 x ≤ 1) (gtest : Gtest F) (i : Nat)
    (mc wc : UMap (Str × Str) Nat) (v : List (Nat × (Str × Str))) (s : OutsideLoop F × Nat)
    (h1 : ∀ e ∈ s.1.outsideData.pval, ∀ e2 ∈ e.2, 0 ≤ e2.2 ∧ e2.2 ≤ 1)
    (h2 : ∀ e ∈ s.1.pval_stock, 0 ≤ e.2 ∧ e.2 ≤ 1) :
    (∀ e ∈ (v.foldl (outside_row ln chdtrc gtest i mc wc) s).1.outsideData.pval,
      ∀ e2 ∈ e.2, 0 ≤ e2.2 ∧ e2.2 ≤ 1) ∧
    (∀ e ∈ (v.foldl (outside_row ln chdtrc gtest i mc wc) s).1.pval_stock,
      0 ≤ e.2 ∧ e.2 ≤ 1) := by
  induction v generalizing s with
  | nil => exact ⟨h1, h2⟩
  | cons a rest ih =>
    rw [List.foldl_cons]
    obtain ⟨h3, h4⟩ := outside_row_range ln chdtrc hch gtest i mc wc s a h1 h2
    exact ih _ h3 h4

theorem outside_position_range (ln : F → F) (chdtrc : F → F → F)
    (hch : ∀ x, 0 < x → x < 170 → 0 ≤ chdtrc 1 x ∧ chdtrc 1 x ≤ 1) (sf : StatisticsFile F)
    (mutantMerPair wildTypeMerPair : UMap Str (List (Str × Str)))
    (s s2 : OutsideLoop F) (i : Nat)
    (h1 : ∀ e ∈ s.outsideData.pval, ∀ e2 ∈ e.2, 0 ≤ e2.2 ∧ e2.2 ≤ 1)
    (h2 : ∀ e ∈ s.pval_stock, 0 ≤ e.2 ∧ e.2 ≤ 1)
    (h : outside_position ln chdtrc sf mutantMerPair wildTypeMerPair s i = some s2) :
    (∀ e ∈ s2.outsideData.pval, ∀ e2 ∈ e.2, 0 ≤ e2.2 ∧ e2.2 ≤ 1) ∧
    (∀ e ∈ s2.pval_stock, 0 ≤ e.2 ∧ e.2 ≤ 1) := by
  unfold outside_position at h
  by_cases hthr : (UMap.find sf.gtest.fdr i).getD 0 ≤ sf.threshold_fdr
  · simp only [hthr, if_true] at h
    cases hmer : UMap.find sf.vectorPosPair i with
    | none => simp [hmer] at h
    | some mer =>
      simp only [hmer, Option.some.injEq] at h
      rw [← h]
      exact outside_rows_range ln chdtrc hch sf.gtest i _ _ _ _ h1 h2
  · simp only [hthr, if_false, Option.some.injEq] at h
    rw [← h]
    exact ⟨h1, h2⟩

theorem create_outsideData_range (ln : F → F) (chdtrc : F → F → F)
    (hch : ∀ x, 0 < x → x < 170 → 0 ≤ chdtrc 1 x ∧ chdtrc 1 x ≤ 1) (sf : StatisticsFile F)
    (mutantMerPair wildTypeMerPair : UMap Str (List (Str × Str))) (s : OutsideLoop F)
    (h : create_outsideData ln chdtrc sf mutantMerPair wildTypeMerPair = some s) :
    ∀ e ∈ s.outsideData.pval, ∀ e2 ∈ e.2, 0 ≤ e2.2 ∧ e2.2 ≤ 1 := by
  unfold create_outsideData at h
  have := foldlM_range_invariant
    (fun _ (b : OutsideLoop F) => (∀ e ∈ b.outsideData.pval, ∀ e2 ∈ e.2, 0 ≤ e2.2 ∧ e2.2 ≤ 1) ∧
      (∀ e ∈ b.pval_stock, 0 ≤ e.2 ∧ e.2 ≤ 1))
    (outside_position ln chdtrc sf mutantMerPair wildTypeMerPair)
    (sf.vectorArray.length - sf.kmer)
    (fun t b b2 _ hb hstep => outside_position_range ln chdtrc hch sf mutantMerPair
      wildTypeMerPair b b2 t hb.1 hb.2 hstep)
    _ (by simp) s h
  exact this.1

theorem fdr_match_step_range (vector_len : F) (hl : 0 ≤ vector_len) (s : FdrWalk F)
    (itr : F × Nat) (hp : 0 ≤ itr.1)
    (h1 : ∀ e ∈ s.fdr, 0 ≤ e.2 ∧ e.2 ≤ 1) (h2 : 0 ≤ s.fdr_prev ∧ s.fdr_prev ≤ 1)
    (h3 : 0 < s.vector_pos) :
    (∀ e ∈ (fdr_match_step vector_len s itr).fdr, 0 ≤ e.2 ∧ e.2 ≤ 1) ∧
    (0 ≤ (fdr_match_step vector_len s itr).fdr_prev
      ∧ (fdr_match_step vector_len s itr).fdr_prev ≤ 1) ∧
    0 < (fdr_match_step vector_len s itr).vector_pos := by
  unfold fdr_match_step
  by_cases h : itr.1 = s.pval_prev
  · simp only [h, if_true]
    exact ⟨UMap.forall_assign (fun x : F => 0 ≤ x ∧ x ≤ 1) _ _ _ h1 h2, h2, by linarith⟩
  · simp only [h, if_false]
    have hv : 0 ≤ min (itr.1 * vector_len / s.vector_pos) 1
        ∧ min (itr.1 * vector_len / s.vector_pos) 1 ≤ 1 :=
      ⟨le_min (div_nonneg (mul_nonneg hp hl) (le_of_lt h3)) zero_le_one, min_le_right _ _⟩
    exact ⟨UMap.forall_assign (fun x : F => 0 ≤ x ∧ x ≤ 1) _ _ _ h1 hv, hv, by linarith⟩

theorem fdr_walk_range (vector_len : F) (hl : 0 ≤ vector_len) (v : List (F × Nat))
    (hv : ∀ e ∈ v, 0 ≤ e.1) (s : FdrWalk F)
    (h1 : ∀ e ∈ s.fdr, 0 ≤ e.2 ∧ e.2 ≤ 1) (h2 : 0 ≤ s.fdr_prev ∧ s.fdr_prev ≤ 1)
    (h3 : 0 < s.vector_pos) :
    ∀ e ∈ (v.foldl (fdr_match_step vector_len) s).fdr, 0 ≤ e.2 ∧ e.2 ≤ 1 := by
  induction v generalizing s with
  | nil => exact h1
  | cons a rest ih =>
    rw [List.foldl_cons]
    obtain ⟨h4, h5, h6⟩ := fdr_match_step_range vector_len hl s a
      (hv a (List.mem_cons_self _ _)) h1 h2 h3
    exact ih (fun e he => hv e (List.mem_cons_of_mem _ he)) _ h4 h5 h6

theorem fdr_extension_inner_range (f : UMap Nat F) (hf : ∀ e ∈ f, 0 ≤ e.2 ∧ e.2 ≤ 1) (i : Nat)
    (inner : UMap Nat F) (acc : UMap Nat (UMap Nat F) × Nat)
    (h : ∀ e ∈ acc.1, ∀ e2 ∈ e.2, 0 ≤ e2.2 ∧ e2.2 ≤ 1) :
    ∀ e ∈ (inner.foldl (fdr_extension_inner f i) acc).1, ∀ e2 ∈ e.2, 0 ≤ e2.2 ∧ e2.2 ≤ 1 := by
  induction inner generalizing acc with
  | nil => exact h
  | cons a rest ih =>
    rw [List.foldl_cons]
    apply ih
    unfold fdr_extension_inner
    apply assign2_forall (fun x : F => 0 ≤ x ∧ x ≤ 1) _ _ _ _ h
    cases hfind : UMap.find f acc.2 with
    | none => exact ⟨le_refl _, zero_le_one⟩
    | some x => exact UMap.forall_find (fun x : F => 0 ≤ x ∧ x ≤ 1) f hf _ x hfind

theorem fdr_extension_outer_range (f : UMap Nat F) (hf : ∀ e ∈ f, 0 ≤ e.2 ∧ e.2 ≤ 1)
    (pval : UMap Nat (UMap Nat F)) (acc : UMap Nat (UMap Nat F) × Nat)
    (h : ∀ e ∈ acc.1, ∀ e2 ∈ e.2, 0 ≤ e2.2 ∧ e2.2 ≤ 1) :
    ∀ e ∈ (pval.foldl (fun acc itr => itr.2.foldl (fdr_extension_inner f itr.1) acc) acc).1,
      ∀ e2 ∈ e.2, 0 ≤ e2.2 ∧ e2.2 ≤ 1 := by
  induction pval generalizing acc with
  | nil => exact h
  | cons a rest ih =>
    rw [List.foldl_cons]
    exact ih _ (fdr_extension_inner_range f hf a.1 a.2 acc h)

theorem fdr_extension_range (pval fdr_ext : UMap Nat (UMap Nat F))
    (hp : ∀ e ∈ pval, ∀ e2 ∈ e.2, 0 ≤ e2.2)
    (h : fdr_extension pval = some fdr_ext) :
    ∀ e ∈ fdr_ext, ∀ e2 ∈ e.2, 0 ≤ e2.2 ∧ e2.2 ≤ 1 := by
  unfold fdr_extension at h
  have hperm := List.perm_insertionSort (pairLE : F × Nat → F × Nat → Prop)
    ((flattenPvals pval).enum.map (fun e => (e.2, e.1)))
  generalize hv : List.insertionSort pairLE
    ((flattenPvals pval).enum.map (fun e => (e.2, e.1))) = v at hperm h
  have hnonneg : ∀ e ∈ v, 0 ≤ e.1 := by
    intro e he
    have hmem := hperm.mem_iff.mp he
    simp only [List.mem_map] at hmem
    obtain ⟨a, ha, rfl⟩ := hmem
    obtain ⟨idx, p⟩ := a
    have hmp : p ∈ flattenPvals pval := by
      rw [List.mk_mem_enum_iff_getElem?] at ha
      exact List.mem_iff_getElem?.mpr ⟨idx, ha⟩
    obtain ⟨e1, he1, e2, he2, hpe⟩ := mem_flattenPvals pval p hmp
    simp only
    rw [← hpe]
    exact hp e1 he1 e2 he2
  cases v with
  | nil => simp at h
  | cons first rest =>
    simp only [Option.some.injEq] at h
    rw [← h]
    apply fdr_extension_outer_range
    · apply fdr_walk_range _ (Nat.cast_nonneg _) _ hnonneg
      · simp
      · have h0 := hnonneg first (List.mem_cons_self _ _)
        exact ⟨le_min (mul_nonneg h0 (Nat.cast_nonneg _)) zero_le_one, min_le_right _ _⟩
      · exact zero_lt_one
    · simp

end OutsideRangeLemmas

section ReportRange

variable {F : Type} [LinearOrderedField F]

/-- C13: assuming `chdtrc(1, g)` lies in [0, 1] for every `0 < g < 170`, every
row of the two reports has its p-value, its FDR and its Bonferroni value in
[0, 1]: the row of every position `i` after `kmer_match` (run on an engine with
no earlier results and a non-empty frequency vector), and every flank-pair row
that `create_outsideFile` writes. -/
theorem report_values_in_unit_interval (ln : F → F) (chdtrc : F → F → F)
    (hch : ∀ x, 0 < x → x < 170 → 0 ≤ chdtrc 1 x ∧ chdtrc 1 x ≤ 1)
    (g : Gtest F) (hfresh : g.pval = []) (mutantPosFreq wildTypePosFreq : List Nat)
    (hn : 0 < mutantPosFreq.length)
    (sf : StatisticsFile F) (mutantMerPair wildTypeMerPair : UMap Str (List (Str × Str))) :
    (∃ g2, g.kmer_match ln chdtrc mutantPosFreq wildTypePosFreq = some g2 ∧
      ∀ i, i < mutantPosFreq.length →
        ∃ p fdr bon, UMap.find g2.pval i = some p ∧ UMap.find g2.fdr i = some fdr ∧
          UMap.find g2.bon i = some bon ∧
          0 ≤ p ∧ p ≤ 1 ∧ 0 ≤ fdr ∧ fdr ≤ 1 ∧ 0 ≤ bon ∧ bon ≤ 1) ∧
    (∀ records, create_outsideFile ln chdtrc sf mutantMerPair wildTypeMerPair = some records →
      ∀ record ∈ records, ∀ row ∈ record.rows,
        0 ≤ row.pval ∧ row.pval ≤ 1 ∧ 0 ≤ row.fdr ∧ row.fdr ≤ 1 ∧ 0 ≤ row.bon ∧ row.bon ≤ 1) := by
  constructor
  · obtain ⟨g2, hg2, hval⟩ :=
      kmer_match_fresh ln chdtrc g hfresh mutantPosFreq wildTypePosFreq hn
    refine ⟨g2, hg2, ?_⟩
    intro i hi
    obtain ⟨_, hp, hb, hf⟩ := hval i hi
    obtain ⟨hpr, hbr⟩ := kmer_match_compute_range ln chdtrc hch g mutantPosFreq.length
      (mutantPosFreq.getD i 0, wildTypePosFreq.getD i 0)
    refine ⟨_, _, _, hp, hf, hb, hpr.1, hpr.2, ?_, min_le_left _ _, hbr.1, hbr.2⟩
    apply le_min zero_le_one
    apply div_nonneg (mul_nonneg hpr.1 (Nat.cast_nonneg _)) (Nat.cast_nonneg _)
  · intro records hrec record hrecord row hrow
    unfold create_outsideFile at hrec
    cases hdata : create_outsideData ln chdtrc sf mutantMerPair wildTypeMerPair with
    | none => simp [hdata] at hrec
    | some s =>
      simp only [hdata] at hrec
      have hpv := create_outsideData_range ln chdtrc hch sf mutantMerPair wildTypeMerPair s hdata
      cases hext : fdr_extension s.outsideData.pval with
      | none => simp [hext] at hrec
      | some fdr_ext =>
        simp only [hext, Option.some.injEq] at hrec
        have hfv := fdr_extension_range s.outsideData.pval fdr_ext
          (fun e he e2 he2 => (hpv e he e2 he2).1) hext
        rw [← hrec] at hrecord
        simp only [List.mem_filterMap, List.mem_range] at hrecord
        obtain ⟨i, _, hi⟩ := hrecord
        by_cases hthr : (UMap.find sf.gtest.fdr i).getD 0 ≤ sf.threshold_fdr
        · simp only [hthr, if_true, Option.some.injEq] at hi
          rw [← hi] at hrow
          simp only [List.mem_map, List.mem_range] at hrow
          obtain ⟨j, _, hj⟩ := hrow
          rw [← hj]
          have hp : 0 ≤ (find2 s.outsideData.pval i j).getD 0
              ∧ (find2 s.outsideData.pval i j).getD 0 ≤ 1 := by
            cases hfind : find2 s.outsideData.pval i j with
            | none => exact ⟨le_refl _, zero_le_one⟩
            | some x =>
              exact find2_forall (fun x : F => 0 ≤ x ∧ x ≤ 1) _ hpv i j x hfind
          have hf : 0 ≤ (find2 fdr_ext i j).getD 0 ∧ (find2 fdr_ext i j).getD 0 ≤ 1 := by
            cases hfind : find2 fdr_ext i j with
            | none => exact ⟨le_refl _, zero_le_one⟩
            | some x =>
              exact find2_forall (fun x : F => 0 ≤ x ∧ x ≤ 1) _ hfv i j x hfind
          unfold outside_file_row
          exact ⟨hp.1, hp.2, hf.1, hf.2,
            le_min (mul_nonneg hp.1 (Nat.cast_nonneg _)) zero_le_one, min_le_right _ _⟩
        · simp [hthr] at hi

end ReportRange

/-! ## The cache of the extension report -/

theorem vectorAt_pushAt {ν : Type} (m : UMap Nat (List ν)) (i : Nat) (x : ν) (i2 : Nat) :
    vectorAt (pushAt m i x) i2 = if i = i2 then vectorAt m i ++ [x] else vectorAt m i2 := by
  unfold vectorAt pushAt
  rw [UMap.find_assign]
  by_cases h : i = i2
  · simp [h]
  · simp [h]

theorem find2_assign2 {ν : Type} (m : UMap Nat (UMap Nat ν)) (i j : Nat) (x : ν) (i2 j2 : Nat) :
    find2 (assign2 m i j x) i2 j2
      = if i = i2 then (if j = j2 then some x else find2 m i j2) else find2 m i2 j2 := by
  unfold find2 assign2
  rw [UMap.find_assign]
  by_cases h : i = i2
  · subst h
    simp only [if_true]
    rw [UMap.find_assign]
    cases hfind : UMap.find m i with
    | none => simp [UMap.find]
    | some inner => simp
  · simp [h]

section OutsideCacheLemmas

variable {F : Type} [LinearOrderedField F]

/-- One row of `create_outsideData` with a sound cache: the row gets the values
of `kmer_extension` at its own pair of counts, whether or not the pair was
cached, and the cache stays sound. -/
theorem outside_row_eq (ln : F → F) (chdtrc : F → F → F) (gtest : Gtest F) (i : Nat)
    (mc wc : UMap (Str × Str) Nat) (s : OutsideLoop F × Nat) (itr_v : Nat × (Str × Str))
    (hstock : ∀ target, UMap.contains s.1.gval_stock target = true →
      UMap.find s.1.gval_stock target
        = some (gtest.kmer_extension ln chdtrc target.1 target.2).1 ∧
      UMap.find s.1.pval_stock target
        = some (gtest.kmer_extension ln chdtrc target.1 target.2).2) :
    (outside_row ln chdtrc gtest i mc wc s itr_v).1.outsideData
      = { gval := assign2 s.1.outsideData.gval i s.2 (gtest.kmer_extension ln chdtrc
            (if UMap.contains mc itr_v.2 then countOf mc itr_v.2 else 0)
            (if UMap.contains wc itr_v.2 then countOf wc itr_v.2 else 0)).1
          pval := assign2 s.1.outsideData.pval i s.2 (gtest.kmer_extension ln chdtrc
            (if UMap.contains mc itr_v.2 then countOf mc itr_v.2 else 0)
            (if UMap.contains wc itr_v.2 then countOf wc itr_v.2 else 0)).2
          left_chain := pushAt s.1.outsideData.left_chain i itr_v.2.1
          right_chain := pushAt s.1.outsideData.right_chain i itr_v.2.2
          mutant_count := pushAt s.1.outsideData.mutant_count i
            (if UMap.contains mc itr_v.2 then countOf mc itr_v.2 else 0)
          wildType_count := pushAt s.1.outsideData.wildType_count i
            (if UMap.contains wc itr_v.2 then countOf wc itr_v.2 else 0) } ∧
    (outside_row ln chdtrc gtest i mc wc s itr_v).2 = s.2 + 1 ∧
    (∀ target, UMap.contains (outside_row ln chdtrc gtest i mc wc s itr_v).1.gval_stock target
        = true →
      UMap.find (outside_row ln chdtrc gtest i mc wc s itr_v).1.gval_stock target
        = some (gtest.kmer_extension ln chdtrc target.1 target.2).1 ∧
      UMap.find (outside_row ln chdtrc gtest i mc wc s itr_v).1.pval_stock target
        = some (gtest.kmer_extension ln chdtrc target.1 target.2).2) := by
  unfold outside_row
  by_cases h : UMap.contains s.1.gval_stock
      (if UMap.contains mc itr_v.2 then countOf mc itr_v.2 else 0,
       if UMap.contains wc itr_v.2 then countOf wc itr_v.2 else 0) = true
  · simp only [h, if_true]
    obtain ⟨hg, hp⟩ := hstock _ h
    rw [stockAt_of_find _ _ _ hg, stockAt_of_find _ _ _ hp]
    exact ⟨rfl, trivial, hstock⟩
  · simp only [h, Bool.false_eq_true, if_false]
    refine ⟨trivial, trivial, ?_⟩
    intro target ht
    rw [UMap.contains_assign] at ht
    rw [UMap.find_assign, UMap.find_assign]
    by_cases heq : (if UMap.contains mc itr_v.2 then countOf mc itr_v.2 else 0,
       if UMap.contains wc itr_v.2 then countOf wc itr_v.2 else 0) = target
    · simp only [heq, if_true]
      rw [← heq]
      exact ⟨rfl, rfl⟩
    · simp only [heq, if_false]
      simp only [heq, decide_False, Bool.false_or] at ht
      exact hstock target ht

end OutsideCacheLemmas

/-- Appending one row to position `i` of the extension tables keeps the tables
consistent: every stored row holds the values of `ke` at its own pair of
counts. -/
theorem outside_rows_push {F : Type} (ke : Nat → Nat → Dbl F × F) (od : OutsideData F)
    (i m w : Nat) (l r : Str)
    (hlen : ∀ i2, (vectorAt od.wildType_count i2).length
      = (vectorAt od.mutant_count i2).length)
    (hrows : ∀ i2 j, j < (vectorAt od.mutant_count i2).length →
      find2 od.gval i2 j = some (ke ((vectorAt od.mutant_count i2).getD j 0)
        ((vectorAt od.wildType_count i2).getD j 0)).1 ∧
      find2 od.pval i2 j = some (ke ((vectorAt od.mutant_count i2).getD j 0)
        ((vectorAt od.wildType_count i2).getD j 0)).2)
    (hlater : ∀ i2, i < i2 → vectorAt od.mutant_count i2 = [])
    (od2 : OutsideData F)
    (hod2 : od2 = { gval := assign2 od.gval i (vectorAt od.mutant_count i).length (ke m w).1
                    pval := assign2 od.pval i (vectorAt od.mutant_count i).length (ke m w).2
                    left_chain := pushAt od.left_chain i l
                    right_chain := pushAt od.right_chain i r
                    mutant_count := pushAt od.mutant_count i m
                    wildType_count := pushAt od.wildType_count i w }) :
    (∀ i2, (vectorAt od2.wildType_count i2).length = (vectorAt od2.mutant_count i2).length) ∧
    (vectorAt od2.mutant_count i).length = (vectorAt od.mutant_count i).length + 1 ∧
    (∀ i2 j, j < (vectorAt od2.mutant_count i2).length →
      find2 od2.gval i2 j = some (ke ((vectorAt od2.mutant_count i2).getD j 0)
        ((vectorAt od2.wildType_count i2).getD j 0)).1 ∧
      find2 od2.pval i2 j = some (ke ((vectorAt od2.mutant_count i2).getD j 0)
        ((vectorAt od2.wildType_count i2).getD j 0)).2) ∧
    (∀ i2, i < i2 → vectorAt od2.mutant_count i2 = []) := by
  subst hod2
  simp only [vectorAt_pushAt, find2_assign2]
  refine ⟨?_, ?_, ?_, ?_⟩
  · intro i2
    by_cases h : i = i2
    · subst h
      simp [hlen i]
    · simp [h, hlen i2]
  · simp
  · intro i2 j hj
    by_cases h : i = i2
    · subst h
      simp only [if_true, List.length_append, List.length_singleton] at hj ⊢
      by_cases hjc : (vectorAt od.mutant_count i).length = j
      · have hw : (vectorAt od.wildType_count i).length = j := by rw [hlen i, hjc]
        simp only [hjc, if_true]
        have e1 : (vectorAt od.mutant_count i ++ [m]).getD j 0 = m := by
          rw [List.getD_eq_getElem?_getD, List.getElem?_append_right (by omega)]
          simp [hjc]
        have e2 : (vectorAt od.wildType_count i ++ [w]).getD j 0 = w := by
          rw [List.getD_eq_getElem?_getD, List.getElem?_append_right (by omega)]
          simp [hw]
        rw [e1, e2]
        exact ⟨rfl, rfl⟩
      · have hlt : j < (vectorAt od.mutant_count i).length := by omega
        have hltw : j < (vectorAt od.wildType_count i).length := by rw [hlen i]; exact hlt
        simp only [hjc, if_false]
        have e1 : (vectorAt od.mutant_count i ++ [m]).getD j 0
            = (vectorAt od.mutant_count i).getD j 0 := by
          rw [List.getD_eq_getElem?_getD, List.getD_eq_getElem?_getD,
            List.getElem?_append_left hlt]
        have e2 : (vectorAt od.wildType_count i ++ [w]).getD j 0
            = (vectorAt od.wildType_count i).getD j 0 := by
          rw [List.getD_eq_getElem?_getD, List.getD_eq_getElem?_getD,
            List.getElem?_append_left hltw]
        rw [e1, e2]
        exact hrows i j hlt
    · simp only [h, if_false] at hj ⊢
      exact hrows i2 j hj
  · intro i2 hi2
    have h : ¬ i = i2 := by omega
    simp only [h, if_false]
    exact hlater i2 hi2

section OutsideCacheLoop

variable {F : Type} [LinearOrderedField F]

theorem outside_rows_cache (ln : F → F) (chdtrc : F → F → F) (gtest : Gtest F) (i : Nat)
    (mc wc : UMap (Str × Str) Nat) (v : List (Nat × (Str × Str))) (s : OutsideLoop F × Nat)
    (hstock : ∀ target, UMap.contains s.1.gval_stock target = true →
      UMap.find s.1.gval_stock target
        = some (gtest.kmer_extension ln chdtrc target.1 target.2).1 ∧
      UMap.find s.1.pval_stock target
        = some (gtest.kmer_extension ln chdtrc target.1 target.2).2)
    (hic : s.2 = (vectorAt s.1.outsideData.mutant_count i).length)
    (hlen : ∀ i2, (vectorAt s.1.outsideData.wildType_count i2).length
      = (vectorAt s.1.outsideData.mutant_count i2).length)
    (hrows : ∀ i2 j, j < (vectorAt s.1.outsideData.mutant_count i2).length →
      find2 s.1.outsideData.gval i2 j = some (gtest.kmer_extension ln chdtrc
        ((vectorAt s.1.outsideData.mutant_count i2).getD j 0)
        ((vectorAt s.1.outsideData.wildType_count i2).getD j 0)).1 ∧
      find2 s.1.outsideData.pval i2 j = some (gtest.kmer_extension ln chdtrc
        ((vectorAt s.1.outsideData.mutant_count i2).getD j 0)
        ((vectorAt s.1.outsideData.wildType_count i2).getD j 0)).2)
    (hlater : ∀ i2, i < i2 → vectorAt s.1.outsideData.mutant_count i2 = []) :
    (∀ target, UMap.contains (v.foldl (outside_row ln chdtrc gtest i mc wc) s).1.gval_stock
        target = true →
      UMap.find (v.foldl (outside_row ln chdtrc gtest i mc wc) s).1.gval_stock target
        = some (gtest.kmer_extension ln chdtrc target.1 target.2).1 ∧
      UMap.find (v.foldl (outside_row ln chdtrc gtest i mc wc) s).1.pval_stock target
        = some (gtest.kmer_extension ln chdtrc target.1 target.2).2) ∧
    (∀ i2, (vectorAt (v.foldl (outside_row ln chdtrc gtest i mc wc) s).1.outsideData.wildType_count
        i2).length
      = (vectorAt (v.foldl (outside_row ln chdtrc gtest i mc wc) s).1.outsideData.mutant_count
        i2).length) ∧
    (∀ i2 j, j < (vectorAt
        (v.foldl (outside_row ln chdtrc gtest i mc wc) s).1.outsideData.mutant_count i2).length →
      find2 (v.foldl (outside_row ln chdtrc gtest i mc wc) s).1.outsideData.gval i2 j
        = some (gtest.kmer_extension ln chdtrc
          ((vectorAt (v.foldl (outside_row ln chdtrc gtest i mc wc) s).1.outsideData.mutant_count
            i2).getD j 0)
          ((vectorAt (v.foldl (outside_row ln chdtrc gtest i mc wc) s).1.outsideData.wildType_count
            i2).getD j 0)).1 ∧
      find2 (v.foldl (outside_row ln chdtrc gtest i mc wc) s).1.outsideData.pval i2 j
        = some (gtest.kmer_extension ln chdtrc
          ((vectorAt (v.foldl (outside_row ln chdtrc gtest i mc wc) s).1.outsideData.mutant_count
            i2).getD j 0)
          ((vectorAt (v.foldl (outside_row ln chdtrc gtest i mc wc) s).1.outsideData.wildType_count
            i2).getD j 0)).2) ∧
    (∀ i2, i < i2 →
      vectorAt (v.foldl (outside_row ln chdtrc gtest i mc wc) s).1.outsideData.mutant_count i2
        = []) := by
  induction v generalizing s with
  | nil => exact ⟨hstock, hlen, hrows, hlater⟩
  | cons a rest ih =>
    rw [List.foldl_cons]
    obtain ⟨hod, hic2, hstock2⟩ := outside_row_eq ln chdtrc gtest i mc wc s a hstock
    rw [hic] at hod
    obtain ⟨hlen2, hnew, hrows2, hlater2⟩ := outside_rows_push
      (fun m w => gtest.kmer_extension ln chdtrc m w) s.1.outsideData i _ _ _ _
      hlen hrows hlater _ hod
    exact ih _ hstock2 (by rw [hic2, hnew, hic]) hlen2 hrows2 hlater2

theorem outside_position_cache (ln : F → F) (chdtrc : F → F → F) (sf : StatisticsFile F)
    (mutantMerPair wildTypeMerPair : UMap Str (List (Str × Str)))
    (s s2 : OutsideLoop F) (t : Nat)
    (hstock : ∀ target, UMap.contains s.gval_stock target = true →
      UMap.find s.gval_stock target
        = some (sf.gtest.kmer_extension ln chdtrc target.1 target.2).1 ∧
      UMap.find s.pval_stock target
        = some (sf.gtest.kmer_extension ln chdtrc target.1 target.2).2)
    (hlen : ∀ i2, (vectorAt s.outsideData.wildType_count i2).length
      = (vectorAt s.outsideData.mutant_count i2).length)
    (hrows : ∀ i2 j, j < (vectorAt s.outsideData.mutant_count i2).length →
      find2 s.outsideData.gval i2 j = some (sf.gtest.kmer_extension ln chdtrc
        ((vectorAt s.outsideData.mutant_count i2).getD j 0)
        ((vectorAt s.outsideData.wildType_count i2).getD j 0)).1 ∧
      find2 s.outsideData.pval i2 j = some (sf.gtest.kmer_extension ln chdtrc
        ((vectorAt s.outsideData.mutant_count i2).getD j 0)
        ((vectorAt s.outsideData.wildType_count i2).getD j 0)).2)
    (hlater : ∀ i2, t ≤ i2 → vectorAt s.outsideData.mutant_count i2 = [])
    (h : outside_position ln chdtrc sf mutantMerPair wildTypeMerPair s t = some s2) :
    (∀ target, UMap.contains s2.gval_stock target = true →
      UMap.find s2.gval_stock target
        = some (sf.gtest.kmer_extension ln chdtrc target.1 target.2).1 ∧
      UMap.find s2.pval_stock target
        = some (sf.gtest.kmer_extension ln chdtrc target.1 target.2).2) ∧
    (∀ i2, (vectorAt s2.outsideData.wildType_count i2).length
      = (vectorAt s2.outsideData.mutant_count i2).length) ∧
    (∀ i2 j, j < (vectorAt s2.outsideData.mutant_count i2).length →
      find2 s2.outsideData.gval i2 j = some (sf.gtest.kmer_extension ln chdtrc
        ((vectorAt s2.outsideData.mutant_count i2).getD j 0)
        ((vectorAt s2.outsideData.wildType_count i2).getD j 0)).1 ∧
      find2 s2.outsideData.pval i2 j = some (sf.gtest.kmer_extension ln chdtrc
        ((vectorAt s2.outsideData.mutant_count i2).getD j 0)
        ((vectorAt s2.outsideData.wildType_count i2).getD j 0)).2) ∧
    (∀ i2, t + 1 ≤ i2 → vectorAt s2.outsideData.mutant_count i2 = []) := by
  unfold outside_position at h
  by_cases hthr : (UMap.find sf.gtest.fdr t).getD 0 ≤ sf.threshold_fdr
  · simp only [hthr, if_true] at h
    cases hmer : UMap.find sf.vectorPosPair t with
    | none => simp [hmer] at h
    | some mer =>
      simp only [hmer, Option.some.injEq] at h
      rw [← h]
      obtain ⟨h1, h2, h3, h4⟩ := outside_rows_cache ln chdtrc sf.gtest t
        (side_pair_count mutantMerPair mer.1 mer.2) (side_pair_count wildTypeMerPair mer.1 mer.2)
        (List.insertionSort (fun a b => ¬ rowLT a b)
          ((side_pair_count mutantMerPair mer.1 mer.2).map (fun e => (e.2, e.1))))
        ({ outsideData := s.outsideData
           table_size := UMap.assign s.table_size t (List.insertionSort (fun a b => ¬ rowLT a b)
              ((side_pair_count mutantMerPair mer.1 mer.2).map (fun e => (e.2, e.1)))).length
           gval_stock := s.gval_stock
           pval_stock := s.pval_stock
           number_of_extensions := s.number_of_extensions }, 0)
        hstock (by simp [hlater t (le_refl t)]) hlen hrows
        (fun i2 hi2 => hlater i2 (by omega))
      exact ⟨h1, h2, h3, fun i2 hi2 => h4 i2 (by omega)⟩
  · simp only [hthr, if_false, Option.some.injEq] at h
    rw [← h]
    exact ⟨hstock, hlen, hrows, fun i2 hi2 => hlater i2 (by omega)⟩

/-- The tables built by `create_outsideData`: every stored row holds the G-value
and the p-value that `kmer_extension` computes from the two counts of that row. -/
theorem create_outsideData_cache (ln : F → F) (chdtrc : F → F → F) (sf : StatisticsFile F)
    (mutantMerPair wildTypeMerPair : UMap Str (List (Str × Str))) (s : OutsideLoop F)
    (h : create_outsideData ln chdtrc sf mutantMerPair wildTypeMerPair = some s) :
    ∀ i j, j < (vectorAt s.outsideData.mutant_count i).length →
      find2 s.outsideData.gval i j = some (sf.gtest.kmer_extension ln chdtrc
        ((vectorAt s.outsideData.mutant_count i).getD j 0)
        ((vectorAt s.outsideData.wildType_count i).getD j 0)).1 ∧
      find2 s.outsideData.pval i j = some (sf.gtest.kmer_extension ln chdtrc
        ((vectorAt s.outsideData.mutant_count i).getD j 0)
        ((vectorAt s.outsideData.wildType_count i).getD j 0)).2 := by
  unfold create_outsideData at h
  have := foldlM_range_invariant
    (fun t (b : OutsideLoop F) =>
      (∀ target, UMap.contains b.gval_stock target = true →
        UMap.find b.gval_stock target
          = some (sf.gtest.kmer_extension ln chdtrc target.1 target.2).1 ∧
        UMap.find b.pval_stock target
          = some (sf.gtest.kmer_extension ln chdtrc target.1 target.2).2) ∧
      (∀ i2, (vectorAt b.outsideData.wildType_count i2).length
        = (vectorAt b.outsideData.mutant_count i2).length) ∧
      (∀ i2 j, j < (vectorAt b.outsideData.mutant_count i2).length →
        find2 b.outsideData.gval i2 j = some (sf.gtest.kmer_extension ln chdtrc
          ((vectorAt b.outsideData.mutant_count i2).getD j 0)
          ((vectorAt b.outsideData.wildType_count i2).getD j 0)).1 ∧
        find2 b.outsideData.pval i2 j = some (sf.gtest.kmer_extension ln chdtrc
          ((vectorAt b.outsideData.mutant_count i2).getD j 0)
          ((vectorAt b.outsideData.wildType_count i2).getD j 0)).2) ∧
      (∀ i2, t ≤ i2 → vectorAt b.outsideData.mutant_count i2 = []))
    (outside_position ln chdtrc sf mutantMerPair wildTypeMerPair)
    (sf.vectorArray.length - sf.kmer)
    (fun t b b2 _ hb hstep => outside_position_cache ln chdtrc sf mutantMerPair
      wildTypeMerPair b b2 t hb.1 hb.2.1 hb.2.2.1 hb.2.2.2 hstep)
    _ (by simp [UMap.contains, UMap.find, vectorAt]) s h
  exact this.2.2.1

end OutsideCacheLoop

section Memoisation

variable {F : Type} [LinearOrderedField F]

/-- C14: memoisation is transparent. After `kmer_match` (run on an engine with
no earlier results and a non-empty frequency vector) every position `i` holds
the G-value, the p-value and the Bonferroni value that the cache-free
computation gives for its own pair `(m_i, w_i)`, so two positions with the same
pair hold the same G, p, Bonferroni and FDR. After `create_outsideData` every
stored row holds the G-value and the p-value that `kmer_extension` gives for the
two counts of that row, so two rows with the same counts hold the same G and
p. -/
theorem memoisation_transparent (ln : F → F) (chdtrc : F → F → F)
    (g : Gtest F) (hfresh : g.pval = []) (mutantPosFreq wildTypePosFreq : List Nat)
    (hn : 0 < mutantPosFreq.length)
    (sf : StatisticsFile F) (mutantMerPair wildTypeMerPair : UMap Str (List (Str × Str))) :
    (∃ g2, g.kmer_match ln chdtrc mutantPosFreq wildTypePosFreq = some g2 ∧
      (∀ i, i < mutantPosFreq.length →
        UMap.find g2.gval i = some (g.kmer_match_compute ln chdtrc mutantPosFreq.length
          (mutantPosFreq.getD i 0, wildTypePosFreq.getD i 0)).1 ∧
        UMap.find g2.pval i = some (g.kmer_match_compute ln chdtrc mutantPosFreq.length
          (mutantPosFreq.getD i 0, wildTypePosFreq.getD i 0)).2.1 ∧
        UMap.find g2.bon i = some (g.kmer_match_compute ln chdtrc mutantPosFreq.length
          (mutantPosFreq.getD i 0, wildTypePosFreq.getD i 0)).2.2) ∧
      (∀ i j, i < mutantPosFreq.length → j < mutantPosFreq.length →
        mutantPosFreq.getD i 0 = mutantPosFreq.getD j 0 →
        wildTypePosFreq.getD i 0 = wildTypePosFreq.getD j 0 →
        UMap.find g2.gval i = UMap.find g2.gval j ∧ UMap.find g2.pval i = UMap.find g2.pval j ∧
        UMap.find g2.bon i = UMap.find g2.bon j ∧ UMap.find g2.fdr i = UMap.find g2.fdr j ∧
        (UMap.find g2.fdr i).isSome = true)) ∧
    (∀ s, create_outsideData ln chdtrc sf mutantMerPair wildTypeMerPair = some s →
      (∀ i j, j < (vectorAt s.outsideData.mutant_count i).length →
        find2 s.outsideData.gval i j = some (sf.gtest.kmer_extension ln chdtrc
          ((vectorAt s.outsideData.mutant_count i).getD j 0)
          ((vectorAt s.outsideData.wildType_count i).getD j 0)).1 ∧
        find2 s.outsideData.pval i j = some (sf.gtest.kmer_extension ln chdtrc
          ((vectorAt s.outsideData.mutant_count i).getD j 0)
          ((vectorAt s.outsideData.wildType_count i).getD j 0)).2) ∧
      (∀ i j i2 j2, j < (vectorAt s.outsideData.mutant_count i).length →
        j2 < (vectorAt s.outsideData.mutant_count i2).length →
        (vectorAt s.outsideData.mutant_count i).getD j 0
          = (vectorAt s.outsideData.mutant_count i2).getD j2 0 →
        (vectorAt s.outsideData.wildType_count i).getD j 0
          = (vectorAt s.outsideData.wildType_count i2).getD j2 0 →
        find2 s.outsideData.gval i j = find2 s.outsideData.gval i2 j2 ∧
        find2 s.outsideData.pval i j = find2 s.outsideData.pval i2 j2)) := by
  constructor
  · obtain ⟨g2, hg2, hval⟩ :=
      kmer_match_fresh ln chdtrc g hfresh mutantPosFreq wildTypePosFreq hn
    refine ⟨g2, hg2, ?_, ?_⟩
    · intro i hi
      obtain ⟨h1, h2, h3, _⟩ := hval i hi
      exact ⟨h1, h2, h3⟩
    · intro i j hi hj hm hw
      obtain ⟨a1, a2, a3, a4⟩ := hval i hi
      obtain ⟨b1, b2, b3, b4⟩ := hval j hj
      rw [a1, a2, a3, a4, b1, b2, b3, b4, hm, hw]
      exact ⟨rfl, rfl, rfl, rfl, rfl⟩
  · intro s hs
    have hrows := create_outsideData_cache ln chdtrc sf mutantMerPair wildTypeMerPair s hs
    refine ⟨hrows, ?_⟩
    intro i j i2 j2 hj hj2 hm hw
    obtain ⟨a1, a2⟩ := hrows i j hj
    obtain ⟨b1, b2⟩ := hrows i2 j2 hj2
    rw [a1, a2, b1, b2, hm, hw]
    exact ⟨rfl, rfl⟩

end Memoisation

theorem report_values_in_unit_interval_witness :
    (∀ x : ℚ, 0 < x → x < 170 → 0 ≤ 1 / (1 + x) ∧ 1 / (1 + x) ≤ 1) ∧
    exampleGtest.pval = [] ∧ 0 < exampleStatistics.mutantPosFreq.length ∧
    ((create_outsideFile (fun x => x) (fun _ x => 1 / (1 + x)) exampleStatistics
        exampleMutantPairs exampleWildTypePairs).getD []).map
      (fun r => (r.position, r.rows.map (fun row => (row.mutant_count, row.wildType_count))))
      = [(0, [(2, 0), (2, 0), (1, 1)])] ∧
    (∃ g2, exampleGtest.kmer_match (fun x => x) (fun _ x => 1 / (1 + x))
        exampleStatistics.mutantPosFreq exampleStatistics.wildTypePosFreq = some g2 ∧
      ∀ i, i < exampleStatistics.mutantPosFreq.length →
        ∃ p fdr bon, UMap.find g2.pval i = some p ∧ UMap.find g2.fdr i = some fdr ∧
          UMap.find g2.bon i = some bon ∧
          0 ≤ p ∧ p ≤ 1 ∧ 0 ≤ fdr ∧ fdr ≤ 1 ∧ 0 ≤ bon ∧ bon ≤ 1) ∧
    (∀ records, create_outsideFile (fun x => x) (fun _ x => 1 / (1 + x)) exampleStatistics
        exampleMutantPairs exampleWildTypePairs = some records →
      ∀ record ∈ records, ∀ row ∈ record.rows,
        0 ≤ row.pval ∧ row.pval ≤ 1 ∧ 0 ≤ row.fdr ∧ row.fdr ≤ 1 ∧ 0 ≤ row.bon ∧ row.bon ≤ 1) :=
  ⟨fun x h1 _ => ⟨div_nonneg zero_le_one (by linarith), (div_le_one (by linarith)).mpr (by linarith)⟩,
    rfl, by decide, by with_unfolding_all decide,
    report_values_in_unit_interval (fun x => x) (fun _ x => 1 / (1 + x))
      (fun x h1 _ => ⟨div_nonneg zero_le_one (by linarith),
        (div_le_one (by linarith)).mpr (by linarith)⟩)
      exampleGtest rfl exampleStatistics.mutantPosFreq exampleStatistics.wildTypePosFreq
      (by decide) exampleStatistics exampleMutantPairs exampleWildTypePairs⟩

theorem memoisation_transparent_witness :
    exampleGtest.pval = [] ∧ 0 < exampleStatistics.mutantPosFreq.length ∧
    (create_outsideData (fun x => x) (fun _ x => 1 / (1 + x)) exampleStatistics
        exampleMutantPairs exampleWildTypePairs).map
      (fun s => (vectorAt s.outsideData.mutant_count 0, vectorAt s.outsideData.wildType_count 0,
        s.gval_stock.map Prod.fst, s.number_of_extensions))
      = some ([2, 2, 1], [0, 0, 1], [(2, 0), (1, 1)], 3) ∧
    (∃ g2, exampleGtest.kmer_match (fun x => x) (fun _ x => 1 / (1 + x))
        exampleStatistics.mutantPosFreq exampleStatistics.wildTypePosFreq = some g2 ∧
      UMap.find g2.gval 0 = UMap.find g2.gval 4 ∧ UMap.find g2.pval 0 = UMap.find g2.pval 4 ∧
      UMap.find g2.bon 0 = UMap.find g2.bon 4 ∧ UMap.find g2.fdr 0 = UMap.find g2.fdr 4 ∧
      (UMap.find g2.fdr 0).isSome = true) ∧
    (∀ s, create_outsideData (fun x => x) (fun _ x => 1 / (1 + x)) exampleStatistics
        exampleMutantPairs exampleWildTypePairs = some s →
      ∀ i j, j < (vectorAt s.outsideData.mutant_count i).length →
        find2 s.outsideData.gval i j = some (exampleStatistics.gtest.kmer_extension (fun x => x)
          (fun _ x => 1 / (1 + x))
          ((vectorAt s.outsideData.mutant_count i).getD j 0)
          ((vectorAt s.outsideData.wildType_count i).getD j 0)).1 ∧
        find2 s.outsideData.pval i j = some (exampleStatistics.gtest.kmer_extension (fun x => x)
          (fun _ x => 1 / (1 + x))
          ((vectorAt s.outsideData.mutant_count i).getD j 0)
          ((vectorAt s.outsideData.wildType_count i).getD j 0)).2) := by
  refine ⟨rfl, by decide, by with_unfolding_all decide, ?_, ?_⟩
  · obtain ⟨g2, hg2, _, h⟩ := (memoisation_transparent (fun x => x) (fun _ x => 1 / (1 + x))
      exampleGtest rfl exampleStatistics.mutantPosFreq exampleStatistics.wildTypePosFreq
      (by decide) exampleStatistics exampleMutantPairs exampleWildTypePairs).1
    exact ⟨g2, hg2, h 0 4 (by decide) (by decide) (by decide) (by decide)⟩
  · intro s hs
    exact ((memoisation_transparent (fun x => x) (fun _ x => 1 / (1 + x))
      exampleGtest rfl exampleStatistics.mutantPosFreq exampleStatistics.wildTypePosFreq
      (by decide) exampleStatistics exampleMutantPairs exampleWildTypePairs).2 s hs).1

/-! ## The extension filter at concrete counts -/

theorem kmer_extension_filter_witness :
    exampleGtest.kmer_extension (fun x => x) (fun _ x => 1 / (1 + x)) 1 2 = (Dbl.fin 0, 1) ∧
    exampleGtest.kmer_extension (fun x => x) (fun _ x => 1 / (1 + x)) 2 2
      = (exampleGtest.adjusted_g (fun x => x)
            (exampleGtest.consts (fun x => x)).mutant_mer_total_log
            (exampleGtest.consts (fun x => x)).wildType_mer_total_log
            (exampleGtest.consts (fun x => x)).mer_total
            (exampleGtest.consts (fun x => x)).mer_q3 (exampleGtest.consts (fun x => x)).mer_qcomm
            (Dbl.fin ((2 : Nat) : ℚ)) (Dbl.fin ((2 : Nat) : ℚ)),
          pvalueOf (fun _ x => 1 / (1 + x)) (exampleGtest.adjusted_g (fun x => x)
            (exampleGtest.consts (fun x => x)).mutant_mer_total_log
            (exampleGtest.consts (fun x => x)).wildType_mer_total_log
            (exampleGtest.consts (fun x => x)).mer_total
            (exampleGtest.consts (fun x => x)).mer_q3 (exampleGtest.consts (fun x => x)).mer_qcomm
            (Dbl.fin ((2 : Nat) : ℚ)) (Dbl.fin ((2 : Nat) : ℚ)))) :=
  ⟨(kmer_extension_filter (fun x => x) (fun _ x => 1 / (1 + x)) exampleGtest 1 2).1
      (by norm_num [exampleGtest]),
    (kmer_extension_filter (fun x => x) (fun _ x => 1 / (1 + x)) exampleGtest 2 2).2
      (by norm_num [exampleGtest])⟩

/-! ## The indices of the chunk array -/

/-- C30, at the failing input: with `k = 8` the array `chunk` has
`2^16 - 1 = 65535` entries (indices `0 .. 65534`), and the scan of the read
`GGGGGGGG` reads `chunk` at the index 65535, the value of its all-G window. -/
theorem chunk_read_past_end :
    BitwiseOperation.chunk_entries (Options.ofKmer 8) = 2 ^ (2 * 8) - 1 ∧
    chunk_reads (Options.ofKmer 8) exampleAllG = [2 ^ (2 * 8) - 1] ∧
    ¬ ∀ w ∈ chunk_reads (Options.ofKmer 8) exampleAllG,
        w < BitwiseOperation.chunk_entries (Options.ofKmer 8) := by
  decide

/-! ## The positions of the extension report -/

/-- C21, at the failing input: for the vector `ACGTACGTACGT` (12 positions) and
`k = 8`, with the positions 0 and 11 significant, `create_outsideData` sets
`table_size` for position 0 only and `create_outsideFile` writes the parent row
of position 0 only: the last position, 11, is not reported although its k-mer
`TACGTACG` has a recorded flank pair. -/
theorem last_position_not_reported :
    exampleReport.vectorPosPair.length = exampleVector.length ∧
    (UMap.find exampleReport.gtest.fdr 11).getD 0 ≤ exampleReport.threshold_fdr ∧
    pairsOf exampleReportPairs (merPair 8 exampleCircular 11).1 = [(['C', 'C'], ['T', 'T'])] ∧
    (create_outsideData (fun x => x) (fun _ x => 1 / (1 + x)) exampleReport
        exampleReportPairs exampleReportWildPairs).map
      (fun s => (UMap.keys s.table_size, UMap.keys s.outsideData.left_chain))
      = some ([0], [0]) ∧
    (create_outsideFile (fun x => x) (fun _ x => 1 / (1 + x)) exampleReport
        exampleReportPairs exampleReportWildPairs).map (fun records => records.map (fun r => r.position))
      = some [0] := by
  with_unfolding_all decide

/-! ## The prefilter as a set of packed values -/

theorem prefilter_create_chunk_iff (k : Nat) (hk : 1 ≤ k) (merCounter : UMap Str Nat)
    (hlen : ∀ e ∈ merCounter, min k 16 ≤ e.1.length) (chunk : Nat → Nat) (v : Nat)
    (hv : v < 2 ^ (2 * min k 16)) :
    prefilter (Options.ofKmer k) (create_chunk (Options.ofKmer k) merCounter chunk) v = true
      ↔ v = 2 ^ (2 * min k 16) - 1 ∨ ∃ e ∈ merCounter, v = packed (e.1.take (min k 16)) := by
  have hmask : (Options.ofKmer k).max_chunk_array = 2 ^ (2 * min k 16) - 1 := rfl
  unfold prefilter
  rw [create_chunk_apply, hmask]
  by_cases hm : v = 2 ^ (2 * min k 16) - 1
  · simp [hm]
  · have hlt : v < 2 ^ (2 * min k 16) - 1 := by omega
    by_cases hex : ∃ e ∈ merCounter, keyChunk (Options.ofKmer k) e.1 = v
    · obtain ⟨e, he, hkey⟩ := hex
      have hex2 : ∃ e ∈ merCounter, keyChunk (Options.ofKmer k) e.1 = v := ⟨e, he, hkey⟩
      have hpk : ∃ e ∈ merCounter, v = packed (e.1.take (min k 16)) :=
        ⟨e, he, by rw [← hkey, keyChunk_eq_packed k hk e.1 (hlen e he)]⟩
      simp only [hex2, hm, ne_eq, not_false_eq_true, and_self, if_true, beq_self_eq_true,
        Bool.true_or, true_iff]
      exact Or.inr hpk
    · have hpk : ¬ ∃ e ∈ merCounter, v = packed (e.1.take (min k 16)) := by
        rintro ⟨e, he, hkey⟩
        exact hex ⟨e, he, by rw [hkey, keyChunk_eq_packed k hk e.1 (hlen e he)]⟩
      simp only [hex, false_and, if_false, hlt, if_true, hm, hpk, or_self, iff_false]
      simp [hm]

/-- C29: the prefilter answers membership of packed values. For `k >= 1`, every
key table whose keys have at least `L = min(k, 16)` bases, every content of the
chunk memory before the call (the array of an earlier key set included) and
every value `v` of `2L` bits: after `create_chunk` the test
`chunk[v] == 1 || v == mask` is true if and only if `v` is the sentinel
`2^(2L) - 1` or the packed encoding of the first `L` bases of a key. The same
holds for the rebuild of the extension phase. -/
theorem create_chunk_query (k : Nat) (hk : 1 ≤ k) (chunk : Nat → Nat) (v : Nat)
    (hv : v < 2 ^ (2 * min k 16)) :
    (∀ merCounter : UMap Str Nat, (∀ e ∈ merCounter, min k 16 ≤ e.1.length) →
      (prefilter (Options.ofKmer k) (create_chunk (Options.ofKmer k) merCounter chunk) v = true
        ↔ v = 2 ^ (2 * min k 16) - 1
          ∨ ∃ e ∈ merCounter, v = packed (e.1.take (min k 16)))) ∧
    (∀ merCounter : UMap Str (List (Str × Str)), (∀ e ∈ merCounter, min k 16 ≤ e.1.length) →
      (prefilter (Options.ofKmer k)
          (KmerExtension.create_chunk (Options.ofKmer k) merCounter chunk) v = true
        ↔ v = 2 ^ (2 * min k 16) - 1
          ∨ ∃ e ∈ merCounter, v = packed (e.1.take (min k 16)))) := by
  constructor
  · intro merCounter hlen
    exact prefilter_create_chunk_iff k hk merCounter hlen chunk v hv
  · intro merCounter hlen
    rw [create_chunk_extension_eq]
    rw [prefilter_create_chunk_iff k hk (merCounter.map (fun e => (e.1, 0)))
      (by
        intro e he
        simp only [List.mem_map] at he
        obtain ⟨a, ha, rfl⟩ := he
        exact hlen a ha) chunk v hv]
    constructor
    · rintro (h | ⟨e, he, hp⟩)
      · exact Or.inl h
      · simp only [List.mem_map] at he
        obtain ⟨a, ha, rfl⟩ := he
        exact Or.inr ⟨a, ha, hp⟩
    · rintro (h | ⟨e, he, hp⟩)
      · exact Or.inl h
      · exact Or.inr ⟨(e.1, 0), List.mem_map.mpr ⟨e, he, rfl⟩, hp⟩

theorem create_chunk_query_witness :
    1 ≤ 8 ∧ packed exampleAllA < 2 ^ (2 * min 8 16) ∧
    ((∀ e ∈ exampleExtKeys, min 8 16 ≤ e.1.length) →
      (prefilter (Options.ofKmer 8)
          (KmerExtension.create_chunk (Options.ofKmer 8) exampleExtKeys
            (create_chunk (Options.ofKmer 8) [(exampleAllA, 0)] (fun _ => 1)))
          (packed exampleAllA) = true
        ↔ packed exampleAllA = 2 ^ (2 * min 8 16) - 1
          ∨ ∃ e ∈ exampleExtKeys, packed exampleAllA = packed (e.1.take (min 8 16)))) ∧
    prefilter (Options.ofKmer 8)
      (create_chunk (Options.ofKmer 8) [(exampleAllA, 0)] (fun _ => 1))
      (packed exampleAllA) = true ∧
    prefilter (Options.ofKmer 8)
      (KmerExtension.create_chunk (Options.ofKmer 8) exampleExtKeys
        (create_chunk (Options.ofKmer 8) [(exampleAllA, 0)] (fun _ => 1)))
      (packed exampleAllA) = false :=
  ⟨by decide, by decide,
    (create_chunk_query 8 (by decide)
      (create_chunk (Options.ofKmer 8) [(exampleAllA, 0)] (fun _ => 1)) (packed exampleAllA)
      (by decide)).2 exampleExtKeys,
    by decide, by decide⟩

/-! ## The fatal exit of the match-mode reader -/

theorem read_fastqFile_tail (o : Options) (fastq_read_lines : Nat) (chunk : Nat → Nat)
    (merCounter : UMap Str Nat) (r : FastqReader) (hn : r.nLine = 0) (lines : List Str)
    (hl : lines.length < 4) :
    lines.foldlM (read_fastqFile_line o fastq_read_lines chunk merCounter) r ≠ none := by
  match lines, hl with
  | [], _ => simp
  | [a], _ => simp [read_fastqFile_line, hn]
  | [a, b], _ => simp [read_fastqFile_line, hn]
  | [a, b, c], _ => simp [read_fastqFile_line, hn]

theorem read_fastqFile_four (o : Options) (fastq_read_lines : Nat) (chunk : Nat → Nat)
    (merCounter : UMap Str Nat) (r : FastqReader) (hn : r.nLine = 0)
    (hlen : r.aLine.length = 4) (a b c d : Str) :
    ([a, b, c, d].foldlM (read_fastqFile_line o fastq_read_lines chunk merCounter) r = none
      ↔ (strAt a 0 ≠ '@' ∨ strAt c 0 ≠ '+')) ∧
    (∀ r2, [a, b, c, d].foldlM (read_fastqFile_line o fastq_read_lines chunk merCounter) r
        = some r2 → r2.nLine = 0 ∧ r2.aLine.length = 4) := by
  obtain ⟨aLine, nLine, fastqData, st⟩ := r
  simp only at hn hlen
  subst hn
  match aLine, hlen with
  | [x0, x1, x2, x3], _ =>
    by_cases hbad : strAt a 0 ≠ '@' ∨ strAt c 0 ≠ '+'
    · simp [read_fastqFile_line, hbad]
    · have hbad2 := hbad
      simp only [not_or, not_not] at hbad2
      by_cases hgate : (b.length > o.kmer)
      · by_cases hbatch : fastq_read_lines < fastqData.length + 1
        · simp [read_fastqFile_line, hbad2.1, hbad2.2, hgate, hbatch]
        · simp [read_fastqFile_line, hbad2.1, hbad2.2, hgate, hbatch]
      · simp [read_fastqFile_line, hbad2.1, hbad2.2, hgate]

theorem read_fastqFile_lines_none (o : Options) (fastq_read_lines : Nat) (chunk : Nat → Nat)
    (merCounter : UMap Str Nat) (n : Nat) :
    ∀ (lines : List Str) (r : FastqReader), lines.length ≤ n → r.nLine = 0 →
      r.aLine.length = 4 →
      (lines.foldlM (read_fastqFile_line o fastq_read_lines chunk merCounter) r = none
        ↔ ∃ q, 4 * q + 3 < lines.length ∧
            (strAt (lines.getD (4 * q) []) 0 ≠ '@'
              ∨ strAt (lines.getD (4 * q + 2) []) 0 ≠ '+')) := by
  induction n using Nat.strong_induction_on with
  | _ n ih =>
    intro lines r hle hn hlen
    match lines with
    | [] => simp
    | [a] =>
      have := read_fastqFile_tail o fastq_read_lines chunk merCounter r hn [a] (by simp)
      simp only [this, false_iff]
      rintro ⟨q, hq, _⟩
      simp only [List.length_cons, List.length_nil] at hq
      omega
    | [a, b] =>
      have := read_fastqFile_tail o fastq_read_lines chunk merCounter r hn [a, b] (by simp)
      simp only [this, false_iff]
      rintro ⟨q, hq, _⟩
      simp only [List.length_cons, List.length_nil] at hq
      omega
    | [a, b, c] =>
      have := read_fastqFile_tail o fastq_read_lines chunk merCounter r hn [a, b, c] (by simp)
      simp only [this, false_iff]
      rintro ⟨q, hq, _⟩
      simp only [List.length_cons, List.length_nil] at hq
      omega
    | a :: b :: c :: d :: rest =>
      have hsplit : a :: b :: c :: d :: rest = [a, b, c, d] ++ rest := rfl
      obtain ⟨hnone, hsome⟩ :=
        read_fastqFile_four o fastq_read_lines chunk merCounter r hn hlen a b c d
      rw [hsplit, List.foldlM_append]
      cases hfour : [a, b, c, d].foldlM
          (read_fastqFile_line o fastq_read_lines chunk merCounter) r with
      | none =>
        have hbad := hnone.mp hfour
        simp only [bind, Option.bind, true_iff]
        exact ⟨0, by simp, by simpa using hbad⟩
      | some r2 =>
        obtain ⟨hn2, hlen2⟩ := hsome r2 hfour
        have hgood : ¬ (strAt a 0 ≠ '@' ∨ strAt c 0 ≠ '+') := by
          intro hbad
          have := hnone.mpr hbad
          rw [hfour] at this
          exact Option.noConfusion this
        simp only [bind, Option.bind]
        have hrest : rest.length < n := by
          simp only [List.length_cons] at hle
          omega
        rw [ih rest.length hrest rest r2 (le_refl _) hn2 hlen2]
        constructor
        · rintro ⟨q, hq, hb⟩
          refine ⟨q + 1, by simp only [List.length_append, List.length_cons, List.length_nil]; omega, ?_⟩
          have e1 : ([a, b, c, d] ++ rest).getD (4 * (q + 1)) [] = rest.getD (4 * q) [] := by
            have : 4 * (q + 1) = 4 * q + 4 := by ring
            rw [this]
            rfl
          have e2 : ([a, b, c, d] ++ rest).getD (4 * (q + 1) + 2) []
              = rest.getD (4 * q + 2) [] := by
            have : 4 * (q + 1) + 2 = 4 * q + 2 + 4 := by ring
            rw [this]
            rfl
          rw [e1, e2]
          exact hb
        · rintro ⟨q, hq, hb⟩
          cases q with
          | zero =>
            exfalso
            apply hgood
            simpa using hb
          | succ q =>
            refine ⟨q, by simp only [List.length_append, List.length_cons, List.length_nil] at hq; omega, ?_⟩
            have e1 : ([a, b, c, d] ++ rest).getD (4 * (q + 1)) [] = rest.getD (4 * q) [] := by
              have : 4 * (q + 1) = 4 * q + 4 := by ring
              rw [this]
              rfl
            have e2 : ([a, b, c, d] ++ rest).getD (4 * (q + 1) + 2) []
                = rest.getD (4 * q + 2) [] := by
              have : 4 * (q + 1) + 2 = 4 * q + 2 + 4 := by ring
              rw [this]
              rfl
            rw [e1, e2] at hb
            exact hb

/-- C28: match-mode reading of a file ends in the fatal exit if and only if some
complete four-line record (lines `4q .. 4q + 3` of the file) has a first line
that does not start with `@` or a third line that does not start with `+`. The
test does not look at the read length, and the 1 to 3 lines of a trailing
incomplete record are never tested. -/
theorem read_fastqFile_fails_iff (o : Options) (fastq_read_lines : Nat) (chunk : Nat → Nat)
    (lines : List Str) (merCounter : UMap Str Nat) (merTotalCounter : Nat) :
    read_fastqFile o fastq_read_lines chunk lines merCounter merTotalCounter = none
      ↔ ∃ q, 4 * q + 3 < lines.length ∧
          (strAt (lines.getD (4 * q) []) 0 ≠ '@'
            ∨ strAt (lines.getD (4 * q + 2) []) 0 ≠ '+') := by
  rw [← read_fastqFile_lines_none o fastq_read_lines chunk merCounter lines.length lines
    (FastqReader.init merTotalCounter) (le_refl _) rfl rfl]
  unfold read_fastqFile
  cases lines.foldlM (read_fastqFile_line o fastq_read_lines chunk merCounter)
    (FastqReader.init merTotalCounter) <;> simp

/-! ## The orientation of the flank pairs -/

theorem Complementary.mer_append (a b : Str) :
    Complementary.mer (a ++ b) = Complementary.mer b ++ Complementary.mer a := by
  unfold Complementary.mer
  rw [List.reverse_append, List.map_append]

theorem Complementary.mer_mer (s : Str) : Complementary.mer (Complementary.mer s) = s := by
  unfold Complementary.mer
  have : complementBase ∘ complementBase = id := by
    funext c
    exact complementBase_involutive c
  rw [← List.map_reverse, List.reverse_reverse, List.map_map, this, List.map_id]

theorem countOf_foldl_increment {α κ : Type} [DecidableEq κ] (f : α → κ) (l : List α)
    (c0 : UMap κ Nat) (key : κ) :
    countOf (l.foldl (fun c x => increment c (f x)) c0) key
      = countOf c0 key + l.countP (fun x => decide (f x = key)) := by
  induction l generalizing c0 with
  | nil => simp
  | cons x rest ih =>
    rw [List.foldl_cons, ih, countOf_increment, List.countP_cons]
    by_cases h : f x = key
    · simp [h]
      omega
    · simp [h]

/-- C22: the pair counts of a position with forward k-mer `mer_plus` and reverse
k-mer `mer_minus`. A pair `(a, b)` is counted once for every pair recorded under
`mer_plus` that equals it and, when the two k-mers differ, once for every pair
`(l, r)` recorded under `mer_minus` with `(revComp(r), revComp(l)) = (a, b)`;
when the two k-mers are equal the pairs recorded under the k-mer are counted
once each. The re-oriented pair reads in forward coordinates:
`revComp(r) ++ F ++ revComp(l) = revComp(l ++ revComp(F) ++ r)`. -/
theorem side_pair_count_reoriented (merPair : UMap Str (List (Str × Str)))
    (mer_plus mer_minus : Str) :
    (∀ a b, countOf (side_pair_count merPair mer_plus mer_minus) (a, b)
      = (pairsOf merPair mer_plus).countP (fun p => decide (p = (a, b)))
        + (if mer_plus = mer_minus then 0
           else (pairsOf merPair mer_minus).countP
              (fun p => decide ((Complementary.mer p.2, Complementary.mer p.1) = (a, b))))) ∧
    (∀ l r, Complementary.mer r ++ mer_plus ++ Complementary.mer l
      = Complementary.mer (l ++ Complementary.mer mer_plus ++ r)) := by
  constructor
  · intro a b
    have hplus : countOf (if UMap.contains merPair mer_plus = true then
          (pairsOf merPair mer_plus).foldl (fun c itr => increment c (itr.1, itr.2)) []
        else []) (a, b)
        = (pairsOf merPair mer_plus).countP (fun p => decide (p = (a, b))) := by
      by_cases hc : UMap.contains merPair mer_plus = true
      · simp only [hc, if_true]
        rw [countOf_foldl_increment (fun itr : Str × Str => (itr.1, itr.2))]
        simp [countOf, UMap.find]
      · have hnone : UMap.find merPair mer_plus = none := by
          simpa [UMap.contains] using hc
        simp [hc, pairsOf, hnone, countOf, UMap.find]
    unfold side_pair_count
    by_cases heq : mer_plus = mer_minus
    · simp only [heq, ne_eq, not_true_eq_false, if_false, if_true, add_zero]
      rw [← heq]
      exact hplus
    · simp only [heq, ne_eq, not_false_eq_true, if_true, if_false]
      by_cases hc : UMap.contains merPair mer_minus = true
      · simp only [hc, if_true]
        rw [countOf_foldl_increment
          (fun itr : Str × Str => (Complementary.mer itr.2, Complementary.mer itr.1)), hplus]
      · have hnone : UMap.find merPair mer_minus = none := by
          simpa [UMap.contains] using hc
        simp only [hc, Bool.false_eq_true, if_false]
        rw [hplus]
        simp [pairsOf, hnone]
  · intro l r
    rw [Complementary.mer_append, Complementary.mer_append, Complementary.mer_mer,
      List.append_assoc]

/-! ## The key sets of the shared tables -/

theorem UMap.contains_iff_mem_keys {κ ν : Type} [DecidableEq κ] (m : UMap κ ν) (key : κ) :
    UMap.contains m key = true ↔ key ∈ UMap.keys m := by
  induction m with
  | nil => simp [UMap.contains, UMap.find, UMap.keys]
  | cons e rest ih =>
    obtain ⟨k, w⟩ := e
    by_cases hk : k = key
    · simp [UMap.contains, UMap.find, UMap.keys, hk]
    · have : UMap.contains ((k, w) :: rest) key = UMap.contains rest key := by
        simp [UMap.contains, UMap.find, hk]
      rw [this, ih]
      simp [UMap.keys, Ne.symm hk]

theorem UMap.keys_assign {κ ν : Type} [DecidableEq κ] (m : UMap κ ν) (key : κ) (v : ν)
    (h : UMap.contains m key = true) : UMap.keys (UMap.assign m key v) = UMap.keys m := by
  induction m with
  | nil => simp [UMap.contains, UMap.find] at h
  | cons e rest ih =>
    obtain ⟨k, w⟩ := e
    by_cases hk : k = key
    · simp [UMap.assign, UMap.keys, hk]
    · have hr : UMap.contains rest key = true := by
        simpa [UMap.contains, UMap.find, hk] using h
      have := ih hr
      simp only [UMap.keys] at this
      simp [UMap.assign, UMap.keys, hk, this]

theorem merge_counts_fold_keys (local_ : UMap Str Nat) (l : UMap Str Nat) (acc : UMap Str Nat)
    (h : ∀ e ∈ l, UMap.contains acc e.1 = true) :
    UMap.keys (l.foldl
      (fun acc e => UMap.assign acc e.1 (countOf acc e.1 + countOf local_ e.1)) acc)
      = UMap.keys acc := by
  induction l generalizing acc with
  | nil => rfl
  | cons e rest ih =>
    rw [List.foldl_cons]
    have hk := UMap.keys_assign acc e.1 (countOf acc e.1 + countOf local_ e.1)
      (h e (List.mem_cons_self _ _))
    rw [ih, hk]
    intro e2 he2
    rw [UMap.contains_iff_mem_keys, hk, ← UMap.contains_iff_mem_keys]
    exact h e2 (List.mem_cons_of_mem _ he2)

theorem merge_counts_keys (shared local_ : UMap Str Nat) :
    UMap.keys (merge_counts shared local_) = UMap.keys shared := by
  unfold merge_counts
  apply merge_counts_fold_keys
  intro e he
  rw [UMap.contains_iff_mem_keys]
  exact List.mem_map_of_mem _ he

theorem pushPair_keys (m : UMap Str (List (Str × Str))) (mer : Str) (pair : Str × Str)
    (h : UMap.contains m mer = true) : UMap.keys (pushPair m mer pair) = UMap.keys m :=
  UMap.keys_assign m mer _ h

theorem merge_pairs_keys (shared local_ : UMap Str (List (Str × Str)))
    (h : ∀ key, UMap.contains local_ key = true → UMap.contains shared key = true) :
    UMap.keys (merge_pairs shared local_) = UMap.keys shared := by
  unfold merge_pairs
  have hmem : ∀ e ∈ local_, UMap.contains shared e.1 = true := by
    intro e he
    apply h
    rw [UMap.contains_iff_mem_keys]
    exact List.mem_map_of_mem _ he
  clear h
  have inner : ∀ (key : Str) (ps : List (Str × Str)) (acc : UMap Str (List (Str × Str))),
      UMap.contains acc key = true →
      UMap.keys (ps.foldl (fun acc2 itr_second => pushPair acc2 key itr_second) acc)
        = UMap.keys acc := by
    intro key ps
    induction ps with
    | nil => intro acc _; rfl
    | cons p rest ih =>
      intro acc hc
      rw [List.foldl_cons]
      have hk := pushPair_keys acc key p hc
      rw [ih _ (by rw [UMap.contains_iff_mem_keys, hk, ← UMap.contains_iff_mem_keys]; exact hc),
        hk]
  have outer : ∀ (l : UMap Str (List (Str × Str))) (acc : UMap Str (List (Str × Str))),
      (∀ e ∈ l, UMap.contains acc e.1 = true) →
      UMap.keys (l.foldl
        (fun acc itr => itr.2.foldl (fun acc2 itr_second => pushPair acc2 itr.1 itr_second) acc)
        acc) = UMap.keys acc := by
    intro l
    induction l with
    | nil => intro acc _; rfl
    | cons e rest ih =>
      intro acc hacc
      rw [List.foldl_cons]
      have hk := inner e.1 e.2 acc (hacc e (List.mem_cons_self _ _))
      rw [ih _ (by
        intro e2 he2
        rw [UMap.contains_iff_mem_keys, hk, ← UMap.contains_iff_mem_keys]
        exact hacc e2 (List.mem_cons_of_mem _ he2)), hk]
  exact outer local_ shared hmem

theorem foldlM_invariant {α β : Type} (P : β → Prop) (f : β → α → Option β)
    (hf : ∀ b a b2, P b → f b a = some b2 → P b2) (l : List α) (b : β) (hb : P b) (r : β)
    (h : l.foldlM f b = some r) : P r := by
  induction l generalizing b with
  | nil =>
    simp only [List.foldlM_nil] at h
    cases h
    exact hb
  | cons a rest ih =>
    rw [List.foldlM_cons] at h
    cases hstep : f b a with
    | none => simp [hstep, bind, Option.bind] at h
    | some b2 =>
      simp only [hstep, bind, Option.bind] at h
      exact ih b2 (hf b a b2 hb hstep) h

theorem foldl_invariant {α β : Type} (P : β → Prop) (f : β → α → β)
    (hf : ∀ b a, P b → P (f b a)) (l : List α) (b : β) (hb : P b) : P (l.foldl f b) := by
  induction l generalizing b with
  | nil => exact hb
  | cons a rest ih => exact ih _ (hf b a hb)

theorem count_match_window_keys (o : Options) (chunk : Nat → Nat) (merCounter : UMap Str Nat)
    (read : Str) (s : Nat × MatchState) (j : Nat)
    (h : ∀ key, UMap.contains s.2.merLocalCounter key = true →
      UMap.contains merCounter key = true) :
    ∀ key, UMap.contains (count_match_window o chunk merCounter read s j).2.merLocalCounter key
      = true → UMap.contains merCounter key = true := by
  intro key
  unfold count_match_window
  by_cases hp : prefilter o chunk (roll o read s.1 j) = true
  · by_cases hc : UMap.contains merCounter (substr read j o.kmer) = true
    · simp only [hp, hc, if_true]
      unfold increment
      rw [UMap.contains_assign]
      intro hk
      by_cases heq : substr read j o.kmer = key
      · rw [← heq]
        exact hc
      · simp only [heq, decide_False, Bool.false_or] at hk
        exact h key hk
    · simp only [hp, hc, if_true]
      exact h key
  · simp only [hp]
    exact h key

theorem count_match_keys (o : Options) (chunk : Nat → Nat) (merCounter : UMap Str Nat)
    (fastqData : List Str) (st : MatchState)
    (h : ∀ key, UMap.contains st.merLocalCounter key = true →
      UMap.contains merCounter key = true) :
    ∀ key, UMap.contains (count_match o chunk fastqData merCounter st).merLocalCounter key
      = true → UMap.contains merCounter key = true := by
  unfold count_match
  apply foldl_invariant
    (fun st : MatchState => ∀ key, UMap.contains st.merLocalCounter key = true →
      UMap.contains merCounter key = true) _ _ fastqData st h
  intro st2 read hst2
  unfold count_match_read
  exact foldl_invariant
    (fun s : Nat × MatchState => ∀ key, UMap.contains s.2.merLocalCounter key = true →
      UMap.contains merCounter key = true) _
    (fun s j hs => count_match_window_keys o chunk merCounter read s j hs) _ _ hst2

theorem read_fastqFile_line_keys (o : Options) (fastq_read_lines : Nat) (chunk : Nat → Nat)
    (merCounter : UMap Str Nat) (r r2 : FastqReader) (line : Str)
    (h : ∀ key, UMap.contains r.st.merLocalCounter key = true →
      UMap.contains merCounter key = true)
    (hstep : read_fastqFile_line o fastq_read_lines chunk merCounter r line = some r2) :
    ∀ key, UMap.contains r2.st.merLocalCounter key = true →
      UMap.contains merCounter key = true := by
  unfold read_fastqFile_line at hstep
  by_cases h4 : r.nLine + 1 = 4
  · simp only [h4, if_true] at hstep
    by_cases hbad : strAt ((r.aLine.set r.nLine line).getD 0 []) 0 ≠ '@'
        ∨ strAt ((r.aLine.set r.nLine line).getD 2 []) 0 ≠ '+'
    · simp only [hbad, if_true] at hstep
      exact Option.noConfusion hstep
    · simp only [hbad, if_false] at hstep
      by_cases hgate : ((r.aLine.set r.nLine line).getD 1 []).length > o.kmer
      · simp only [hgate, if_true] at hstep
        split at hstep
        · injection hstep with hstep
          rw [← hstep]
          exact count_match_keys o chunk merCounter _ r.st h
        · injection hstep with hstep
          rw [← hstep]
          exact h
      · simp only [hgate, if_false] at hstep
        injection hstep with hstep
        rw [← hstep]
        exact h
  · simp only [h4, if_false] at hstep
    injection hstep with hstep
    rw [← hstep]
    exact h

theorem read_fastqFile_keys (o : Options) (fastq_read_lines : Nat) (chunk : Nat → Nat)
    (lines : List Str) (merCounter : UMap Str Nat) (merTotalCounter : Nat) (st : MatchState)
    (h : read_fastqFile o fastq_read_lines chunk lines merCounter merTotalCounter = some st) :
    ∀ key, UMap.contains st.merLocalCounter key = true →
      UMap.contains merCounter key = true := by
  unfold read_fastqFile at h
  cases hfold : lines.foldlM (read_fastqFile_line o fastq_read_lines chunk merCounter)
      (FastqReader.init merTotalCounter) with
  | none => simp [hfold] at h
  | some r =>
    simp only [hfold, Option.some.injEq] at h
    rw [← h]
    apply count_match_keys
    exact foldlM_invariant
      (fun r : FastqReader => ∀ key, UMap.contains r.st.merLocalCounter key = true →
        UMap.contains merCounter key = true) _
      (fun b a b2 hb hs => read_fastqFile_line_keys o fastq_read_lines chunk merCounter b b2 a
        hb hs) lines _ (by simp [FastqReader.init, UMap.contains, UMap.find]) r hfold

theorem count_extension_window_keys (o : Options) (nbase : Nat) (chunk : Nat → Nat)
    (merCounter : UMap Str (List (Str × Str))) (read : Str) (s : Nat × ExtensionState) (j : Nat)
    (h : ∀ key, UMap.contains s.2.merLocalPair key = true →
      UMap.contains merCounter key = true) :
    ∀ key, UMap.contains
        (count_extension_window o nbase chunk merCounter read s j).2.merLocalPair key = true →
      UMap.contains merCounter key = true := by
  intro key
  unfold count_extension_window
  by_cases hp : prefilter o chunk (roll o read s.1 j) = true
  · by_cases hc : UMap.contains merCounter (substr read j o.kmer) = true
    · simp only [hp, hc, if_true]
      unfold pushPair
      rw [UMap.contains_assign]
      intro hk
      by_cases heq : substr read j o.kmer = key
      · rw [← heq]
        exact hc
      · simp only [heq, decide_False, Bool.false_or] at hk
        exact h key hk
    · simp only [hp, hc, if_true]
      exact h key
  · simp only [hp]
    exact h key

theorem count_extension_keys (o : Options) (nbase : Nat) (chunk : Nat → Nat)
    (merCounter : UMap Str (List (Str × Str))) (fastqData : List Str) (st : ExtensionState)
    (h : ∀ key, UMap.contains st.merLocalPair key = true →
      UMap.contains merCounter key = true) :
    ∀ key, UMap.contains
        (count_extension o nbase chunk fastqData merCounter st).merLocalPair key = true →
      UMap.contains merCounter key = true := by
  unfold count_extension
  apply foldl_invariant
    (fun st : ExtensionState => ∀ key, UMap.contains st.merLocalPair key = true →
      UMap.contains merCounter key = true) _ _ fastqData st h
  intro st2 read hst2
  unfold count_extension_read
  exact foldl_invariant
    (fun s : Nat × ExtensionState => ∀ key, UMap.contains s.2.merLocalPair key = true →
      UMap.contains merCounter key = true) _
    (fun s j hs => count_extension_window_keys o nbase chunk merCounter read s j hs) _ _ hst2

theorem read_fastqFile_extension_keys (o : Options) (nbase fastq_read_lines : Nat)
    (chunk : Nat → Nat) (lines : List Str) (merCounter : UMap Str (List (Str × Str)))
    (merTotalCounter : Nat) :
    ∀ key, UMap.contains (read_fastqFile_extension o nbase fastq_read_lines chunk lines
        merCounter merTotalCounter).merLocalPair key = true →
      UMap.contains merCounter key = true := by
  unfold read_fastqFile_extension
  apply count_extension_keys
  apply foldl_invariant
    (fun r : ExtensionReader => ∀ key, UMap.contains r.st.merLocalPair key = true →
      UMap.contains merCounter key = true)
  · intro r line hr
    unfold read_fastqFile_extension_line
    by_cases h4 : r.nLine + 1 = 4
    · simp only [h4, if_true]
      by_cases hgate : ((r.aLine.set r.nLine line).getD 1 []).length > o.kmer + nbase * 2
      · simp only [hgate, if_true]
        split
        · exact count_extension_keys o nbase chunk merCounter _ r.st hr
        · exact hr
      · simp only [hgate, if_false]
        exact hr
    · simp only [h4, if_false]
      exact hr
  · simp [UMap.contains, UMap.find]

theorem scan_files_keys (o : Options) (fastq_read_lines : Nat) (chunk : Nat → Nat)
    (files : List (List Str)) (seeded : UMap Str Nat) (res : UMap Str Nat × Nat)
    (h : scan_files o fastq_read_lines chunk files seeded = some res) :
    UMap.keys res.1 = UMap.keys seeded := by
  unfold scan_files at h
  apply foldlM_invariant (fun acc : UMap Str Nat × Nat => UMap.keys acc.1 = UMap.keys seeded)
    _ _ files (seeded, 0) rfl res h
  intro acc file acc2 hacc hstep
  cases hread : read_fastqFile o fastq_read_lines chunk file acc.1 0 with
  | none => simp [hread] at hstep
  | some st =>
    simp only [hread, Option.some.injEq] at hstep
    rw [← hstep]
    simp only
    rw [merge_counts_keys, hacc]

theorem scan_files_extension_keys (o : Options) (nbase fastq_read_lines : Nat)
    (chunk : Nat → Nat) (files : List (List Str)) (seeded : UMap Str (List (Str × Str))) :
    UMap.keys (scan_files_extension o nbase fastq_read_lines chunk files seeded).1
      = UMap.keys seeded := by
  unfold scan_files_extension
  apply foldl_invariant
    (fun acc : UMap Str (List (Str × Str)) × Nat => UMap.keys acc.1 = UMap.keys seeded)
    _ _ files (seeded, 0) rfl
  intro acc file hacc
  simp only
  rw [merge_pairs_keys _ _
    (read_fastqFile_extension_keys o nbase fastq_read_lines chunk file acc.1 0), hacc]

/-- C26: the per-mer tables keep their key set. In the match phase and in the
extension phase, for every shared table and every file read against it, every
key of the local result of the file is a key of the shared table, and the merge
of the local result leaves the list of keys of the shared table as it was; so
after all files of a class the shared table has the keys it was seeded with. -/
theorem tables_shape_immutable (o : Options) (nbase fastq_read_lines : Nat)
    (chunk : Nat → Nat) :
    (∀ (shared : UMap Str Nat) (file : List Str) (st : MatchState),
      read_fastqFile o fastq_read_lines chunk file shared 0 = some st →
      (∀ key, UMap.contains st.merLocalCounter key = true →
        UMap.contains shared key = true) ∧
      UMap.keys (merge_counts shared st.merLocalCounter) = UMap.keys shared) ∧
    (∀ (files : List (List Str)) (seeded : UMap Str Nat) (res : UMap Str Nat × Nat),
      scan_files o fastq_read_lines chunk files seeded = some res →
      UMap.keys res.1 = UMap.keys seeded) ∧
    (∀ (shared : UMap Str (List (Str × Str))) (file : List Str),
      (∀ key, UMap.contains (read_fastqFile_extension o nbase fastq_read_lines chunk file
          shared 0).merLocalPair key = true → UMap.contains shared key = true) ∧
      UMap.keys (merge_pairs shared (read_fastqFile_extension o nbase fastq_read_lines chunk
          file shared 0).merLocalPair) = UMap.keys shared) ∧
    (∀ (files : List (List Str)) (seeded : UMap Str (List (Str × Str))),
      UMap.keys (scan_files_extension o nbase fastq_read_lines chunk files seeded).1
        = UMap.keys seeded) := by
  refine ⟨?_, ?_, ?_, ?_⟩
  · intro shared file st h
    exact ⟨read_fastqFile_keys o fastq_read_lines chunk file shared 0 st h,
      merge_counts_keys shared st.merLocalCounter⟩
  · intro files seeded res h
    exact scan_files_keys o fastq_read_lines chunk files seeded res h
  · intro shared file
    exact ⟨read_fastqFile_extension_keys o nbase fastq_read_lines chunk file shared 0,
      merge_pairs_keys _ _
        (read_fastqFile_extension_keys o nbase fastq_read_lines chunk file shared 0)⟩
  · intro files seeded
    exact scan_files_extension_keys o nbase fastq_read_lines chunk files seeded

theorem tables_shape_immutable_witness :
    (scan_files (Options.ofKmer 8) 10000000
        (create_chunk (Options.ofKmer 8) exampleKeys (fun _ => 0))
        [exampleRevFile, exampleAllAFile] exampleKeys).isSome = true ∧
    (∀ res, scan_files (Options.ofKmer 8) 10000000
        (create_chunk (Options.ofKmer 8) exampleKeys (fun _ => 0))
        [exampleRevFile, exampleAllAFile] exampleKeys = some res →
      UMap.keys res.1 = UMap.keys exampleKeys) ∧
    UMap.keys (scan_files_extension (Options.ofKmer 8) 2 10000000
        (KmerExtension.create_chunk (Options.ofKmer 8) exampleExtKeys (fun _ => 0))
        [recordLines (['@', 'r', '\n'], exampleExtRead, ['+', '\n'], [])] exampleExtKeys).1
      = UMap.keys exampleExtKeys :=
  ⟨by decide,
    (tables_shape_immutable (Options.ofKmer 8) 2 10000000
      (create_chunk (Options.ofKmer 8) exampleKeys (fun _ => 0))).2.1
      [exampleRevFile, exampleAllAFile] exampleKeys,
    (tables_shape_immutable (Options.ofKmer 8) 2 10000000
      (KmerExtension.create_chunk (Options.ofKmer 8) exampleExtKeys (fun _ => 0))).2.2.2
      [recordLines (['@', 'r', '\n'], exampleExtRead, ['+', '\n'], [])] exampleExtKeys⟩

/-! ## The match-phase merge as a sum -/

theorem UMap.contains_of_keys_eq {κ ν μ : Type} [DecidableEq κ] (m1 : UMap κ ν) (m2 : UMap κ μ)
    (h : UMap.keys m1 = UMap.keys m2) (key : κ) :
    UMap.contains m1 key = UMap.contains m2 key := by
  rw [Bool.eq_iff_iff, UMap.contains_iff_mem_keys, UMap.contains_iff_mem_keys, h]

theorem count_match_congr (o : Options) (chunk : Nat → Nat) (mc1 mc2 : UMap Str Nat)
    (h : ∀ key, UMap.contains mc1 key = UMap.contains mc2 key) (fastqData : List Str)
    (st : MatchState) :
    count_match o chunk fastqData mc1 st = count_match o chunk fastqData mc2 st := by
  have hw : count_match_window o chunk mc1 = count_match_window o chunk mc2 := by
    funext read s j
    unfold count_match_window
    simp only [h]
  have hr : count_match_read o chunk mc1 = count_match_read o chunk mc2 := by
    funext st read
    unfold count_match_read
    rw [hw]
  unfold count_match
  rw [hr]

theorem read_fastqFile_congr (o : Options) (fastq_read_lines : Nat) (chunk : Nat → Nat)
    (mc1 mc2 : UMap Str Nat) (h : ∀ key, UMap.contains mc1 key = UMap.contains mc2 key)
    (lines : List Str) (merTotalCounter : Nat) :
    read_fastqFile o fastq_read_lines chunk lines mc1 merTotalCounter
      = read_fastqFile o fastq_read_lines chunk lines mc2 merTotalCounter := by
  have hl : read_fastqFile_line o fastq_read_lines chunk mc1
      = read_fastqFile_line o fastq_read_lines chunk mc2 := by
    funext r line
    unfold read_fastqFile_line
    simp only [count_match_congr o chunk mc1 mc2 h]
  unfold read_fastqFile
  rw [hl]
  simp only [count_match_congr o chunk mc1 mc2 h]

theorem read_fastqFile_wellformed (o : Options) (fastq_read_lines : Nat) (chunk : Nat → Nat)
    (merCounter : UMap Str Nat) (records : List (Str × Str × Str × Str))
    (hwf : ∀ record ∈ records, strAt record.1 0 = '@' ∧ strAt record.2.2.1 0 = '+')
    (merTotalCounter : Nat) :
    read_fastqFile o fastq_read_lines chunk (records.flatMap recordLines) merCounter
        merTotalCounter
      = some (count_match o chunk
          ((records.map (fun record => record.2.1)).filter
            (fun sq => decide (o.kmer ≤ sq.length)))
          merCounter
          { merLocalCounter := [], merTotalCounter := merTotalCounter, readCounter := 0 }) := by
  obtain ⟨r2, h2, hc2⟩ := read_fastqFile_records o fastq_read_lines chunk merCounter records
    hwf (FastqReader.init merTotalCounter) rfl rfl
  unfold read_fastqFile
  rw [h2]
  simp only [hc2, FastqReader.init, List.nil_append]

/-- The local result of one file of well-formed records, read against a table
with the seeded keys: the count of a key is the number of its windows in the
reads of length at least `k`. -/
theorem read_fastqFile_local (k : Nat) (hk : 1 ≤ k) (fastq_read_lines : Nat)
    (chunk : Nat → Nat) (seeded shared : UMap Str Nat)
    (hkeys : UMap.keys shared = UMap.keys seeded)
    (records : List (Str × Str × Str × Str))
    (hwf : ∀ record ∈ records, strAt record.1 0 = '@' ∧ strAt record.2.2.1 0 = '+') :
    ∃ st, read_fastqFile (Options.ofKmer k) fastq_read_lines
        (create_chunk (Options.ofKmer k) seeded chunk) (records.flatMap recordLines) shared 0
        = some st ∧
      (∀ key, countOf st.merLocalCounter key
        = if UMap.contains seeded key = true then
            naiveCount k key ((records.map (fun record => record.2.1)).filter
              (fun sq => decide (k ≤ sq.length)))
          else 0) ∧
      st.merTotalCounter
        = (((records.map (fun record => record.2.1)).filter
            (fun sq => decide (k ≤ sq.length))).map (fun r => r.length - k + 1)).sum := by
  rw [read_fastqFile_congr _ _ _ shared seeded
    (UMap.contains_of_keys_eq shared seeded hkeys), read_fastqFile_wellformed _ _ _ _ _ hwf]
  refine ⟨_, rfl, ?_, ?_⟩
  · intro key
    have hlen : ∀ r ∈ (records.map (fun record => record.2.1)).filter
        (fun sq => decide (k ≤ sq.length)), k ≤ r.length := by
      intro r hr
      simpa using (List.mem_filter.mp hr).2
    obtain ⟨h1, _, _, _⟩ := count_match_spec k hk seeded chunk _ hlen
      { merLocalCounter := [], merTotalCounter := 0, readCounter := 0 }
    have hkm : (Options.ofKmer k).kmer = k := rfl
    rw [hkm, h1 key]
    simp [countOf, UMap.find]
  · have hlen : ∀ r ∈ (records.map (fun record => record.2.1)).filter
        (fun sq => decide (k ≤ sq.length)), k ≤ r.length := by
      intro r hr
      simpa using (List.mem_filter.mp hr).2
    obtain ⟨_, _, h3, _⟩ := count_match_spec k hk seeded chunk _ hlen
      { merLocalCounter := [], merTotalCounter := 0, readCounter := 0 }
    have hkm : (Options.ofKmer k).kmer = k := rfl
    rw [hkm, h3]
    simp

theorem countOf_assign {κ : Type} [DecidableEq κ] (m : UMap κ Nat) (key : κ) (v : Nat)
    (key2 : κ) :
    countOf (UMap.assign m key v) key2 = if key = key2 then v else countOf m key2 := by
  unfold countOf
  rw [UMap.find_assign]
  by_cases h : key = key2 <;> simp [h]

theorem merge_counts_fold_countOf (local_ : UMap Str Nat) (l : UMap Str Nat)
    (hl : (UMap.keys l).Nodup) (acc : UMap Str Nat) (key : Str) :
    countOf (l.foldl
      (fun acc e => UMap.assign acc e.1 (countOf acc e.1 + countOf local_ e.1)) acc) key
      = countOf acc key + (if key ∈ UMap.keys l then countOf local_ key else 0) := by
  induction l generalizing acc with
  | nil => simp [UMap.keys]
  | cons e rest ih =>
    simp only [UMap.keys, List.map_cons, List.nodup_cons] at hl
    rw [List.foldl_cons, ih hl.2, countOf_assign]
    simp only [UMap.keys, List.map_cons, List.mem_cons]
    by_cases h : e.1 = key
    · subst h
      have : e.1 ∉ UMap.keys rest := hl.1
      simp only [UMap.keys] at this
      simp [this]
    · have h2 : ¬ key = e.1 := fun h3 => h h3.symm
      simp only [h, h2, if_false, false_or]

theorem merge_counts_countOf (shared local_ : UMap Str Nat) (hn : (UMap.keys shared).Nodup)
    (key : Str) :
    countOf (merge_counts shared local_) key
      = countOf shared key + (if UMap.contains shared key = true then countOf local_ key else 0) := by
  unfold merge_counts
  rw [merge_counts_fold_countOf local_ shared hn shared key]
  by_cases h : key ∈ UMap.keys shared
  · simp [h, (UMap.contains_iff_mem_keys shared key).mpr h]
  · have : ¬ UMap.contains shared key = true := fun hc =>
      h ((UMap.contains_iff_mem_keys shared key).mp hc)
    simp [h, this]

/-- The loop over the files of one class, started from any table with the seeded
keys: it ends normally, keeps the keys, and adds to every seeded key the number
of its windows in the reads of all files. -/
theorem scan_files_fold (k : Nat) (hk : 1 ≤ k) (fastq_read_lines : Nat) (chunk : Nat → Nat)
    (seeded : UMap Str Nat) (hn : (UMap.keys seeded).Nodup)
    (files : List (List (Str × Str × Str × Str)))
    (hwf : ∀ file ∈ files, ∀ record ∈ file,
      strAt record.1 0 = '@' ∧ strAt record.2.2.1 0 = '+')
    (acc : UMap Str Nat × Nat) (hacc : UMap.keys acc.1 = UMap.keys seeded) :
    ∃ res, (files.map (fun file => file.flatMap recordLines)).foldlM
        (fun acc file =>
          match read_fastqFile (Options.ofKmer k) fastq_read_lines
              (create_chunk (Options.ofKmer k) seeded chunk) file acc.1 0 with
          | none => none
          | some st =>
            some (merge_counts acc.1 st.merLocalCounter, acc.2 + st.merTotalCounter))
        acc = some res ∧
      UMap.keys res.1 = UMap.keys seeded ∧
      (∀ key, countOf res.1 key = countOf acc.1 key +
        (if UMap.contains seeded key = true then
          (files.map (fun file => naiveCount k key
            ((file.map (fun record => record.2.1)).filter
              (fun sq => decide (k ≤ sq.length))))).sum
         else 0)) ∧
      res.2 = acc.2 + (files.map (fun file =>
        (((file.map (fun record => record.2.1)).filter
          (fun sq => decide (k ≤ sq.length))).map (fun r => r.length - k + 1)).sum)).sum := by
  induction files generalizing acc with
  | nil => exact ⟨acc, rfl, hacc, by simp, by simp⟩
  | cons file rest ih =>
    obtain ⟨st, hst, hcount, htot⟩ := read_fastqFile_local k hk fastq_read_lines chunk seeded
      acc.1 hacc file (hwf file (List.mem_cons_self _ _))
    have hkeys2 : UMap.keys (merge_counts acc.1 st.merLocalCounter) = UMap.keys seeded := by
      rw [merge_counts_keys, hacc]
    obtain ⟨res, hres, hk2, hc2, ht2⟩ := ih (fun f hf => hwf f (List.mem_cons_of_mem _ hf))
      (merge_counts acc.1 st.merLocalCounter, acc.2 + st.merTotalCounter) hkeys2
    refine ⟨res, ?_, hk2, ?_, ?_⟩
    · rw [List.map_cons, List.foldlM_cons]
      simp only [hst, bind, Option.bind]
      exact hres
    · intro key
      rw [hc2 key]
      simp only
      rw [merge_counts_countOf _ _ (by rw [hacc]; exact hn), hcount key,
        UMap.contains_of_keys_eq acc.1 seeded hacc]
      by_cases hc : UMap.contains seeded key = true
      · simp only [hc, if_true, List.map_cons, List.sum_cons]
        omega
      · simp only [hc, if_false]
        simp
    · rw [ht2]
      simp only [List.map_cons, List.sum_cons]
      rw [htot]
      omega

theorem UMap.ext_of_keys {κ ν : Type} [DecidableEq κ] (m1 m2 : UMap κ ν)
    (hk : UMap.keys m1 = UMap.keys m2) (hn : (UMap.keys m1).Nodup)
    (hf : ∀ key, UMap.find m1 key = UMap.find m2 key) : m1 = m2 := by
  induction m1 generalizing m2 with
  | nil =>
    cases m2 with
    | nil => rfl
    | cons e rest => simp [UMap.keys] at hk
  | cons e rest ih =>
    cases m2 with
    | nil => simp [UMap.keys] at hk
    | cons e2 rest2 =>
      obtain ⟨k1, v1⟩ := e
      obtain ⟨k2, v2⟩ := e2
      simp only [UMap.keys, List.map_cons, List.cons.injEq] at hk
      obtain ⟨hk1, hk2⟩ := hk
      subst hk1
      simp only [UMap.keys, List.map_cons, List.nodup_cons] at hn
      have hv : v1 = v2 := by
        have := hf k1
        simpa [UMap.find] using this
      subst hv
      congr 1
      apply ih rest2 hk2 hn.2
      intro key
      by_cases hkey : k1 = key
      · subst hkey
        have h1 : UMap.find rest k1 = none := by
          cases hfind : UMap.find rest k1 with
          | none => rfl
          | some v =>
            exact absurd (List.mem_map_of_mem Prod.fst (UMap.mem_of_find rest k1 v hfind)) hn.1
        have h2 : UMap.find rest2 k1 = none := by
          cases hfind : UMap.find rest2 k1 with
          | none => rfl
          | some v =>
            have := List.mem_map_of_mem Prod.fst (UMap.mem_of_find rest2 k1 v hfind)
            rw [← hk2] at this
            exact absurd this hn.1
        rw [h1, h2]
      · have := hf key
        simpa [UMap.find, hkey] using this

theorem UMap.find_of_countOf {κ : Type} [DecidableEq κ] (m1 m2 : UMap κ Nat)
    (hk : UMap.keys m1 = UMap.keys m2) (hc : ∀ key, countOf m1 key = countOf m2 key)
    (key : κ) : UMap.find m1 key = UMap.find m2 key := by
  have hcont := UMap.contains_of_keys_eq m1 m2 hk key
  have hco := hc key
  unfold UMap.contains at hcont
  unfold countOf at hco
  cases h1 : UMap.find m1 key with
  | none =>
    cases h2 : UMap.find m2 key with
    | none => rfl
    | some v => simp [h1, h2] at hcont
  | some v =>
    cases h2 : UMap.find m2 key with
    | none => simp [h1, h2] at hcont
    | some w =>
      simp only [h1, h2, Option.getD_some] at hco
      rw [hco]

theorem forall₂_perm_map_eq {α β : Type} (g : List α → β)
    (hg : ∀ a b, List.Perm a b → g a = g b) (l1 l2 : List (List α))
    (h : List.Forall₂ List.Perm l1 l2) : l1.map g = l2.map g := by
  induction h with
  | nil => rfl
  | cons hab _ ih => rw [List.map_cons, List.map_cons, hg _ _ hab, ih]

theorem forall₂_perm_mem {α : Type} (l1 l2 : List (List α))
    (h : List.Forall₂ List.Perm l1 l2) (b : List α) (hb : b ∈ l2) :
    ∃ a ∈ l1, List.Perm a b := by
  induction h with
  | nil => simp at hb
  | cons hab _ ih =>
    rcases List.mem_cons.mp hb with h1 | h1
    · subst h1
      exact ⟨_, List.mem_cons_self _ _, hab⟩
    · obtain ⟨a, ha, hp⟩ := ih h1
      exact ⟨a, List.mem_cons_of_mem _ ha, hp⟩

theorem reordered_sum_eq {α : Type} (g : List α → Nat)
    (hg : ∀ a b, List.Perm a b → g a = g b) (files mid files2 : List (List α))
    (hreads : List.Forall₂ List.Perm files mid) (hfiles : List.Perm mid files2) :
    (files.map g).sum = (files2.map g).sum := by
  rw [forall₂_perm_map_eq g hg files mid hreads]
  exact (hfiles.map g).sum_eq

/-- C27: the match-phase merge is a commutative sum. For `k >= 1`, a seeded
table with distinct keys, the chunk array built from it and files of well-formed
records: the loop over the files of one class ends normally, and for every
seeded key the shared count is the seeded count plus the sum over the files of
the local count of the key (the count in the result of reading that file, 0 when
the key is absent from it). Reading the files in another order, each with its
records in another order, gives the same shared table and the same class
total. -/
theorem match_merge_commutative_sum (k : Nat) (hk : 1 ≤ k) (fastq_read_lines : Nat)
    (chunk : Nat → Nat) (seeded : UMap Str Nat) (hn : (UMap.keys seeded).Nodup)
    (files mid files2 : List (List (Str × Str × Str × Str)))
    (hwf : ∀ file ∈ files, ∀ record ∈ file,
      strAt record.1 0 = '@' ∧ strAt record.2.2.1 0 = '+')
    (hreads : List.Forall₂ List.Perm files mid) (hfiles : List.Perm mid files2) :
    ∃ res, scan_files (Options.ofKmer k) fastq_read_lines
        (create_chunk (Options.ofKmer k) seeded chunk)
        (files.map (fun file => file.flatMap recordLines)) seeded = some res ∧
      (∀ key, UMap.contains seeded key = true →
        countOf res.1 key = countOf seeded key + (files.map (fun file =>
          ((read_fastqFile (Options.ofKmer k) fastq_read_lines
              (create_chunk (Options.ofKmer k) seeded chunk)
              (file.flatMap recordLines) seeded 0).map
            (fun st => countOf st.merLocalCounter key)).getD 0)).sum) ∧
      scan_files (Options.ofKmer k) fastq_read_lines
        (create_chunk (Options.ofKmer k) seeded chunk)
        (files2.map (fun file => file.flatMap recordLines)) seeded = some res := by
  have hwf2 : ∀ file ∈ files2, ∀ record ∈ file,
      strAt record.1 0 = '@' ∧ strAt record.2.2.1 0 = '+' := by
    intro file2 hf2 record hr
    obtain ⟨file, hf, hp⟩ := forall₂_perm_mem files mid hreads file2 (hfiles.mem_iff.mpr hf2)
    exact hwf file hf record (hp.mem_iff.mpr hr)
  obtain ⟨res, hres, hkeys, hcount, htot⟩ :=
    scan_files_fold k hk fastq_read_lines chunk seeded hn files hwf (seeded, 0) rfl
  obtain ⟨res2, hres2, hkeys2, hcount2, htot2⟩ :=
    scan_files_fold k hk fastq_read_lines chunk seeded hn files2 hwf2 (seeded, 0) rfl
  refine ⟨res, hres, ?_, ?_⟩
  · intro key hc
    rw [hcount key]
    simp only [hc, if_true]
    congr 2
    apply List.map_congr_left
    intro file hf
    obtain ⟨st, hst, hlocal, _⟩ := read_fastqFile_local k hk fastq_read_lines chunk seeded
      seeded rfl file (hwf file hf)
    rw [hst]
    simp only [Option.map_some', Option.getD_some]
    rw [hlocal key]
    simp [hc]
  · have heq : res2 = res := by
      have h1 : res2.1 = res.1 := by
        apply UMap.ext_of_keys _ _ (by rw [hkeys2, hkeys]) (by rw [hkeys2]; exact hn)
        apply UMap.find_of_countOf _ _ (by rw [hkeys2, hkeys])
        intro key
        rw [hcount key, hcount2 key]
        by_cases hc : UMap.contains seeded key = true
        · simp only [hc, if_true]
          congr 1
          apply (reordered_sum_eq _ _ files mid files2 hreads hfiles).symm
          intro a b hab
          unfold naiveCount
          exact (((hab.map _).filter _).map _).sum_eq
        · simp [hc]
      have h2 : res2.2 = res.2 := by
        rw [htot, htot2]
        congr 1
        apply (reordered_sum_eq _ _ files mid files2 hreads hfiles).symm
        intro a b hab
        exact (((hab.map _).filter _).map _).sum_eq
      exact Prod.ext h1 h2
    rw [← heq]
    exact hres2

theorem match_merge_commutative_sum_witness :
    1 ≤ 8 ∧ (UMap.keys exampleKeys).Nodup ∧
    (∀ file ∈ [[exampleRecordA, exampleRecordB], [exampleRecordC, exampleRecordA]],
      ∀ record ∈ file, strAt record.1 0 = '@' ∧ strAt record.2.2.1 0 = '+') ∧
    ∃ res, scan_files (Options.ofKmer 8) 10000000
        (create_chunk (Options.ofKmer 8) exampleKeys (fun _ => 0))
        ([[exampleRecordA, exampleRecordB], [exampleRecordC, exampleRecordA]].map
          (fun file => file.flatMap recordLines)) exampleKeys = some res ∧
      (∀ key, UMap.contains exampleKeys key = true →
        countOf res.1 key = countOf exampleKeys key
          + ([[exampleRecordA, exampleRecordB], [exampleRecordC, exampleRecordA]].map
            (fun file =>
              ((read_fastqFile (Options.ofKmer 8) 10000000
                  (create_chunk (Options.ofKmer 8) exampleKeys (fun _ => 0))
                  (file.flatMap recordLines) exampleKeys 0).map
                (fun st => countOf st.merLocalCounter key)).getD 0)).sum) ∧
      scan_files (Options.ofKmer 8) 10000000
        (create_chunk (Options.ofKmer 8) exampleKeys (fun _ => 0))
        ([[exampleRecordA, exampleRecordC], [exampleRecordB, exampleRecordA]].map
          (fun file => file.flatMap recordLines)) exampleKeys = some res :=
  ⟨by decide, by decide, by decide,
    match_merge_commutative_sum 8 (by decide) 10000000 (fun _ => 0) exampleKeys (by decide)
      [[exampleRecordA, exampleRecordB], [exampleRecordC, exampleRecordA]]
      [[exampleRecordB, exampleRecordA], [exampleRecordA, exampleRecordC]]
      [[exampleRecordA, exampleRecordC], [exampleRecordB, exampleRecordA]]
      (by decide)
      (List.Forall₂.cons (List.Perm.swap _ _ _)
        (List.Forall₂.cons (List.Perm.swap _ _ _) List.Forall₂.nil))
      (List.Perm.swap _ _ _)⟩

/-! ## The shape of the extension tables -/

theorem UMap.find_none_of_not_mem {κ ν : Type} [DecidableEq κ] (m : UMap κ ν) (key : κ)
    (h : key ∉ UMap.keys m) : UMap.find m key = none := by
  cases hf : UMap.find m key with
  | none => rfl
  | some v => exact absurd (List.mem_map_of_mem Prod.fst (UMap.mem_of_find m key v hf)) h

theorem UMap.assign_of_not_mem {κ ν : Type} [DecidableEq κ] (m : UMap κ ν) (key : κ) (v : ν)
    (h : key ∉ UMap.keys m) : UMap.assign m key v = m ++ [(key, v)] := by
  apply UMap.assign_fresh
  intro e he heq
  apply h
  rw [← heq]
  exact List.mem_map_of_mem Prod.fst he

theorem UMap.keys_assign_of_not_mem {κ ν : Type} [DecidableEq κ] (m : UMap κ ν) (key : κ)
    (v : ν) (h : key ∉ UMap.keys m) : UMap.keys (UMap.assign m key v) = UMap.keys m ++ [key] := by
  rw [UMap.assign_of_not_mem m key v h]
  simp [UMap.keys]

theorem UMap.keys_assign_nodup {κ ν : Type} [DecidableEq κ] (m : UMap κ ν) (key : κ) (v : ν)
    (h : (UMap.keys m).Nodup) : (UMap.keys (UMap.assign m key v)).Nodup := by
  by_cases hc : key ∈ UMap.keys m
  · rw [UMap.keys_assign m key v ((UMap.contains_iff_mem_keys m key).mpr hc)]
    exact h
  · rw [UMap.keys_assign_of_not_mem m key v hc]
    exact List.Nodup.append h (List.nodup_singleton key) (by
      intro a ha hb
      simp only [List.mem_singleton] at hb
      subst hb
      exact hc ha)

/-- The inner table of position `i` of a nested table (empty when absent). -/
theorem assign2_inner {ν : Type} (m : UMap Nat (UMap Nat ν)) (i j : Nat) (x : ν) (i2 : Nat) :
    (UMap.find (assign2 m i j x) i2).getD []
      = if i = i2 then UMap.assign ((UMap.find m i).getD []) j x
        else (UMap.find m i2).getD [] := by
  unfold assign2
  rw [UMap.find_assign]
  by_cases h : i = i2 <;> simp [h]

theorem assign2_keys_nodup {ν : Type} (m : UMap Nat (UMap Nat ν)) (i j : Nat) (x : ν)
    (h : (UMap.keys m).Nodup) : (UMap.keys (assign2 m i j x)).Nodup :=
  UMap.keys_assign_nodup m i _ h

/-- The number of entries of a nested table. -/
theorem flatten_length_assign {ν : Type} (m : UMap Nat (UMap Nat ν)) (i : Nat)
    (inner : UMap Nat ν) (hn : (UMap.keys m).Nodup) :
    ((UMap.assign m i inner).map (fun e => e.2.length)).sum + ((UMap.find m i).getD []).length
      = (m.map (fun e => e.2.length)).sum + inner.length := by
  induction m with
  | nil => simp [UMap.assign, UMap.find]
  | cons e rest ih =>
    obtain ⟨k, w⟩ := e
    simp only [UMap.keys, List.map_cons, List.nodup_cons] at hn
    by_cases hk : k = i
    · subst hk
      simp only [UMap.assign, if_true, UMap.find, List.map_cons, List.sum_cons,
        Option.getD_some]
      omega
    · simp only [UMap.assign, hk, if_false, UMap.find, List.map_cons, List.sum_cons]
      have := ih hn.2
      omega

theorem flattenPvals_length {F : Type} (pval : UMap Nat (UMap Nat F)) :
    (flattenPvals pval).length = (pval.map (fun e => e.2.length)).sum := by
  unfold flattenPvals
  induction pval with
  | nil => rfl
  | cons e rest ih =>
    rw [List.flatMap_cons, List.length_append, ih]
    simp

theorem flattenPvals_length_assign2 {F : Type} (pval : UMap Nat (UMap Nat F)) (i j : Nat)
    (x : F) (hn : (UMap.keys pval).Nodup)
    (hj : j ∉ UMap.keys ((UMap.find pval i).getD [])) :
    (flattenPvals (assign2 pval i j x)).length = (flattenPvals pval).length + 1 := by
  rw [flattenPvals_length, flattenPvals_length]
  unfold assign2
  have h1 := flatten_length_assign pval i (UMap.assign ((UMap.find pval i).getD []) j x) hn
  rw [UMap.assign_of_not_mem _ j x hj] at h1 ⊢
  simp only [List.length_append, List.length_singleton] at h1
  omega

section OutsideShape

variable {F : Type} [LinearOrderedField F]

/-- What one row of `create_outsideData` writes, whichever branch is taken. -/
theorem outside_row_fields (ln : F → F) (chdtrc : F → F → F) (gtest : Gtest F) (i : Nat)
    (mc wc : UMap (Str × Str) Nat) (s : OutsideLoop F × Nat) (itr_v : Nat × (Str × Str)) :
    ∃ gv pv,
      (outside_row ln chdtrc gtest i mc wc s itr_v).1.outsideData
        = { gval := assign2 s.1.outsideData.gval i s.2 gv
            pval := assign2 s.1.outsideData.pval i s.2 pv
            left_chain := pushAt s.1.outsideData.left_chain i itr_v.2.1
            right_chain := pushAt s.1.outsideData.right_chain i itr_v.2.2
            mutant_count := pushAt s.1.outsideData.mutant_count i
              (if UMap.contains mc itr_v.2 then countOf mc itr_v.2 else 0)
            wildType_count := pushAt s.1.outsideData.wildType_count i
              (if UMap.contains wc itr_v.2 then countOf wc itr_v.2 else 0) } ∧
      (outside_row ln chdtrc gtest i mc wc s itr_v).1.table_size = s.1.table_size ∧
      (outside_row ln chdtrc gtest i mc wc s itr_v).1.number_of_extensions
        = s.1.number_of_extensions + 1 ∧
      (outside_row ln chdtrc gtest i mc wc s itr_v).2 = s.2 + 1 := by
  unfold outside_row
  by_cases h : UMap.contains s.1.gval_stock
      (if UMap.contains mc itr_v.2 then countOf mc itr_v.2 else 0,
       if UMap.contains wc itr_v.2 then countOf wc itr_v.2 else 0) = true
  · simp only [h, if_true]
    exact ⟨_, _, rfl, by first | rfl | trivial, by first | rfl | trivial,
      by first | rfl | trivial⟩
  · simp only [h, Bool.false_eq_true, if_false]
    exact ⟨_, _, rfl, by first | rfl | trivial, by first | rfl | trivial,
      by first | rfl | trivial⟩

/-- The rows of one position: the four vectors of the position grow by the
columns of the rows, the nested tables get one entry per row under the keys
`ic, ic + 1, ..`, and nothing else changes. -/
theorem outside_rows_shape (ln : F → F) (chdtrc : F → F → F) (gtest : Gtest F) (i : Nat)
    (mc wc : UMap (Str × Str) Nat) (v : List (Nat × (Str × Str))) (s : OutsideLoop F × Nat)
    (hic : s.2 = (vectorAt s.1.outsideData.mutant_count i).length)
    (hkg : ∀ i2, UMap.keys ((UMap.find s.1.outsideData.gval i2).getD [])
      = List.range (vectorAt s.1.outsideData.mutant_count i2).length)
    (hkp : ∀ i2, UMap.keys ((UMap.find s.1.outsideData.pval i2).getD [])
      = List.range (vectorAt s.1.outsideData.mutant_count i2).length)
    (hog : (UMap.keys s.1.outsideData.gval).Nodup)
    (hop : (UMap.keys s.1.outsideData.pval).Nodup)
    (hnum : s.1.number_of_extensions = (flattenPvals s.1.outsideData.pval).length)
    (r : OutsideLoop F × Nat) (hr : r = v.foldl (outside_row ln chdtrc gtest i mc wc) s) :
    (∀ i2, vectorAt r.1.outsideData.left_chain i2
      = if i = i2 then vectorAt s.1.outsideData.left_chain i ++ v.map (fun x => x.2.1)
        else vectorAt s.1.outsideData.left_chain i2) ∧
    (∀ i2, vectorAt r.1.outsideData.right_chain i2
      = if i = i2 then vectorAt s.1.outsideData.right_chain i ++ v.map (fun x => x.2.2)
        else vectorAt s.1.outsideData.right_chain i2) ∧
    (∀ i2, vectorAt r.1.outsideData.mutant_count i2
      = if i = i2 then vectorAt s.1.outsideData.mutant_count i
          ++ v.map (fun x => if UMap.contains mc x.2 then countOf mc x.2 else 0)
        else vectorAt s.1.outsideData.mutant_count i2) ∧
    (∀ i2, vectorAt r.1.outsideData.wildType_count i2
      = if i = i2 then vectorAt s.1.outsideData.wildType_count i
          ++ v.map (fun x => if UMap.contains wc x.2 then countOf wc x.2 else 0)
        else vectorAt s.1.outsideData.wildType_count i2) ∧
    r.1.table_size = s.1.table_size ∧
    (∀ i2, UMap.keys ((UMap.find r.1.outsideData.gval i2).getD [])
      = List.range (vectorAt r.1.outsideData.mutant_count i2).length) ∧
    (∀ i2, UMap.keys ((UMap.find r.1.outsideData.pval i2).getD [])
      = List.range (vectorAt r.1.outsideData.mutant_count i2).length) ∧
    (UMap.keys r.1.outsideData.gval).Nodup ∧
    (UMap.keys r.1.outsideData.pval).Nodup ∧
    r.1.number_of_extensions = (flattenPvals r.1.outsideData.pval).length := by
  induction v generalizing s r with
  | nil =>
    subst hr
    simp only [List.foldl_nil, List.map_nil, List.append_nil]
    refine ⟨?_, ?_, ?_, ?_, by first | rfl | trivial, hkg, hkp, hog, hop, hnum⟩ <;>
      · intro i2
        by_cases h : i = i2
        · subst h
          simp
        · simp [h]
  | cons a rest ih =>
    rw [List.foldl_cons] at hr
    obtain ⟨gv, pv, hod, hts, hne, hic2⟩ := outside_row_fields ln chdtrc gtest i mc wc s a
    have hmut : ∀ i2, vectorAt (outside_row ln chdtrc gtest i mc wc s a).1.outsideData.mutant_count
        i2 = if i = i2 then vectorAt s.1.outsideData.mutant_count i
            ++ [if UMap.contains mc a.2 then countOf mc a.2 else 0]
          else vectorAt s.1.outsideData.mutant_count i2 := by
      intro i2
      rw [hod]
      exact vectorAt_pushAt _ _ _ _
    have hfresh_g : s.2 ∉ UMap.keys ((UMap.find s.1.outsideData.gval i).getD []) := by
      rw [hkg i, hic]
      simp
    have hfresh_p : s.2 ∉ UMap.keys ((UMap.find s.1.outsideData.pval i).getD []) := by
      rw [hkp i, hic]
      simp
    have hkg2 : ∀ i2, UMap.keys
        ((UMap.find (outside_row ln chdtrc gtest i mc wc s a).1.outsideData.gval i2).getD [])
        = List.range
          (vectorAt (outside_row ln chdtrc gtest i mc wc s a).1.outsideData.mutant_count
            i2).length := by
      intro i2
      rw [hmut i2, hod]
      simp only
      rw [assign2_inner]
      by_cases h : i = i2
      · subst h
        simp only [if_true]
        rw [UMap.keys_assign_of_not_mem _ _ _ hfresh_g, hkg i, hic, List.length_append,
          List.length_singleton, List.range_succ]
      · simp only [h, if_false]
        exact hkg i2
    have hkp2 : ∀ i2, UMap.keys
        ((UMap.find (outside_row ln chdtrc gtest i mc wc s a).1.outsideData.pval i2).getD [])
        = List.range
          (vectorAt (outside_row ln chdtrc gtest i mc wc s a).1.outsideData.mutant_count
            i2).length := by
      intro i2
      rw [hmut i2, hod]
      simp only
      rw [assign2_inner]
      by_cases h : i = i2
      · subst h
        simp only [if_true]
        rw [UMap.keys_assign_of_not_mem _ _ _ hfresh_p, hkp i, hic, List.length_append,
          List.length_singleton, List.range_succ]
      · simp only [h, if_false]
        exact hkp i2
    have hog2 : (UMap.keys (outside_row ln chdtrc gtest i mc wc s a).1.outsideData.gval).Nodup := by
      rw [hod]
      exact assign2_keys_nodup _ _ _ _ hog
    have hop2 : (UMap.keys (outside_row ln chdtrc gtest i mc wc s a).1.outsideData.pval).Nodup := by
      rw [hod]
      exact assign2_keys_nodup _ _ _ _ hop
    have hnum2 : (outside_row ln chdtrc gtest i mc wc s a).1.number_of_extensions
        = (flattenPvals (outside_row ln chdtrc gtest i mc wc s a).1.outsideData.pval).length := by
      rw [hne, hod]
      simp only
      rw [flattenPvals_length_assign2 _ _ _ _ hop hfresh_p, hnum]
    have hic3 : (outside_row ln chdtrc gtest i mc wc s a).2
        = (vectorAt (outside_row ln chdtrc gtest i mc wc s a).1.outsideData.mutant_count
            i).length := by
      rw [hic2, hmut i, hic]
      simp
    obtain ⟨h1, h2, h3, h4, h5, h6, h7, h8, h9, h10⟩ :=
      ih (outside_row ln chdtrc gtest i mc wc s a) hic3 hkg2 hkp2 hog2 hop2 hnum2 r hr
    refine ⟨?_, ?_, ?_, ?_, by rw [h5, hts], h6, h7, h8, h9, h10⟩
    · intro i2
      rw [h1 i2, hod]
      simp only [vectorAt_pushAt]
      by_cases h : i = i2
      · subst h
        simp
      · simp [h]
    · intro i2
      rw [h2 i2, hod]
      simp only [vectorAt_pushAt]
      by_cases h : i = i2
      · subst h
        simp
      · simp [h]
    · intro i2
      rw [h3 i2, hod]
      simp only [vectorAt_pushAt]
      by_cases h : i = i2
      · subst h
        simp
      · simp [h]
    · intro i2
      rw [h4 i2, hod]
      simp only [vectorAt_pushAt]
      by_cases h : i = i2
      · subst h
        simp
      · simp [h]

end OutsideShape

section OutsideMaster

variable {F : Type} [LinearOrderedField F]

/-- The state of `create_outsideData` after one more position. -/
theorem outside_position_shape (ln : F → F) (chdtrc : F → F → F) (sf : StatisticsFile F)
    (mutantMerPair wildTypeMerPair : UMap Str (List (Str × Str)))
    (s s2 : OutsideLoop F) (t : Nat)
    (h1 : ∀ i, i < t → (UMap.find sf.gtest.fdr i).getD 0 ≤ sf.threshold_fdr →
      ∃ mer, UMap.find sf.vectorPosPair i = some mer ∧
        UMap.find s.table_size i = some (List.insertionSort (fun a b => ¬ rowLT a b)
          ((side_pair_count mutantMerPair mer.1 mer.2).map (fun e => (e.2, e.1)))).length ∧
        vectorAt s.outsideData.left_chain i = (List.insertionSort (fun a b => ¬ rowLT a b)
          ((side_pair_count mutantMerPair mer.1 mer.2).map (fun e => (e.2, e.1)))).map
            (fun x => x.2.1) ∧
        vectorAt s.outsideData.right_chain i = (List.insertionSort (fun a b => ¬ rowLT a b)
          ((side_pair_count mutantMerPair mer.1 mer.2).map (fun e => (e.2, e.1)))).map
            (fun x => x.2.2) ∧
        vectorAt s.outsideData.mutant_count i = (List.insertionSort (fun a b => ¬ rowLT a b)
          ((side_pair_count mutantMerPair mer.1 mer.2).map (fun e => (e.2, e.1)))).map
            (fun x => if UMap.contains (side_pair_count mutantMerPair mer.1 mer.2) x.2
              then countOf (side_pair_count mutantMerPair mer.1 mer.2) x.2 else 0) ∧
        vectorAt s.outsideData.wildType_count i = (List.insertionSort (fun a b => ¬ rowLT a b)
          ((side_pair_count mutantMerPair mer.1 mer.2).map (fun e => (e.2, e.1)))).map
            (fun x => if UMap.contains (side_pair_count wildTypeMerPair mer.1 mer.2) x.2
              then countOf (side_pair_count wildTypeMerPair mer.1 mer.2) x.2 else 0))
    (h2 : ∀ i, ¬ (i < t ∧ (UMap.find sf.gtest.fdr i).getD 0 ≤ sf.threshold_fdr) →
      UMap.find s.table_size i = none ∧ vectorAt s.outsideData.left_chain i = [] ∧
      vectorAt s.outsideData.right_chain i = [] ∧ vectorAt s.outsideData.mutant_count i = [] ∧
      vectorAt s.outsideData.wildType_count i = [])
    (hkg : ∀ i2, UMap.keys ((UMap.find s.outsideData.gval i2).getD [])
      = List.range (vectorAt s.outsideData.mutant_count i2).length)
    (hkp : ∀ i2, UMap.keys ((UMap.find s.outsideData.pval i2).getD [])
      = List.range (vectorAt s.outsideData.mutant_count i2).length)
    (hog : (UMap.keys s.outsideData.gval).Nodup)
    (hop : (UMap.keys s.outsideData.pval).Nodup)
    (hnum : s.number_of_extensions = (flattenPvals s.outsideData.pval).length)
    (h : outside_position ln chdtrc sf mutantMerPair wildTypeMerPair s t = some s2) :
    (∀ i, i < t + 1 → (UMap.find sf.gtest.fdr i).getD 0 ≤ sf.threshold_fdr →
      ∃ mer, UMap.find sf.vectorPosPair i = some mer ∧
        UMap.find s2.table_size i = some (List.insertionSort (fun a b => ¬ rowLT a b)
          ((side_pair_count mutantMerPair mer.1 mer.2).map (fun e => (e.2, e.1)))).length ∧
        vectorAt s2.outsideData.left_chain i = (List.insertionSort (fun a b => ¬ rowLT a b)
          ((side_pair_count mutantMerPair mer.1 mer.2).map (fun e => (e.2, e.1)))).map
            (fun x => x.2.1) ∧
        vectorAt s2.outsideData.right_chain i = (List.insertionSort (fun a b => ¬ rowLT a b)
          ((side_pair_count mutantMerPair mer.1 mer.2).map (fun e => (e.2, e.1)))).map
            (fun x => x.2.2) ∧
        vectorAt s2.outsideData.mutant_count i = (List.insertionSort (fun a b => ¬ rowLT a b)
          ((side_pair_count mutantMerPair mer.1 mer.2).map (fun e => (e.2, e.1)))).map
            (fun x => if UMap.contains (side_pair_count mutantMerPair mer.1 mer.2) x.2
              then countOf (side_pair_count mutantMerPair mer.1 mer.2) x.2 else 0) ∧
        vectorAt s2.outsideData.wildType_count i = (List.insertionSort (fun a b => ¬ rowLT a b)
          ((side_pair_count mutantMerPair mer.1 mer.2).map (fun e => (e.2, e.1)))).map
            (fun x => if UMap.contains (side_pair_count wildTypeMerPair mer.1 mer.2) x.2
              then countOf (side_pair_count wildTypeMerPair mer.1 mer.2) x.2 else 0)) ∧
    (∀ i, ¬ (i < t + 1 ∧ (UMap.find sf.gtest.fdr i).getD 0 ≤ sf.threshold_fdr) →
      UMap.find s2.table_size i = none ∧ vectorAt s2.outsideData.left_chain i = [] ∧
      vectorAt s2.outsideData.right_chain i = [] ∧ vectorAt s2.outsideData.mutant_count i = [] ∧
      vectorAt s2.outsideData.wildType_count i = []) ∧
    (∀ i2, UMap.keys ((UMap.find s2.outsideData.gval i2).getD [])
      = List.range (vectorAt s2.outsideData.mutant_count i2).length) ∧
    (∀ i2, UMap.keys ((UMap.find s2.outsideData.pval i2).getD [])
      = List.range (vectorAt s2.outsideData.mutant_count i2).length) ∧
    (UMap.keys s2.outsideData.gval).Nodup ∧
    (UMap.keys s2.outsideData.pval).Nodup ∧
    s2.number_of_extensions = (flattenPvals s2.outsideData.pval).length := by
  unfold outside_position at h
  by_cases hthr : (UMap.find sf.gtest.fdr t).getD 0 ≤ sf.threshold_fdr
  · simp only [hthr, if_true] at h
    cases hmer : UMap.find sf.vectorPosPair t with
    | none => simp [hmer] at h
    | some mer =>
      simp only [hmer, Option.some.injEq] at h
      obtain ⟨z1, z2, z3, z4, z5⟩ := h2 t (by omega)
      obtain ⟨r1, r2, r3, r4, r5, r6, r7, r8, r9, r10⟩ := outside_rows_shape ln chdtrc sf.gtest t
        (side_pair_count mutantMerPair mer.1 mer.2) (side_pair_count wildTypeMerPair mer.1 mer.2)
        (List.insertionSort (fun a b => ¬ rowLT a b)
          ((side_pair_count mutantMerPair mer.1 mer.2).map (fun e => (e.2, e.1))))
        ({ outsideData := s.outsideData
           table_size := UMap.assign s.table_size t (List.insertionSort (fun a b => ¬ rowLT a b)
              ((side_pair_count mutantMerPair mer.1 mer.2).map (fun e => (e.2, e.1)))).length
           gval_stock := s.gval_stock
           pval_stock := s.pval_stock
           number_of_extensions := s.number_of_extensions }, 0)
        (by simp [z4]) hkg hkp hog hop hnum _ rfl
      rw [← h]
      refine ⟨?_, ?_, r6, r7, r8, r9, r10⟩
      · intro i hi hsig
        by_cases hit : t = i
        · subst hit
          refine ⟨mer, hmer, ?_, ?_, ?_, ?_, ?_⟩
          · rw [r5]
            simp only
            rw [UMap.find_assign]
            simp
          · rw [r1 t]
            simp [z2]
          · rw [r2 t]
            simp [z3]
          · rw [r3 t]
            simp [z4]
          · rw [r4 t]
            simp [z5]
        · obtain ⟨mer2, m1, m2, m3, m4, m5, m6⟩ := h1 i (by omega) hsig
          refine ⟨mer2, m1, ?_, ?_, ?_, ?_, ?_⟩
          · rw [r5]
            simp only
            rw [UMap.find_assign]
            simp only [hit, if_false]
            exact m2
          · rw [r1 i]
            simp only [hit, if_false]
            exact m3
          · rw [r2 i]
            simp only [hit, if_false]
            exact m4
          · rw [r3 i]
            simp only [hit, if_false]
            exact m5
          · rw [r4 i]
            simp only [hit, if_false]
            exact m6
      · intro i hi
        have hit : ¬ t = i := by
          intro heq
          subst heq
          exact hi ⟨by omega, hthr⟩
        obtain ⟨y1, y2, y3, y4, y5⟩ := h2 i (fun hc => hi ⟨by omega, hc.2⟩)
        refine ⟨?_, ?_, ?_, ?_, ?_⟩
        · rw [r5]
          simp only
          rw [UMap.find_assign]
          simp only [hit, if_false]
          exact y1
        · rw [r1 i]
          simp only [hit, if_false]
          exact y2
        · rw [r2 i]
          simp only [hit, if_false]
          exact y3
        · rw [r3 i]
          simp only [hit, if_false]
          exact y4
        · rw [r4 i]
          simp only [hit, if_false]
          exact y5
  · simp only [hthr, if_false, Option.some.injEq] at h
    rw [← h]
    refine ⟨?_, ?_, hkg, hkp, hog, hop, hnum⟩
    · intro i hi hsig
      have hit : i ≠ t := by
        intro heq
        subst heq
        exact hthr hsig
      exact h1 i (by omega) hsig
    · intro i hi
      apply h2 i
      intro hc
      exact hi ⟨by omega, hc.2⟩

end OutsideMaster

section OutsideMasterLoop

variable {F : Type} [LinearOrderedField F]

/-- The tables built by `create_outsideData`, position by position: a position
`i` below the loop bound with `fdr[i] <= threshold_fdr` holds the sorted rows of
its pair counts, every other position holds nothing; the nested tables have one
entry per row, and `number_of_extensions` is the number of p-values. -/
theorem create_outsideData_shape (ln : F → F) (chdtrc : F → F → F) (sf : StatisticsFile F)
    (mutantMerPair wildTypeMerPair : UMap Str (List (Str × Str))) (s : OutsideLoop F)
    (h : create_outsideData ln chdtrc sf mutantMerPair wildTypeMerPair = some s) :
    (∀ i, i < sf.vectorArray.length - sf.kmer →
      (UMap.find sf.gtest.fdr i).getD 0 ≤ sf.threshold_fdr →
      ∃ mer, UMap.find sf.vectorPosPair i = some mer ∧
        UMap.find s.table_size i = some (List.insertionSort (fun a b => ¬ rowLT a b)
          ((side_pair_count mutantMerPair mer.1 mer.2).map (fun e => (e.2, e.1)))).length ∧
        vectorAt s.outsideData.left_chain i = (List.insertionSort (fun a b => ¬ rowLT a b)
          ((side_pair_count mutantMerPair mer.1 mer.2).map (fun e => (e.2, e.1)))).map
            (fun x => x.2.1) ∧
        vectorAt s.outsideData.right_chain i = (List.insertionSort (fun a b => ¬ rowLT a b)
          ((side_pair_count mutantMerPair mer.1 mer.2).map (fun e => (e.2, e.1)))).map
            (fun x => x.2.2) ∧
        vectorAt s.outsideData.mutant_count i = (List.insertionSort (fun a b => ¬ rowLT a b)
          ((side_pair_count mutantMerPair mer.1 mer.2).map (fun e => (e.2, e.1)))).map
            (fun x => if UMap.contains (side_pair_count mutantMerPair mer.1 mer.2) x.2
              then countOf (side_pair_count mutantMerPair mer.1 mer.2) x.2 else 0) ∧
        vectorAt s.outsideData.wildType_count i = (List.insertionSort (fun a b => ¬ rowLT a b)
          ((side_pair_count mutantMerPair mer.1 mer.2).map (fun e => (e.2, e.1)))).map
            (fun x => if UMap.contains (side_pair_count wildTypeMerPair mer.1 mer.2) x.2
              then countOf (side_pair_count wildTypeMerPair mer.1 mer.2) x.2 else 0)) ∧
    (∀ i, ¬ (i < sf.vectorArray.length - sf.kmer
        ∧ (UMap.find sf.gtest.fdr i).getD 0 ≤ sf.threshold_fdr) →
      UMap.find s.table_size i = none ∧ vectorAt s.outsideData.left_chain i = [] ∧
      vectorAt s.outsideData.right_chain i = [] ∧ vectorAt s.outsideData.mutant_count i = [] ∧
      vectorAt s.outsideData.wildType_count i = []) ∧
    (∀ i2, UMap.keys ((UMap.find s.outsideData.gval i2).getD [])
      = List.range (vectorAt s.outsideData.mutant_count i2).length) ∧
    (∀ i2, UMap.keys ((UMap.find s.outsideData.pval i2).getD [])
      = List.range (vectorAt s.outsideData.mutant_count i2).length) ∧
    (UMap.keys s.outsideData.gval).Nodup ∧
    (UMap.keys s.outsideData.pval).Nodup ∧
    s.number_of_extensions = (flattenPvals s.outsideData.pval).length := by
  unfold create_outsideData at h
  exact foldlM_range_invariant
    (fun t (b : OutsideLoop F) =>
      (∀ i, i < t → (UMap.find sf.gtest.fdr i).getD 0 ≤ sf.threshold_fdr →
        ∃ mer, UMap.find sf.vectorPosPair i = some mer ∧
          UMap.find b.table_size i = some (List.insertionSort (fun a b => ¬ rowLT a b)
            ((side_pair_count mutantMerPair mer.1 mer.2).map (fun e => (e.2, e.1)))).length ∧
          vectorAt b.outsideData.left_chain i = (List.insertionSort (fun a b => ¬ rowLT a b)
            ((side_pair_count mutantMerPair mer.1 mer.2).map (fun e => (e.2, e.1)))).map
              (fun x => x.2.1) ∧
          vectorAt b.outsideData.right_chain i = (List.insertionSort (fun a b => ¬ rowLT a b)
            ((side_pair_count mutantMerPair mer.1 mer.2).map (fun e => (e.2, e.1)))).map
              (fun x => x.2.2) ∧
          vectorAt b.outsideData.mutant_count i = (List.insertionSort (fun a b => ¬ rowLT a b)
            ((side_pair_count mutantMerPair mer.1 mer.2).map (fun e => (e.2, e.1)))).map
              (fun x => if UMap.contains (side_pair_count mutantMerPair mer.1 mer.2) x.2
                then countOf (side_pair_count mutantMerPair mer.1 mer.2) x.2 else 0) ∧
          vectorAt b.outsideData.wildType_count i = (List.insertionSort (fun a b => ¬ rowLT a b)
            ((side_pair_count mutantMerPair mer.1 mer.2).map (fun e => (e.2, e.1)))).map
              (fun x => if UMap.contains (side_pair_count wildTypeMerPair mer.1 mer.2) x.2
                then countOf (side_pair_count wildTypeMerPair mer.1 mer.2) x.2 else 0)) ∧
      (∀ i, ¬ (i < t ∧ (UMap.find sf.gtest.fdr i).getD 0 ≤ sf.threshold_fdr) →
        UMap.find b.table_size i = none ∧ vectorAt b.outsideData.left_chain i = [] ∧
        vectorAt b.outsideData.right_chain i = [] ∧
        vectorAt b.outsideData.mutant_count i = [] ∧
        vectorAt b.outsideData.wildType_count i = []) ∧
      (∀ i2, UMap.keys ((UMap.find b.outsideData.gval i2).getD [])
        = List.range (vectorAt b.outsideData.mutant_count i2).length) ∧
      (∀ i2, UMap.keys ((UMap.find b.outsideData.pval i2).getD [])
        = List.range (vectorAt b.outsideData.mutant_count i2).length) ∧
      (UMap.keys b.outsideData.gval).Nodup ∧
      (UMap.keys b.outsideData.pval).Nodup ∧
      b.number_of_extensions = (flattenPvals b.outsideData.pval).length)
    (outside_position ln chdtrc sf mutantMerPair wildTypeMerPair)
    (sf.vectorArray.length - sf.kmer)
    (fun t b b2 _ hb hstep => outside_position_shape ln chdtrc sf mutantMerPair
      wildTypeMerPair b b2 t hb.1 hb.2.1 hb.2.2.1 hb.2.2.2.1 hb.2.2.2.2.1 hb.2.2.2.2.2.1
      hb.2.2.2.2.2.2 hstep)
    _ (by
      refine ⟨?_, ?_, ?_, ?_, ?_, ?_, ?_⟩
      · intro i hi
        omega
      · intro i _
        simp [UMap.find, vectorAt]
      · intro i2
        simp [UMap.find, vectorAt, UMap.keys]
      · intro i2
        simp [UMap.find, vectorAt, UMap.keys]
      · simp [UMap.keys]
      · simp [UMap.keys]
      · simp [flattenPvals]) s h

end OutsideMasterLoop

/-! ## The order of the rows of one position -/

theorem increment_keys_nodup {κ : Type} [DecidableEq κ] (m : UMap κ Nat) (key : κ)
    (h : (UMap.keys m).Nodup) : (UMap.keys (increment m key)).Nodup :=
  UMap.keys_assign_nodup m key _ h

theorem side_pair_count_nodup (merPair : UMap Str (List (Str × Str)))
    (mer_plus mer_minus : Str) :
    (UMap.keys (side_pair_count merPair mer_plus mer_minus)).Nodup := by
  have hfold : ∀ (f : Str × Str → Str × Str) (l : List (Str × Str))
      (c : UMap (Str × Str) Nat), (UMap.keys c).Nodup →
      (UMap.keys (l.foldl (fun c itr => increment c (f itr)) c)).Nodup := by
    intro f l c hc
    exact foldl_invariant (fun c : UMap (Str × Str) Nat => (UMap.keys c).Nodup) _
      (fun c itr hc => increment_keys_nodup c (f itr) hc) l c hc
  have hplus : (UMap.keys (if UMap.contains merPair mer_plus = true then
      (pairsOf merPair mer_plus).foldl (fun c itr => increment c (itr.1, itr.2)) []
      else [])).Nodup := by
    by_cases hc : UMap.contains merPair mer_plus = true
    · simp only [hc, if_true]
      exact hfold (fun itr => (itr.1, itr.2)) _ [] (by simp [UMap.keys])
    · simp [hc, UMap.keys]
  unfold side_pair_count
  by_cases heq : mer_plus = mer_minus
  · simp only [heq, ne_eq, not_true_eq_false, if_false]
    rw [← heq]
    exact hplus
  · simp only [heq, ne_eq, not_false_eq_true, if_true]
    by_cases hc : UMap.contains merPair mer_minus = true
    · simp only [hc, if_true]
      exact hfold (fun itr => (Complementary.mer itr.2, Complementary.mer itr.1)) _ _ hplus
    · simp only [hc, Bool.false_eq_true, if_false]
      exact hplus

theorem UMap.find_of_mem_nodup {κ ν : Type} [DecidableEq κ] (m : UMap κ ν)
    (h : (UMap.keys m).Nodup) (e : κ × ν) (he : e ∈ m) : UMap.find m e.1 = some e.2 := by
  induction m with
  | nil => simp at he
  | cons a rest ih =>
    obtain ⟨k, w⟩ := a
    simp only [UMap.keys, List.map_cons, List.nodup_cons] at h
    rcases List.mem_cons.mp he with h1 | h1
    · subst h1
      simp [UMap.find]
    · have hne : k ≠ e.1 := by
        intro heq
        apply h.1
        rw [heq]
        exact List.mem_map_of_mem Prod.fst h1
      simp only [UMap.find, hne, if_false]
      exact ih h.2 h1

theorem rowLT_iff (a b : Nat × (Str × Str)) :
    rowLT a b ↔ toLex (a.1, toLex (a.2.1, a.2.2)) < toLex (b.1, toLex (b.2.1, b.2.2)) := by
  unfold rowLT
  rw [Prod.Lex.lt_iff]
  simp only [Prod.Lex.lt_iff]

theorem rowLT_trichotomy (a b : Nat × (Str × Str)) : rowLT a b ∨ a = b ∨ rowLT b a := by
  rw [rowLT_iff, rowLT_iff]
  rcases lt_trichotomy (toLex (a.1, toLex (a.2.1, a.2.2)))
    (toLex (b.1, toLex (b.2.1, b.2.2))) with h | h | h
  · exact Or.inl h
  · right
    left
    have h1 := congrArg (fun x => (ofLex x).1) h
    have h2 := congrArg (fun x => (ofLex (ofLex x).2).1) h
    have h3 := congrArg (fun x => (ofLex (ofLex x).2).2) h
    simp at h1 h2 h3
    exact Prod.ext h1 (Prod.ext h2 h3)
  · exact Or.inr (Or.inr h)

instance rowGE_total : IsTotal (Nat × (Str × Str)) (fun a b => ¬ rowLT a b) where
  total a b := by
    simp only [rowLT_iff, not_lt]
    exact le_total _ _

instance rowGE_trans : IsTrans (Nat × (Str × Str)) (fun a b => ¬ rowLT a b) where
  trans a b c h1 h2 := by
    simp only [rowLT_iff, not_lt] at *
    exact le_trans h2 h1

/-- The sorted rows of one position: every row carries its own count, the counts
do not increase along the list, and the rows are in strictly descending order of
(count, (left, right)). -/
theorem sorted_rows_facts (mc : UMap (Str × Str) Nat) (hn : (UMap.keys mc).Nodup) :
    (∀ x ∈ List.insertionSort (fun a b => ¬ rowLT a b) (mc.map (fun e => (e.2, e.1))),
      (if UMap.contains mc x.2 then countOf mc x.2 else 0) = x.1) ∧
    List.Pairwise (fun a b : Nat × (Str × Str) => rowLT b a)
      (List.insertionSort (fun a b => ¬ rowLT a b) (mc.map (fun e => (e.2, e.1)))) := by
  have hperm := List.perm_insertionSort (fun a b => ¬ rowLT a b) (mc.map (fun e => (e.2, e.1)))
  have hsorted := List.sorted_insertionSort (fun a b => ¬ rowLT a b)
    (mc.map (fun e => (e.2, e.1)))
  constructor
  · intro x hx
    have hmem := hperm.mem_iff.mp hx
    simp only [List.mem_map] at hmem
    obtain ⟨e, he, rfl⟩ := hmem
    have hfind := UMap.find_of_mem_nodup mc hn e he
    simp [UMap.contains, countOf, hfind]
  · have hnd : (List.insertionSort (fun a b => ¬ rowLT a b)
        (mc.map (fun e => (e.2, e.1)))).Nodup := by
      rw [hperm.nodup_iff]
      have : (mc.map (fun e => (e.2, e.1))).map (fun x => x.2) = UMap.keys mc := by
        simp [UMap.keys, List.map_map, Function.comp]
      exact List.Nodup.of_map (fun x => x.2) (by rw [this]; exact hn)
    have hboth := List.Pairwise.and hsorted hnd
    exact List.Pairwise.imp (fun {a b} h => by
      rcases rowLT_trichotomy a b with h1 | h1 | h1
      · exact absurd h1 h.1
      · exact absurd h1 h.2
      · exact h1) hboth

theorem map_getD_range {α : Type} (l : List α) (d : α) :
    (List.range l.length).map (fun j => l.getD j d) = l := by
  apply List.ext_getElem
  · simp
  · intro n h1 h2
    simp [List.getD_eq_getElem?_getD, List.getElem?_eq_getElem h2]

theorem UMap.length_of_keys {ν : Type} (m : UMap Nat ν) (n : Nat)
    (h : UMap.keys m = List.range n) : m.length = n := by
  have := congrArg List.length h
  simpa [UMap.keys] using this

section RowOrder

variable {F : Type} [LinearOrderedField F]

/-- A record written by `create_outsideFile`: its position passed the threshold
below the loop bound, and its rows are the rows `j < left_chain[i].size()` of the
tables of `create_outsideData`. -/
theorem create_outsideFile_record (ln : F → F) (chdtrc : F → F → F) (sf : StatisticsFile F)
    (mutantMerPair wildTypeMerPair : UMap Str (List (Str × Str)))
    (records : List (OutsideRecord F))
    (h : create_outsideFile ln chdtrc sf mutantMerPair wildTypeMerPair = some records) :
    ∃ s fdr_ext, create_outsideData ln chdtrc sf mutantMerPair wildTypeMerPair = some s ∧
      fdr_extension s.outsideData.pval = some fdr_ext ∧
      records = (List.range (sf.vectorArray.length - sf.kmer)).filterMap (fun i =>
        if (UMap.find sf.gtest.fdr i).getD 0 ≤ sf.threshold_fdr then
          some { position := i
                 table_size := (UMap.find s.table_size i).getD 0
                 kmer := substr sf.vectorArray i sf.kmer
                 mutant := sf.mutantPosFreq.getD i 0
                 wildType := sf.wildTypePosFreq.getD i 0
                 gval := (UMap.find sf.gtest.gval i).getD 0
                 pval := (UMap.find sf.gtest.pval i).getD 0
                 fdr := (UMap.find sf.gtest.fdr i).getD 0
                 bon := (UMap.find sf.gtest.bon i).getD 0
                 rows := (List.range (vectorAt s.outsideData.left_chain i).length).map
                   (outside_file_row sf s fdr_ext i) }
        else none) := by
  unfold create_outsideFile at h
  cases hdata : create_outsideData ln chdtrc sf mutantMerPair wildTypeMerPair with
  | none => simp [hdata] at h
  | some s =>
    simp only [hdata] at h
    cases hext : fdr_extension s.outsideData.pval with
    | none => simp [hext] at h
    | some fdr_ext =>
      simp only [hext, Option.some.injEq] at h
      exact ⟨s, fdr_ext, rfl, hext, h.symm⟩

theorem create_outsideFile_mem (ln : F → F) (chdtrc : F → F → F) (sf : StatisticsFile F)
    (mutantMerPair wildTypeMerPair : UMap Str (List (Str × Str)))
    (records : List (OutsideRecord F))
    (h : create_outsideFile ln chdtrc sf mutantMerPair wildTypeMerPair = some records)
    (record : OutsideRecord F) (hrec : record ∈ records) :
    ∃ s fdr_ext, create_outsideData ln chdtrc sf mutantMerPair wildTypeMerPair = some s ∧
      fdr_extension s.outsideData.pval = some fdr_ext ∧
      record.position < sf.vectorArray.length - sf.kmer ∧
      (UMap.find sf.gtest.fdr record.position).getD 0 ≤ sf.threshold_fdr ∧
      record.table_size = (UMap.find s.table_size record.position).getD 0 ∧
      record.rows = (List.range (vectorAt s.outsideData.left_chain record.position).length).map
        (outside_file_row sf s fdr_ext record.position) := by
  obtain ⟨s, fdr_ext, hs, hext, hrecords⟩ :=
    create_outsideFile_record ln chdtrc sf mutantMerPair wildTypeMerPair records h
  refine ⟨s, fdr_ext, hs, hext, ?_⟩
  rw [hrecords] at hrec
  simp only [List.mem_filterMap, List.mem_range] at hrec
  obtain ⟨i, hi, hsome⟩ := hrec
  by_cases hthr : (UMap.find sf.gtest.fdr i).getD 0 ≤ sf.threshold_fdr
  · simp only [hthr, if_true, Option.some.injEq] at hsome
    rw [← hsome]
    exact ⟨hi, hthr, rfl, rfl⟩
  · simp [hthr] at hsome

/-- The columns of the rows of a record, for a position that holds sorted rows. -/
theorem outside_file_rows_columns (sf : StatisticsFile F) (s : OutsideLoop F)
    (fdr_ext : UMap Nat (UMap Nat F)) (i : Nat)
    (hr : (vectorAt s.outsideData.right_chain i).length
      = (vectorAt s.outsideData.left_chain i).length)
    (hm : (vectorAt s.outsideData.mutant_count i).length
      = (vectorAt s.outsideData.left_chain i).length) :
    ((List.range (vectorAt s.outsideData.left_chain i).length).map
        (outside_file_row sf s fdr_ext i)).map (fun row => row.mutant_count)
      = vectorAt s.outsideData.mutant_count i ∧
    ((List.range (vectorAt s.outsideData.left_chain i).length).map
        (outside_file_row sf s fdr_ext i)).map (fun row => row.left)
      = vectorAt s.outsideData.left_chain i ∧
    ((List.range (vectorAt s.outsideData.left_chain i).length).map
        (outside_file_row sf s fdr_ext i)).map (fun row => row.right)
      = vectorAt s.outsideData.right_chain i := by
  refine ⟨?_, ?_, ?_⟩
  · rw [List.map_map, ← hm]
    exact map_getD_range _ 0
  · rw [List.map_map]
    exact map_getD_range _ []
  · rw [List.map_map, ← hr]
    exact map_getD_range _ []

end RowOrder

section RowOrderClaims

variable {F : Type} [LinearOrderedField F]

/-- The rows of any position after `create_outsideData`, as one list of
(count, (left, right)) in strictly descending order. -/
theorem create_outsideData_rows (ln : F → F) (chdtrc : F → F → F) (sf : StatisticsFile F)
    (mutantMerPair wildTypeMerPair : UMap Str (List (Str × Str))) (s : OutsideLoop F)
    (h : create_outsideData ln chdtrc sf mutantMerPair wildTypeMerPair = some s) (i : Nat) :
    ∃ V : List (Nat × (Str × Str)),
      List.Pairwise (fun a b : Nat × (Str × Str) => rowLT b a) V ∧
      (UMap.find s.table_size i).getD 0 = V.length ∧
      vectorAt s.outsideData.left_chain i = V.map (fun x => x.2.1) ∧
      vectorAt s.outsideData.right_chain i = V.map (fun x => x.2.2) ∧
      vectorAt s.outsideData.mutant_count i = V.map (fun x => x.1) ∧
      (vectorAt s.outsideData.wildType_count i).length = V.length ∧
      ((UMap.find s.outsideData.gval i).getD []).length = V.length ∧
      ((UMap.find s.outsideData.pval i).getD []).length = V.length := by
  obtain ⟨h1, h2, hkg, hkp, _, _, _⟩ :=
    create_outsideData_shape ln chdtrc sf mutantMerPair wildTypeMerPair s h
  by_cases hsig : i < sf.vectorArray.length - sf.kmer
      ∧ (UMap.find sf.gtest.fdr i).getD 0 ≤ sf.threshold_fdr
  · obtain ⟨mer, _, m2, m3, m4, m5, m6⟩ := h1 i hsig.1 hsig.2
    obtain ⟨f1, f2⟩ := sorted_rows_facts (side_pair_count mutantMerPair mer.1 mer.2)
      (side_pair_count_nodup mutantMerPair mer.1 mer.2)
    have hmut : vectorAt s.outsideData.mutant_count i
        = (List.insertionSort (fun a b => ¬ rowLT a b)
          ((side_pair_count mutantMerPair mer.1 mer.2).map (fun e => (e.2, e.1)))).map
            (fun x => x.1) := by
      rw [m5]
      exact List.map_congr_left f1
    refine ⟨_, f2, by rw [m2]; rfl, m3, m4, hmut, by rw [m6, List.length_map], ?_, ?_⟩
    · rw [UMap.length_of_keys _ _ (hkg i), hmut, List.length_map]
    · rw [UMap.length_of_keys _ _ (hkp i), hmut, List.length_map]
  · obtain ⟨z1, z2, z3, z4, z5⟩ := h2 i hsig
    refine ⟨[], List.Pairwise.nil, by simp [z1], by simp [z2], by simp [z3], by simp [z4],
      by simp [z5], ?_, ?_⟩
    · rw [UMap.length_of_keys _ _ (hkg i), z4]
      rfl
    · rw [UMap.length_of_keys _ _ (hkp i), z4]
      rfl

theorem rowLT_fst_le (a b : Nat × (Str × Str)) (h : rowLT b a) : a.1 ≥ b.1 := by
  unfold rowLT at h
  rcases h with h | h
  · exact le_of_lt h
  · exact le_of_eq h.1

/-- C23: the rows of a position come in non-increasing order of the mutant count,
and the parallel lists of the position have the length `table_size[i]`. After
`create_outsideData`, for every position `i`: `left_chain[i]`,
`right_chain[i]`, `mutant_count[i]`, `wildType_count[i]`, `gval[i]` and
`pval[i]` all have `table_size[i]` entries and `mutant_count[i]` is
non-increasing. Every record that `create_outsideFile` writes has
`table_size[i]` rows, in non-increasing order of the mutant count. -/
theorem extension_rows_by_count (ln : F → F) (chdtrc : F → F → F) (sf : StatisticsFile F)
    (mutantMerPair wildTypeMerPair : UMap Str (List (Str × Str))) :
    (∀ s, create_outsideData ln chdtrc sf mutantMerPair wildTypeMerPair = some s →
      ∀ i, (vectorAt s.outsideData.left_chain i).length = (UMap.find s.table_size i).getD 0 ∧
        (vectorAt s.outsideData.right_chain i).length = (UMap.find s.table_size i).getD 0 ∧
        (vectorAt s.outsideData.mutant_count i).length = (UMap.find s.table_size i).getD 0 ∧
        (vectorAt s.outsideData.wildType_count i).length
          = (UMap.find s.table_size i).getD 0 ∧
        ((UMap.find s.outsideData.gval i).getD []).length
          = (UMap.find s.table_size i).getD 0 ∧
        ((UMap.find s.outsideData.pval i).getD []).length
          = (UMap.find s.table_size i).getD 0 ∧
        List.Pairwise (fun a b : Nat => a ≥ b) (vectorAt s.outsideData.mutant_count i)) ∧
    (∀ records, create_outsideFile ln chdtrc sf mutantMerPair wildTypeMerPair = some records →
      ∀ record ∈ records, record.rows.length = record.table_size ∧
        List.Pairwise (fun a b : Nat => a ≥ b)
          (record.rows.map (fun row => row.mutant_count))) := by
  have hdata : ∀ s, create_outsideData ln chdtrc sf mutantMerPair wildTypeMerPair = some s →
      ∀ i, (vectorAt s.outsideData.left_chain i).length = (UMap.find s.table_size i).getD 0 ∧
        (vectorAt s.outsideData.right_chain i).length = (UMap.find s.table_size i).getD 0 ∧
        (vectorAt s.outsideData.mutant_count i).length = (UMap.find s.table_size i).getD 0 ∧
        (vectorAt s.outsideData.wildType_count i).length
          = (UMap.find s.table_size i).getD 0 ∧
        ((UMap.find s.outsideData.gval i).getD []).length
          = (UMap.find s.table_size i).getD 0 ∧
        ((UMap.find s.outsideData.pval i).getD []).length
          = (UMap.find s.table_size i).getD 0 ∧
        List.Pairwise (fun a b : Nat => a ≥ b) (vectorAt s.outsideData.mutant_count i) := by
    intro s hs i
    obtain ⟨V, hV, v1, v2, v3, v4, v5, v6, v7⟩ :=
      create_outsideData_rows ln chdtrc sf mutantMerPair wildTypeMerPair s hs i
    refine ⟨by rw [v2, v1, List.length_map], by rw [v3, v1, List.length_map],
      by rw [v4, v1, List.length_map], by rw [v5, v1], by rw [v6, v1], by rw [v7, v1], ?_⟩
    rw [v4, List.pairwise_map]
    exact List.Pairwise.imp (fun {a b} hab => rowLT_fst_le a b hab) hV
  refine ⟨hdata, ?_⟩
  intro records hrec record hmem
  obtain ⟨s, fdr_ext, hs, _, _, _, hts, hrows⟩ :=
    create_outsideFile_mem ln chdtrc sf mutantMerPair wildTypeMerPair records hrec record hmem
  obtain ⟨d1, d2, d3, _, _, _, d7⟩ := hdata s hs record.position
  obtain ⟨c1, _, _⟩ := outside_file_rows_columns sf s fdr_ext record.position
    (by rw [d2, d1]) (by rw [d3, d1])
  rw [hrows, c1, hts]
  exact ⟨by rw [List.length_map, List.length_range, d1], d7⟩

/-- C24, as amended: among the rows of one record with equal mutant count, the
rows appear in descending lexicographic order of the pair (left, right): of
two such rows the later one has the smaller pair. -/
theorem extension_rows_ties (ln : F → F) (chdtrc : F → F → F) (sf : StatisticsFile F)
    (mutantMerPair wildTypeMerPair : UMap Str (List (Str × Str)))
    (records : List (OutsideRecord F))
    (h : create_outsideFile ln chdtrc sf mutantMerPair wildTypeMerPair = some records) :
    ∀ record ∈ records,
      List.Pairwise (fun a b : ExtensionRow F => a.mutant_count = b.mutant_count →
        (b.left < a.left ∨ (b.left = a.left ∧ b.right < a.right))) record.rows := by
  intro record hmem
  obtain ⟨s, fdr_ext, hs, _, _, _, _, hrows⟩ :=
    create_outsideFile_mem ln chdtrc sf mutantMerPair wildTypeMerPair records h record hmem
  obtain ⟨V, hV, _, v2, v3, v4, _, _, _⟩ :=
    create_outsideData_rows ln chdtrc sf mutantMerPair wildTypeMerPair s hs record.position
  have hkey : record.rows.map (fun row => (row.mutant_count, (row.left, row.right))) = V := by
    rw [hrows, List.map_map]
    apply List.ext_getElem
    · simp [v2]
    · intro n h1 h2
      simp only [List.getElem_map, List.getElem_range, Function.comp, outside_file_row]
      rw [v2, v3, v4]
      simp only [List.getD_eq_getElem?_getD, List.getElem?_map]
      simp [List.getElem?_eq_getElem h2]
  have hpw : List.Pairwise (fun a b : Nat × (Str × Str) => rowLT b a)
      (record.rows.map (fun row => (row.mutant_count, (row.left, row.right)))) := by
    rw [hkey]
    exact hV
  rw [List.pairwise_map] at hpw
  apply List.Pairwise.imp _ hpw
  intro a b hab heq
  unfold rowLT at hab
  simp only at hab
  rcases hab with h1 | ⟨_, h2⟩
  · omega
  · exact h2

end RowOrderClaims

theorem extension_rows_by_count_witness :
    ((create_outsideFile (fun x => x) (fun _ x => 1 / (1 + x)) exampleReport
        exampleNinePairs exampleNoPairs).getD []).map
      (fun r => (r.table_size, r.rows.map (fun row => (row.mutant_count, row.wildType_count))))
      = [(2, [(9, 0), (1, 0)])] ∧
    (∀ records, create_outsideFile (fun x => x) (fun _ x => 1 / (1 + x)) exampleReport
        exampleNinePairs exampleNoPairs = some records →
      ∀ record ∈ records, record.rows.length = record.table_size ∧
        List.Pairwise (fun a b : Nat => a ≥ b)
          (record.rows.map (fun row => row.mutant_count))) :=
  ⟨by with_unfolding_all decide,
    (extension_rows_by_count (fun x => x) (fun _ x => 1 / (1 + x)) exampleReport
      exampleNinePairs exampleNoPairs).2⟩

/-- C24, as stated, fails: with the pairs `(AA, GG)`, `(CC, TT)` and `(CC, TA)`
recorded once each, the three rows have the mutant count 1 and appear as
`(CC, TT)`, `(CC, TA)`, `(AA, GG)`, which is not the ascending order of the
pairs. -/
theorem extension_rows_ties_not_ascending :
    ((create_outsideFile (fun x => x) (fun _ x => 1 / (1 + x)) exampleReport
        exampleTiedPairs exampleNoPairs).getD []).map
      (fun r => r.rows.map (fun row => (row.mutant_count, row.left, row.right)))
      = [[(1, ['C', 'C'], ['T', 'T']), (1, ['C', 'C'], ['T', 'A']),
          (1, ['A', 'A'], ['G', 'G'])]] ∧
    ¬ ∀ record ∈ (create_outsideFile (fun x => x) (fun _ x => 1 / (1 + x)) exampleReport
        exampleTiedPairs exampleNoPairs).getD [],
      List.Pairwise (fun a b : ExtensionRow ℚ => a.mutant_count = b.mutant_count →
        (a.left < b.left ∨ (a.left = b.left ∧ a.right < b.right))) record.rows := by
  with_unfolding_all decide

theorem extension_rows_ties_witness :
    (create_outsideFile (fun x => x) (fun _ x => 1 / (1 + x)) exampleReport
        exampleTiedPairs exampleNoPairs).isSome = true ∧
    ∀ record ∈ (create_outsideFile (fun x => x) (fun _ x => 1 / (1 + x)) exampleReport
        exampleTiedPairs exampleNoPairs).getD [],
      List.Pairwise (fun a b : ExtensionRow ℚ => a.mutant_count = b.mutant_count →
        (b.left < a.left ∨ (b.left = a.left ∧ b.right < a.right))) record.rows := by
  refine ⟨by with_unfolding_all decide, ?_⟩
  cases hc : create_outsideFile (fun x => x) (fun _ x => 1 / (1 + x)) exampleReport
      exampleTiedPairs exampleNoPairs with
  | none => simp
  | some records =>
    exact extension_rows_ties (fun x => x) (fun _ x => 1 / (1 + x)) exampleReport
      exampleTiedPairs exampleNoPairs records hc

/-! ## The joint second-pass correction -/

theorem tableEntries_cons {ν : Type} (e : Nat × UMap Nat ν) (rest : UMap Nat (UMap Nat ν)) :
    tableEntries (e :: rest)
      = e.2.map (fun itr_p => (e.1, itr_p.1, itr_p.2)) ++ tableEntries rest := by
  unfold tableEntries
  rw [List.flatMap_cons]

theorem flattenPvals_eq_entries {F : Type} (pval : UMap Nat (UMap Nat F)) :
    flattenPvals pval = (tableEntries pval).map (fun e => e.2.2) := by
  induction pval with
  | nil => rfl
  | cons e rest ih =>
    rw [tableEntries_cons, List.map_append, ← ih]
    unfold flattenPvals
    rw [List.flatMap_cons, List.map_map]
    rfl

theorem mem_tableEntries {ν : Type} (m : UMap Nat (UMap Nat ν)) (i j : Nat) (x : ν) :
    (i, j, x) ∈ tableEntries m ↔ ∃ inner, (i, inner) ∈ m ∧ (j, x) ∈ inner := by
  unfold tableEntries
  simp only [List.mem_flatMap, List.mem_map, Prod.mk.injEq]
  constructor
  · rintro ⟨e, he, e2, he2, h1, h2, h3⟩
    refine ⟨e.2, ?_, ?_⟩
    · rw [← h1]
      exact he
    · rw [← h2, ← h3]
      exact he2
  · rintro ⟨inner, h1, h2⟩
    exact ⟨(i, inner), h1, (j, x), h2, rfl, rfl, rfl⟩

theorem UMap.find_iff_mem {κ ν : Type} [DecidableEq κ] (m : UMap κ ν)
    (h : (UMap.keys m).Nodup) (key : κ) (v : ν) :
    UMap.find m key = some v ↔ (key, v) ∈ m :=
  ⟨UMap.mem_of_find m key v, fun hm => UMap.find_of_mem_nodup m h (key, v) hm⟩

theorem find2_iff_mem {ν : Type} (m : UMap Nat (UMap Nat ν)) (ho : (UMap.keys m).Nodup)
    (hi : ∀ e ∈ m, (UMap.keys e.2).Nodup) (i j : Nat) (x : ν) :
    find2 m i j = some x ↔ (i, j, x) ∈ tableEntries m := by
  rw [mem_tableEntries]
  unfold find2
  constructor
  · intro h
    cases hf : UMap.find m i with
    | none => simp [hf] at h
    | some inner =>
      simp only [hf] at h
      exact ⟨inner, UMap.mem_of_find m i inner hf, UMap.mem_of_find inner j x h⟩
  · rintro ⟨inner, h1, h2⟩
    rw [(UMap.find_iff_mem m ho i inner).mpr h1]
    exact (UMap.find_iff_mem inner (hi (i, inner) h1) j x).mpr h2

theorem tableEntries_keys_nodup {ν : Type} (m : UMap Nat (UMap Nat ν))
    (ho : (UMap.keys m).Nodup) (hi : ∀ e ∈ m, (UMap.keys e.2).Nodup) :
    ((tableEntries m).map (fun e => (e.1, e.2.1))).Nodup := by
  induction m with
  | nil => simp [tableEntries]
  | cons e rest ih =>
    simp only [UMap.keys, List.map_cons, List.nodup_cons] at ho
    rw [tableEntries_cons, List.map_append, List.nodup_append]
    refine ⟨?_, ih ho.2 (fun x hx => hi x (List.mem_cons_of_mem _ hx)), ?_⟩
    · rw [List.map_map]
      have hinner := hi e (List.mem_cons_self _ _)
      have : (e.2.map ((fun x : Nat × Nat × ν => (x.1, x.2.1))
          ∘ fun itr_p => (e.1, itr_p.1, itr_p.2)))
          = (UMap.keys e.2).map (fun j => (e.1, j)) := by
        simp [UMap.keys, List.map_map, Function.comp]
      rw [this]
      exact List.Nodup.map (fun a b hab => (Prod.mk.injEq _ _ _ _ ▸ hab).2) hinner
    · intro key h1 h2
      simp only [List.mem_map] at h1 h2
      obtain ⟨a, ha, rfl⟩ := h1
      obtain ⟨e2, _, rfl⟩ := ha
      obtain ⟨b, hb, hkey⟩ := h2
      obtain ⟨bi, bj, bx⟩ := b
      obtain ⟨inner, hin, _⟩ := (mem_tableEntries rest bi bj bx).mp hb
      simp only [Prod.mk.injEq] at hkey
      apply ho.1
      rw [← hkey.1]
      exact List.mem_map_of_mem Prod.fst hin

theorem find2_foldl_assign2_not_mem {ν : Type} (C : ν → ν) (l : List (Nat × Nat × ν))
    (acc : UMap Nat (UMap Nat ν)) (i j : Nat)
    (h : (i, j) ∉ l.map (fun e => (e.1, e.2.1))) :
    find2 (l.foldl (fun a e => assign2 a e.1 e.2.1 (C e.2.2)) acc) i j = find2 acc i j := by
  induction l generalizing acc with
  | nil => rfl
  | cons e rest ih =>
    simp only [List.map_cons, List.mem_cons, not_or] at h
    rw [List.foldl_cons, ih _ h.2, find2_assign2]
    by_cases h1 : e.1 = i
    · by_cases h2 : e.2.1 = j
      · exact absurd (by rw [h1, h2]) h.1
      · simp [h1, h2]
    · simp [h1]

theorem find2_foldl_assign2 {ν : Type} (C : ν → ν) (l : List (Nat × Nat × ν))
    (hn : (l.map (fun e => (e.1, e.2.1))).Nodup) (acc : UMap Nat (UMap Nat ν))
    (i j : Nat) (x : ν) (hm : (i, j, x) ∈ l) :
    find2 (l.foldl (fun a e => assign2 a e.1 e.2.1 (C e.2.2)) acc) i j = some (C x) := by
  induction l generalizing acc with
  | nil => simp at hm
  | cons e rest ih =>
    simp only [List.map_cons, List.nodup_cons] at hn
    rw [List.foldl_cons]
    rcases List.mem_cons.mp hm with h1 | h1
    · subst h1
      rw [find2_foldl_assign2_not_mem C rest _ i j hn.1, find2_assign2]
      simp
    · exact ih hn.2 _ h1

section SecondPass

variable {F : Type} [LinearOrderedField F]

theorem second_pass_flat (f : UMap Nat F) (pval : UMap Nat (UMap Nat F))
    (s0 : UMap Nat (UMap Nat F) × Nat) :
    pval.foldl (fun acc itr => itr.2.foldl (fdr_extension_inner f itr.1) acc) s0
      = (tableEntries pval).foldl
          (fun acc e => fdr_extension_inner f e.1 acc (e.2.1, e.2.2)) s0 := by
  induction pval generalizing s0 with
  | nil => rfl
  | cons e rest ih =>
    rw [List.foldl_cons, ih, tableEntries_cons, List.foldl_append, List.foldl_map]

theorem second_pass_counter (f : UMap Nat F) (C : F → F) (E : List (Nat × Nat × F))
    (hf : ∀ idx e, E[idx]? = some e → (UMap.find f idx).getD 0 = C e.2.2) :
    ∀ (suf pre : List (Nat × Nat × F)) (acc : UMap Nat (UMap Nat F)),
      pre ++ suf = E →
      suf.foldl (fun acc e => fdr_extension_inner f e.1 acc (e.2.1, e.2.2)) (acc, pre.length)
        = (suf.foldl (fun a e => assign2 a e.1 e.2.1 (C e.2.2)) acc,
            pre.length + suf.length) := by
  intro suf
  induction suf with
  | nil => intro pre acc _; rfl
  | cons e rest ih =>
    intro pre acc hE
    have hidx : E[pre.length]? = some e := by
      rw [← hE, List.getElem?_append_right (le_refl _)]
      simp
    have hl : (pre ++ [e]).length = pre.length + 1 := by simp
    have hstep : fdr_extension_inner f e.1 (acc, pre.length) (e.2.1, e.2.2)
        = (assign2 acc e.1 e.2.1 (C e.2.2), (pre ++ [e]).length) := by
      unfold fdr_extension_inner
      simp only [hf _ _ hidx, hl]
    rw [List.foldl_cons, List.foldl_cons, hstep, ih (pre ++ [e]) _ (by simp [← hE]), hl]
    congr 1
    simp only [List.length_cons]
    omega

/-- The values stored by `fdr_extension`: every entry of the p-value table gets
the closed form over the p-values of all entries, and no other key gets one. -/
theorem fdr_extension_spec (pval : UMap Nat (UMap Nat F)) (ho : (UMap.keys pval).Nodup)
    (hi : ∀ e ∈ pval, (UMap.keys e.2).Nodup) (hne : flattenPvals pval ≠ []) :
    ∃ m, fdr_extension pval = some m ∧
      ∀ i j, find2 m i j = (find2 pval i j).map (fun p =>
        min 1 (p * ((flattenPvals pval).length : F) /
          ((1 + (flattenPvals pval).countP (fun q => decide (q < p)) : Nat) : F))) := by
  have hkeys : (UMap.keys (flattenPvals pval).enum).Nodup := by
    unfold UMap.keys
    rw [List.enum_map_fst]
    exact List.nodup_range _
  have hne2 : (Gtest.mk (0 : F) 0 [] (flattenPvals pval).enum [] []).pval ≠ [] := by
    simp only
    intro h
    apply hne
    have := congrArg List.length h
    rw [List.enum_length] at this
    exact List.length_eq_zero.mp this
  obtain ⟨g2, hg2, _, hval, _⟩ := fdr_match_spec
    (Gtest.mk (0 : F) 0 [] (flattenPvals pval).enum [] []) hne2 hkeys
  simp only [List.enum_length, List.enum_map_snd] at hval
  have hext : fdr_extension pval = some
      (pval.foldl (fun acc itr => itr.2.foldl (fdr_extension_inner g2.fdr itr.1) acc)
        ([], 0)).1 := by
    unfold Gtest.fdr_match at hg2
    unfold fdr_extension
    simp only at hg2 ⊢
    cases hv : List.insertionSort pairLE
        ((flattenPvals pval).enum.map (fun e => (e.2, e.1))) with
    | nil => simp [hv] at hg2
    | cons first rest =>
      simp only [hv, Option.some.injEq] at hg2 ⊢
      rw [← hg2]
  refine ⟨_, hext, ?_⟩
  intro i j
  have hgen : ∀ C : F → F,
      (∀ idx e, (tableEntries pval)[idx]? = some e → (UMap.find g2.fdr idx).getD 0 = C e.2.2) →
      find2 (pval.foldl (fun acc itr => itr.2.foldl (fdr_extension_inner g2.fdr itr.1) acc)
        ([], 0)).1 i j = (find2 pval i j).map C := by
    intro C hlookup
    rw [second_pass_flat]
    have hcount := second_pass_counter g2.fdr C (tableEntries pval) hlookup
      (tableEntries pval) [] [] rfl
    simp only [List.length_nil] at hcount
    rw [hcount]
    cases hfind : find2 pval i j with
    | some p =>
      exact find2_foldl_assign2 C _ (tableEntries_keys_nodup pval ho hi) [] i j p
        ((find2_iff_mem pval ho hi i j p).mp hfind)
    | none =>
      rw [find2_foldl_assign2_not_mem]
      · rfl
      · intro hmem
        simp only [List.mem_map] at hmem
        obtain ⟨⟨a, b, x⟩, he, hk⟩ := hmem
        simp only [Prod.mk.injEq] at hk
        obtain ⟨rfl, rfl⟩ := hk
        rw [(find2_iff_mem pval ho hi a b x).mpr he] at hfind
        exact Option.noConfusion hfind
  apply hgen
  intro idx e he
  have hps : (flattenPvals pval)[idx]? = some e.2.2 := by
    rw [flattenPvals_eq_entries, List.getElem?_map, he]
    rfl
  have hmem : (idx, e.2.2) ∈ (flattenPvals pval).enum :=
    List.mk_mem_enum_iff_getElem?.mpr hps
  rw [hval idx e.2.2 (UMap.find_of_mem_nodup _ hkeys (idx, e.2.2) hmem)]
  rfl

end SecondPass

theorem tableEntries_nodup {ν : Type} (m : UMap Nat (UMap Nat ν))
    (ho : (UMap.keys m).Nodup) (hi : ∀ e ∈ m, (UMap.keys e.2).Nodup) :
    (tableEntries m).Nodup :=
  List.Nodup.of_map _ (tableEntries_keys_nodup m ho hi)

/-- Two nested tables with the same entries hold the same p-values up to order. -/
theorem flattenPvals_perm {F : Type} (pval pval2 : UMap Nat (UMap Nat F))
    (ho : (UMap.keys pval).Nodup) (hi : ∀ e ∈ pval, (UMap.keys e.2).Nodup)
    (ho2 : (UMap.keys pval2).Nodup) (hi2 : ∀ e ∈ pval2, (UMap.keys e.2).Nodup)
    (hsame : ∀ i j, find2 pval2 i j = find2 pval i j) :
    (flattenPvals pval2).Perm (flattenPvals pval) := by
  rw [flattenPvals_eq_entries, flattenPvals_eq_entries]
  apply List.Perm.map
  rw [List.perm_ext_iff_of_nodup (tableEntries_nodup pval2 ho2 hi2)
    (tableEntries_nodup pval ho hi)]
  rintro ⟨i, j, x⟩
  rw [← find2_iff_mem pval2 ho2 hi2, ← find2_iff_mem pval ho hi, hsame]

theorem inner_keys_nodup {ν : Type} (m : UMap Nat (UMap Nat ν)) (n : Nat → Nat)
    (ho : (UMap.keys m).Nodup)
    (hk : ∀ i, UMap.keys ((UMap.find m i).getD []) = List.range (n i)) :
    ∀ e ∈ m, (UMap.keys e.2).Nodup := by
  intro e he
  have hfind := UMap.find_of_mem_nodup m ho e he
  have := hk e.1
  rw [hfind] at this
  simp only [Option.getD_some] at this
  rw [this]
  exact List.nodup_range _

theorem find2_isSome_iff {ν : Type} (m : UMap Nat (UMap Nat ν)) (n : Nat → Nat)
    (hk : ∀ i, UMap.keys ((UMap.find m i).getD []) = List.range (n i)) (i j : Nat) :
    (∃ x, find2 m i j = some x) ↔ j < n i := by
  have hinner : find2 m i j = UMap.find ((UMap.find m i).getD []) j := by
    unfold find2
    cases UMap.find m i with
    | none => simp [UMap.find]
    | some inner => rfl
  rw [hinner]
  have hc := UMap.contains_iff_mem_keys ((UMap.find m i).getD []) j
  rw [hk i, List.mem_range] at hc
  rw [← hc]
  unfold UMap.contains
  cases UMap.find ((UMap.find m i).getD []) j with
  | none => simp
  | some x => simp

theorem flatMap_filterMap_ite {α β γ : Type} (p : α → Prop) [DecidablePred p] (f : α → β)
    (g : β → List γ) (l : List α) :
    (l.filterMap (fun a => if p a then some (f a) else none)).flatMap g
      = l.flatMap (fun a => if p a then g (f a) else []) := by
  induction l with
  | nil => rfl
  | cons a rest ih =>
    by_cases h : p a
    · simp [List.filterMap_cons, h, List.flatMap_cons, ih]
    · simp [List.filterMap_cons, h, List.flatMap_cons, ih]

section JointCorrection

variable {F : Type} [LinearOrderedField F]

/-- The records of `create_outsideFile` as the image of the positions that pass
the threshold. -/
theorem create_outsideFile_records_mk (ln : F → F) (chdtrc : F → F → F)
    (sf : StatisticsFile F) (mutantMerPair wildTypeMerPair : UMap Str (List (Str × Str)))
    (records : List (OutsideRecord F))
    (h : create_outsideFile ln chdtrc sf mutantMerPair wildTypeMerPair = some records) :
    ∃ (s : OutsideLoop F) (fdr_ext : UMap Nat (UMap Nat F)) (mk : Nat → OutsideRecord F),
      create_outsideData ln chdtrc sf mutantMerPair wildTypeMerPair = some s ∧
      fdr_extension s.outsideData.pval = some fdr_ext ∧
      (∀ i, (mk i).rows = (List.range (vectorAt s.outsideData.left_chain i).length).map
        (outside_file_row sf s fdr_ext i)) ∧
      records = (List.range (sf.vectorArray.length - sf.kmer)).filterMap (fun i =>
        if (UMap.find sf.gtest.fdr i).getD 0 ≤ sf.threshold_fdr then some (mk i) else none) := by
  obtain ⟨s, fdr_ext, hs, hext, hrecords⟩ :=
    create_outsideFile_record ln chdtrc sf mutantMerPair wildTypeMerPair records h
  exact ⟨s, fdr_ext, _, hs, hext, fun _ => rfl, hrecords⟩

/-- The p-values of all rows that `create_outsideFile` writes are the p-values of
the table of `create_outsideData`, up to order. -/
theorem outside_file_pvals_perm (ln : F → F) (chdtrc : F → F → F) (sf : StatisticsFile F)
    (mutantMerPair wildTypeMerPair : UMap Str (List (Str × Str)))
    (records : List (OutsideRecord F))
    (h : create_outsideFile ln chdtrc sf mutantMerPair wildTypeMerPair = some records) :
    ∃ s fdr_ext, create_outsideData ln chdtrc sf mutantMerPair wildTypeMerPair = some s ∧
      fdr_extension s.outsideData.pval = some fdr_ext ∧
      ((records.flatMap (fun r => r.rows)).map (fun row => row.pval)).Perm
        (flattenPvals s.outsideData.pval) := by
  obtain ⟨s, fdr_ext, mk, hs, hext, hmk, hrecords⟩ :=
    create_outsideFile_records_mk ln chdtrc sf mutantMerPair wildTypeMerPair records h
  refine ⟨s, fdr_ext, hs, hext, ?_⟩
  obtain ⟨_, h2, _, hkp, _, hop, _⟩ :=
    create_outsideData_shape ln chdtrc sf mutantMerPair wildTypeMerPair s hs
  have hlen : ∀ i, (vectorAt s.outsideData.left_chain i).length
      = (vectorAt s.outsideData.mutant_count i).length := by
    intro i
    obtain ⟨V, _, _, v2, _, v4, _, _, _⟩ :=
      create_outsideData_rows ln chdtrc sf mutantMerPair wildTypeMerPair s hs i
    rw [v2, v4, List.length_map, List.length_map]
  have hinner := inner_keys_nodup s.outsideData.pval
    (fun i => (vectorAt s.outsideData.mutant_count i).length) hop hkp
  have hrows : records.flatMap (fun r => r.rows)
      = (List.range (sf.vectorArray.length - sf.kmer)).flatMap (fun i =>
          (List.range (vectorAt s.outsideData.left_chain i).length).map
            (outside_file_row sf s fdr_ext i)) := by
    rw [hrecords, flatMap_filterMap_ite
      (fun i => (UMap.find sf.gtest.fdr i).getD 0 ≤ sf.threshold_fdr) mk
      (fun r : OutsideRecord F => r.rows)]
    apply List.flatMap_congr
    intro i hi
    by_cases hsig : (UMap.find sf.gtest.fdr i).getD 0 ≤ sf.threshold_fdr
    · simp only [hsig, if_true]
      exact hmk i
    · simp only [hsig, if_false]
      have := (h2 i (fun hc => hsig hc.2)).2.1
      rw [this]
      rfl
  have hmap : (records.flatMap (fun r => r.rows)).map (fun row => row.pval)
      = ((List.range (sf.vectorArray.length - sf.kmer)).flatMap (fun i =>
          (List.range (vectorAt s.outsideData.left_chain i).length).map
            (fun j => (i, j, (find2 s.outsideData.pval i j).getD 0)))).map
          (fun e => e.2.2) := by
    rw [hrows, List.map_flatMap, List.map_flatMap]
    apply List.flatMap_congr
    intro i _
    rw [List.map_map, List.map_map]
    rfl
  rw [hmap, flattenPvals_eq_entries]
  apply List.Perm.map
  rw [List.perm_ext_iff_of_nodup _ (tableEntries_nodup s.outsideData.pval hop hinner)]
  · rintro ⟨i, j, x⟩
    rw [← find2_iff_mem s.outsideData.pval hop hinner]
    simp only [List.mem_flatMap, List.mem_range, List.mem_map, Prod.mk.injEq]
    have hsome := find2_isSome_iff s.outsideData.pval
      (fun i => (vectorAt s.outsideData.mutant_count i).length) hkp i j
    constructor
    · rintro ⟨a, _, b, hb, rfl, rfl, hx⟩
      rw [hlen a] at hb
      obtain ⟨y, hy⟩ := hsome.mpr hb
      rw [hy] at hx ⊢
      simp only [Option.getD_some] at hx
      rw [hx]
    · intro hfind
      have hj := hsome.mp ⟨x, hfind⟩
      simp only at hj
      have hi : i < sf.vectorArray.length - sf.kmer := by
        by_contra hc
        have := (h2 i (fun hh => hc hh.1)).2.2.2.1
        rw [this] at hj
        simp at hj
      refine ⟨i, hi, j, by rw [hlen i]; exact hj, rfl, rfl, ?_⟩
      rw [hfind]
      rfl
  · rw [List.nodup_flatMap]
    constructor
    · intro i _
      apply List.Nodup.map _ (List.nodup_range _)
      intro a b hab
      simp only [Prod.mk.injEq] at hab
      exact hab.2.1
    · apply List.Pairwise.imp _ (List.nodup_range _)
      intro a b hab
      simp only [Function.onFun]
      intro e h1 h2
      simp only [List.mem_map, List.mem_range] at h1 h2
      obtain ⟨_, _, rfl⟩ := h1
      obtain ⟨_, _, hk⟩ := h2
      simp only [Prod.mk.injEq] at hk
      exact hab hk.1.symm

end JointCorrection

section JointCorrectionClaim

variable {F : Type} [LinearOrderedField F]

/-- C25: the second-pass correction is joint over all rows. For a p-value table
with distinct keys and at least one entry, `fdr_extension` returns a value for
exactly the (position, row) keys of the table, the value of the entry with
p-value `p` being `min(1, p * N / r)` with `N` the number of entries of the
whole table and `r = 1 +` the number of entries with a strictly smaller
p-value; a table holding the same entries in another iteration order gets the
same values. In the report of `create_outsideFile` every row has
`FDR = min(1, p * N_ext / r)` and `Bonferroni = min(1, p * N_ext)` with `N_ext`
the number of rows of all records and `r = 1 +` the number of rows of all
records with a strictly smaller p-value. -/
theorem second_pass_joint :
    (∀ pval : UMap Nat (UMap Nat F), (UMap.keys pval).Nodup →
      (∀ e ∈ pval, (UMap.keys e.2).Nodup) → flattenPvals pval ≠ [] →
      ∃ m, fdr_extension pval = some m ∧
        (∀ i j, find2 m i j = (find2 pval i j).map (fun p =>
          min 1 (p * ((flattenPvals pval).length : F) /
            ((1 + (flattenPvals pval).countP (fun q => decide (q < p)) : Nat) : F)))) ∧
        (∀ pval2 : UMap Nat (UMap Nat F), (UMap.keys pval2).Nodup →
          (∀ e ∈ pval2, (UMap.keys e.2).Nodup) →
          (∀ i j, find2 pval2 i j = find2 pval i j) →
          ∃ m2, fdr_extension pval2 = some m2 ∧ ∀ i j, find2 m2 i j = find2 m i j)) ∧
    (∀ (ln : F → F) (chdtrc : F → F → F) (sf : StatisticsFile F)
        (mutantMerPair wildTypeMerPair : UMap Str (List (Str × Str)))
        (records : List (OutsideRecord F)),
      create_outsideFile ln chdtrc sf mutantMerPair wildTypeMerPair = some records →
      ∀ record ∈ records, ∀ row ∈ record.rows,
        row.fdr = min 1 (row.pval * ((records.flatMap (fun r => r.rows)).length : F) /
          ((1 + (records.flatMap (fun r => r.rows)).countP
            (fun r => decide (r.pval < row.pval)) : Nat) : F)) ∧
        row.bon = min 1 (row.pval * ((records.flatMap (fun r => r.rows)).length : F))) := by
  constructor
  · intro pval ho hi hne
    obtain ⟨m, hm, hval⟩ := fdr_extension_spec pval ho hi hne
    refine ⟨m, hm, hval, ?_⟩
    intro pval2 ho2 hi2 hsame
    have hperm := flattenPvals_perm pval pval2 ho hi ho2 hi2 hsame
    have hne2 : flattenPvals pval2 ≠ [] := by
      intro hnil
      rw [hnil] at hperm
      exact hne (List.Perm.eq_nil hperm.symm)
    obtain ⟨m2, hm2, hval2⟩ := fdr_extension_spec pval2 ho2 hi2 hne2
    refine ⟨m2, hm2, ?_⟩
    intro i j
    rw [hval2 i j, hval i j, hsame i j]
    congr 1
    funext p
    rw [hperm.length_eq, hperm.countP_eq]
  · intro ln chdtrc sf mutantMerPair wildTypeMerPair records hrec record hmem row hrow
    obtain ⟨s, fdr_ext, hs, hext, hperm⟩ :=
      outside_file_pvals_perm ln chdtrc sf mutantMerPair wildTypeMerPair records hrec
    obtain ⟨s2, fdr_ext2, hs2, hext2, _, _, _, hrows⟩ :=
      create_outsideFile_mem ln chdtrc sf mutantMerPair wildTypeMerPair records hrec record hmem
    rw [hs] at hs2
    injection hs2 with hs2
    subst hs2
    rw [hext] at hext2
    injection hext2 with hext2
    subst hext2
    obtain ⟨_, _, _, hkp, _, hop, hnum⟩ :=
      create_outsideData_shape ln chdtrc sf mutantMerPair wildTypeMerPair s hs
    have hinner := inner_keys_nodup s.outsideData.pval
      (fun i => (vectorAt s.outsideData.mutant_count i).length) hop hkp
    rw [hrows] at hrow
    simp only [List.mem_map, List.mem_range] at hrow
    obtain ⟨j, hj, rfl⟩ := hrow
    have hlen : (vectorAt s.outsideData.left_chain record.position).length
        = (vectorAt s.outsideData.mutant_count record.position).length := by
      obtain ⟨V, _, _, v2, _, v4, _, _, _⟩ := create_outsideData_rows ln chdtrc sf
        mutantMerPair wildTypeMerPair s hs record.position
      rw [v2, v4, List.length_map, List.length_map]
    rw [hlen] at hj
    obtain ⟨p, hp⟩ := (find2_isSome_iff s.outsideData.pval
      (fun i => (vectorAt s.outsideData.mutant_count i).length) hkp record.position j).mpr hj
    have hne : flattenPvals s.outsideData.pval ≠ [] := by
      intro hnil
      have hm := (find2_iff_mem s.outsideData.pval hop hinner record.position j p).mp hp
      rw [flattenPvals_eq_entries] at hnil
      have := List.map_eq_nil_iff.mp hnil
      rw [this] at hm
      simp at hm
    obtain ⟨m, hm, hval⟩ := fdr_extension_spec s.outsideData.pval hop hinner hne
    rw [hext] at hm
    injection hm with hm
    subst hm
    have hrowp : (outside_file_row sf s fdr_ext record.position j).pval = p := by
      simp [outside_file_row, hp]
    have hrowf : (outside_file_row sf s fdr_ext record.position j).fdr
        = min 1 (p * ((flattenPvals s.outsideData.pval).length : F) /
          ((1 + (flattenPvals s.outsideData.pval).countP (fun q => decide (q < p)) : Nat)
            : F)) := by
      simp [outside_file_row, hval record.position j, hp]
    have hrowb : (outside_file_row sf s fdr_ext record.position j).bon
        = min 1 (p * ((flattenPvals s.outsideData.pval).length : F)) := by
      simp only [outside_file_row, hp, Option.getD_some, hnum]
      rw [min_comm]
    have hl : (records.flatMap (fun r => r.rows)).length
        = (flattenPvals s.outsideData.pval).length := by
      rw [← hperm.length_eq, List.length_map]
    have hc : (records.flatMap (fun r => r.rows)).countP (fun r => decide (r.pval < p))
        = (flattenPvals s.outsideData.pval).countP (fun q => decide (q < p)) := by
      rw [← hperm.countP_eq, List.countP_map]
      rfl
    rw [hrowf, hrowb, hrowp, hl, hc]
    exact ⟨rfl, rfl⟩

end JointCorrectionClaim

theorem second_pass_joint_witness :
    (UMap.keys examplePvalTable).Nodup ∧ (∀ e ∈ examplePvalTable, (UMap.keys e.2).Nodup) ∧
    flattenPvals examplePvalTable ≠ [] ∧
    (UMap.keys examplePvalTableReordered).Nodup ∧
    (∀ e ∈ examplePvalTableReordered, (UMap.keys e.2).Nodup) ∧
    (∀ i j, find2 examplePvalTableReordered i j = find2 examplePvalTable i j) ∧
    (∃ m, fdr_extension examplePvalTable = some m ∧
      (∀ i j, find2 m i j = (find2 examplePvalTable i j).map (fun p =>
        min 1 (p * ((flattenPvals examplePvalTable).length : ℚ) /
          ((1 + (flattenPvals examplePvalTable).countP (fun q => decide (q < p)) : Nat) : ℚ)))) ∧
      ∃ m2, fdr_extension examplePvalTableReordered = some m2 ∧
        ∀ i j, find2 m2 i j = find2 m i j) ∧
    ((create_outsideFile (fun x => x) (fun _ x => 1 / (1 + x)) exampleReport
        exampleNinePairs exampleNoPairs).getD []).map (fun r => r.rows.length) = [2] := by
  have hsame : ∀ i j, find2 examplePvalTableReordered i j = find2 examplePvalTable i j := by
    intro i j
    unfold find2 examplePvalTableReordered examplePvalTable
    by_cases h7 : i = 7
    · subst h7
      simp [UMap.find]
    · by_cases h3 : i = 3
      · subst h3
        by_cases h0 : j = 0
        · subst h0
          simp [UMap.find]
        · by_cases h1 : j = 1
          · subst h1
            simp [UMap.find]
          · simp [UMap.find, h0, h1, Ne.symm h0, Ne.symm h1]
      · simp [UMap.find, h3, h7, Ne.symm h3, Ne.symm h7]
  have hne : flattenPvals examplePvalTable ≠ [] := by
    simp [flattenPvals, examplePvalTable]
  obtain ⟨m, hm, hval, hre⟩ := (@second_pass_joint ℚ _).1 examplePvalTable
    (by decide) (by decide) hne
  exact ⟨by decide, by decide, hne, by decide, by decide, hsame,
    ⟨m, hm, hval, hre examplePvalTableReordered (by decide) (by decide) hsame⟩,
    by with_unfolding_all decide⟩

/-! ## The encoding table and the sentinel -/

theorem dna2bitTable_length : dna2bitTable.length = 128 := by
  simp [dna2bitTable]

set_option maxRecDepth 100000 in
theorem dna2bitTable_three : ∀ i < 128, dna2bitTable.getD i 0 = 3 → i = 71 := by
  decide

set_option maxRecDepth 100000 in
theorem dna2bitTable_other :
    ∀ i < 128, i ≠ 67 → i ≠ 65 → i ≠ 71 → dna2bitTable.getD i 0 = 0 := by
  decide

theorem dna2bit_eq_three (c : Char) : dna2bit c = 3 ↔ c = 'G' := by
  constructor
  · intro h
    unfold dna2bit at h
    have hall := dna2bitTable_three
    by_cases hc : c.toNat < 128
    · have h71 := hall c.toNat hc h
      have : Char.ofNat c.toNat = Char.ofNat 71 := by rw [h71]
      rw [Char.ofNat_toNat] at this
      rw [this]
    · rw [List.getD_eq_default _ _ (by
        have := dna2bitTable_length
        omega)] at h
      omega
  · intro h
    subst h
    decide

theorem dna2bit_eq_zero_of_other (c : Char) (hC : c ≠ 'C') (hA : c ≠ 'A') (hG : c ≠ 'G') :
    dna2bit c = 0 := by
  unfold dna2bit
  have hall := dna2bitTable_other
  have hne : ∀ n : Nat, c ≠ Char.ofNat n → c.toNat ≠ n := by
    intro n hn h
    apply hn
    rw [← h, Char.ofNat_toNat]
  by_cases hc : c.toNat < 128
  · exact hall c.toNat hc (hne 67 hC) (hne 65 hA) (hne 71 hG)
  · rw [List.getD_eq_default _ _ (by
      have := dna2bitTable_length
      omega)]

theorem packed_eq_sentinel_iff (s : Str) :
    packed s = 4 ^ s.length - 1 ↔ ∀ c ∈ s, c = 'G' := by
  induction s using List.reverseRecOn with
  | nil => simp [packed]
  | append_singleton s c ih =>
    rw [packed_concat]
    have hp := packed_lt s
    have hd := dna2bit_lt c
    have hpos : 0 < 4 ^ s.length := pow_pos (by decide) _
    have hlen : (s ++ [c]).length = s.length + 1 := by simp
    rw [hlen, pow_succ]
    constructor
    · intro h
      have h1 : packed s = 4 ^ s.length - 1 := by omega
      have h2 : dna2bit c = 3 := by omega
      intro x hx
      rcases List.mem_append.mp hx with hx | hx
      · exact ih.mp h1 x hx
      · rw [List.mem_singleton] at hx
        rw [hx]
        exact (dna2bit_eq_three c).mp h2
    · intro h
      have h1 : packed s = 4 ^ s.length - 1 :=
        ih.mpr (fun x hx => h x (List.mem_append.mpr (Or.inl hx)))
      have h2 : dna2bit c = 3 :=
        (dna2bit_eq_three c).mpr (h c (List.mem_append.mpr (Or.inr (List.mem_singleton.mpr rfl))))
      omega

/-- C31: the encoding table and the sentinel. The table built by the constructor
has 128 entries; it holds 0 for `T`, 1 for `C`, 2 for `A`, 3 for `G` and 0 at
every other index below 128 (so for `a`, `c`, `g`, `t` and `N`), and the lookup
of every character other than `C`, `A`, `G` gives 0. The packed value of a
string of `L` characters is `4^L - 1` if and only if all `L` characters are `G`.
For `k >= 1` and a window `j` of a read, the rolling value tested by the scan is
the mask `max_chunk_array` if and only if the first `L = min(k, 16)` bases of
the window are all `G`; and the value that `create_chunk` computes for a key is
the mask if and only if the first `L` bases of the key are all `G`. -/
theorem dna2bit_sentinel_iff_all_G :
    dna2bitTable.length = 128 ∧
    (dna2bit 'T' = 0 ∧ dna2bit 'C' = 1 ∧ dna2bit 'A' = 2 ∧ dna2bit 'G' = 3) ∧
    (∀ i < 128, i ≠ 67 → i ≠ 65 → i ≠ 71 → dna2bitTable.getD i 0 = 0) ∧
    (dna2bit 'a' = 0 ∧ dna2bit 'c' = 0 ∧ dna2bit 'g' = 0 ∧ dna2bit 't' = 0 ∧
      dna2bit 'N' = 0) ∧
    (∀ c : Char, c ≠ 'C' → c ≠ 'A' → c ≠ 'G' → dna2bit c = 0) ∧
    (∀ s : Str, packed s = 2 ^ (2 * s.length) - 1 ↔ ∀ c ∈ s, c = 'G') ∧
    (∀ (k : Nat) (read : Str) (j : Nat), 1 ≤ k → j + k ≤ read.length →
      (windowValue (Options.ofKmer k) read j = (Options.ofKmer k).max_chunk_array
        ↔ ∀ c ∈ substr read j (min k 16), c = 'G')) ∧
    (∀ (k : Nat) (key : Str), 1 ≤ k → min k 16 ≤ key.length →
      (keyChunk (Options.ofKmer k) key = (Options.ofKmer k).max_chunk_array
        ↔ ∀ c ∈ key.take (min k 16), c = 'G')) := by
  have h4 : ∀ n : Nat, 2 ^ (2 * n) = 4 ^ n := by
    intro n
    rw [pow_mul]
    rfl
  refine ⟨dna2bitTable_length, by decide, dna2bitTable_other, by decide, dna2bit_eq_zero_of_other, ?_, ?_, ?_⟩
  · intro s
    rw [h4]
    exact packed_eq_sentinel_iff s
  · intro k read j hk hj
    rw [windowValue_eq_packed k hk read j hj]
    have hlen : (substr read j (min k 16)).length = min k 16 := by
      simp [substr]
      omega
    have hmask : (Options.ofKmer k).max_chunk_array
        = 4 ^ (substr read j (min k 16)).length - 1 := by
      rw [hlen, ← h4]
      rfl
    rw [hmask]
    exact packed_eq_sentinel_iff _
  · intro k key hk hlen
    rw [keyChunk_eq_packed k hk key hlen]
    have hl : (key.take (min k 16)).length = min k 16 := by
      rw [List.length_take]
      omega
    have hmask : (Options.ofKmer k).max_chunk_array
        = 4 ^ (key.take (min k 16)).length - 1 := by
      rw [hl, ← h4]
      rfl
    rw [hmask]
    exact packed_eq_sentinel_iff _

/-! ## The raw Benjamini-Hochberg value -/

set_option maxRecDepth 100000 in
theorem exampleTwoPvals_fdr :
    (exampleTwoPvals.fdr_match).map (fun g => g.fdr)
      = some [(0, 20 / 1000), (1, 11 / 1000)] := by
  with_unfolding_all decide

/-- C33: the walk of `fdr_match` assigns the raw value. For the two p-values
`p_0 = 0.010` and `p_1 = 0.011` it returns `FDR_0 = 0.020` and `FDR_1 = 0.011`:
the smaller p-value gets the larger FDR. -/
theorem fdr_match_not_monotone :
    (exampleTwoPvals.fdr_match).map (fun g => g.fdr)
      = some [(0, 20 / 1000), (1, 11 / 1000)] ∧
    ∃ g2 i j p_i p_j f_i f_j, exampleTwoPvals.fdr_match = some g2 ∧
      UMap.find exampleTwoPvals.pval i = some p_i ∧
      UMap.find exampleTwoPvals.pval j = some p_j ∧
      UMap.find g2.fdr i = some f_i ∧ UMap.find g2.fdr j = some f_j ∧
      p_i < p_j ∧ f_j < f_i := by
  have h := exampleTwoPvals_fdr
  refine ⟨h, ?_⟩
  cases hg : exampleTwoPvals.fdr_match with
  | none => rw [hg] at h; exact absurd h (by simp)
  | some g2 =>
    rw [hg] at h
    simp only [Option.map_some', Option.some.injEq] at h
    refine ⟨g2, 0, 1, 10 / 1000, 11 / 1000, 20 / 1000, 11 / 1000, rfl, ?_, ?_, ?_, ?_, ?_, ?_⟩
    · simp [exampleTwoPvals, UMap.find]
    · simp [exampleTwoPvals, UMap.find]
    · rw [h]; simp [UMap.find]
    · rw [h]; simp [UMap.find]
    · norm_num
    · norm_num

/-! ## The total window counter -/

theorem count_match_window_total (o : Options) (chunk : Nat → Nat)
    (merCounter : UMap Str Nat) (read : Str) (s : Nat × MatchState) (j : Nat) :
    (count_match_window o chunk merCounter read s j).2.merTotalCounter
      = s.2.merTotalCounter + 1 := by
  unfold count_match_window
  simp only
  split
  · split <;> rfl
  · rfl

theorem count_match_windows_total (o : Options) (chunk : Nat → Nat)
    (merCounter : UMap Str Nat) (read : Str) (js : List Nat) (s : Nat × MatchState) :
    (js.foldl (count_match_window o chunk merCounter read) s).2.merTotalCounter
      = s.2.merTotalCounter + js.length := by
  induction js generalizing s with
  | nil => rfl
  | cons j rest ih =>
    rw [List.foldl_cons, ih, count_match_window_total, List.length_cons]
    omega

theorem count_match_read_total (o : Options) (chunk : Nat → Nat)
    (merCounter : UMap Str Nat) (st : MatchState) (read : Str) :
    (count_match_read o chunk merCounter st read).merTotalCounter
      = st.merTotalCounter + (read.length - o.kmer + 1) := by
  unfold count_match_read
  simp only
  rw [count_match_windows_total, List.length_range]

theorem count_match_total (o : Options) (chunk : Nat → Nat) (merCounter : UMap Str Nat)
    (fastqData : List Str) (st : MatchState) :
    (count_match o chunk fastqData merCounter st).merTotalCounter
      = st.merTotalCounter + (fastqData.map (fun r => r.length - o.kmer + 1)).sum := by
  unfold count_match
  induction fastqData generalizing st with
  | nil => rfl
  | cons r rest ih =>
    rw [List.foldl_cons, ih, count_match_read_total, List.map_cons, List.sum_cons]
    omega

theorem count_extension_window_total (o : Options) (nbase : Nat) (chunk : Nat → Nat)
    (merCounter : UMap Str (List (Str × Str))) (read : Str) (s : Nat × ExtensionState)
    (j : Nat) :
    (count_extension_window o nbase chunk merCounter read s j).2.merTotalCounter
      = s.2.merTotalCounter + 1 := by
  unfold count_extension_window
  simp only
  split
  · split <;> rfl
  · rfl

theorem count_extension_windows_total (o : Options) (nbase : Nat) (chunk : Nat → Nat)
    (merCounter : UMap Str (List (Str × Str))) (read : Str) (js : List Nat)
    (s : Nat × ExtensionState) :
    (js.foldl (count_extension_window o nbase chunk merCounter read) s).2.merTotalCounter
      = s.2.merTotalCounter + js.length := by
  induction js generalizing s with
  | nil => rfl
  | cons j rest ih =>
    rw [List.foldl_cons, ih, count_extension_window_total, List.length_cons]
    omega

theorem count_extension_read_total (o : Options) (nbase : Nat) (chunk : Nat → Nat)
    (merCounter : UMap Str (List (Str × Str))) (st : ExtensionState) (read : Str) :
    (count_extension_read o nbase chunk merCounter st read).merTotalCounter
      = st.merTotalCounter + (read.length - o.kmer - nbase + 1 - nbase) := by
  unfold count_extension_read
  simp only
  rw [count_extension_windows_total, List.length_range']

theorem count_extension_total (o : Options) (nbase : Nat) (chunk : Nat → Nat)
    (merCounter : UMap Str (List (Str × Str))) (fastqData : List Str) (st : ExtensionState) :
    (count_extension o nbase chunk fastqData merCounter st).merTotalCounter
      = st.merTotalCounter
        + (fastqData.map (fun r => r.length - o.kmer - nbase + 1 - nbase)).sum := by
  unfold count_extension
  induction fastqData generalizing st with
  | nil => rfl
  | cons r rest ih =>
    rw [List.foldl_cons, ih, count_extension_read_total, List.map_cons, List.sum_cons]
    omega

theorem read_fastqFile_extension_wellformed (o : Options) (nbase fastq_read_lines : Nat)
    (chunk : Nat → Nat) (merCounter : UMap Str (List (Str × Str)))
    (records : List (Str × Str × Str × Str)) (merTotalCounter : Nat) :
    read_fastqFile_extension o nbase fastq_read_lines chunk (records.flatMap recordLines)
        merCounter merTotalCounter
      = count_extension o nbase chunk
          ((records.map (fun record => record.2.1)).filter
            (fun sq => decide (o.kmer + 2 * nbase ≤ sq.length)))
          merCounter
          { merLocalPair := [], merTotalCounter := merTotalCounter, readCounter := 0 } := by
  unfold read_fastqFile_extension
  simp only
  rw [read_fastqFile_extension_records o nbase fastq_read_lines chunk merCounter records
    { aLine := [[], [], [], []], nLine := 0, fastqData := [],
      st := { merLocalPair := [], merTotalCounter := merTotalCounter, readCounter := 0 } }
    rfl rfl]
  simp

theorem scan_files_total (o : Options) (fastq_read_lines : Nat) (chunk : Nat → Nat)
    (files : List (List (Str × Str × Str × Str)))
    (hwf : ∀ file ∈ files, ∀ record ∈ file,
      strAt record.1 0 = '@' ∧ strAt record.2.2.1 0 = '+')
    (acc : UMap Str Nat × Nat) :
    ∃ res, (files.map (fun file => file.flatMap recordLines)).foldlM
        (fun acc file =>
          match read_fastqFile o fastq_read_lines chunk file acc.1 0 with
          | none => none
          | some st =>
            some (merge_counts acc.1 st.merLocalCounter, acc.2 + st.merTotalCounter))
        acc = some res ∧
      res.2 = acc.2 + (files.map (fun file =>
        (((file.map (fun record => record.2.1)).filter
          (fun sq => decide (o.kmer ≤ sq.length))).map
            (fun r => r.length - o.kmer + 1)).sum)).sum := by
  induction files generalizing acc with
  | nil => exact ⟨acc, rfl, by simp⟩
  | cons file rest ih =>
    have hst := read_fastqFile_wellformed o fastq_read_lines chunk acc.1 file
      (hwf file (List.mem_cons_self _ _)) 0
    obtain ⟨res, hres, ht⟩ := ih (fun f hf => hwf f (List.mem_cons_of_mem _ hf))
      (merge_counts acc.1 (count_match o chunk
          ((file.map (fun record => record.2.1)).filter
            (fun sq => decide (o.kmer ≤ sq.length)))
          acc.1 { merLocalCounter := [], merTotalCounter := 0, readCounter := 0 }).merLocalCounter,
        acc.2 + (count_match o chunk
          ((file.map (fun record => record.2.1)).filter
            (fun sq => decide (o.kmer ≤ sq.length)))
          acc.1 { merLocalCounter := [], merTotalCounter := 0, readCounter := 0 }).merTotalCounter)
    refine ⟨res, ?_, ?_⟩
    · rw [List.map_cons, List.foldlM_cons]
      simp only [hst, bind, Option.bind]
      exact hres
    · rw [ht]
      simp only [List.map_cons, List.sum_cons]
      rw [count_match_total]
      simp only [Nat.zero_add]
      omega

theorem scan_files_extension_total (o : Options) (nbase fastq_read_lines : Nat)
    (chunk : Nat → Nat) (files : List (List (Str × Str × Str × Str)))
    (acc : UMap Str (List (Str × Str)) × Nat) :
    ((files.map (fun file => file.flatMap recordLines)).foldl
        (fun acc file =>
          let st := read_fastqFile_extension o nbase fastq_read_lines chunk file acc.1 0
          (merge_pairs acc.1 st.merLocalPair, acc.2 + st.merTotalCounter))
        acc).2
      = acc.2 + (files.map (fun file =>
        (((file.map (fun record => record.2.1)).filter
          (fun sq => decide (o.kmer + 2 * nbase ≤ sq.length))).map
            (fun r => r.length - o.kmer - nbase + 1 - nbase)).sum)).sum := by
  induction files generalizing acc with
  | nil => simp
  | cons file rest ih =>
    rw [List.map_cons, List.foldl_cons, ih]
    simp only [List.map_cons, List.sum_cons]
    rw [read_fastqFile_extension_wellformed, count_extension_total]
    simp only [Nat.zero_add]
    omega

/-- C32: the total counter counts every window. For every option set, chunk
array and key table (so whatever the prefilter answers and whichever windows
are keys): in match mode a read of length `n >= k` adds `n - k + 1` to the
total counter, in extension mode a read of length `n >= k + 2b` adds
`n - k - 2b + 1`; and for files of records (well-formed ones in match mode) the
class total is the sum of these numbers over the reads of all files that pass
the length gate. -/
theorem total_counter_counts_windows (o : Options) (chunk : Nat → Nat) :
    (∀ (merCounter : UMap Str Nat) (st : MatchState) (read : Str),
      o.kmer ≤ read.length →
      (count_match_read o chunk merCounter st read).merTotalCounter
        = st.merTotalCounter + (read.length - o.kmer + 1)) ∧
    (∀ (nbase : Nat) (merCounter : UMap Str (List (Str × Str))) (st : ExtensionState)
        (read : Str), o.kmer + 2 * nbase ≤ read.length →
      (count_extension_read o nbase chunk merCounter st read).merTotalCounter
        = st.merTotalCounter + (read.length - o.kmer - 2 * nbase + 1)) ∧
    (∀ (fastq_read_lines : Nat) (seeded : UMap Str Nat)
        (files : List (List (Str × Str × Str × Str))),
      (∀ file ∈ files, ∀ record ∈ file,
        strAt record.1 0 = '@' ∧ strAt record.2.2.1 0 = '+') →
      ∃ res, scan_files o fastq_read_lines chunk
          (files.map (fun file => file.flatMap recordLines)) seeded = some res ∧
        res.2 = (files.map (fun file =>
          (((file.map (fun record => record.2.1)).filter
            (fun sq => decide (o.kmer ≤ sq.length))).map
              (fun r => r.length - o.kmer + 1)).sum)).sum) ∧
    (∀ (nbase fastq_read_lines : Nat) (seeded : UMap Str (List (Str × Str)))
        (files : List (List (Str × Str × Str × Str))),
      (scan_files_extension o nbase fastq_read_lines chunk
          (files.map (fun file => file.flatMap recordLines)) seeded).2
        = (files.map (fun file =>
          (((file.map (fun record => record.2.1)).filter
            (fun sq => decide (o.kmer + 2 * nbase ≤ sq.length))).map
              (fun r => r.length - o.kmer - 2 * nbase + 1)).sum)).sum) := by
  refine ⟨?_, ?_, ?_, ?_⟩
  · intro merCounter st read _
    exact count_match_read_total o chunk merCounter st read
  · intro nbase merCounter st read hn
    rw [count_extension_read_total]
    omega
  · intro fastq_read_lines seeded files hwf
    obtain ⟨res, hres, ht⟩ := scan_files_total o fastq_read_lines chunk files hwf (seeded, 0)
    refine ⟨res, hres, ?_⟩
    rw [ht]
    simp
  · intro nbase fastq_read_lines seeded files
    unfold scan_files_extension
    rw [scan_files_extension_total]
    simp only [Nat.zero_add]
    congr 1
    apply List.map_congr_left
    intro file _
    congr 1
    apply List.map_congr_left
    intro r hr
    have := (List.mem_filter.mp hr).2
    simp only [decide_eq_true_eq] at this
    omega

theorem total_counter_counts_windows_witness :
    (Options.ofKmer 8).kmer ≤ exampleRead.length ∧
    (count_match_read (Options.ofKmer 8) (fun _ => 0) exampleKeys
        { merLocalCounter := [], merTotalCounter := 0, readCounter := 0 }
        exampleRead).merTotalCounter
      = 0 + (exampleRead.length - (Options.ofKmer 8).kmer + 1) :=
  ⟨by decide,
    (total_counter_counts_windows (Options.ofKmer 8) (fun _ => 0)).1 exampleKeys
      { merLocalCounter := [], merTotalCounter := 0, readCounter := 0 } exampleRead
      (by decide)⟩

/-! ## The indices read from a read -/

/-- C38: the scan loops index a read in bounds. For `k >= 8` (so
`L = min(k, 16) >= 8` and `L - 1` does not wrap): in match mode, for a read of
length `n >= k`, the bound `n - k` does not wrap, every index read is below `n`
and every substring taken ends at or before `n`; in extension mode, for a read
of length `n >= k + 2b`, the bound `n - k - b` does not wrap, every index read
is below `n`, every window position `j` is at least `b` (so `j - b` does not
wrap) and every substring taken ends at or before `n`. -/
theorem scan_indices_in_bounds (k : Nat) (hk : 8 ≤ k) (nbase : Nat) (read : Str) :
    (1 ≤ (Options.ofKmer k).chunk_length - 1) ∧
    (k ≤ read.length →
      ((read.length - (Options.ofKmer k).kmer : Nat) : Int)
        = (read.length : Int) - ((Options.ofKmer k).kmer : Int) ∧
      (∀ i ∈ count_match_indices (Options.ofKmer k) read, i < read.length) ∧
      (∀ s ∈ count_match_substrings (Options.ofKmer k) read, s.1 + s.2 ≤ read.length)) ∧
    (k + 2 * nbase ≤ read.length →
      ((read.length - (Options.ofKmer k).kmer - nbase : Nat) : Int)
        = (read.length : Int) - ((Options.ofKmer k).kmer : Int) - (nbase : Int) ∧
      (∀ i ∈ count_extension_indices (Options.ofKmer k) nbase read, i < read.length) ∧
      (∀ j ∈ count_extension_windows (Options.ofKmer k) nbase read,
        nbase ≤ j ∧ j ≤ read.length - (Options.ofKmer k).kmer - nbase ∧
        ∀ s ∈ count_extension_substrings (Options.ofKmer k) nbase j,
          s.1 + s.2 ≤ read.length)) := by
  have hL : (Options.ofKmer k).chunk_length = min k 16 := rfl
  have hK : (Options.ofKmer k).kmer = k := rfl
  refine ⟨?_, ?_, ?_⟩
  · rw [hL]
    omega
  · intro hn
    refine ⟨?_, ?_, ?_⟩
    · rw [hK]
      omega
    · intro i hi
      unfold count_match_indices at hi
      rw [hL, hK] at hi
      simp only [List.mem_append, List.mem_singleton, List.mem_range', List.mem_map,
        List.mem_range] at hi
      rcases hi with (h | ⟨t, _, h⟩) | ⟨j, hj, h⟩ <;> omega
    · intro s hs
      unfold count_match_substrings at hs
      rw [hK] at hs
      simp only [List.mem_map, List.mem_range] at hs
      obtain ⟨j, hj, rfl⟩ := hs
      simp only
      omega
  · intro hn
    refine ⟨?_, ?_, ?_⟩
    · rw [hK]
      omega
    · intro i hi
      unfold count_extension_indices at hi
      rw [hL, hK] at hi
      simp only [List.mem_append, List.mem_singleton, List.mem_range', List.mem_map,
        List.mem_range] at hi
      rcases hi with ((h | ⟨t, _, h⟩) | ⟨j, hj, h⟩) | ⟨j, ⟨t, ht, hjt⟩, h⟩ <;> omega
    · intro j hj
      unfold count_extension_windows at hj
      rw [hK] at hj
      simp only [List.mem_range'] at hj
      obtain ⟨t, ht, rfl⟩ := hj
      refine ⟨by omega, by rw [hK]; omega, ?_⟩
      intro s hs
      unfold count_extension_substrings at hs
      rw [hK] at hs
      simp only [List.mem_cons, List.mem_singleton, List.not_mem_nil, or_false] at hs
      rcases hs with rfl | rfl | rfl <;> simp only <;> omega

theorem scan_indices_in_bounds_witness :
    (8 : Nat) ≤ 8 ∧ 8 + 2 * 2 ≤ exampleExtRead.length ∧
    (∀ i ∈ count_match_indices (Options.ofKmer 8) exampleExtRead,
      i < exampleExtRead.length) ∧
    (∀ i ∈ count_extension_indices (Options.ofKmer 8) 2 exampleExtRead,
      i < exampleExtRead.length) ∧
    count_extension_indices (Options.ofKmer 8) 2 exampleExtRead
      = [0, 1, 2, 3, 4, 5, 6, 7, 8, 9] :=
  ⟨by decide, by decide,
    ((scan_indices_in_bounds 8 (by decide) 2 exampleExtRead).2.1 (by decide)).2.1,
    ((scan_indices_in_bounds 8 (by decide) 2 exampleExtRead).2.2 (by decide)).2.1,
    by decide⟩

/-! ## The second pass on an empty table -/

/-- C34, at the failing input: for the vector `ACGTACGTACGT`, `k = 8` and the
significant positions 0 and 11, with the flank-pair tables as seeded (no read
long enough to record a pair), `create_outsideData` produces `table_size[0] = 0`
and an empty p-value table; `fdr_extension` on a table without entries reads `v[0]`
of an empty vector, and so does the call made by `create_outsideFile`. -/
theorem fdr_extension_empty_table :
    (UMap.find exampleReport.gtest.fdr 0).getD 0 ≤ exampleReport.threshold_fdr ∧
    (create_outsideData (fun x => x) (fun _ x => 1 / (1 + x)) exampleReport
        exampleReportWildPairs exampleReportWildPairs).map
      (fun s => (s.table_size, UMap.keys s.outsideData.pval, s.number_of_extensions))
      = some ([(0, 0)], [], 0) ∧
    (∀ pval : UMap Nat (UMap Nat ℚ), flattenPvals pval = [] → fdr_extension pval = none) ∧
    create_outsideFile (fun x => x) (fun _ x => 1 / (1 + x)) exampleReport
        exampleReportWildPairs exampleReportWildPairs = none := by
  have hnone : ∀ pval : UMap Nat (UMap Nat ℚ), flattenPvals pval = [] →
      fdr_extension pval = none := by
    intro pval hp
    unfold fdr_extension
    rw [hp]
    rfl
  refine ⟨by with_unfolding_all decide, by with_unfolding_all decide, hnone, ?_⟩
  have h : (create_outsideData (fun x => x) (fun _ x => 1 / (1 + x)) exampleReport
        exampleReportWildPairs exampleReportWildPairs).map
      (fun s => s.outsideData.pval) = some [] := by with_unfolding_all decide
  unfold create_outsideFile
  cases hc : create_outsideData (fun x => x) (fun _ x => 1 / (1 + x)) exampleReport
        exampleReportWildPairs exampleReportWildPairs with
  | none => rfl
  | some s =>
    rw [hc] at h
    simp only [Option.map_some', Option.some.injEq] at h
    simp only [h]
    rw [hnone [] rfl]

/-! ## The flank-pair counts of one position -/

theorem pairsOf_of_not_contains (m : UMap Str (List (Str × Str))) (key : Str)
    (h : ¬ UMap.contains m key = true) : pairsOf m key = [] := by
  have hnone : UMap.find m key = none := by
    simpa [UMap.contains] using h
  simp [pairsOf, hnone]

/-- The table of `side_pair_count` is one run of increments over the pairs
recorded under the forward k-mer followed, when the reverse k-mer differs, by
the re-oriented pairs recorded under it. -/
theorem side_pair_count_fold (merPair : UMap Str (List (Str × Str)))
    (mer_plus mer_minus : Str) :
    side_pair_count merPair mer_plus mer_minus
      = (pairsOf merPair mer_plus ++
          (if mer_plus = mer_minus then []
           else (pairsOf merPair mer_minus).map
             (fun p => (Complementary.mer p.2, Complementary.mer p.1)))).foldl
          (fun c p => increment c p) [] := by
  have hplus : (if UMap.contains merPair mer_plus = true then
        (pairsOf merPair mer_plus).foldl (fun c itr => increment c (itr.1, itr.2)) []
      else ([] : UMap (Str × Str) Nat))
      = (pairsOf merPair mer_plus).foldl (fun c p => increment c p) [] := by
    by_cases hc : UMap.contains merPair mer_plus = true
    · simp only [hc, if_true]
    · rw [pairsOf_of_not_contains merPair mer_plus hc]
      simp [hc]
  unfold side_pair_count
  simp only [hplus]
  by_cases heq : mer_plus = mer_minus
  · simp [heq]
  · simp only [heq, ne_eq, not_false_eq_true, if_true, if_false, List.foldl_append,
      List.foldl_map]
    by_cases hc : UMap.contains merPair mer_minus = true
    · simp only [hc, if_true]
    · rw [pairsOf_of_not_contains merPair mer_minus hc]
      simp [hc]

theorem increment_values_sum {κ : Type} [DecidableEq κ] (m : UMap κ Nat) (key : κ) :
    ((increment m key).map Prod.snd).sum = (m.map Prod.snd).sum + 1 := by
  unfold increment countOf
  induction m with
  | nil => simp [UMap.assign, UMap.find]
  | cons e rest ih =>
    obtain ⟨k, v⟩ := e
    by_cases h : k = key
    · simp [UMap.assign, UMap.find, h]
      omega
    · simp only [UMap.assign, UMap.find, h, if_false, List.map_cons, List.sum_cons]
      rw [ih]
      omega

theorem increments_values_sum {κ : Type} [DecidableEq κ] (l : List κ) (c0 : UMap κ Nat) :
    ((l.foldl (fun c p => increment c p) c0).map Prod.snd).sum
      = (c0.map Prod.snd).sum + l.length := by
  induction l generalizing c0 with
  | nil => simp
  | cons x rest ih =>
    rw [List.foldl_cons, ih, increment_values_sum, List.length_cons]
    omega

theorem increments_keys_nodup {κ : Type} [DecidableEq κ] (l : List κ) (c0 : UMap κ Nat)
    (h : (UMap.keys c0).Nodup) :
    (UMap.keys (l.foldl (fun c p => increment c p) c0)).Nodup :=
  foldl_invariant (fun c : UMap κ Nat => (UMap.keys c).Nodup) _
    (fun c p hc => increment_keys_nodup c p hc) l c0 h

theorem increments_positive {κ : Type} [DecidableEq κ] (l : List κ) (c0 : UMap κ Nat)
    (h : ∀ e ∈ c0, 1 ≤ e.2) :
    ∀ e ∈ l.foldl (fun c p => increment c p) c0, 1 ≤ e.2 :=
  foldl_invariant (fun c : UMap κ Nat => ∀ e ∈ c, 1 ≤ e.2) _
    (fun c p hc => UMap.forall_assign (fun v => 1 ≤ v) c p _ hc (by omega)) l c0 h

/-- The table of a run of increments from the empty table: distinct keys, each
key of the list exactly once, each with the number of its occurrences. -/
theorem increments_table {κ : Type} [DecidableEq κ] (l : List κ) :
    (UMap.keys (l.foldl (fun c p => increment c p) [])).Nodup ∧
    (∀ key, countOf (l.foldl (fun c p => increment c p) []) key
      = l.countP (fun x => decide (x = key))) ∧
    (∀ e ∈ l.foldl (fun c p => increment c p) ([] : UMap κ Nat),
      1 ≤ e.2 ∧ e.2 = l.countP (fun x => decide (x = e.1)) ∧ e.1 ∈ l) ∧
    (∀ key, key ∈ UMap.keys (l.foldl (fun c p => increment c p) ([] : UMap κ Nat))
      ↔ key ∈ l) ∧
    ((l.foldl (fun c p => increment c p) ([] : UMap κ Nat)).map Prod.snd).sum = l.length ∧
    (l.foldl (fun c p => increment c p) ([] : UMap κ Nat)).length = l.dedup.length := by
  have hn := increments_keys_nodup l ([] : UMap κ Nat) (by simp [UMap.keys])
  have hc : ∀ key, countOf (l.foldl (fun c p => increment c p) []) key
      = l.countP (fun x => decide (x = key)) := by
    intro key
    have := countOf_foldl_increment (fun x : κ => x) l [] key
    simpa [countOf, UMap.find] using this
  have hpos := increments_positive l ([] : UMap κ Nat) (by simp)
  have hmem : ∀ key, l.countP (fun x => decide (x = key)) ≥ 1 ↔ key ∈ l := by
    intro key
    rw [ge_iff_le, Nat.succ_le, List.countP_pos_iff]
    constructor
    · rintro ⟨x, hx, hxe⟩
      simp only [decide_eq_true_eq] at hxe
      rw [← hxe]
      exact hx
    · intro h
      exact ⟨key, h, by simp⟩
  have hentry : ∀ e ∈ l.foldl (fun c p => increment c p) ([] : UMap κ Nat),
      1 ≤ e.2 ∧ e.2 = l.countP (fun x => decide (x = e.1)) ∧ e.1 ∈ l := by
    intro e he
    have h1 := hpos e he
    have h2 : e.2 = l.countP (fun x => decide (x = e.1)) := by
      rw [← hc e.1, countOf, UMap.find_of_mem_nodup _ hn e he]
      rfl
    refine ⟨h1, h2, (hmem e.1).mp ?_⟩
    omega
  have hkeys : ∀ key, key ∈ UMap.keys (l.foldl (fun c p => increment c p) ([] : UMap κ Nat))
      ↔ key ∈ l := by
    intro key
    constructor
    · intro h
      obtain ⟨e, he, hek⟩ := List.mem_map.mp h
      rw [← hek]
      exact (hentry e he).2.2
    · intro h
      have h1 := (hmem key).mpr h
      rw [← hc key] at h1
      rw [← UMap.contains_iff_mem_keys]
      unfold UMap.contains
      unfold countOf at h1
      cases hf : UMap.find (l.foldl (fun c p => increment c p) ([] : UMap κ Nat)) key with
      | none => rw [hf] at h1; simp at h1
      | some v => rfl
  refine ⟨hn, hc, hentry, hkeys, ?_, ?_⟩
  · rw [increments_values_sum]
    simp
  · have hperm : (UMap.keys (l.foldl (fun c p => increment c p) ([] : UMap κ Nat))).Perm
        l.dedup := by
      rw [List.perm_ext_iff_of_nodup hn (List.nodup_dedup l)]
      intro key
      rw [hkeys key, List.mem_dedup]
    have := hperm.length_eq
    rw [UMap.keys, List.length_map] at this
    exact this

theorem countOf_of_not_contains {κ : Type} [DecidableEq κ] (m : UMap κ Nat) (key : κ) :
    (if UMap.contains m key = true then countOf m key else 0) = countOf m key := by
  by_cases h : UMap.contains m key = true
  · simp [h]
  · have hnone : UMap.find m key = none := by
      simpa [UMap.contains] using h
    simp [h, countOf, hnone]

theorem range_map_getD_columns {α β1 β2 β3 β4 : Type} (V : List α)
    (a1 : α → β1) (a2 : α → β2) (a3 : α → β3) (a4 : α → β4)
    (d1 : β1) (d2 : β2) (d3 : β3) (d4 : β4) :
    (List.range V.length).map (fun j =>
        ((V.map a1).getD j d1, (V.map a2).getD j d2, (V.map a3).getD j d3,
          (V.map a4).getD j d4))
      = V.map (fun x => (a1 x, a2 x, a3 x, a4 x)) := by
  apply List.ext_getElem
  · simp
  · intro j h1 h2
    have hj : j < V.length := by simpa using h2
    simp [List.getD_eq_getElem?_getD, List.getElem?_map, List.getElem?_eq_getElem hj]

section PositionTable

variable {F : Type} [LinearOrderedField F]

/-- The rows of a significant position, as a list `V` of (count, pair) entries:
a permutation of the entries of the mutant pair table of the position. -/
theorem outside_data_table (ln : F → F) (chdtrc : F → F → F) (sf : StatisticsFile F)
    (mutantMerPair wildTypeMerPair : UMap Str (List (Str × Str))) (s : OutsideLoop F)
    (h : create_outsideData ln chdtrc sf mutantMerPair wildTypeMerPair = some s) (i : Nat)
    (hi : i < sf.vectorArray.length - sf.kmer)
    (hsig : (UMap.find sf.gtest.fdr i).getD 0 ≤ sf.threshold_fdr) :
    ∃ (mer : Str × Str) (V : List (Nat × (Str × Str))),
      UMap.find sf.vectorPosPair i = some mer ∧
      V.Perm ((side_pair_count mutantMerPair mer.1 mer.2).map (fun e => (e.2, e.1))) ∧
      UMap.find s.table_size i = some V.length ∧
      vectorAt s.outsideData.left_chain i = V.map (fun x => x.2.1) ∧
      vectorAt s.outsideData.right_chain i = V.map (fun x => x.2.2) ∧
      vectorAt s.outsideData.mutant_count i
        = V.map (fun x => countOf (side_pair_count mutantMerPair mer.1 mer.2) x.2) ∧
      vectorAt s.outsideData.wildType_count i
        = V.map (fun x => countOf (side_pair_count wildTypeMerPair mer.1 mer.2) x.2) := by
  obtain ⟨mer, hmer, hts, hl, hr, hm, hw⟩ :=
    (create_outsideData_shape ln chdtrc sf mutantMerPair wildTypeMerPair s h).1 i hi hsig
  refine ⟨mer, _, hmer, List.perm_insertionSort _ _, hts, hl, hr, ?_, ?_⟩
  · rw [hm]
    apply List.map_congr_left
    intro x _
    exact countOf_of_not_contains _ _
  · rw [hw]
    apply List.map_congr_left
    intro x _
    exact countOf_of_not_contains _ _

/-- The rows of a record of the report, as a list `V` of (count, pair) entries. -/
theorem outside_file_table (ln : F → F) (chdtrc : F → F → F) (sf : StatisticsFile F)
    (mutantMerPair wildTypeMerPair : UMap Str (List (Str × Str)))
    (records : List (OutsideRecord F))
    (h : create_outsideFile ln chdtrc sf mutantMerPair wildTypeMerPair = some records)
    (record : OutsideRecord F) (hrec : record ∈ records) :
    ∃ (mer : Str × Str) (V : List (Nat × (Str × Str))),
      UMap.find sf.vectorPosPair record.position = some mer ∧
      V.Perm ((side_pair_count mutantMerPair mer.1 mer.2).map (fun e => (e.2, e.1))) ∧
      record.table_size = V.length ∧
      record.rows.map
          (fun row => (row.left, row.right, row.mutant_count, row.wildType_count))
        = V.map (fun x => (x.2.1, x.2.2,
            countOf (side_pair_count mutantMerPair mer.1 mer.2) x.2,
            countOf (side_pair_count wildTypeMerPair mer.1 mer.2) x.2)) := by
  obtain ⟨s, fdr_ext, hs, _, hpos, hsig, hts, hrows⟩ :=
    create_outsideFile_mem ln chdtrc sf mutantMerPair wildTypeMerPair records h record hrec
  obtain ⟨mer, V, hmer, hperm, hsize, hl, hr, hm, hw⟩ :=
    outside_data_table ln chdtrc sf mutantMerPair wildTypeMerPair s hs record.position hpos hsig
  refine ⟨mer, V, hmer, hperm, ?_, ?_⟩
  · rw [hts, hsize]
    rfl
  · rw [hrows, List.map_map]
    have hlen : (vectorAt s.outsideData.left_chain record.position).length = V.length := by
      rw [hl, List.length_map]
    rw [hlen, ← range_map_getD_columns V (fun x => x.2.1) (fun x => x.2.2)
      (fun x => countOf (side_pair_count mutantMerPair mer.1 mer.2) x.2)
      (fun x => countOf (side_pair_count wildTypeMerPair mer.1 mer.2) x.2) [] [] 0 0]
    apply List.map_congr_left
    intro j _
    simp only [Function.comp, outside_file_row, hl, hr, hm, hw]

end PositionTable

/-- The count of a pair in the table of `side_pair_count`: its occurrences under
the forward k-mer plus, when the reverse k-mer differs, the occurrences of its
re-oriented form under the reverse k-mer. -/
theorem side_pair_count_countOf (merPair : UMap Str (List (Str × Str)))
    (mer_plus mer_minus : Str) (pair : Str × Str) :
    countOf (side_pair_count merPair mer_plus mer_minus) pair
      = (pairsOf merPair mer_plus).countP (fun p => decide (p = pair))
        + (if mer_plus = mer_minus then 0
           else (pairsOf merPair mer_minus).countP
              (fun p => decide ((Complementary.mer p.2, Complementary.mer p.1) = pair))) := by
  rw [side_pair_count_fold, (increments_table _).2.1, List.countP_append]
  by_cases heq : mer_plus = mer_minus
  · simp [heq]
  · simp only [heq, if_false, List.countP_map]
    rfl

theorem side_pair_count_entry (merPair : UMap Str (List (Str × Str)))
    (mer_plus mer_minus : Str) (e : (Str × Str) × Nat)
    (he : e ∈ side_pair_count merPair mer_plus mer_minus) :
    1 ≤ e.2 ∧ e.2 = countOf (side_pair_count merPair mer_plus mer_minus) e.1 := by
  have hn := side_pair_count_nodup merPair mer_plus mer_minus
  have hfold := side_pair_count_fold merPair mer_plus mer_minus
  have hpos : 1 ≤ e.2 := by
    rw [hfold] at he
    exact ((increments_table _).2.2.1 e he).1
  refine ⟨hpos, ?_⟩
  rw [countOf, UMap.find_of_mem_nodup _ hn e he]
  rfl

section MutantDriven

variable {F : Type} [LinearOrderedField F]

/-- C35: the extension rows are driven by the mutant observations. In every
record of the report, with `(F, R)` the k-mer pair of its position: every row
has `mutant_count >= 1`; its `mutant_count` is the number of mutant pairs
recorded under `F` equal to `(left, right)` plus, when `F != R`, the number of
mutant pairs `(l, r)` recorded under `R` with
`(revComp(r), revComp(l)) = (left, right)`; its `wildType_count` is the same
count over the wild-type pairs (0 when there is none); and a pair whose mutant
count is 0 has no row, whatever its wild-type count. -/
theorem extension_rows_mutant_driven (ln : F → F) (chdtrc : F → F → F)
    (sf : StatisticsFile F) (mutantMerPair wildTypeMerPair : UMap Str (List (Str × Str)))
    (records : List (OutsideRecord F))
    (h : create_outsideFile ln chdtrc sf mutantMerPair wildTypeMerPair = some records) :
    ∀ record ∈ records, ∃ mer, UMap.find sf.vectorPosPair record.position = some mer ∧
      (∀ row ∈ record.rows,
        1 ≤ row.mutant_count ∧
        row.mutant_count
          = (pairsOf mutantMerPair mer.1).countP (fun p => decide (p = (row.left, row.right)))
            + (if mer.1 = mer.2 then 0
               else (pairsOf mutantMerPair mer.2).countP (fun p =>
                decide ((Complementary.mer p.2, Complementary.mer p.1)
                  = (row.left, row.right)))) ∧
        row.wildType_count
          = (pairsOf wildTypeMerPair mer.1).countP
              (fun p => decide (p = (row.left, row.right)))
            + (if mer.1 = mer.2 then 0
               else (pairsOf wildTypeMerPair mer.2).countP (fun p =>
                decide ((Complementary.mer p.2, Complementary.mer p.1)
                  = (row.left, row.right))))) ∧
      (∀ pair : Str × Str,
        (pairsOf mutantMerPair mer.1).countP (fun p => decide (p = pair))
            + (if mer.1 = mer.2 then 0
               else (pairsOf mutantMerPair mer.2).countP (fun p =>
                decide ((Complementary.mer p.2, Complementary.mer p.1) = pair))) = 0 →
        ∀ row ∈ record.rows, (row.left, row.right) ≠ pair) := by
  intro record hrec
  obtain ⟨mer, V, hmer, hperm, _, hrows⟩ :=
    outside_file_table ln chdtrc sf mutantMerPair wildTypeMerPair records h record hrec
  have hrow : ∀ row ∈ record.rows,
      1 ≤ row.mutant_count ∧
      row.mutant_count
        = countOf (side_pair_count mutantMerPair mer.1 mer.2) (row.left, row.right) ∧
      row.wildType_count
        = countOf (side_pair_count wildTypeMerPair mer.1 mer.2) (row.left, row.right) := by
    intro row hr
    have hmem : (row.left, row.right, row.mutant_count, row.wildType_count)
        ∈ record.rows.map
          (fun row => (row.left, row.right, row.mutant_count, row.wildType_count)) :=
      List.mem_map.mpr ⟨row, hr, rfl⟩
    rw [hrows] at hmem
    obtain ⟨x, hx, hxe⟩ := List.mem_map.mp hmem
    simp only [Prod.mk.injEq] at hxe
    obtain ⟨h1, h2, h3, h4⟩ := hxe
    have hx2 : x.2 = (row.left, row.right) := by
      rw [← h1, ← h2]
    have hxm := (hperm.mem_iff).mp hx
    obtain ⟨e, he, hex⟩ := List.mem_map.mp hxm
    have hent := side_pair_count_entry mutantMerPair mer.1 mer.2 e he
    have hx2e : x.2 = e.1 := by rw [← hex]
    rw [← hx2]
    refine ⟨?_, h3.symm, h4.symm⟩
    rw [← h3, hx2e, ← hent.2]
    exact hent.1
  refine ⟨mer, hmer, ?_, ?_⟩
  · intro row hr
    obtain ⟨h1, h2, h3⟩ := hrow row hr
    rw [side_pair_count_countOf] at h2 h3
    exact ⟨h1, h2, h3⟩
  · intro pair hzero row hr hne
    obtain ⟨h1, h2, _⟩ := hrow row hr
    rw [side_pair_count_countOf, hne, hzero] at h2
    omega

end MutantDriven

theorem extension_rows_mutant_driven_witness :
    ((create_outsideFile (fun x => x) (fun _ x => 1 / (1 + x)) exampleReport
        exampleNinePairs exampleWildOnlyPairs).getD []).map
      (fun r => r.rows.map (fun row => (row.mutant_count, row.wildType_count)))
      = [[(9, 1), (1, 0)]] ∧
    ∀ record ∈ (create_outsideFile (fun x => x) (fun _ x => 1 / (1 + x)) exampleReport
        exampleNinePairs exampleWildOnlyPairs).getD [],
      ∀ row ∈ record.rows, 1 ≤ row.mutant_count := by
  refine ⟨by with_unfolding_all decide, ?_⟩
  cases hc : create_outsideFile (fun x => x) (fun _ x => 1 / (1 + x)) exampleReport
      exampleNinePairs exampleWildOnlyPairs with
  | none => simp
  | some records =>
    intro record hrec row hrow
    obtain ⟨mer, _, h1, _⟩ := extension_rows_mutant_driven (fun x => x)
      (fun _ x => 1 / (1 + x)) exampleReport exampleNinePairs exampleWildOnlyPairs records hc
      record hrec
    exact (h1 row hrow).1

/-! ## The conservation of the flank observations -/

theorem side_pair_count_totals (merPair : UMap Str (List (Str × Str)))
    (mer_plus mer_minus : Str) :
    ((side_pair_count merPair mer_plus mer_minus).map
        (fun e => countOf (side_pair_count merPair mer_plus mer_minus) e.1)).sum
      = (pairsOf merPair mer_plus).length
        + (if mer_plus = mer_minus then 0 else (pairsOf merPair mer_minus).length) ∧
    (side_pair_count merPair mer_plus mer_minus).length
      = ((pairsOf merPair mer_plus ++
          (if mer_plus = mer_minus then []
           else (pairsOf merPair mer_minus).map
             (fun p => (Complementary.mer p.2, Complementary.mer p.1)))).dedup).length := by
  constructor
  · have hmap : (side_pair_count merPair mer_plus mer_minus).map
          (fun e => countOf (side_pair_count merPair mer_plus mer_minus) e.1)
        = (side_pair_count merPair mer_plus mer_minus).map Prod.snd := by
      apply List.map_congr_left
      intro e he
      exact (side_pair_count_entry merPair mer_plus mer_minus e he).2.symm
    rw [hmap, side_pair_count_fold, (increments_table _).2.2.2.2.1, List.length_append]
    by_cases heq : mer_plus = mer_minus
    · simp [heq]
    · simp [heq]
  · rw [side_pair_count_fold]
    exact (increments_table _).2.2.2.2.2

section Conservation

variable {F : Type} [LinearOrderedField F]

/-- C40: the flank observations are conserved by the tabulation. For every
significant position that `create_outsideData` visits and for every record of
the report, with `(F, R)` the k-mer pair of the position: the sum of
`mutant_count` over the rows is the number of mutant pairs recorded under `F`
plus, only when `F != R`, the number recorded under `R`; and `table_size` (which
is also the number of rows) is the number of distinct pairs among the pairs
recorded under `F` and, when `F != R`, the re-oriented pairs recorded under
`R`. -/
theorem flank_observations_conserved (ln : F → F) (chdtrc : F → F → F)
    (sf : StatisticsFile F) (mutantMerPair wildTypeMerPair : UMap Str (List (Str × Str))) :
    (∀ s, create_outsideData ln chdtrc sf mutantMerPair wildTypeMerPair = some s →
      ∀ i, i < sf.vectorArray.length - sf.kmer →
        (UMap.find sf.gtest.fdr i).getD 0 ≤ sf.threshold_fdr →
        ∃ mer, UMap.find sf.vectorPosPair i = some mer ∧
          (vectorAt s.outsideData.mutant_count i).sum
            = (pairsOf mutantMerPair mer.1).length
              + (if mer.1 = mer.2 then 0 else (pairsOf mutantMerPair mer.2).length) ∧
          UMap.find s.table_size i
            = some ((pairsOf mutantMerPair mer.1 ++
                (if mer.1 = mer.2 then []
                 else (pairsOf mutantMerPair mer.2).map
                   (fun p => (Complementary.mer p.2, Complementary.mer p.1)))).dedup).length) ∧
    (∀ records, create_outsideFile ln chdtrc sf mutantMerPair wildTypeMerPair = some records →
      ∀ record ∈ records, ∃ mer, UMap.find sf.vectorPosPair record.position = some mer ∧
        (record.rows.map (fun row => row.mutant_count)).sum
          = (pairsOf mutantMerPair mer.1).length
            + (if mer.1 = mer.2 then 0 else (pairsOf mutantMerPair mer.2).length) ∧
        record.table_size
          = ((pairsOf mutantMerPair mer.1 ++
              (if mer.1 = mer.2 then []
               else (pairsOf mutantMerPair mer.2).map
                 (fun p => (Complementary.mer p.2, Complementary.mer p.1)))).dedup).length ∧
        record.rows.length = record.table_size) := by
  have hsum : ∀ (mer : Str × Str) (V : List (Nat × (Str × Str))),
      V.Perm ((side_pair_count mutantMerPair mer.1 mer.2).map (fun e => (e.2, e.1))) →
      (V.map (fun x => countOf (side_pair_count mutantMerPair mer.1 mer.2) x.2)).sum
        = (pairsOf mutantMerPair mer.1).length
          + (if mer.1 = mer.2 then 0 else (pairsOf mutantMerPair mer.2).length) ∧
      V.length = ((pairsOf mutantMerPair mer.1 ++
          (if mer.1 = mer.2 then []
           else (pairsOf mutantMerPair mer.2).map
             (fun p => (Complementary.mer p.2, Complementary.mer p.1)))).dedup).length := by
    intro mer V hperm
    obtain ⟨h1, h2⟩ := side_pair_count_totals mutantMerPair mer.1 mer.2
    constructor
    · rw [← h1]
      have := (hperm.map
        (fun x => countOf (side_pair_count mutantMerPair mer.1 mer.2) x.2)).sum_eq
      rw [this, List.map_map]
      rfl
    · rw [← h2, hperm.length_eq, List.length_map]
  constructor
  · intro s hs i hi hsig
    obtain ⟨mer, V, hmer, hperm, hsize, _, _, hm, _⟩ :=
      outside_data_table ln chdtrc sf mutantMerPair wildTypeMerPair s hs i hi hsig
    obtain ⟨h1, h2⟩ := hsum mer V hperm
    refine ⟨mer, hmer, ?_, ?_⟩
    · rw [hm, h1]
    · rw [hsize, h2]
  · intro records h record hrec
    obtain ⟨mer, V, hmer, hperm, hsize, hrows⟩ :=
      outside_file_table ln chdtrc sf mutantMerPair wildTypeMerPair records h record hrec
    obtain ⟨h1, h2⟩ := hsum mer V hperm
    have hcol : record.rows.map (fun row => row.mutant_count)
        = V.map (fun x => countOf (side_pair_count mutantMerPair mer.1 mer.2) x.2) := by
      have := congrArg (List.map (fun t : Str × Str × Nat × Nat => t.2.2.1)) hrows
      simpa [List.map_map, Function.comp] using this
    have hlen : record.rows.length = V.length := by
      have := congrArg List.length hrows
      simpa using this
    refine ⟨mer, hmer, ?_, ?_, ?_⟩
    · rw [hcol, h1]
    · rw [hsize, h2]
    · rw [hlen, hsize]

end Conservation

theorem flank_observations_conserved_witness :
    ((create_outsideFile (fun x => x) (fun _ x => 1 / (1 + x)) exampleReport
        exampleNinePairs exampleWildOnlyPairs).getD []).map
      (fun r => (r.table_size, (r.rows.map (fun row => row.mutant_count)).sum))
      = [(2, 10)] ∧
    ∀ record ∈ (create_outsideFile (fun x => x) (fun _ x => 1 / (1 + x)) exampleReport
        exampleNinePairs exampleWildOnlyPairs).getD [],
      record.rows.length = record.table_size := by
  refine ⟨by with_unfolding_all decide, ?_⟩
  cases hc : create_outsideFile (fun x => x) (fun _ x => 1 / (1 + x)) exampleReport
      exampleNinePairs exampleWildOnlyPairs with
  | none => simp
  | some records =>
    intro record hrec
    obtain ⟨mer, _, _, _, h4⟩ := (flank_observations_conserved (fun x => x)
      (fun _ x => 1 / (1 + x)) exampleReport exampleNinePairs exampleWildOnlyPairs).2
      records hc record hrec
    exact h4

/-! ## The strand symmetry of the per-position frequencies -/

theorem Complementary.mer_length (s : Str) : (Complementary.mer s).length = s.length := by
  simp [Complementary.mer]

theorem Complementary.mer_eq_iff (a b : Str) :
    Complementary.mer a = b ↔ a = Complementary.mer b := by
  constructor
  · intro h
    rw [← h, Complementary.mer_mer]
  · intro h
    rw [h, Complementary.mer_mer]

theorem substr_mer (read : Str) (k j : Nat) (hj : j + k ≤ read.length) :
    substr (Complementary.mer read) j k
      = Complementary.mer (substr read (read.length - k - j) k) := by
  unfold substr Complementary.mer
  rw [← List.map_drop, ← List.map_take]
  congr 1
  rw [List.drop_reverse, List.take_reverse, List.drop_take]
  have h1 : (List.take (read.length - j) read).length = read.length - j := by
    rw [List.length_take]
    omega
  rw [h1]
  have h2 : read.length - j - (read.length - j - k) = k := by omega
  have h3 : read.length - j - k = read.length - k - j := by omega
  rw [h2, h3]

theorem naiveCountRead_mer (k : Nat) (key read : Str) (hn : k ≤ read.length) :
    naiveCountRead k key (Complementary.mer read)
      = naiveCountRead k (Complementary.mer key) read := by
  unfold naiveCountRead
  rw [Complementary.mer_length]
  have hrev : (List.range (read.length - k + 1)).reverse
      = (List.range (read.length - k + 1)).map (fun j => read.length - k - j) := by
    rw [List.range_eq_range', List.reverse_range', ← List.range_eq_range']
    apply List.map_congr_left
    intro j hj
    have := List.mem_range.mp hj
    omega
  have hperm : ((List.range (read.length - k + 1)).map (fun j => read.length - k - j)).Perm
      (List.range (read.length - k + 1)) := by
    rw [← hrev]
    exact List.reverse_perm _
  rw [← List.countP_eq_length_filter, ← List.countP_eq_length_filter,
    ← hperm.countP_eq, List.countP_map]
  apply List.countP_congr
  intro j hj
  have hj2 := List.mem_range.mp hj
  simp only [Function.comp, decide_eq_true_eq]
  have hidx : read.length - k - (read.length - k - j) = j := by omega
  rw [substr_mer read k (read.length - k - j) (by omega), hidx, Complementary.mer_eq_iff]
theorem set_merCounter_fold_nodup (kmer : Nat) (sequence : Str)
    (acc : UMap Str Nat × UMap Nat (Str × Str)) (h : (UMap.keys acc.1).Nodup) (m : Nat) :
    (UMap.keys ((List.range m).foldl (set_merCounter_step kmer sequence) acc).1).Nodup :=
  foldl_invariant (fun a : UMap Str Nat × UMap Nat (Str × Str) => (UMap.keys a.1).Nodup) _
    (fun a i ha => by
      rw [set_merCounter_step_eq]
      exact UMap.keys_assign_nodup _ _ _ (UMap.keys_assign_nodup _ _ _ ha))
    (List.range m) acc h

/-- The match phase on files of well-formed records, in closed form: the
frequency of position `i` is the number of windows of the reads of length at
least `k` equal to the k-mer of the position, plus the number equal to its
reverse complement; the class total is the number of windows of these reads. -/
theorem frequencies_wellformed (k : Nat) (hk : 1 ≤ k) (fastq_read_lines : Nat)
    (chunk : Nat → Nat) (sequence : Str) (hn : k ≤ sequence.length)
    (mutant_files wildType_files : List (List (Str × Str × Str × Str)))
    (hwfm : ∀ file ∈ mutant_files, ∀ record ∈ file,
      strAt record.1 0 = '@' ∧ strAt record.2.2.1 0 = '+')
    (hwfw : ∀ file ∈ wildType_files, ∀ record ∈ file,
      strAt record.1 0 = '@' ∧ strAt record.2.2.1 0 = '+') :
    KmerMatch.frequencies k fastq_read_lines chunk sequence
        (mutant_files.map (fun file => file.flatMap recordLines))
        (wildType_files.map (fun file => file.flatMap recordLines))
      = some
        { vectorArray := (sequence ++ substr sequence 0 (k - 1)).map toupper
          vectorPosPair := (List.range sequence.length).map (fun i =>
            (i, merPair k ((sequence ++ substr sequence 0 (k - 1)).map toupper) i))
          mutantPosFreq := (List.range sequence.length).map (fun i =>
            (mutant_files.map (fun file => naiveCount k
                (merPair k ((sequence ++ substr sequence 0 (k - 1)).map toupper) i).1
                ((file.map (fun record => record.2.1)).filter
                  (fun sq => decide (k ≤ sq.length))))).sum
            + (mutant_files.map (fun file => naiveCount k
                (merPair k ((sequence ++ substr sequence 0 (k - 1)).map toupper) i).2
                ((file.map (fun record => record.2.1)).filter
                  (fun sq => decide (k ≤ sq.length))))).sum)
          wildTypePosFreq := (List.range sequence.length).map (fun i =>
            (wildType_files.map (fun file => naiveCount k
                (merPair k ((sequence ++ substr sequence 0 (k - 1)).map toupper) i).1
                ((file.map (fun record => record.2.1)).filter
                  (fun sq => decide (k ≤ sq.length))))).sum
            + (wildType_files.map (fun file => naiveCount k
                (merPair k ((sequence ++ substr sequence 0 (k - 1)).map toupper) i).2
                ((file.map (fun record => record.2.1)).filter
                  (fun sq => decide (k ≤ sq.length))))).sum)
          mutantMerTotalCounter := (mutant_files.map (fun file =>
            (((file.map (fun record => record.2.1)).filter
              (fun sq => decide (k ≤ sq.length))).map (fun r => r.length - k + 1)).sum)).sum
          wildTypeMerTotalCounter := (wildType_files.map (fun file =>
            (((file.map (fun record => record.2.1)).filter
              (fun sq => decide (k ≤ sq.length))).map (fun r => r.length - k + 1)).sum)).sum } := by
  have hset := set_merCounter_ok k { sequence := sequence, merCounter := [], posPair := [] } hn
  simp only at hset
  generalize hseq : (sequence ++ substr sequence 0 (k - 1)).map toupper = seq at hset ⊢
  have hpp := set_merCounter_fold_posPair k seq [] sequence.length
  have hfind := set_merCounter_fold_merCounter k seq [] [] sequence.length
  have hnd := set_merCounter_fold_nodup k seq ([], []) (by simp [UMap.keys]) sequence.length
  generalize hseeded : ((List.range sequence.length).foldl (set_merCounter_step k seq)
    ([], [])).1 = seeded at hset hfind hnd
  rw [hpp] at hset
  have hzero : ∀ key, countOf seeded key = 0 := by
    intro key
    unfold countOf
    rw [hfind key]
    split <;> simp [UMap.find]
  have hcontains : ∀ i, i < sequence.length →
      UMap.contains seeded (merPair k seq i).1 = true ∧
      UMap.contains seeded (merPair k seq i).2 = true := by
    intro i hi
    unfold UMap.contains
    rw [hfind, hfind]
    constructor
    · rw [if_pos ⟨i, hi, Or.inl rfl⟩]
      rfl
    · rw [if_pos ⟨i, hi, Or.inr rfl⟩]
      rfl
  have hstd : toStdMap ((List.range sequence.length).map (fun i => (i, merPair k seq i)))
      = (List.range sequence.length).map (fun i => (i, merPair k seq i)) :=
    toStdMap_of_perm (merPair k seq) sequence.length _ (List.Perm.refl _)
  have hscan : ∀ (files : List (List (Str × Str × Str × Str))),
      (∀ file ∈ files, ∀ record ∈ file,
        strAt record.1 0 = '@' ∧ strAt record.2.2.1 0 = '+') →
      ∃ res, scan_files (Options.ofKmer k) fastq_read_lines
          (create_chunk (Options.ofKmer k) seeded chunk)
          (files.map (fun file => file.flatMap recordLines)) seeded = some res ∧
        set_posFreq res.1 ((List.range sequence.length).map (fun i => (i, merPair k seq i)))
          = some ((List.range sequence.length).map (fun i =>
            (files.map (fun file => naiveCount k (merPair k seq i).1
                ((file.map (fun record => record.2.1)).filter
                  (fun sq => decide (k ≤ sq.length))))).sum
            + (files.map (fun file => naiveCount k (merPair k seq i).2
                ((file.map (fun record => record.2.1)).filter
                  (fun sq => decide (k ≤ sq.length))))).sum)) ∧
        res.2 = (files.map (fun file =>
          (((file.map (fun record => record.2.1)).filter
            (fun sq => decide (k ≤ sq.length))).map (fun r => r.length - k + 1)).sum)).sum := by
    intro files hwf
    obtain ⟨res, hres, hkeys, hcount, htot⟩ :=
      scan_files_fold k hk fastq_read_lines chunk seeded hnd files hwf (seeded, 0) rfl
    refine ⟨res, hres, ?_, ?_⟩
    · unfold set_posFreq
      rw [set_posFreq_fold res.1 _ []]
      · simp only [List.nil_append, List.map_map]
        congr 1
        apply List.map_congr_left
        intro i hi
        have hi2 := List.mem_range.mp hi
        obtain ⟨h1, h2⟩ := hcontains i hi2
        simp only [Function.comp]
        rw [hcount, hcount, hzero, hzero]
        simp only [h1, h2, if_true, Nat.zero_add]
      · intro e he
        obtain ⟨i, hi, rfl⟩ := List.mem_map.mp he
        have hi2 := List.mem_range.mp hi
        obtain ⟨h1, h2⟩ := hcontains i hi2
        simp only
        rw [UMap.contains_of_keys_eq res.1 seeded hkeys, UMap.contains_of_keys_eq res.1 seeded hkeys]
        exact ⟨h1, h2⟩
    · rw [htot]
      simp
  obtain ⟨mres, hmres, hmpos, hmtot⟩ := hscan mutant_files hwfm
  obtain ⟨wres, hwres, hwpos, hwtot⟩ := hscan wildType_files hwfw
  unfold KmerMatch.frequencies
  rw [hset]
  simp only [hmres, hwres, hstd, hmpos, hwpos, hmtot, hwtot]
theorem forall₂_mem_right {α β : Type} (R : α → β → Prop) (l1 : List α) (l2 : List β)
    (h : List.Forall₂ R l1 l2) (b : β) (hb : b ∈ l2) : ∃ a ∈ l1, R a b := by
  induction h with
  | nil => simp at hb
  | @cons a0 b0 r1 r2 h0 _ ih =>
    rcases List.mem_cons.mp hb with h1 | h1
    · subst h1
      exact ⟨a0, List.mem_cons_self _ _, h0⟩
    · obtain ⟨a, ha, hr⟩ := ih h1
      exact ⟨a, List.mem_cons_of_mem _ ha, hr⟩

/-- A sum over the reads of a file that pass the length gate does not change
when reads are replaced by their reverse complements, if the summand does
not. -/
theorem strand_sum_file (k : Nat) (f : Str → Nat)
    (hf : ∀ r, k ≤ r.length → f (Complementary.mer r) = f r)
    (file file2 : List (Str × Str × Str × Str))
    (hrel : List.Forall₂ (fun r r2 : Str × Str × Str × Str =>
      r2.1 = r.1 ∧ r2.2.2.1 = r.2.2.1 ∧
        (r2.2.1 = r.2.1 ∨ r2.2.1 = Complementary.mer r.2.1)) file file2) :
    (((file2.map (fun record => record.2.1)).filter
        (fun sq => decide (k ≤ sq.length))).map f).sum
      = (((file.map (fun record => record.2.1)).filter
        (fun sq => decide (k ≤ sq.length))).map f).sum := by
  induction hrel with
  | nil => rfl
  | @cons r r2 rest rest2 h _ ih =>
    simp only [List.map_cons, List.filter_cons]
    rcases h.2.2 with h1 | h1
    · rw [h1]
      split
      · simp only [List.map_cons, List.sum_cons, ih]
      · exact ih
    · rw [h1, Complementary.mer_length]
      split
      · rename_i hk
        simp only [decide_eq_true_eq] at hk
        simp only [List.map_cons, List.sum_cons, ih, hf _ hk]
      · exact ih

theorem strand_sum_files (k : Nat) (f : Str → Nat)
    (hf : ∀ r, k ≤ r.length → f (Complementary.mer r) = f r)
    (files files2 : List (List (Str × Str × Str × Str)))
    (hrel : List.Forall₂ (List.Forall₂ (fun r r2 : Str × Str × Str × Str =>
      r2.1 = r.1 ∧ r2.2.2.1 = r.2.2.1 ∧
        (r2.2.1 = r.2.1 ∨ r2.2.1 = Complementary.mer r.2.1))) files files2) :
    (files2.map (fun file => (((file.map (fun record => record.2.1)).filter
        (fun sq => decide (k ≤ sq.length))).map f).sum)).sum
      = (files.map (fun file => (((file.map (fun record => record.2.1)).filter
        (fun sq => decide (k ≤ sq.length))).map f).sum)).sum := by
  induction hrel with
  | nil => rfl
  | @cons file file2 rest rest2 h _ ih =>
    simp only [List.map_cons, List.sum_cons, ih, strand_sum_file k f hf file file2 h]

theorem naiveCount_pair_sum (k : Nat) (key : Str)
    (files : List (List (Str × Str × Str × Str))) :
    (files.map (fun file => naiveCount k key
        ((file.map (fun record => record.2.1)).filter
          (fun sq => decide (k ≤ sq.length))))).sum
      + (files.map (fun file => naiveCount k (Complementary.mer key)
        ((file.map (fun record => record.2.1)).filter
          (fun sq => decide (k ≤ sq.length))))).sum
      = (files.map (fun file => (((file.map (fun record => record.2.1)).filter
          (fun sq => decide (k ≤ sq.length))).map
            (fun r => naiveCountRead k key r
              + naiveCountRead k (Complementary.mer key) r)).sum)).sum := by
  induction files with
  | nil => rfl
  | cons file rest ih =>
    simp only [List.map_cons, List.sum_cons]
    rw [← ih]
    unfold naiveCount
    rw [List.sum_map_add]
    omega

/-- C36: the per-position frequencies are strand-symmetric. For `k >= 1`, a
vector of at least `k` bases and files of well-formed records: the match phase
returns the frequencies, and it returns the same position map, the same
per-position frequencies of both classes and the same class totals when any of
the reads are replaced by their reverse complements (header and `+` line
kept). The key table of the loader holds a key if and only if it holds its
reverse complement, and when every read of a batch is replaced by its reverse
complement the count of each key is the former count of its reverse
complement. -/
theorem posFreq_strand_symmetric (k : Nat) (hk : 1 ≤ k) (fastq_read_lines : Nat)
    (chunk : Nat → Nat) (sequence : Str) (hn : k ≤ sequence.length)
    (mutant_files wildType_files mutant_files2 wildType_files2 :
      List (List (Str × Str × Str × Str)))
    (hwfm : ∀ file ∈ mutant_files, ∀ record ∈ file,
      strAt record.1 0 = '@' ∧ strAt record.2.2.1 0 = '+')
    (hwfw : ∀ file ∈ wildType_files, ∀ record ∈ file,
      strAt record.1 0 = '@' ∧ strAt record.2.2.1 0 = '+')
    (hm : List.Forall₂ (List.Forall₂ (fun r r2 : Str × Str × Str × Str =>
      r2.1 = r.1 ∧ r2.2.2.1 = r.2.2.1 ∧
        (r2.2.1 = r.2.1 ∨ r2.2.1 = Complementary.mer r.2.1))) mutant_files mutant_files2)
    (hw : List.Forall₂ (List.Forall₂ (fun r r2 : Str × Str × Str × Str =>
      r2.1 = r.1 ∧ r2.2.2.1 = r.2.2.1 ∧
        (r2.2.1 = r.2.1 ∨ r2.2.1 = Complementary.mer r.2.1))) wildType_files wildType_files2) :
    (∃ fr, KmerMatch.frequencies k fastq_read_lines chunk sequence
          (mutant_files.map (fun file => file.flatMap recordLines))
          (wildType_files.map (fun file => file.flatMap recordLines)) = some fr ∧
      KmerMatch.frequencies k fastq_read_lines chunk sequence
          (mutant_files2.map (fun file => file.flatMap recordLines))
          (wildType_files2.map (fun file => file.flatMap recordLines)) = some fr ∧
      fr.mutantPosFreq.length = sequence.length ∧
      fr.wildTypePosFreq.length = sequence.length) ∧
    (∃ st, set_merCounter k { sequence := sequence, merCounter := [], posPair := [] }
        = Except.ok st ∧
      (∀ key, UMap.contains st.merCounter (Complementary.mer key)
        = UMap.contains st.merCounter key) ∧
      (∀ (fastqData : List Str), (∀ r ∈ fastqData, k ≤ r.length) →
        ∀ key, countOf (count_match (Options.ofKmer k)
              (create_chunk (Options.ofKmer k) st.merCounter chunk)
              (fastqData.map Complementary.mer) st.merCounter
              { merLocalCounter := [], merTotalCounter := 0, readCounter := 0 }).merLocalCounter
            key
          = countOf (count_match (Options.ofKmer k)
              (create_chunk (Options.ofKmer k) st.merCounter chunk)
              fastqData st.merCounter
              { merLocalCounter := [], merTotalCounter := 0, readCounter := 0 }).merLocalCounter
            (Complementary.mer key))) := by
  have hwf2 : ∀ (files files2 : List (List (Str × Str × Str × Str))),
      List.Forall₂ (List.Forall₂ (fun r r2 : Str × Str × Str × Str =>
        r2.1 = r.1 ∧ r2.2.2.1 = r.2.2.1 ∧
          (r2.2.1 = r.2.1 ∨ r2.2.1 = Complementary.mer r.2.1))) files files2 →
      (∀ file ∈ files, ∀ record ∈ file,
        strAt record.1 0 = '@' ∧ strAt record.2.2.1 0 = '+') →
      ∀ file ∈ files2, ∀ record ∈ file,
        strAt record.1 0 = '@' ∧ strAt record.2.2.1 0 = '+' := by
    intro files files2 hrel hwf file2 hf2 record2 hr2
    obtain ⟨file, hf, hfrel⟩ := forall₂_mem_right _ files files2 hrel file2 hf2
    obtain ⟨record, hr, hrrel⟩ := forall₂_mem_right _ file file2 hfrel record2 hr2
    have := hwf file hf record hr
    rw [hrrel.1, hrrel.2.1]
    exact this
  have h1 := frequencies_wellformed k hk fastq_read_lines chunk sequence hn
    mutant_files wildType_files hwfm hwfw
  have h2 := frequencies_wellformed k hk fastq_read_lines chunk sequence hn
    mutant_files2 wildType_files2 (hwf2 _ _ hm hwfm) (hwf2 _ _ hw hwfw)
  have hpair : ∀ (files files2 : List (List (Str × Str × Str × Str))),
      List.Forall₂ (List.Forall₂ (fun r r2 : Str × Str × Str × Str =>
        r2.1 = r.1 ∧ r2.2.2.1 = r.2.2.1 ∧
          (r2.2.1 = r.2.1 ∨ r2.2.1 = Complementary.mer r.2.1))) files files2 →
      ∀ i, (files2.map (fun file => naiveCount k
              (merPair k ((sequence ++ substr sequence 0 (k - 1)).map toupper) i).1
              ((file.map (fun record => record.2.1)).filter
                (fun sq => decide (k ≤ sq.length))))).sum
          + (files2.map (fun file => naiveCount k
              (merPair k ((sequence ++ substr sequence 0 (k - 1)).map toupper) i).2
              ((file.map (fun record => record.2.1)).filter
                (fun sq => decide (k ≤ sq.length))))).sum
        = (files.map (fun file => naiveCount k
              (merPair k ((sequence ++ substr sequence 0 (k - 1)).map toupper) i).1
              ((file.map (fun record => record.2.1)).filter
                (fun sq => decide (k ≤ sq.length))))).sum
          + (files.map (fun file => naiveCount k
              (merPair k ((sequence ++ substr sequence 0 (k - 1)).map toupper) i).2
              ((file.map (fun record => record.2.1)).filter
                (fun sq => decide (k ≤ sq.length))))).sum := by
    intro files files2 hrel i
    unfold merPair
    simp only
    rw [naiveCount_pair_sum, naiveCount_pair_sum]
    apply strand_sum_files k _ _ files files2 hrel
    intro r hr
    rw [naiveCountRead_mer k _ r hr, naiveCountRead_mer k _ r hr, Complementary.mer_mer]
    omega
  have htot : ∀ (files files2 : List (List (Str × Str × Str × Str))),
      List.Forall₂ (List.Forall₂ (fun r r2 : Str × Str × Str × Str =>
        r2.1 = r.1 ∧ r2.2.2.1 = r.2.2.1 ∧
          (r2.2.1 = r.2.1 ∨ r2.2.1 = Complementary.mer r.2.1))) files files2 →
      (files2.map (fun file => (((file.map (fun record => record.2.1)).filter
          (fun sq => decide (k ≤ sq.length))).map (fun r => r.length - k + 1)).sum)).sum
      = (files.map (fun file => (((file.map (fun record => record.2.1)).filter
          (fun sq => decide (k ≤ sq.length))).map (fun r => r.length - k + 1)).sum)).sum := by
    intro files files2 hrel
    apply strand_sum_files k _ _ files files2 hrel
    intro r _
    rw [Complementary.mer_length]
  constructor
  · refine ⟨_, h1, ?_, by simp, by simp⟩
    rw [h2]
    simp only [hpair _ _ hm, hpair _ _ hw, htot _ _ hm, htot _ _ hw]
  · refine ⟨_, set_merCounter_ok k { sequence := sequence, merCounter := [], posPair := [] } hn,
      ?_⟩
    simp only
    have hfind := set_merCounter_fold_merCounter k
      ((sequence ++ substr sequence 0 (k - 1)).map toupper) [] [] sequence.length
    have hclosed : ∀ key, UMap.contains ((List.range sequence.length).foldl
          (set_merCounter_step k ((sequence ++ substr sequence 0 (k - 1)).map toupper))
          ([], [])).1 (Complementary.mer key)
        = UMap.contains ((List.range sequence.length).foldl
          (set_merCounter_step k ((sequence ++ substr sequence 0 (k - 1)).map toupper))
          ([], [])).1 key := by
      intro key
      unfold UMap.contains
      rw [hfind, hfind]
      have hiff : (∃ i, i < sequence.length ∧
            ((merPair k ((sequence ++ substr sequence 0 (k - 1)).map toupper) i).1
                = Complementary.mer key ∨
              (merPair k ((sequence ++ substr sequence 0 (k - 1)).map toupper) i).2
                = Complementary.mer key))
          ↔ (∃ i, i < sequence.length ∧
            ((merPair k ((sequence ++ substr sequence 0 (k - 1)).map toupper) i).1 = key ∨
              (merPair k ((sequence ++ substr sequence 0 (k - 1)).map toupper) i).2 = key)) := by
        unfold merPair
        simp only
        constructor
        · rintro ⟨i, hi, h | h⟩
          · exact ⟨i, hi, Or.inr ((Complementary.mer_eq_iff _ _).mpr h)⟩
          · rw [Complementary.mer_eq_iff, Complementary.mer_mer] at h
            exact ⟨i, hi, Or.inl h⟩
        · rintro ⟨i, hi, h | h⟩
          · refine ⟨i, hi, Or.inr ?_⟩
            rw [h]
          · refine ⟨i, hi, Or.inl ?_⟩
            rw [← h, Complementary.mer_mer]
      by_cases hex : ∃ i, i < sequence.length ∧
            ((merPair k ((sequence ++ substr sequence 0 (k - 1)).map toupper) i).1 = key ∨
              (merPair k ((sequence ++ substr sequence 0 (k - 1)).map toupper) i).2 = key)
      · rw [if_pos hex, if_pos (hiff.mpr hex)]
      · rw [if_neg hex, if_neg (fun h => hex (hiff.mp h))]
        rfl
    refine ⟨hclosed, ?_⟩
    intro fastqData hlen key
    have hlen2 : ∀ r ∈ fastqData.map Complementary.mer, k ≤ r.length := by
      intro r hr
      obtain ⟨r0, hr0, rfl⟩ := List.mem_map.mp hr
      rw [Complementary.mer_length]
      exact hlen r0 hr0
    rw [(count_match_spec k hk _ chunk (fastqData.map Complementary.mer) hlen2 _).1 key,
      (count_match_spec k hk _ chunk fastqData hlen _).1 (Complementary.mer key), hclosed key]
    congr 1
    by_cases hc : UMap.contains ((List.range sequence.length).foldl
          (set_merCounter_step k ((sequence ++ substr sequence 0 (k - 1)).map toupper))
          ([], [])).1 key = true
    · simp only [hc, if_true]
      unfold naiveCount
      rw [List.map_map]
      congr 1
      apply List.map_congr_left
      intro r hr
      exact naiveCountRead_mer k key r (hlen r hr)
    · simp only [hc, Bool.false_eq_true, if_false]

theorem posFreq_strand_symmetric_witness :
    1 ≤ 8 ∧ 8 ≤ exampleVector.length ∧
    (∀ file ∈ [[exampleRecordA, exampleRecordB]], ∀ record ∈ file,
      strAt record.1 0 = '@' ∧ strAt record.2.2.1 0 = '+') ∧
    exampleRecordARev.2.1 = Complementary.mer exampleRecordA.2.1 ∧
    ∃ fr, KmerMatch.frequencies 8 10000000 (fun _ => 0) exampleVector
          ([[exampleRecordA, exampleRecordB]].map (fun file => file.flatMap recordLines))
          (([] : List (List (Str × Str × Str × Str))).map
            (fun file => file.flatMap recordLines)) = some fr ∧
      KmerMatch.frequencies 8 10000000 (fun _ => 0) exampleVector
          ([[exampleRecordARev, exampleRecordB]].map (fun file => file.flatMap recordLines))
          (([] : List (List (Str × Str × Str × Str))).map
            (fun file => file.flatMap recordLines)) = some fr ∧
      fr.mutantPosFreq.length = exampleVector.length ∧
      fr.wildTypePosFreq.length = exampleVector.length :=
  ⟨by decide, by decide, by decide, rfl,
    (posFreq_strand_symmetric 8 (by decide) 10000000 (fun _ => 0) exampleVector (by decide)
      [[exampleRecordA, exampleRecordB]] [] [[exampleRecordARev, exampleRecordB]] []
      (by decide) (by simp)
      (List.Forall₂.cons
        (List.Forall₂.cons ⟨rfl, rfl, Or.inr rfl⟩
          (List.Forall₂.cons ⟨rfl, rfl, Or.inl rfl⟩ List.Forall₂.nil))
        List.Forall₂.nil)
      List.Forall₂.nil).1⟩

/-! ## The sign of the corrected G -/

section FiniteG

variable {F : Type} [LinearOrderedField F]

theorem Dbl.fin_add_fin (x y : F) : (Dbl.fin x + Dbl.fin y : Dbl F) = Dbl.fin (x + y) := rfl

theorem Dbl.fin_sub_fin (x y : F) : (Dbl.fin x - Dbl.fin y : Dbl F) = Dbl.fin (x - y) := by
  rw [Dbl.sub_def, sub_eq_add_neg]
  rfl

theorem Dbl.fin_mul_fin (x y : F) : (Dbl.fin x * Dbl.fin y : Dbl F) = Dbl.fin (x * y) := rfl

theorem Dbl.fin_div_fin (x y : F) (hy : y ≠ 0) :
    (Dbl.fin x / Dbl.fin y : Dbl F) = Dbl.fin (x / y) := by
  rw [Dbl.div_def]
  simp [Dbl.div, hy]

theorem Dbl.log_fin_pos (ln : F → F) (x : F) (hx : 0 < x) :
    Dbl.log ln (Dbl.fin x) = Dbl.fin (ln x) := by
  simp [Dbl.log, hx]

theorem Dbl.eqv_fin_fin (x y : F) : Dbl.eqv (Dbl.fin x) (Dbl.fin y) = decide (x = y) := rfl

/-- The constants at the head of `kmer_match` and `kmer_extension` for positive
totals. -/
theorem consts_finite (ln : F → F) (g : Gtest F) (hM : 0 < g.mutant_mer_total)
    (hW : 0 < g.wildType_mer_total) :
    g.consts ln =
      { mutant_mer_total_log := Dbl.fin (ln g.mutant_mer_total * g.mutant_mer_total)
        wildType_mer_total_log := Dbl.fin (ln g.wildType_mer_total * g.wildType_mer_total)
        mer_total := Dbl.fin (g.mutant_mer_total + g.wildType_mer_total)
        mer_q3 := Dbl.fin (ln (g.mutant_mer_total + g.wildType_mer_total)
          * (g.mutant_mer_total + g.wildType_mer_total))
        mer_qcomm := Dbl.fin (((g.mutant_mer_total + g.wildType_mer_total) / g.mutant_mer_total
          + (g.mutant_mer_total + g.wildType_mer_total) / g.wildType_mer_total - 1)
          / (6 * (g.mutant_mer_total + g.wildType_mer_total))) } := by
  have hN : 0 < g.mutant_mer_total + g.wildType_mer_total := add_pos hM hW
  have h6 : (6 : F) * (g.mutant_mer_total + g.wildType_mer_total) ≠ 0 := by positivity
  unfold Gtest.consts
  simp only [Dbl.fin_add_fin, Dbl.log_fin_pos ln _ hM, Dbl.log_fin_pos ln _ hW,
    Dbl.log_fin_pos ln _ hN, Dbl.fin_mul_fin, Dbl.fin_div_fin _ _ (ne_of_gt hM),
    Dbl.fin_div_fin _ _ (ne_of_gt hW), Dbl.fin_sub_fin, Dbl.fin_div_fin _ _ h6]

/-- The value of `adjusted_g` when both not-match cells are positive: the
quotient of the raw G and the correction factor, where a zero match cell
contributes nothing (the three guarded cases of the code). -/
theorem adjusted_g_finite (ln : F → F) (g : Gtest F) (tml twl N q3 qcomm m w : F)
    (hm0 : 0 ≤ m) (hmM : m < g.mutant_mer_total) (hw0 : 0 ≤ w)
    (hwW : w < g.wildType_mer_total)
    (hq : (if m + w = 0 then
        1 + (N / ((g.mutant_mer_total - m) + (g.wildType_mer_total - w)) - 1) * qcomm
      else 1 + (N / (m + w)
        + N / ((g.mutant_mer_total - m) + (g.wildType_mer_total - w)) - 1) * qcomm) ≠ 0) :
    g.adjusted_g ln (Dbl.fin tml) (Dbl.fin twl) (Dbl.fin N) (Dbl.fin q3) (Dbl.fin qcomm)
        (Dbl.fin m) (Dbl.fin w)
      = Dbl.fin (2 * (((if m = 0 then 0 else ln m * m)
            + ln (g.mutant_mer_total - m) * (g.mutant_mer_total - m)
            + (if w = 0 then 0 else ln w * w)
            + ln (g.wildType_mer_total - w) * (g.wildType_mer_total - w))
          - (tml + twl + (if m + w = 0 then 0 else ln (m + w) * (m + w))
            + ln ((g.mutant_mer_total - m) + (g.wildType_mer_total - w))
              * ((g.mutant_mer_total - m) + (g.wildType_mer_total - w)))
          + q3)
        / (if m + w = 0 then
            1 + (N / ((g.mutant_mer_total - m) + (g.wildType_mer_total - w)) - 1) * qcomm
          else 1 + (N / (m + w)
            + N / ((g.mutant_mer_total - m) + (g.wildType_mer_total - w)) - 1) * qcomm)) := by
  have hc : 0 < g.mutant_mer_total - m := sub_pos.mpr hmM
  have hd : 0 < g.wildType_mer_total - w := sub_pos.mpr hwW
  have hcd : 0 < (g.mutant_mer_total - m) + (g.wildType_mer_total - w) := add_pos hc hd
  have hsum : m + w = 0 ↔ m = 0 ∧ w = 0 := by
    constructor
    · intro h
      constructor <;> linarith
    · rintro ⟨h1, h2⟩
      rw [h1, h2, add_zero]
  unfold Gtest.adjusted_g
  simp only [Dbl.fin_sub_fin, Dbl.fin_add_fin, Dbl.log_fin_pos ln _ hc,
    Dbl.log_fin_pos ln _ hd, Dbl.log_fin_pos ln _ hcd, Dbl.fin_mul_fin, Dbl.eqv_fin_fin,
    Dbl.fin_div_fin _ _ (ne_of_gt hcd)]
  by_cases h1 : m = 0
  · by_cases h2 : w = 0
    · subst h1 h2
      simp only [add_zero, if_true, decide_True, Bool.and_self] at hq ⊢
      simp only [Dbl.fin_add_fin, Dbl.fin_sub_fin, Dbl.fin_mul_fin, Dbl.fin_div_fin _ _ hq]
      congr 2
      ring
    · have hwpos : 0 < w := lt_of_le_of_ne hw0 (Ne.symm h2)
      have hne : m + w ≠ 0 := fun h => h2 (hsum.mp h).2
      subst h1
      have hne2 : w ≠ 0 := h2
      simp only [zero_add, hne2, if_false, if_true, decide_True, decide_False, Bool.and_false,
        Bool.false_eq_true, Dbl.log_fin_pos ln _ hwpos, Dbl.fin_mul_fin, Dbl.fin_add_fin,
        Dbl.fin_sub_fin, Dbl.fin_div_fin _ _ hne2] at hq ⊢
      simp only [Dbl.fin_div_fin _ _ hq]
  · have hmpos : 0 < m := lt_of_le_of_ne hm0 (Ne.symm h1)
    have hne : m + w ≠ 0 := fun h => h1 (hsum.mp h).1
    have hmw : 0 < m + w := lt_of_le_of_ne (add_nonneg hm0 hw0) (Ne.symm hne)
    by_cases h2 : w = 0
    · subst h2
      simp only [add_zero, h1, if_false, if_true, decide_True, decide_False, Bool.false_and,
        Bool.false_eq_true, Dbl.log_fin_pos ln _ hmpos, Dbl.fin_mul_fin, Dbl.fin_add_fin,
        Dbl.fin_sub_fin, Dbl.fin_div_fin _ _ h1] at hq ⊢
      simp only [Dbl.fin_div_fin _ _ hq]
    · have hwpos : 0 < w := lt_of_le_of_ne hw0 (Ne.symm h2)
      simp only [h1, h2, hne, if_false, decide_False, Bool.false_and, Bool.and_false,
        Bool.false_eq_true, Dbl.log_fin_pos ln _ hmpos, Dbl.log_fin_pos ln _ hwpos,
        Dbl.log_fin_pos ln _ hmw, Dbl.fin_mul_fin, Dbl.fin_add_fin,
        Dbl.fin_sub_fin, Dbl.fin_div_fin _ _ hne] at hq ⊢
      simp only [Dbl.fin_div_fin _ _ hq]

end FiniteG
/-! ## The raw G over the reals -/

theorem g_term_log (O R C N : ℝ) (hO : 0 < O) (hR : 0 < R) (hC : 0 < C) (hN : 0 < N) :
    Real.log (O * N / (R * C))
      = Real.log O + Real.log N - Real.log R - Real.log C := by
  rw [Real.log_div (by positivity) (by positivity), Real.log_mul (ne_of_gt hO) (ne_of_gt hN),
    Real.log_mul (ne_of_gt hR) (ne_of_gt hC)]
  ring

/-- One cell of the G statistic against its linear lower bound. -/
theorem g_term_ge (O R C N : ℝ) (hO : 0 ≤ O) (hR : O ≤ R) (hC : O ≤ C) (hN : 0 < N) :
    O - R * C / N ≤ O * (Real.log O + Real.log N - Real.log R - Real.log C) := by
  rcases eq_or_lt_of_le hO with h0 | hpos
  · rw [← h0]
    have h1 : 0 ≤ R * C / N := by
      apply div_nonneg _ (le_of_lt hN)
      exact mul_nonneg (by linarith) (by linarith)
    linarith
  · have hRp : 0 < R := lt_of_lt_of_le hpos hR
    have hCp : 0 < C := lt_of_lt_of_le hpos hC
    have hx : 0 < O * N / (R * C) := by positivity
    have h1 := Real.one_sub_inv_le_log_of_pos hx
    rw [g_term_log O R C N hpos hRp hCp hN] at h1
    have h2 : O * (1 - (O * N / (R * C))⁻¹) = O - R * C / N := by
      field_simp
      ring
    rw [← h2]
    exact mul_le_mul_of_nonneg_left h1 hO

/-- A positive cell that meets its lower bound is at its expected value. -/
theorem g_term_eq (O R C N : ℝ) (hO : 0 < O) (hR : O ≤ R) (hC : O ≤ C) (hN : 0 < N)
    (h : O * (Real.log O + Real.log N - Real.log R - Real.log C) = O - R * C / N) :
    O * N = R * C := by
  have hRp : 0 < R := lt_of_lt_of_le hO hR
  have hCp : 0 < C := lt_of_lt_of_le hO hC
  have hx : 0 < O * N / (R * C) := by positivity
  by_contra hne
  have hx1 : (O * N / (R * C))⁻¹ ≠ 1 := by
    intro h1
    apply hne
    have h2 : O * N / (R * C) = 1 := by
      rw [← inv_inv (O * N / (R * C)), h1, inv_one]
    field_simp at h2
    linarith
  have hlt := Real.log_lt_sub_one_of_pos (inv_pos.mpr hx) hx1
  rw [Real.log_inv, g_term_log O R C N hO hRp hCp hN] at hlt
  have h2 : O * (1 - (O * N / (R * C))⁻¹) = O - R * C / N := by
    field_simp
    ring
  rw [← h2] at h
  have h3 : Real.log O + Real.log N - Real.log R - Real.log C
      = 1 - (O * N / (R * C))⁻¹ := by
    exact mul_left_cancel₀ (ne_of_gt hO) h
  linarith

/-- A cell at its expected value contributes nothing. -/
theorem g_term_zero (O R C N : ℝ) (hO : 0 ≤ O) (hR : O ≤ R) (hC : O ≤ C) (hN : 0 < N)
    (h : O * N = R * C) :
    O * (Real.log O + Real.log N - Real.log R - Real.log C) = 0 := by
  rcases eq_or_lt_of_le hO with h0 | hpos
  · rw [← h0, zero_mul]
  · have hRp : 0 < R := lt_of_lt_of_le hpos hR
    have hCp : 0 < C := lt_of_lt_of_le hpos hC
    have h1 := g_term_log O R C N hpos hRp hCp hN
    rw [h, div_self (by positivity), Real.log_one] at h1
    rw [← h1, mul_zero]

/-- The raw G of a 2 x 2 table with positive not-match cells is non-negative, and
it is zero exactly when the table is proportional. -/
theorem g_raw_nonneg (M W m w : ℝ) (hm0 : 0 ≤ m) (hmM : m < M) (hw0 : 0 ≤ w) (hwW : w < W) :
    0 ≤ 2 * ((Real.log m * m + Real.log (M - m) * (M - m)
          + Real.log w * w + Real.log (W - w) * (W - w))
        - (Real.log M * M + Real.log W * W + Real.log (m + w) * (m + w)
            + Real.log ((M - m) + (W - w)) * ((M - m) + (W - w)))
        + Real.log (M + W) * (M + W)) ∧
    (2 * ((Real.log m * m + Real.log (M - m) * (M - m)
          + Real.log w * w + Real.log (W - w) * (W - w))
        - (Real.log M * M + Real.log W * W + Real.log (m + w) * (m + w)
            + Real.log ((M - m) + (W - w)) * ((M - m) + (W - w)))
        + Real.log (M + W) * (M + W)) = 0 ↔ m * W = w * M) := by
  have hM : 0 < M := lt_of_le_of_lt hm0 hmM
  have hW : 0 < W := lt_of_le_of_lt hw0 hwW
  have hN : 0 < M + W := add_pos hM hW
  have hc : 0 < M - m := sub_pos.mpr hmM
  have hd : 0 < W - w := sub_pos.mpr hwW
  have hsum : (Real.log m * m + Real.log (M - m) * (M - m)
          + Real.log w * w + Real.log (W - w) * (W - w))
        - (Real.log M * M + Real.log W * W + Real.log (m + w) * (m + w)
            + Real.log ((M - m) + (W - w)) * ((M - m) + (W - w)))
        + Real.log (M + W) * (M + W)
      = m * (Real.log m + Real.log (M + W) - Real.log M - Real.log (m + w))
        + w * (Real.log w + Real.log (M + W) - Real.log W - Real.log (m + w))
        + (M - m) * (Real.log (M - m) + Real.log (M + W) - Real.log M
            - Real.log ((M - m) + (W - w)))
        + (W - w) * (Real.log (W - w) + Real.log (M + W) - Real.log W
            - Real.log ((M - m) + (W - w))) := by
    ring
  have t1 := g_term_ge m M (m + w) (M + W) hm0 (le_of_lt hmM) (by linarith) hN
  have t2 := g_term_ge w W (m + w) (M + W) hw0 (le_of_lt hwW) (by linarith) hN
  have t3 := g_term_ge (M - m) M ((M - m) + (W - w)) (M + W) (le_of_lt hc) (by linarith)
    (by linarith) hN
  have t4 := g_term_ge (W - w) W ((M - m) + (W - w)) (M + W) (le_of_lt hd) (by linarith)
    (by linarith) hN
  have hbound : (m - M * (m + w) / (M + W)) + (w - W * (m + w) / (M + W))
      + ((M - m) - M * ((M - m) + (W - w)) / (M + W))
      + ((W - w) - W * ((M - m) + (W - w)) / (M + W)) = 0 := by
    field_simp
    ring
  rw [hsum]
  constructor
  · linarith
  · constructor
    · intro h
      have h3 : (M - m) * (Real.log (M - m) + Real.log (M + W) - Real.log M
            - Real.log ((M - m) + (W - w)))
          = (M - m) - M * ((M - m) + (W - w)) / (M + W) := by
        linarith
      have h4 := g_term_eq (M - m) M ((M - m) + (W - w)) (M + W) hc (by linarith)
        (by linarith) hN h3
      linarith
    · intro h
      have z1 := g_term_zero m M (m + w) (M + W) hm0 (le_of_lt hmM) (by linarith) hN
        (by linarith)
      have z2 := g_term_zero w W (m + w) (M + W) hw0 (le_of_lt hwW) (by linarith) hN
        (by linarith)
      have z3 := g_term_zero (M - m) M ((M - m) + (W - w)) (M + W) (le_of_lt hc)
        (by linarith) (by linarith) hN (by linarith)
      have z4 := g_term_zero (W - w) W ((M - m) + (W - w)) (M + W) (le_of_lt hd)
        (by linarith) (by linarith) hN (by linarith)
      rw [z1, z2, z3, z4]
      ring

theorem williams_factor_ge_one (M W m w : ℝ) (hm0 : 0 ≤ m) (hmM : m < M) (hw0 : 0 ≤ w)
    (hwW : w < W) :
    1 ≤ (if m + w = 0 then
        1 + ((M + W) / ((M - m) + (W - w)) - 1)
          * (((M + W) / M + (M + W) / W - 1) / (6 * (M + W)))
      else 1 + ((M + W) / (m + w) + (M + W) / ((M - m) + (W - w)) - 1)
          * (((M + W) / M + (M + W) / W - 1) / (6 * (M + W)))) := by
  have hM : 0 < M := lt_of_le_of_lt hm0 hmM
  have hW : 0 < W := lt_of_le_of_lt hw0 hwW
  have hN : 0 < M + W := add_pos hM hW
  have hcd : 0 < (M - m) + (W - w) := by linarith
  have hqc : 0 ≤ ((M + W) / M + (M + W) / W - 1) / (6 * (M + W)) := by
    apply div_nonneg _ (by positivity)
    have h1 : 1 ≤ (M + W) / M := by
      rw [le_div_iff₀ hM]
      linarith
    have h2 : 0 ≤ (M + W) / W := by positivity
    linarith
  have hnm : 1 ≤ (M + W) / ((M - m) + (W - w)) := by
    rw [le_div_iff₀ hcd]
    linarith
  split
  · have : 0 ≤ ((M + W) / ((M - m) + (W - w)) - 1)
        * (((M + W) / M + (M + W) / W - 1) / (6 * (M + W))) :=
      mul_nonneg (by linarith) hqc
    linarith
  · have hmw : 0 ≤ (M + W) / (m + w) := by
      apply div_nonneg (le_of_lt hN)
      linarith
    have : 0 ≤ ((M + W) / (m + w) + (M + W) / ((M - m) + (W - w)) - 1)
        * (((M + W) / M + (M + W) / W - 1) / (6 * (M + W))) :=
      mul_nonneg (by linarith) hqc
    linarith

/-- C39, at the failing input and beside it, over the reals with the natural
logarithm. At `M = W = 1`, `m = 1`, `w = 0` (so `m + w < M + W`) `adjusted_g`
returns NaN, which is not a value `>= 0`. For every engine and all counts with
`0 <= m < M` and `0 <= w < W` it returns `G_raw / q` with `q` the correction
factor of the code and `G_raw` twice the sum of the `x log x` terms, where
`q >= 1`, `G_raw >= 0`, `G_raw = 0` exactly when `m * W = w * M`, and
`G_raw / q >= 0`. -/
theorem adjusted_g_sign :
    ((0 : ℝ) < (1 : Nat) ∧ ((1 : Nat) : ℝ) ≤ (1 : Nat) ∧ ((0 : Nat) : ℝ) ≤ (1 : Nat) ∧
      ((1 : Nat) : ℝ) + (0 : Nat) < ((1 : Nat) : ℝ) + (1 : Nat) ∧
      (Gtest.ofTotals 1 1 : Gtest ℝ).adjusted_g Real.log
          ((Gtest.ofTotals 1 1 : Gtest ℝ).consts Real.log).mutant_mer_total_log
          ((Gtest.ofTotals 1 1 : Gtest ℝ).consts Real.log).wildType_mer_total_log
          ((Gtest.ofTotals 1 1 : Gtest ℝ).consts Real.log).mer_total
          ((Gtest.ofTotals 1 1 : Gtest ℝ).consts Real.log).mer_q3
          ((Gtest.ofTotals 1 1 : Gtest ℝ).consts Real.log).mer_qcomm
          (Dbl.fin ((1 : Nat) : ℝ)) (Dbl.fin ((0 : Nat) : ℝ)) = Dbl.nan) ∧
    (∀ (g : Gtest ℝ) (m w : ℝ), 0 ≤ m → m < g.mutant_mer_total → 0 ≤ w →
      w < g.wildType_mer_total →
      ∃ graw q : ℝ,
        g.adjusted_g Real.log (g.consts Real.log).mutant_mer_total_log
            (g.consts Real.log).wildType_mer_total_log (g.consts Real.log).mer_total
            (g.consts Real.log).mer_q3 (g.consts Real.log).mer_qcomm
            (Dbl.fin m) (Dbl.fin w) = Dbl.fin (graw / q) ∧
        q = (if m + w = 0 then
            1 + ((g.mutant_mer_total + g.wildType_mer_total)
                / ((g.mutant_mer_total - m) + (g.wildType_mer_total - w)) - 1)
              * (((g.mutant_mer_total + g.wildType_mer_total) / g.mutant_mer_total
                + (g.mutant_mer_total + g.wildType_mer_total) / g.wildType_mer_total - 1)
                / (6 * (g.mutant_mer_total + g.wildType_mer_total)))
          else 1 + ((g.mutant_mer_total + g.wildType_mer_total) / (m + w)
                + (g.mutant_mer_total + g.wildType_mer_total)
                  / ((g.mutant_mer_total - m) + (g.wildType_mer_total - w)) - 1)
              * (((g.mutant_mer_total + g.wildType_mer_total) / g.mutant_mer_total
                + (g.mutant_mer_total + g.wildType_mer_total) / g.wildType_mer_total - 1)
                / (6 * (g.mutant_mer_total + g.wildType_mer_total)))) ∧
        graw = 2 * ((Real.log m * m
              + Real.log (g.mutant_mer_total - m) * (g.mutant_mer_total - m)
              + Real.log w * w
              + Real.log (g.wildType_mer_total - w) * (g.wildType_mer_total - w))
            - (Real.log g.mutant_mer_total * g.mutant_mer_total
              + Real.log g.wildType_mer_total * g.wildType_mer_total
              + Real.log (m + w) * (m + w)
              + Real.log ((g.mutant_mer_total - m) + (g.wildType_mer_total - w))
                * ((g.mutant_mer_total - m) + (g.wildType_mer_total - w)))
            + Real.log (g.mutant_mer_total + g.wildType_mer_total)
              * (g.mutant_mer_total + g.wildType_mer_total)) ∧
        1 ≤ q ∧ 0 ≤ graw ∧ (graw = 0 ↔ m * g.wildType_mer_total = w * g.mutant_mer_total) ∧
        0 ≤ graw / q) := by
  constructor
  · refine ⟨by norm_num, by norm_num, by norm_num, by norm_num, ?_⟩
    exact adjusted_g_nan_of_full Real.log (Gtest.ofTotals 1 1 : Gtest ℝ) _ _ _ _ _ _
  · intro g m w hm0 hmM hw0 hwW
    have hM : 0 < g.mutant_mer_total := lt_of_le_of_lt hm0 hmM
    have hW : 0 < g.wildType_mer_total := lt_of_le_of_lt hw0 hwW
    have hq := williams_factor_ge_one g.mutant_mer_total g.wildType_mer_total m w
      hm0 hmM hw0 hwW
    obtain ⟨hg0, hgiff⟩ := g_raw_nonneg g.mutant_mer_total g.wildType_mer_total m w
      hm0 hmM hw0 hwW
    refine ⟨_, _, ?_, rfl, rfl, hq, hg0, hgiff, div_nonneg hg0 (by linarith)⟩
    rw [consts_finite Real.log g hM hW]
    simp only
    rw [adjusted_g_finite Real.log g _ _ _ _ _ m w hm0 hmM hw0 hwW (by
      intro h
      rw [h] at hq
      linarith)]
    have hxm : (if m = 0 then 0 else Real.log m * m) = Real.log m * m := by
      split
      · rename_i h
        rw [h, mul_zero]
      · rfl
    have hxw : (if w = 0 then 0 else Real.log w * w) = Real.log w * w := by
      split
      · rename_i h
        rw [h, mul_zero]
      · rfl
    have hxs : (if m + w = 0 then 0 else Real.log (m + w) * (m + w))
        = Real.log (m + w) * (m + w) := by
      split
      · rename_i h
        rw [h, mul_zero]
      · rfl
    rw [hxm, hxw, hxs]

/-! ## Rounding to the nearest double -/

section RoundedLoop

variable {F : Type} [LinearOrderedField F]

end RoundedLoop

section RoundedWalk

variable {F : Type} [LinearOrderedField F]

end RoundedWalk

section RoundedFresh

variable {F : Type} [LinearOrderedField F]

end RoundedFresh

/-! ## The order of the three corrected values -/

section RoundedOrder

variable {F : Type} [LinearOrderedField F]

end RoundedOrder

end GenEditScan
